import Mathlib

/-!
# PRRTE round-robin mapper and OOB/TCP send/receive pipeline

A shallow embedding of `src/mca/rmaps/round_robin/rmaps_rr_mappers.c` and
`src/mca/oob/tcp/oob_tcp_sendrecv.c`, followed by theorems about the embedded
functions.

Conventions of the embedding

* C objects reached through pointers (nodes of the node list, the job, the peer)
  are values that every function takes and returns (explicit state passing).
* The counters of the mapper (`slots`, `slots_inuse`, `num_procs`,
  `app->num_procs`) are natural numbers; a C `int` local that may go negative
  (`num_procs_to_assign`, `extra_procs_to_assign`, ...) is an `Int`.  Counts of
  procs, slots, nodes and objects are taken to stay inside the range of their C
  types, so integer arithmetic is exact; the one product that C computes on
  `unsigned int`, `n_persocket * nbobjs`, wraps modulo `2^32`.
* `float` is IEEE binary32 with round-to-nearest-even, modelled exactly on
  sign / mantissa / exponent triples (`F32`).
* A loop that the C code does not bound (`do ... while`, `while`) takes fuel and
  the function returns `none` when the fuel is exhausted.
* A null dereference or an integer division by zero is the status `FAULT`.
* A failed `writev` or `read` carries its `errno`; the functions test it in the
  order of the source, with `EWOULDBLOCK` the same number as `EAGAIN`.
* The socket of a peer is the list of the results of the `writev` or `read`
  calls to come; a call that finds the list empty makes the function return
  `none`.  What the transport does to its environment (bytes written and read,
  completions, releases, dispatches) is appended to a log.
* For each event of a peer the flag `*_ev_active` and the registration with the
  event library are separate fields; the send handler runs only while the send
  event is registered.
-/

namespace Prrte

/-! ## IEEE binary32 arithmetic used by the mappers -/

/-- Floor of the base-2 logarithm by repeated halving (`0` for `0` and `1`). -/
def ilog2Aux : Nat → Nat → Nat
  | 0, _ => 0
  | f + 1, n => if n < 2 then 0 else ilog2Aux f (n / 2) + 1

/-- Floor of the base-2 logarithm, exact for every `n < 2 ^ 128`. -/
def ilog2 (n : Nat) : Nat := ilog2Aux 128 n

/-- A finite binary32 value `(-1)^neg * m * 2^e`. -/
structure F32 where
  neg : Bool
  m : Nat
  e : Int
  deriving DecidableEq, Repr

/-- Round-to-nearest, ties-to-even, of `q + r / d` (with `r < d`) to an integer. -/
def rne (q r d : Nat) : Nat :=
  if d < 2 * r ∨ (2 * r = d ∧ q % 2 = 1) then q + 1 else q

/-- The quotient `num / den` (`den > 0`) rounded to 24 significant bits, as a
mantissa and a binary exponent.  Every quotient formed by the mappers lies
between `2^-64` and `2^64`, inside the normal range of binary32. -/
def f32_round (num den : Nat) : Nat × Int :=
  if num = 0 then (0, 0)
  else
    let d : Int := (ilog2 num : Int) - (ilog2 den : Int)
    let ge : Bool := if 0 ≤ d then decide (den * 2 ^ d.toNat ≤ num)
                     else decide (den ≤ num * 2 ^ (-d).toNat)
    let ex : Int := if ge then d else d - 1
    let t : Int := ex - 23
    let n1 : Nat := if 0 ≤ t then num else num * 2 ^ (-t).toNat
    let d1 : Nat := if 0 ≤ t then den * 2 ^ t.toNat else den
    (rne (n1 / d1) (n1 % d1) d1, t)

/-- The conversion `(float) i` of a C integer: exact when `|i| < 2 ^ 24` (the
integer already fits the 24-bit mantissa), rounded otherwise. -/
def F32.ofInt (i : Int) : F32 :=
  if i.natAbs < 16777216 then { neg := decide (i < 0), m := i.natAbs, e := 0 }
  else
    let r := f32_round i.natAbs 1
    { neg := decide (i < 0), m := r.1, e := r.2 }

/-- The binary32 division `a / b` for a finite `a` and a finite non-zero `b`
(for `b = 0` IEEE gives an infinity or a NaN; the model gives zero, and the only
caller that can divide by zero, by-slot on an empty node list, never uses the
quotient because its loop body does not run). -/
def F32.div (a b : F32) : F32 :=
  if b.m = 0 then { neg := false, m := 0, e := 0 }
  else
    let r := f32_round a.m b.m
    { neg := a.neg != b.neg, m := r.1, e := r.2 + a.e - b.e }

/-- The conversion `(int) x`: truncation toward zero. -/
def F32.toInt (x : F32) : Int :=
  let mag : Nat := if 0 ≤ x.e then x.m * 2 ^ x.e.toNat else x.m / 2 ^ (-x.e).toNat
  if x.neg then -(mag : Int) else (mag : Int)

/-- The exact value of `x` as an integer numerator over `2 ^ k`, for any `k`
with `-k ≤ x.e`. -/
def F32.scaled (x : F32) (k : Int) : Int :=
  let n : Int := ((x.m * 2 ^ (x.e + k).toNat : Nat) : Int)
  if x.neg then -n else n

/-- The comparison `a < b` of two finite binary32 values. -/
def F32.lt (a b : F32) : Bool :=
  let k : Int := max (-a.e) (-b.e)
  decide (a.scaled k < b.scaled k)

/-- The test `0 < (a - b)`.  A binary32 difference of finite values is rounded,
but it is zero exactly when `a = b` and otherwise keeps the sign of the exact
difference, so the test is the exact comparison `b < a`. -/
def F32.sub_pos (a b : F32) : Bool := F32.lt b a

/-! ## Data model of the mapper -/

/-- Return codes of both cores; `FAULT` stands for a null dereference, a failed
`assert` or an integer division by zero (the call does not return). -/
inductive Status
  | PRRTE_SUCCESS
  | PRRTE_ERR_SILENT
  | PRRTE_ERR_OUT_OF_RESOURCE
  | PRRTE_ERR_NOT_FOUND
  | PRRTE_ERR_RESOURCE_BUSY
  | PRRTE_ERR_WOULD_BLOCK
  | PRRTE_ERR_UNREACH
  | PRRTE_ERR_COMM_FAILURE
  | FAULT
  deriving DecidableEq, Repr

/-- The hwloc object types a mapping policy can target. -/
inductive hwloc_obj_type_t
  | HWLOC_OBJ_MACHINE
  | HWLOC_OBJ_PACKAGE
  | HWLOC_OBJ_CORE
  | HWLOC_OBJ_PU
  | HWLOC_OBJ_CACHE
  | HWLOC_OBJ_NUMANODE
  deriving DecidableEq, Repr

/-- A handle on a hwloc object. -/
abbrev hwloc_obj_t := Nat

/-- Modelled from the spec: the topology query interface (`countObjs`, `getObj`,
`npus`, `rootObj`), whose implementation (hwloc and `prrte_hwloc_base_*`) is not
part of the sources.  `get_obj_by_type` may fail (`NULL`) as the C code allows. -/
structure hwloc_topology_t where
  root_obj : hwloc_obj_t
  get_nbobjs_by_type : hwloc_obj_type_t → Nat → Nat
  get_obj_by_type : hwloc_obj_type_t → Nat → Nat → Option hwloc_obj_t
  get_npus : hwloc_obj_t → Nat

/-- A process created by the mapper; `locale` is the `PRRTE_PROC_HWLOC_LOCALE`
attribute. -/
structure prrte_proc_t where
  app_idx : Nat
  locale : Option hwloc_obj_t
  deriving DecidableEq, Repr

/-- A node of the allocation.  `procs` is the node's proc array in creation
order; the three booleans are the node flags. -/
structure prrte_node_t where
  name : Nat
  slots : Nat
  slots_inuse : Nat
  num_procs : Nat
  topology : Option hwloc_topology_t
  mapped : Bool
  oversubscribed : Bool
  slots_given : Bool
  procs : List prrte_proc_t

/-- The bits of the mapping directive read by the mappers. -/
structure mapping_directive where
  no_oversubscribe : Bool
  subscribe_given : Bool
  span : Bool
  deriving DecidableEq, Repr

/-- The job: `nodes` / `num_nodes` are `map->nodes` (as node names) and
`map->num_nodes`; `originator_valid` is
`PRRTE_JOBID_INVALID != originator.jobid`. -/
structure prrte_job_t where
  nodes : List Nat
  num_nodes : Nat
  mapping : mapping_directive
  oversubscribed : Bool
  bookmark : Option Nat
  bkmark_obj : Nat
  originator_valid : Bool
  deriving DecidableEq, Repr

/-- The application context. -/
structure prrte_app_context_t where
  idx : Nat
  num_procs : Nat
  deriving DecidableEq, Repr

/-- The process-wide mapping options (`prrte_rmaps_base_pernode`,
`prrte_rmaps_base_n_pernode`, `prrte_rmaps_base_n_persocket`,
`prrte_rmaps_base.cpus_per_rank`). -/
structure rmaps_base_t where
  pernode : Bool
  n_pernode : Int
  n_persocket : Int
  cpus_per_rank : Int
  deriving DecidableEq, Repr

/-- The state a mapper call threads through its loops: the job, the count of
procs mapped so far, the `obj` local, and `mem`, the number of procs that can
still be allocated before `prrte_rmaps_base_setup_proc` returns `NULL`. -/
structure Locals where
  jdata : prrte_job_t
  nprocs_mapped : Nat
  obj : Option hwloc_obj_t
  mem : Nat
  extra_procs_to_assign : Int
  nxtra_nodes : Int
  add_one : Bool
  nnodes : Nat

/-- What a mapper call leaves behind: its return code, the final job and
counters, and the nodes of the node list in list order. -/
structure Outcome where
  rc : Status
  st : Locals
  nodes : List prrte_node_t

/-- Control flow out of one iteration of a loop body. -/
inductive Ctl
  | next (s : Locals)
  | brk (s : Locals)
  | ret (rc : Status) (s : Locals)

/-- The state carried by a control-flow result. -/
def Ctl.st : Ctl → Locals
  | .next s => s
  | .brk s => s
  | .ret _ s => s

/-- The loop `PRRTE_LIST_FOREACH (node, node_list, ...)`: run the body on the nodes in
list order, stopping at a `break` or a `return`. -/
def foreachNode (body : Locals → prrte_node_t → Ctl × prrte_node_t) :
    Locals → List prrte_node_t → Ctl × List prrte_node_t
  | s, [] => (.next s, [])
  | s, node :: rest =>
    match body s node with
    | (.next s1, node1) =>
      let r := foreachNode body s1 rest
      (r.1, node1 :: r.2)
    | (.brk s1, node1) => (.brk s1, node1 :: rest)
    | (.ret rc s1, node1) => (.ret rc s1, node1 :: rest)

/-- Modelled from the spec: `prrte_rmaps_base_setup_proc` is not part of the
sources.  It allocates a proc for app `idx` on `node`, adding one to the node's
`num_procs` and `slots_inuse`; it returns `NULL` when nothing can be allocated. -/
def prrte_rmaps_base_setup_proc (mem : Nat) (node : prrte_node_t) (idx : Nat) :
    Option (Nat × prrte_node_t × prrte_proc_t) :=
  match mem with
  | 0 => none
  | m + 1 =>
    some (m, { node with num_procs := node.num_procs + 1,
                         slots_inuse := node.slots_inuse + 1 },
          { app_idx := idx, locale := none })

/-- The call `prrte_set_attribute (&proc->attributes, PRRTE_PROC_HWLOC_LOCALE, ..., obj, ...)`. -/
def prrte_set_attribute (proc : prrte_proc_t) (obj : Option hwloc_obj_t) : prrte_proc_t :=
  { proc with locale := obj }

/-- The proc enters the node's proc array (done inside `setup_proc` in C, where
the array holds a pointer; here the value is stored once its locale is set). -/
def store_proc (node : prrte_node_t) (proc : prrte_proc_t) : prrte_node_t :=
  { node with procs := node.procs ++ [proc] }

/-- The block "add this node to the map - do it only once". -/
def add_to_map (jdata : prrte_job_t) (node : prrte_node_t) : prrte_job_t × prrte_node_t :=
  if node.mapped then (jdata, node)
  else ({ jdata with nodes := jdata.nodes ++ [node.name], num_nodes := jdata.num_nodes + 1 },
        { node with mapped := true })

/-- The assignment `obj = hwloc_get_root_obj (...)` guarded by a non-null topology. -/
def root_obj_of (s : Locals) (node : prrte_node_t) : Locals :=
  match node.topology with
  | some t => { s with obj := some t.root_obj }
  | none => s

/-- The loop `for (i = 0; i < num_procs_to_assign && nprocs_mapped < app->num_procs; i++)`
that creates procs on a node, run for at most `k` iterations.  With `inmap` the
body first adds the node to the map (first pass of by-slot). -/
def place_loop (app : prrte_app_context_t) (inmap : Bool) :
    Nat → Locals → prrte_node_t → Ctl × prrte_node_t
  | 0, s, node => (.next s, node)
  | k + 1, s, node =>
    if s.nprocs_mapped < app.num_procs then
      let jn := if inmap then add_to_map s.jdata node else (s.jdata, node)
      match prrte_rmaps_base_setup_proc s.mem jn.2 app.idx with
      | none => (.ret .PRRTE_ERR_OUT_OF_RESOURCE { s with jdata := jn.1 }, jn.2)
      | some (mem1, node1, proc) =>
        place_loop app inmap k
          { s with jdata := jn.1, mem := mem1, nprocs_mapped := s.nprocs_mapped + 1 }
          (store_proc node1 (prrte_set_attribute proc s.obj))
    else (.next s, node)

/-- The block that follows a placement: if the node now holds more procs than
slots, flag node and job as oversubscribed and, with `perm`, check the
permission; the result is `some rc` when the block returns `rc`. -/
def oversub_check (perm : Bool) (s : Locals) (node : prrte_node_t) :
    Option Status × Locals × prrte_node_t :=
  if node.slots < node.num_procs then
    let node1 := { node with oversubscribed := true }
    let s1 := { s with jdata := { s.jdata with oversubscribed := true } }
    if perm && node1.slots_given then
      if !s1.jdata.mapping.subscribe_given then (some .PRRTE_ERR_SILENT, s1, node1)
      else if s1.jdata.mapping.no_oversubscribe then (some .PRRTE_ERR_SILENT, s1, node1)
      else (none, s1, node1)
    else (none, s1, node1)
  else (none, s, node)

/-- The block "if (add_one) ..." that hands the extra proc to the first
`nxtra_nodes` nodes and then drops back to the floor. -/
def take_extra (s : Locals) : Locals :=
  if s.add_one then
    if s.nxtra_nodes = 0 then
      { s with extra_procs_to_assign := s.extra_procs_to_assign - 1, add_one := false }
    else { s with nxtra_nodes := s.nxtra_nodes - 1 }
  else s

/-- The initial locals of a mapper call. -/
def init_locals (jdata : prrte_job_t) (mem : Nat) : Locals :=
  { jdata := jdata, nprocs_mapped := 0, obj := none, mem := mem,
    extra_procs_to_assign := 0, nxtra_nodes := 0, add_one := false, nnodes := 0 }

/-- The oversubscription gate at the top of every mapper. -/
def gate (jdata : prrte_job_t) (app : prrte_app_context_t) (num_slots : Int) : Bool :=
  decide (num_slots < (app.num_procs : Int)) && jdata.mapping.no_oversubscribe

/-! ## By-slot mapper -/

/-- The `int` that an `unsigned int` value becomes when it is stored in an `int`:
the value modulo `2^32`, read as two's complement. -/
def int_of_unsigned (u : Int) : Int :=
  if u % 4294967296 < 2147483648 then u % 4294967296 else u % 4294967296 - 4294967296

/-- The product `prrte_rmaps_base_n_persocket * nbobjs` of an `int` and an
`unsigned int`: it is computed on `unsigned int`, modulo `2^32`, and stored in
an `int`. -/
def persocket_procs (n_persocket : Int) (nbobjs : Nat) : Int :=
  int_of_unsigned (n_persocket * (nbobjs : Int))

/-- The value of `num_procs_to_assign` in the first pass of by-slot; `none` is the
`ppr-topo-missing` error. -/
def byslot_num_to_assign (opts : rmaps_base_t) (node : prrte_node_t) : Option Int :=
  if opts.pernode then some 1
  else if 0 < opts.n_pernode then some opts.n_pernode
  else if 0 < opts.n_persocket then
    match node.topology with
    | none => none
    | some t => some (persocket_procs opts.n_persocket (t.get_nbobjs_by_type .HWLOC_OBJ_PACKAGE 0))
  else some ((node.slots : Int) - (node.slots_inuse : Int))

/-- Body of the first pass of `prrte_rmaps_rr_byslot` (lines 72-121). -/
def byslot_pass1_body (opts : rmaps_base_t) (app : prrte_app_context_t)
    (s : Locals) (node : prrte_node_t) : Ctl × prrte_node_t :=
  let s1 := root_obj_of s node
  if node.slots ≤ node.slots_inuse then (.next s1, node)
  else
    match byslot_num_to_assign opts node with
    | none => (.ret .PRRTE_ERR_SILENT s1, node)
    | some n => place_loop app true n.toNat s1 node

/-- The tail shared by the second pass of by-slot and the rounds of by-node:
place up to `n` procs on the node, run the oversubscription block with its
permission check, and leave the node loop once every proc is mapped. -/
def place_and_check (app : prrte_app_context_t) (n : Int)
    (s : Locals) (node : prrte_node_t) : Ctl × prrte_node_t :=
  match place_loop app false n.toNat s node with
  | (.ret rc s1, node1) => (.ret rc s1, node1)
  | (c, node1) =>
    match oversub_check true c.st node1 with
    | (some rc, s2, node2) => (.ret rc s2, node2)
    | (none, s2, node2) =>
      if s2.nprocs_mapped = app.num_procs then (.brk s2, node2) else (.next s2, node2)

/-- Body of the second pass of `prrte_rmaps_rr_byslot` (lines 149-225). -/
def byslot_pass2_body (app : prrte_app_context_t)
    (s : Locals) (node : prrte_node_t) : Ctl × prrte_node_t :=
  let s1 := root_obj_of s node
  let jn := add_to_map s1.jdata node
  let s2 := take_extra { s1 with jdata := jn.1 }
  let n : Int :=
    if jn.2.slots ≤ jn.2.slots_inuse then s2.extra_procs_to_assign
    else (jn.2.slots : Int) - (jn.2.slots_inuse : Int) + s2.extra_procs_to_assign
  place_and_check app n s2 jn.2

/-- The computation of `balance`, `extra_procs_to_assign`, `nxtra_nodes` and
`add_one` before the second pass of by-slot (lines 136-147). -/
def byslot_balance (app : prrte_app_context_t) (nnodes : Nat) (s : Locals) : Locals :=
  let balance := F32.div (F32.ofInt ((app.num_procs : Int) - (s.nprocs_mapped : Int)))
                         (F32.ofInt (nnodes : Int))
  let extra := balance.toInt
  if F32.sub_pos balance (F32.ofInt extra) then
    { s with nxtra_nodes := (app.num_procs : Int) - (s.nprocs_mapped : Int)
                              - extra * (nnodes : Int),
             extra_procs_to_assign := extra + 1,
             add_one := true }
  else { s with extra_procs_to_assign := extra }

/-- The function `prrte_rmaps_rr_byslot`. -/
def prrte_rmaps_rr_byslot (opts : rmaps_base_t) (jdata : prrte_job_t)
    (app : prrte_app_context_t) (node_list : List prrte_node_t) (num_slots : Int)
    (mem : Nat) : Outcome :=
  if gate jdata app num_slots then
    { rc := .PRRTE_ERR_SILENT, st := init_locals jdata mem, nodes := node_list }
  else
    match foreachNode (byslot_pass1_body opts app) (init_locals jdata mem) node_list with
    | (.ret rc s, nodes) => { rc := rc, st := s, nodes := nodes }
    | (c, nodes) =>
      if c.st.nprocs_mapped = app.num_procs then
        { rc := .PRRTE_SUCCESS, st := c.st, nodes := nodes }
      else
        match foreachNode (byslot_pass2_body app)
                (byslot_balance app node_list.length c.st) nodes with
        | (.ret rc s, nodes2) => { rc := rc, st := s, nodes := nodes2 }
        | (c2, nodes2) => { rc := .PRRTE_SUCCESS, st := c2.st, nodes := nodes2 }

/-! ## By-node mapper -/

/-- The head of a by-node round (lines 272-294): `navg`, `balance`,
`extra_procs_to_assign`, `nxtra_nodes`, `add_one`; `s.nnodes` is the divisor. -/
def bynode_balance (app : prrte_app_context_t) (s : Locals) : Int × Locals :=
  let rem : Int := (app.num_procs : Int) - (s.nprocs_mapped : Int)
  let navg0 : Int := Int.tdiv rem (s.nnodes : Int)
  let navg : Int := if navg0 = 0 then 1 else navg0
  let balance := F32.div (F32.ofInt (rem - navg * (s.nnodes : Int))) (F32.ofInt (s.nnodes : Int))
  let extra := balance.toInt
  if F32.sub_pos balance (F32.ofInt extra) then
    (navg, { s with nxtra_nodes := rem - (navg + extra) * (s.nnodes : Int),
                    extra_procs_to_assign := extra + 1,
                    add_one := true })
  else (navg, { s with nxtra_nodes := 0, extra_procs_to_assign := extra, add_one := false })

/-- The tail of a by-node round body from `nnodes++` on (lines 369-412). -/
def bynode_assign (app : prrte_app_context_t) (n : Int)
    (s : Locals) (node : prrte_node_t) : Ctl × prrte_node_t :=
  place_and_check app n { s with nnodes := s.nnodes + 1 } node

/-- Body of the node loop of a by-node round (lines 301-413). -/
def bynode_round_body (opts : rmaps_base_t) (app : prrte_app_context_t)
    (oversubscribed : Bool) (navg : Int) (s : Locals) (node : prrte_node_t) :
    Ctl × prrte_node_t :=
  let s1 := root_obj_of s node
  let jn := add_to_map s1.jdata node
  let s2 : Locals := { s1 with jdata := jn.1 }
  if opts.pernode then bynode_assign app 1 s2 jn.2
  else if 0 < opts.n_pernode then bynode_assign app opts.n_pernode s2 jn.2
  else if 0 < opts.n_persocket then
    match jn.2.topology with
    | none => (.ret .FAULT s2, jn.2)
    | some t =>
      bynode_assign app (persocket_procs opts.n_persocket (t.get_nbobjs_by_type .HWLOC_OBJ_PACKAGE 0))
        s2 jn.2
  else if oversubscribed then
    let s3 := take_extra s2
    bynode_assign app (navg + s3.extra_procs_to_assign) s3 jn.2
  else if jn.2.slots ≤ jn.2.slots_inuse then (.next s2, jn.2)
  else
    let s3 := take_extra s2
    let room : Int := (jn.2.slots : Int) - (jn.2.slots_inuse : Int)
    if room < navg + s3.extra_procs_to_assign then
      if room = 0 then (.next s3, jn.2) else bynode_assign app room s3 jn.2
    else bynode_assign app (navg + s3.extra_procs_to_assign) s3 jn.2

/-- The loop `do ... while (nprocs_mapped < app->num_procs && 0 < nnodes)` of
by-node (lines 264-414); the quotient by `nnodes = 0` is a fault. -/
def bynode_rounds (opts : rmaps_base_t) (app : prrte_app_context_t) (oversubscribed : Bool) :
    Nat → Locals → List prrte_node_t → Option (Ctl × List prrte_node_t)
  | 0, _, _ => none
  | fuel + 1, s, nodes =>
    if s.nnodes = 0 then some (.ret .FAULT s, nodes)
    else
      let b := bynode_balance app s
      match foreachNode (bynode_round_body opts app oversubscribed b.1)
              { b.2 with nnodes := 0 } nodes with
      | (.ret rc s1, nodes1) => some (.ret rc s1, nodes1)
      | (c, nodes1) =>
        if c.st.nprocs_mapped < app.num_procs ∧ 0 < c.st.nnodes then
          bynode_rounds opts app oversubscribed fuel c.st nodes1
        else some (.next c.st, nodes1)

/-- Body of the node loop of the final fill of by-node (lines 418-448). -/
def bynode_fill_body (app : prrte_app_context_t) (s : Locals) (node : prrte_node_t) :
    Ctl × prrte_node_t :=
  let s1 := root_obj_of s node
  match prrte_rmaps_base_setup_proc s1.mem node app.idx with
  | none => (.ret .PRRTE_ERR_OUT_OF_RESOURCE s1, node)
  | some (mem1, node1, proc) =>
    let r := oversub_check false
               { s1 with mem := mem1, nprocs_mapped := s1.nprocs_mapped + 1 }
               (store_proc node1 (prrte_set_attribute proc s1.obj))
    if r.2.1.nprocs_mapped = app.num_procs then (.brk r.2.1, r.2.2) else (.next r.2.1, r.2.2)

/-- The loop `while (nprocs_mapped < app->num_procs)` that ends by-node (lines 417-449). -/
def bynode_fill (app : prrte_app_context_t) :
    Nat → Locals → List prrte_node_t → Option (Ctl × List prrte_node_t)
  | 0, s, nodes => if s.nprocs_mapped < app.num_procs then none else some (.next s, nodes)
  | fuel + 1, s, nodes =>
    if s.nprocs_mapped < app.num_procs then
      match foreachNode (bynode_fill_body app) s nodes with
      | (.ret rc s1, nodes1) => some (.ret rc s1, nodes1)
      | (c, nodes1) => bynode_fill app fuel c.st nodes1
    else some (.next s, nodes)

/-- The function `prrte_rmaps_rr_bynode`; `fuel` bounds the number of rounds of
each of its two outer loops. -/
def prrte_rmaps_rr_bynode (fuel : Nat) (opts : rmaps_base_t) (jdata : prrte_job_t)
    (app : prrte_app_context_t) (node_list : List prrte_node_t) (num_slots : Int)
    (mem : Nat) : Option Outcome :=
  if gate jdata app num_slots then
    some { rc := .PRRTE_ERR_SILENT, st := init_locals jdata mem, nodes := node_list }
  else
    let oversubscribed : Bool := decide (num_slots < (app.num_procs : Int))
    match bynode_rounds opts app oversubscribed fuel
            { init_locals jdata mem with nnodes := node_list.length } node_list with
    | none => none
    | some (.ret rc s, nodes) => some { rc := rc, st := s, nodes := nodes }
    | some (c, nodes) =>
      match bynode_fill app fuel c.st nodes with
      | none => none
      | some (.ret rc s, nodes1) => some { rc := rc, st := s, nodes := nodes1 }
      | some (c1, nodes1) => some { rc := .PRRTE_SUCCESS, st := c1.st, nodes := nodes1 }

/-! ## By-object mappers -/

/-- The knob part of "compute the number of procs to go on this node" of the
by-object mappers; `dflt` is the value of the final `else`. -/
def byobj_nprocs (opts : rmaps_base_t) (t : hwloc_topology_t) (target : hwloc_obj_type_t)
    (nobjs : Nat) (dflt : Int) : Int :=
  if opts.pernode then 1
  else if 0 < opts.n_pernode then opts.n_pernode
  else if 0 < opts.n_persocket then
    if target = .HWLOC_OBJ_PACKAGE then persocket_procs opts.n_persocket nobjs
    else persocket_procs opts.n_persocket (t.get_nbobjs_by_type .HWLOC_OBJ_PACKAGE 0)
  else dflt

/-- The loop `for (i = 0; i < nobjs && nmapped < nprocs && nprocs_mapped < app->num_procs; i++)`
of by-object no-span (lines 588-608), run for at most `k` more iterations from
index `i`; the last component is `nmapped`. -/
def byobj_for (opts : rmaps_base_t) (app : prrte_app_context_t) (t : hwloc_topology_t)
    (target : hwloc_obj_type_t) (cache_level : Nat) (nobjs start : Nat) (nprocs : Int) :
    Nat → Nat → Nat → Locals → prrte_node_t → Ctl × prrte_node_t × Nat
  | 0, _, nmapped, s, node => (.next s, node, nmapped)
  | k + 1, i, nmapped, s, node =>
    if (nmapped : Int) < nprocs ∧ s.nprocs_mapped < app.num_procs then
      match t.get_obj_by_type target cache_level ((i + start) % nobjs) with
      | none => (.ret .PRRTE_ERR_NOT_FOUND { s with obj := none }, node, nmapped)
      | some o =>
        let s1 : Locals := { s with obj := some o }
        if opts.cpus_per_rank > (t.get_npus o : Int) then (.ret .PRRTE_ERR_SILENT s1, node, nmapped)
        else
          match prrte_rmaps_base_setup_proc s1.mem node app.idx with
          | none => (.ret .PRRTE_ERR_OUT_OF_RESOURCE s1, node, nmapped)
          | some (mem1, node1, proc) =>
            byobj_for opts app t target cache_level nobjs start nprocs k (i + 1) (nmapped + 1)
              { s1 with mem := mem1, nprocs_mapped := s1.nprocs_mapped + 1 }
              (store_proc node1 (prrte_set_attribute proc (some o)))
    else (.next s, node, nmapped)

/-- The loop `do ... while (nmapped < nprocs && nprocs_mapped < (int)app->num_procs)`
around the object loop (lines 586-609). -/
def byobj_dowhile (opts : rmaps_base_t) (app : prrte_app_context_t) (t : hwloc_topology_t)
    (target : hwloc_obj_type_t) (cache_level : Nat) (nobjs start : Nat) (nprocs : Int) :
    Nat → Nat → Locals → prrte_node_t → Option (Ctl × prrte_node_t)
  | 0, _, _, _ => none
  | fuel + 1, nmapped, s, node =>
    match byobj_for opts app t target cache_level nobjs start nprocs nobjs 0 nmapped s node with
    | (.ret rc s1, node1, _) => some (.ret rc s1, node1)
    | (c, node1, nmapped1) =>
      if (nmapped1 : Int) < nprocs ∧ c.st.nprocs_mapped < app.num_procs then
        byobj_dowhile opts app t target cache_level nobjs start nprocs fuel nmapped1 c.st node1
      else some (.next c.st, node1)

/-- Body of the node loop of by-object no-span (lines 525-643).  The field
`add_one` of the locals is the C variable `add_one`. -/
def byobj_body (fuel : Nat) (opts : rmaps_base_t) (app : prrte_app_context_t)
    (target : hwloc_obj_type_t) (cache_level : Nat) (second_pass : Bool)
    (s : Locals) (node : prrte_node_t) : Option (Ctl × prrte_node_t) :=
  match node.topology with
  | none => some (.ret .PRRTE_ERR_SILENT s, node)
  | some t =>
    let nobjs := t.get_nbobjs_by_type target cache_level
    if nobjs = 0 then some (.next s, node)
    else
      let start0 : Nat := if s.jdata.originator_valid then (s.jdata.bkmark_obj + 1) % nobjs else 0
      let nprocs0 : Int :=
        byobj_nprocs opts t target nobjs ((node.slots : Int) - (node.slots_inuse : Int))
      if nprocs0 < 1 ∧ !second_pass then some (.next s, node)
      else
        let nprocs : Int := if nprocs0 < 1 then 1 else nprocs0
        let start : Nat := if nprocs0 < 1 then node.num_procs % nobjs else start0
        let jn := add_to_map s.jdata node
        match byobj_dowhile opts app t target cache_level nobjs start nprocs fuel 0
                { s with jdata := jn.1 } jn.2 with
        | none => none
        | some (.ret rc s1, node1) => some (.ret rc s1, node1)
        | some (c, node1) =>
          match oversub_check true { c.st with add_one := true } node1 with
          | (some rc, s2, node2) => some (.ret rc s2, node2)
          | (none, s2, node2) =>
            if s2.nprocs_mapped = app.num_procs then some (.brk s2, node2)
            else some (.next s2, node2)

/-- The node loop `PRRTE_LIST_FOREACH` for a body that may run out of fuel. -/
def foreachNodeF (body : Locals → prrte_node_t → Option (Ctl × prrte_node_t)) :
    Locals → List prrte_node_t → Option (Ctl × List prrte_node_t)
  | s, [] => some (.next s, [])
  | s, node :: rest =>
    match body s node with
    | none => none
    | some (.next s1, node1) =>
      match foreachNodeF body s1 rest with
      | none => none
      | some r => some (r.1, node1 :: r.2)
    | some (.brk s1, node1) => some (.brk s1, node1 :: rest)
    | some (.ret rc s1, node1) => some (.ret rc s1, node1 :: rest)

/-- The loop `do ... while (add_one && nprocs_mapped < app->num_procs)` of
by-object no-span (lines 523-645). -/
def byobj_passes (opts : rmaps_base_t) (app : prrte_app_context_t)
    (target : hwloc_obj_type_t) (cache_level : Nat) (fuel0 : Nat) :
    Nat → Bool → Locals → List prrte_node_t → Option (Ctl × List prrte_node_t)
  | 0, _, _, _ => none
  | fuel + 1, second_pass, s, nodes =>
    match foreachNodeF (byobj_body fuel0 opts app target cache_level second_pass)
            { s with add_one := false } nodes with
    | none => none
    | some (.ret rc s1, nodes1) => some (.ret rc s1, nodes1)
    | some (c, nodes1) =>
      if c.st.add_one ∧ c.st.nprocs_mapped < app.num_procs then
        byobj_passes opts app target cache_level fuel0 fuel true c.st nodes1
      else some (.next c.st, nodes1)

/-- The first node loop of `byobj_span` (lines 688-697): the total number of
target objects, or `none` when a node has no topology. -/
def span_count_objs (target : hwloc_obj_type_t) (cache_level : Nat) :
    List prrte_node_t → Option Nat
  | [] => some 0
  | node :: rest =>
    match node.topology with
    | none => none
    | some t =>
      match span_count_objs target cache_level rest with
      | none => none
      | some n => some (t.get_nbobjs_by_type target cache_level + n)

/-- The object loop `for (i = 0; i < (int)nobjs && nprocs_mapped < (int)app->num_procs; i++)`
of `byobj_span` (lines 736-776), run for at most `k` more iterations from index
`i`.  The field `nxtra_nodes` of the locals is the C variable `nxtra_objs`. -/
def span_for (opts : rmaps_base_t) (app : prrte_app_context_t) (t : hwloc_topology_t)
    (target : hwloc_obj_type_t) (cache_level : Nat) (nobjs : Nat) (navg : Int) :
    Nat → Nat → Locals → prrte_node_t → Ctl × prrte_node_t
  | 0, _, s, node => (.next s, node)
  | k + 1, i, s, node =>
    if s.nprocs_mapped < app.num_procs then
      match t.get_obj_by_type target cache_level i with
      | none => (.ret .PRRTE_ERR_NOT_FOUND { s with obj := none }, node)
      | some o =>
        let s1 : Locals := { s with obj := some o }
        if opts.cpus_per_rank > (t.get_npus o : Int) then (.ret .PRRTE_ERR_SILENT s1, node)
        else
          let nprocs0 : Int := byobj_nprocs opts t target nobjs navg
          let nprocs : Int := if 0 < s1.nxtra_nodes then nprocs0 + 1 else nprocs0
          let s2 : Locals :=
            if 0 < s1.nxtra_nodes then { s1 with nxtra_nodes := s1.nxtra_nodes - 1 } else s1
          match place_loop app false nprocs.toNat s2 node with
          | (.ret rc s3, node3) => (.ret rc s3, node3)
          | (c, node3) =>
            span_for opts app t target cache_level nobjs navg k (i + 1)
              { c.st with jdata := { c.st.jdata with bookmark := some node3.name } } node3
    else (.next s, node)

/-- Body of the second node loop of `byobj_span` (lines 723-791). -/
def span_body (opts : rmaps_base_t) (app : prrte_app_context_t)
    (target : hwloc_obj_type_t) (cache_level : Nat) (navg : Int)
    (s : Locals) (node : prrte_node_t) : Ctl × prrte_node_t :=
  let jn := add_to_map s.jdata node
  let s1 : Locals := { s with jdata := jn.1 }
  match jn.2.topology with
  | none => (.ret .FAULT s1, jn.2)
  | some t =>
    let nobjs := t.get_nbobjs_by_type target cache_level
    match span_for opts app t target cache_level nobjs navg nobjs 0 s1 jn.2 with
    | (.ret rc s2, node2) => (.ret rc s2, node2)
    | (c, node2) =>
      let r := oversub_check false c.st node2
      if r.2.1.nprocs_mapped = app.num_procs then (.brk r.2.1, r.2.2) else (.next r.2.1, r.2.2)

/-- The function `byobj_span`. -/
def byobj_span (opts : rmaps_base_t) (jdata : prrte_job_t)
    (app : prrte_app_context_t) (node_list : List prrte_node_t) (num_slots : Int)
    (target : hwloc_obj_type_t) (cache_level : Nat) (mem : Nat) : Outcome :=
  if gate jdata app num_slots then
    { rc := .PRRTE_ERR_SILENT, st := init_locals jdata mem, nodes := node_list }
  else
    match span_count_objs target cache_level node_list with
    | none => { rc := .PRRTE_ERR_SILENT, st := init_locals jdata mem, nodes := node_list }
    | some nobjs =>
      if nobjs = 0 then
        { rc := .PRRTE_ERR_NOT_FOUND, st := init_locals jdata mem, nodes := node_list }
      else
        let navg0 : Nat := app.num_procs / nobjs
        let navg : Nat := if navg0 = 0 then 1 else navg0
        let nxtra_objs : Int :=
          if (app.num_procs : Int) - (navg : Int) * (nobjs : Int) < 0 then 0
          else (app.num_procs : Int) - (navg : Int) * (nobjs : Int)
        match foreachNode (span_body opts app target cache_level (navg : Int))
                { init_locals jdata mem with nxtra_nodes := nxtra_objs } node_list with
        | (.ret rc s, nodes) => { rc := rc, st := s, nodes := nodes }
        | (c, nodes) => { rc := .PRRTE_SUCCESS, st := c.st, nodes := nodes }

/-- The function `prrte_rmaps_rr_byobj`; `fuel` bounds the number of rounds of
each of its `do ... while` loops. -/
def prrte_rmaps_rr_byobj (fuel : Nat) (opts : rmaps_base_t) (jdata : prrte_job_t)
    (app : prrte_app_context_t) (node_list : List prrte_node_t) (num_slots : Int)
    (target : hwloc_obj_type_t) (cache_level : Nat) (mem : Nat) : Option Outcome :=
  if jdata.mapping.span then
    some (byobj_span opts jdata app node_list num_slots target cache_level mem)
  else if gate jdata app num_slots then
    some { rc := .PRRTE_ERR_SILENT, st := init_locals jdata mem, nodes := node_list }
  else
    match byobj_passes opts app target cache_level fuel fuel false
            (init_locals jdata mem) node_list with
    | none => none
    | some (.ret rc s, nodes) => some { rc := rc, st := s, nodes := nodes }
    | some (c, nodes) =>
      if c.st.nprocs_mapped < app.num_procs then
        some { rc := .PRRTE_ERR_NOT_FOUND, st := c.st, nodes := nodes }
      else some { rc := .PRRTE_SUCCESS, st := c.st, nodes := nodes }

/-! ## Data model of the OOB/TCP transport -/

/-- A byte of a buffer or of the wire. -/
abbrev Byte := Nat

/-- A process name `(jobid, vpid)`. -/
structure ProcId where
  jobid : Nat
  vpid : Nat
  deriving DecidableEq, Repr

/-- The message header `prte_oob_tcp_hdr_t`. -/
structure prte_oob_tcp_hdr_t where
  origin : ProcId
  dst : ProcId
  tag : Int
  seq_num : Nat
  nbytes : Nat
  deriving DecidableEq, Repr

/-- Modelled from the spec: the layout of the header, declared in a file that is
not part of the sources: `size` is `sizeof (prte_oob_tcp_hdr_t)`, `of_mem` reads
the struct from its bytes in memory, and `ntoh` is `MCA_OOB_TCP_HDR_NTOH`. -/
structure HdrLayout where
  size : Nat
  of_mem : List Byte → prte_oob_tcp_hdr_t
  ntoh : prte_oob_tcp_hdr_t → prte_oob_tcp_hdr_t

/-- The connection state of a peer. -/
inductive PeerState
  | MCA_OOB_TCP_CLOSED
  | MCA_OOB_TCP_CONNECTING
  | MCA_OOB_TCP_CONNECT_ACK
  | MCA_OOB_TCP_CONNECTED
  | MCA_OOB_TCP_ACCEPTING
  | MCA_OOB_TCP_FAILED
  deriving DecidableEq, Repr

/-- The buffer a cursor points into: the header of the request or its payload. -/
inductive Region
  | hdr
  | data
  deriving DecidableEq, Repr

/-- A cursor position `sdptr`: a region and a byte offset into it. -/
structure Ptr where
  region : Region
  off : Nat
  deriving DecidableEq, Repr

/-- A send request `prte_oob_tcp_send_t`.  `hdr_mem` holds the bytes of `hdr`
(already in network order), `hdr_nbytes` is `ntohl (hdr.nbytes)`, `msg` is the
handle of the RML message (`NULL` for a relay) whose buffer is `dbuf`, and `data`
is the relay buffer. -/
structure prte_oob_tcp_send_t where
  hdr_mem : List Byte
  hdr_nbytes : Nat
  msg : Option Nat
  dbuf : List Byte
  data : Option (List Byte)
  hdr_sent : Bool
  sdptr : Ptr
  sdbytes : Nat
  activate : Bool
  deriving DecidableEq, Repr

/-- A receive buffer `prte_oob_tcp_recv_t`.  `hdr_mem` holds the header bytes
read so far, `hdr` the header once converted, `data` the payload bytes read so
far (`none` for `NULL`); `rdptr` is the end of the region being filled. -/
structure prte_oob_tcp_recv_t where
  hdr_mem : List Byte
  hdr : prte_oob_tcp_hdr_t
  hdr_recvd : Bool
  data : Option (List Byte)
  rdptr : Region
  rdbytes : Nat
  deriving DecidableEq, Repr

/-- A peer `prte_oob_tcp_peer_t`.  For each event the `_ev_active` flag is the
field of the peer and the field without suffix tells whether the event is
registered with the event library (`prte_event_add` / `prte_event_del`). -/
structure prte_oob_tcp_peer_t where
  name : ProcId
  sd : Int
  state : PeerState
  send_msg : Option prte_oob_tcp_send_t
  send_queue : List prte_oob_tcp_send_t
  recv_msg : Option prte_oob_tcp_recv_t
  send_ev_active : Bool
  recv_ev_active : Bool
  timer_ev_active : Bool
  send_event : Bool
  recv_event : Bool
  timer_event : Bool
  deriving DecidableEq, Repr

/-- What the transport does to its environment, in the order it happens. -/
inductive Event
  | writev (bytes : List Byte)
  | read (bytes : List Byte)
  | send_complete (msg : Nat) (status : Status)
  | release_snd (snd : prte_oob_tcp_send_t)
  | comm_failed
  | try_connect
  | complete_connect
  | post_message (origin : ProcId) (tag : Int) (seq_num : Nat) (data : Option (List Byte))
      (nbytes : Nat)
  | oob_send (dst origin : ProcId) (tag : Int) (seq_num : Nat) (data : Option (List Byte))
      (size : Nat)
  | release_recv
  | peer_close
  | fault
  deriving DecidableEq, Repr

/-- A peer together with the log of what the transport did so far. -/
structure World where
  peer : prte_oob_tcp_peer_t
  log : List Event
  deriving DecidableEq, Repr

/-- The value of `EINTR` on the platform. -/
def EINTR : Nat := 4

/-- The value of `EAGAIN` on the platform. -/
def EAGAIN : Nat := 11

/-- The value of `EWOULDBLOCK`: the platform defines it as `EAGAIN`. -/
def EWOULDBLOCK : Nat := EAGAIN

/-- One result of `writev`: the socket takes up to `k` of the bytes offered, or
the call fails with the given `errno`. -/
inductive WriteRes
  | accept (k : Nat)
  | error (errno : Nat)
  deriving DecidableEq, Repr

/-- The call `writev` fails with `EINTR`. -/
def WriteRes.eintr : WriteRes := .error EINTR

/-- The call `writev` fails with `EAGAIN`. -/
def WriteRes.eagain : WriteRes := .error EAGAIN

/-- The call `writev` fails with `EWOULDBLOCK`. -/
def WriteRes.ewouldblock : WriteRes := .error EWOULDBLOCK

/-- One result of `read`: the socket has up to `k` bytes to give (none means the
peer closed the connection), or the call fails with the given `errno`. -/
inductive ReadRes
  | chunk (k : Nat)
  | error (errno : Nat)
  deriving DecidableEq, Repr

/-- The call `read` fails with `EINTR`. -/
def ReadRes.eintr : ReadRes := .error EINTR

/-- The call `read` fails with `EAGAIN`. -/
def ReadRes.eagain : ReadRes := .error EAGAIN

/-- The call `read` fails with `EWOULDBLOCK`. -/
def ReadRes.ewouldblock : ReadRes := .error EWOULDBLOCK

/-- The retry bound `OOB_SEND_MAX_RETRIES`. -/
def OOB_SEND_MAX_RETRIES : Nat := 3

/-! ## Send pipeline -/

/-- The function `prte_oob_tcp_queue_msg`. -/
def prte_oob_tcp_queue_msg (w : World) (snd : prte_oob_tcp_send_t) : World :=
  let peer := w.peer
  let peer1 : prte_oob_tcp_peer_t :=
    match peer.send_msg with
    | none => { peer with send_msg := some snd }
    | some _ => { peer with send_queue := peer.send_queue ++ [snd] }
  if snd.activate then
    if peer1.state ≠ .MCA_OOB_TCP_CONNECTED then
      { peer := { peer1 with state := .MCA_OOB_TCP_CONNECTING }, log := w.log ++ [.try_connect] }
    else if !peer1.send_ev_active then
      { peer := { peer1 with send_ev_active := true, send_event := true }, log := w.log }
    else { peer := peer1, log := w.log }
  else { peer := peer1, log := w.log }

/-- The buffer `iov[1].iov_base` that `send_msg` takes for a request whose
header is not yet sent (lines 121-128): the relay data, or else the buffer of the
RML message, read as `msg->msg->dbuf.base_ptr`; `none` when the request has
neither, where that read dereferences `NULL`. -/
def iov1_base (msg : prte_oob_tcp_send_t) : Option (List Byte) :=
  match msg.data with
  | some d => some d
  | none =>
    match msg.msg with
    | some _ => some msg.dbuf
    | none => none

/-- The payload bytes of a request: those of the buffer `iov1_base`, none for a
request that has no such buffer. -/
def payload_of (msg : prte_oob_tcp_send_t) : List Byte := (iov1_base msg).getD []

/-- The `n` bytes of the request found at position `p`. -/
def mem_read (msg : prte_oob_tcp_send_t) (p : Ptr) (n : Nat) : List Byte :=
  match p.region with
  | .hdr => (msg.hdr_mem.drop p.off).take n
  | .data => ((payload_of msg).drop p.off).take n

/-- The bytes offered to `writev` by `send_msg`: `iov[0]`, followed by `iov[1]`
when the header is not yet sent. -/
def iov_bytes (msg : prte_oob_tcp_send_t) : List Byte :=
  mem_read msg msg.sdptr msg.sdbytes ++
    (if msg.hdr_sent then [] else mem_read msg { region := .data, off := 0 } msg.hdr_nbytes)

/-- The value of `remain` in `send_msg`. -/
def iov_remain (msg : prte_oob_tcp_send_t) : Nat :=
  msg.sdbytes + (if msg.hdr_sent then 0 else msg.hdr_nbytes)

/-- The result of one `send_msg` call: the status, the request, the bytes the
socket accepted and the socket results not yet consumed. -/
structure SendRes where
  rc : Status
  msg : prte_oob_tcp_send_t
  written : List Byte
  rest : List WriteRes
  deriving DecidableEq, Repr

/-- The function `send_msg` from the label `retry` on, with `retries` failed
attempts counted so far; `none` when the list of socket results is exhausted. -/
def send_msg_retry (msg : prte_oob_tcp_send_t) : Nat → List WriteRes → Option SendRes
  | _, [] => none
  | _, .accept k :: rest =>
    let rc := min k (iov_remain msg)
    if rc = iov_remain msg then
      some { rc := .PRRTE_SUCCESS,
             msg := { msg with hdr_sent := true, sdbytes := 0,
                               sdptr := if msg.hdr_sent
                                        then { msg.sdptr with off := msg.sdptr.off + msg.sdbytes }
                                        else { region := .data, off := msg.hdr_nbytes } },
             written := (iov_bytes msg).take rc, rest := rest }
    else if rc < msg.sdbytes then
      some { rc := .PRRTE_ERR_RESOURCE_BUSY,
             msg := { msg with sdptr := { msg.sdptr with off := msg.sdptr.off + rc },
                               sdbytes := msg.sdbytes - rc },
             written := (iov_bytes msg).take rc, rest := rest }
    else if msg.hdr_sent then
      some { rc := .FAULT, msg := { msg with hdr_sent := true },
             written := (iov_bytes msg).take rc, rest := rest }
    else
      some { rc := .PRRTE_ERR_RESOURCE_BUSY,
             msg := { msg with hdr_sent := true,
                               sdptr := { region := .data, off := rc - msg.sdbytes },
                               sdbytes := msg.hdr_nbytes - (rc - msg.sdbytes) },
             written := (iov_bytes msg).take rc, rest := rest }
  | retries, .error errno :: rest =>
    if errno = EINTR then send_msg_retry msg retries rest
    else if errno = EAGAIN then
      if retries + 1 < OOB_SEND_MAX_RETRIES then send_msg_retry msg (retries + 1) rest
      else some { rc := .PRRTE_ERR_RESOURCE_BUSY, msg := msg, written := [], rest := rest }
    else if errno = EWOULDBLOCK then
      if retries + 1 < OOB_SEND_MAX_RETRIES then send_msg_retry msg (retries + 1) rest
      else some { rc := .PRRTE_ERR_WOULD_BLOCK, msg := msg, written := [], rest := rest }
    else some { rc := .PRRTE_ERR_UNREACH, msg := msg, written := [], rest := rest }

/-- The function `send_msg`.  When the header is not yet sent the function sets
up `iov[1]` before the first `writev`; for a request with neither relay data nor
an RML message this dereferences `NULL` (line 127) and nothing is written. -/
def send_msg (msg : prte_oob_tcp_send_t) (sock : List WriteRes) : Option SendRes :=
  if msg.hdr_sent then send_msg_retry msg 0 sock
  else
    match iov1_base msg with
    | none => some { rc := .FAULT, msg := msg, written := [], rest := sock }
    | some _ => send_msg_retry msg 0 sock

/-- The test that ends `send_handler` in the connected state: "if nothing else
to do unregister for send event notifications". -/
def send_idle_check (peer : prte_oob_tcp_peer_t) : prte_oob_tcp_peer_t :=
  if peer.send_msg.isNone && peer.send_ev_active then
    { peer with send_event := false, send_ev_active := false }
  else peer

/-- The statement `peer->send_msg = pmix_list_remove_first (&peer->send_queue)`. -/
def promote_next (peer : prte_oob_tcp_peer_t) : prte_oob_tcp_peer_t :=
  { peer with send_msg := peer.send_queue.head?, send_queue := peer.send_queue.tail }

/-- The function `prte_oob_tcp_send_handler`.  `cc` is the effect of
`prte_oob_tcp_peer_complete_connect`, which is not part of the sources, on the
peer; `sock` lists the results of the `writev` calls to come.  The result is
`none` when `sock` is exhausted inside a call. -/
def prte_oob_tcp_send_handler (cc : prte_oob_tcp_peer_t → prte_oob_tcp_peer_t)
    (w : World) (sock : List WriteRes) : Option (World × List WriteRes) :=
  let peer := w.peer
  match peer.state with
  | .MCA_OOB_TCP_CONNECTING | .MCA_OOB_TCP_CLOSED =>
    let peer1 := cc peer
    let peer2 := if peer1.send_ev_active
                 then { peer1 with send_event := false, send_ev_active := false } else peer1
    some ({ peer := peer2, log := w.log ++ [.complete_connect] }, sock)
  | .MCA_OOB_TCP_CONNECTED =>
    match peer.send_msg with
    | none => some ({ peer := send_idle_check peer, log := w.log }, sock)
    | some msg =>
      match send_msg msg sock with
      | none => none
      | some r =>
        let log1 := if r.written = [] then w.log else w.log ++ [.writev r.written]
        if r.rc = .PRRTE_SUCCESS then
          let log2 :=
            if r.msg.data.isSome || r.msg.msg.isNone then log1 ++ [.release_snd r.msg]
            else
              match r.msg.msg with
              | some m => log1 ++ [.send_complete m .PRRTE_SUCCESS, .release_snd r.msg]
              | none => log1 ++ [.release_snd r.msg]
          some ({ peer := send_idle_check (promote_next { peer with send_msg := none }),
                  log := log2 }, r.rest)
        else if r.rc = .PRRTE_ERR_RESOURCE_BUSY ∨ r.rc = .PRRTE_ERR_WOULD_BLOCK then
          some ({ peer := { peer with send_msg := some r.msg }, log := log1 }, r.rest)
        else if r.rc = .FAULT then
          some ({ peer := { peer with send_msg := some r.msg }, log := log1 ++ [.fault] }, r.rest)
        else
          match r.msg.msg with
          | none =>
            some ({ peer := { peer with send_msg := some r.msg, send_event := false },
                    log := log1 ++ [.fault] }, r.rest)
          | some m =>
            some ({ peer := { peer with send_msg := none, send_event := false },
                    log := log1 ++ [.send_complete m r.rc, .release_snd r.msg, .comm_failed] },
                  r.rest)
  | _ =>
    let peer1 := if peer.send_ev_active
                 then { peer with send_event := false, send_ev_active := false } else peer
    some ({ peer := peer1, log := w.log }, sock)

/-! ## Receive pipeline -/

/-- Modelled from the spec: `prte_oob_tcp_peer_close` is not part of the
sources.  Closing a peer releases all three events, drops the on-deck request,
the send queue and the current receive, and leaves the peer `CLOSED` with no
socket. -/
def prte_oob_tcp_peer_close (peer : prte_oob_tcp_peer_t) : prte_oob_tcp_peer_t :=
  { peer with state := .MCA_OOB_TCP_CLOSED, sd := -1,
              send_msg := none, send_queue := [], recv_msg := none,
              send_ev_active := false, recv_ev_active := false, timer_ev_active := false,
              send_event := false, recv_event := false, timer_event := false }

/-- The result of one `read_bytes` call: the status, the peer and the log, the
bytes still to arrive and the socket results not yet consumed. -/
structure ReadOut where
  rc : Status
  w : World
  stream : List Byte
  rest : List ReadRes
  deriving DecidableEq, Repr

/-- The bytes read are stored at `rdptr` and the cursor moves on. -/
def recv_store (rm : prte_oob_tcp_recv_t) (bytes : List Byte) : prte_oob_tcp_recv_t :=
  match rm.rdptr with
  | .hdr => { rm with hdr_mem := rm.hdr_mem ++ bytes, rdbytes := rm.rdbytes - bytes.length }
  | .data =>
    { rm with data := some ((rm.data.getD []) ++ bytes), rdbytes := rm.rdbytes - bytes.length }

/-- The "peer closed connection" branch of `read_bytes` (lines 337-366). -/
def read_closed (w : World) : World :=
  let peer := w.peer
  let peer1 := { peer with recv_ev_active := false, recv_event := peer.recv_event && !peer.recv_ev_active,
                           timer_ev_active := false,
                           timer_event := peer.timer_event && !peer.timer_ev_active,
                           send_ev_active := false,
                           send_event := peer.send_event && !peer.send_ev_active }
  let log1 := if peer1.recv_msg.isSome then w.log ++ [.release_recv] else w.log
  { peer := prte_oob_tcp_peer_close { peer1 with recv_msg := none },
    log := log1 ++ [.peer_close] }

/-- The function `read_bytes`.  `stream` holds the bytes that are still to
arrive from the remote side and the list gives the results of the `read` calls
to come; the result is `none` when that list is exhausted inside the loop. -/
def read_bytes : List ReadRes → World → List Byte → Option ReadOut
  | [], w, stream =>
    match w.peer.recv_msg with
    | none => some { rc := .FAULT, w := { w with log := w.log ++ [.fault] },
                     stream := stream, rest := [] }
    | some rm =>
      if rm.rdbytes = 0 then some { rc := .PRRTE_SUCCESS, w := w, stream := stream, rest := [] }
      else none
  | ev :: rest, w, stream =>
    match w.peer.recv_msg with
    | none => some { rc := .FAULT, w := { w with log := w.log ++ [.fault] },
                     stream := stream, rest := ev :: rest }
    | some rm =>
      if rm.rdbytes = 0 then
        some { rc := .PRRTE_SUCCESS, w := w, stream := stream, rest := ev :: rest }
      else
        match ev with
        | .error errno =>
          if errno = EINTR then read_bytes rest w stream
          else if errno = EAGAIN then
            some { rc := .PRRTE_ERR_RESOURCE_BUSY, w := w, stream := stream, rest := rest }
          else if errno = EWOULDBLOCK then
            some { rc := .PRRTE_ERR_WOULD_BLOCK, w := w, stream := stream, rest := rest }
          else
            some { rc := .PRRTE_ERR_COMM_FAILURE, w := w, stream := stream, rest := rest }
        | .chunk k =>
          let rc := min k (min rm.rdbytes stream.length)
          if rc = 0 then
            some { rc := .PRRTE_ERR_WOULD_BLOCK, w := read_closed w, stream := stream, rest := rest }
          else
            read_bytes rest
              { peer := { w.peer with recv_msg := some (recv_store rm (stream.take rc)) },
                log := w.log ++ [.read (stream.take rc)] }
              (stream.drop rc)

/-- A fresh `prte_oob_tcp_recv_t` as `rcv_cons` leaves it, set up to read the
header (lines 449-450). -/
def new_recv (lay : HdrLayout) : prte_oob_tcp_recv_t :=
  { hdr_mem := [],
    hdr := { origin := ⟨0, 0⟩, dst := ⟨0, 0⟩, tag := 0, seq_num := 0, nbytes := 0 },
    hdr_recvd := false, data := none, rdptr := .hdr, rdbytes := lay.size }

/-- The dispatch of a completely received message (lines 509-548). -/
def recv_dispatch (my_name : ProcId) (w : World) (rm : prte_oob_tcp_recv_t) : World :=
  let ev : Event :=
    if rm.hdr.dst = my_name then
      .post_message rm.hdr.origin rm.hdr.tag rm.hdr.seq_num rm.data rm.hdr.nbytes
    else .oob_send rm.hdr.dst rm.hdr.origin rm.hdr.tag rm.hdr.seq_num rm.data rm.hdr.nbytes
  { peer := { w.peer with recv_msg := none }, log := w.log ++ [ev, .release_recv] }

/-- The payload part of the connected case of `recv_handler` (lines 495-561). -/
def recv_payload (my_name : ProcId) (w : World) (stream : List Byte) (sock : List ReadRes) :
    Option (World × List Byte × List ReadRes) :=
  match read_bytes sock w stream with
  | none => none
  | some r =>
    if r.rc = .PRRTE_SUCCESS then
      match r.w.peer.recv_msg with
      | none => some ({ r.w with log := r.w.log ++ [.fault] }, r.stream, r.rest)
      | some rm => some (recv_dispatch my_name r.w rm, r.stream, r.rest)
    else if r.rc = .PRRTE_ERR_RESOURCE_BUSY ∨ r.rc = .PRRTE_ERR_WOULD_BLOCK then
      some (r.w, r.stream, r.rest)
    else
      some ({ peer := { r.w.peer with recv_event := false }, log := r.w.log ++ [.comm_failed] },
            r.stream, r.rest)

/-- The receive buffer once `read_bytes` has completed its header (lines 455-476):
the header is converted with `MCA_OOB_TCP_HDR_NTOH`, and unless the message has
no bytes a data region of `hdr.nbytes` bytes is allocated and the cursor is put
on it. -/
def hdr_done (lay : HdrLayout) (rm : prte_oob_tcp_recv_t) : prte_oob_tcp_recv_t :=
  if (lay.ntoh (lay.of_mem rm.hdr_mem)).nbytes = 0 then
    { rm with hdr_recvd := true, hdr := lay.ntoh (lay.of_mem rm.hdr_mem), data := none }
  else
    { rm with hdr_recvd := true, hdr := lay.ntoh (lay.of_mem rm.hdr_mem), data := some [],
              rdptr := .data, rdbytes := (lay.ntoh (lay.of_mem rm.hdr_mem)).nbytes }

/-- The function `prte_oob_tcp_recv_handler`.  `connect_ack` is the effect and
the result of `prte_oob_tcp_peer_recv_connect_ack`, which is not part of the
sources; `new_ok` tells whether `PMIX_NEW` succeeds; `stream` and `sock` are as
in `read_bytes`. -/
def prte_oob_tcp_recv_handler (lay : HdrLayout) (my_name : ProcId)
    (connect_ack : prte_oob_tcp_peer_t → Status × prte_oob_tcp_peer_t) (new_ok : Bool)
    (w : World) (stream : List Byte) (sock : List ReadRes) :
    Option (World × List Byte × List ReadRes) :=
  match w.peer.state with
  | .MCA_OOB_TCP_CONNECT_ACK =>
    let r := connect_ack w.peer
    if r.1 = .PRRTE_SUCCESS then
      let p1 := if !r.2.recv_ev_active
                then { r.2 with recv_ev_active := true, recv_event := true } else r.2
      let p2 := if p1.timer_ev_active
                then { p1 with timer_event := false, timer_ev_active := false } else p1
      let p3 := if p2.send_msg.isNone then promote_next p2 else p2
      let p4 := if p3.send_msg.isSome && !p3.send_ev_active
                then { p3 with send_ev_active := true, send_event := true } else p3
      some ({ peer := { p4 with state := .MCA_OOB_TCP_CONNECTED }, log := w.log }, stream, sock)
    else if r.1 ≠ .PRRTE_ERR_UNREACH then
      some ({ peer := { r.2 with recv_event := false }, log := w.log ++ [.comm_failed] },
            stream, sock)
    else some ({ peer := r.2, log := w.log }, stream, sock)
  | .MCA_OOB_TCP_CONNECTED =>
    if w.peer.recv_msg.isNone ∧ !new_ok then some (w, stream, sock)
    else
      let w1 : World :=
        if w.peer.recv_msg.isNone
        then { w with peer := { w.peer with recv_msg := some (new_recv lay) } } else w
      match w1.peer.recv_msg with
      | none => some (w1, stream, sock)
      | some rm0 =>
        if !rm0.hdr_recvd then
          match read_bytes sock w1 stream with
          | none => none
          | some r =>
            if r.rc = .PRRTE_SUCCESS then
              match r.w.peer.recv_msg with
              | none => some ({ r.w with log := r.w.log ++ [.fault] }, r.stream, r.rest)
              | some rm =>
                recv_payload my_name
                  { r.w with peer := { r.w.peer with recv_msg := some (hdr_done lay rm) } }
                  r.stream r.rest
            else if r.rc = .PRRTE_ERR_RESOURCE_BUSY ∨ r.rc = .PRRTE_ERR_WOULD_BLOCK then
              some (r.w, r.stream, r.rest)
            else
              some ({ peer := prte_oob_tcp_peer_close r.w.peer, log := r.w.log ++ [.peer_close] },
                    r.stream, r.rest)
        else recv_payload my_name w1 stream sock
  | _ => some (w, stream, sock)

/-! ## Closed forms the theorems compare the mappers with -/

/-- Whether a control-flow result is a `return`. -/
def Ctl.isRet : Ctl → Bool
  | .ret _ _ => true
  | _ => false

/-- The free room of a node: `max (0, slots - slots_inuse)`. -/
def room (node : prrte_node_t) : Nat := node.slots - node.slots_inuse

/-- The effect of creating `j` procs with locale `s.obj` on a node, adding the
node to the map first when `inmap` holds and `j` is positive. -/
def place_n (app : prrte_app_context_t) (inmap : Bool) (j : Nat)
    (s : Locals) (node : prrte_node_t) : Locals × prrte_node_t :=
  let jn := if inmap ∧ 0 < j then add_to_map s.jdata node else (s.jdata, node)
  ({ s with jdata := jn.1, mem := s.mem - j, nprocs_mapped := s.nprocs_mapped + j },
   { jn.2 with num_procs := jn.2.num_procs + j, slots_inuse := jn.2.slots_inuse + j,
               procs := jn.2.procs ++ List.replicate j { app_idx := app.idx, locale := s.obj } })

/-- Filling in list order: with `m` procs already placed out of `P`, each room
takes what is left up to its size. -/
def fill_counts (P : Nat) : Nat → List Nat → List Nat
  | _, [] => []
  | m, r :: rest => min r (P - m) :: fill_counts P (m + min r (P - m)) rest

/-- Round-robin shares: with `m` procs already placed out of `P`, each of `len`
places in turn takes `b` procs, one more while `k` extras remain, and never
more than what is left. -/
def rr_counts (P b : Nat) : Nat → Nat → Nat → List Nat
  | _, _, 0 => []
  | k, m, len + 1 =>
    min (b + (if 0 < k then 1 else 0)) (P - m)
      :: rr_counts P b (k - 1) (m + min (b + (if 0 < k then 1 else 0)) (P - m)) len

/-- The extra-proc bookkeeping of a by-node round stands for a base share `b`
with `k` nodes still owed one extra proc. -/
def round_state (navg : Int) (b k : Nat) (s : Locals) : Prop :=
  (s.add_one = true ∧ s.nxtra_nodes = (k : Int)
      ∧ navg + s.extra_procs_to_assign = (b : Int) + 1)
  ∨ (s.add_one = false ∧ k = 0 ∧ navg + s.extra_procs_to_assign = (b : Int))

/-- The number of target objects of a node (none without a topology). -/
def nobjs_of (target : hwloc_obj_type_t) (cache_level : Nat) (node : prrte_node_t) : Nat :=
  match node.topology with
  | some t => t.get_nbobjs_by_type target cache_level
  | none => 0

/-- The target object of index `i` of a node. -/
def obj_of (target : hwloc_obj_type_t) (cache_level : Nat) (node : prrte_node_t) (i : Nat) :
    Option hwloc_obj_t :=
  match node.topology with
  | some t => t.get_obj_by_type target cache_level i
  | none => none

/-- The procs of app `idx` that put `c_0` procs on object `i`, then `c_1` procs
on object `i + 1`, and so on, for the counts `c_0, c_1, ...`. -/
def span_procs (idx : Nat) (obj : Nat → Option hwloc_obj_t) : Nat → List Nat → List prrte_proc_t
  | _, [] => []
  | i, c :: cs =>
    List.replicate c { app_idx := idx, locale := obj i } ++ span_procs idx obj (i + 1) cs

/-- The proc arrays after a span mapping that gives the objects, taken in
round-robin order with `k` extras owed and `m` procs already placed out of `P`,
their round-robin shares of base `b`. -/
def span_expected (P b idx : Nat) (target : hwloc_obj_type_t) (cache_level : Nat) :
    Nat → Nat → List prrte_node_t → List (List prrte_proc_t)
  | _, _, [] => []
  | k, m, node :: rest =>
    (node.procs ++ span_procs idx (obj_of target cache_level node) 0
        (rr_counts P b k m (nobjs_of target cache_level node)))
      :: span_expected P b idx target cache_level (k - nobjs_of target cache_level node)
           (m + (rr_counts P b k m (nobjs_of target cache_level node)).sum) rest

/-- The span law: the proc arrays when the object number `g + i` (object `i` of
a node preceded by `g` objects on earlier nodes of the list) receives `q` procs,
and one more if its number is below `r`. -/
def span_law (idx : Nat) (target : hwloc_obj_type_t) (cache_level : Nat) (q r : Nat) :
    Nat → List prrte_node_t → List (List prrte_proc_t)
  | _, [] => []
  | g, node :: rest =>
    (node.procs ++ span_procs idx (obj_of target cache_level node) 0
        ((List.range (nobjs_of target cache_level node)).map
          (fun i => q + (if g + i < r then 1 else 0))))
      :: span_law idx target cache_level q r (g + nobjs_of target cache_level node) rest

/-- The quotient law on a list of counts: the entry number `g + i` is raised by
`q`, and by one more if its number is below `r`. -/
def share_law (q r : Nat) : Nat → List Nat → List Nat
  | _, [] => []
  | g, c :: cs => (c + q + (if g < r then 1 else 0)) :: share_law q r (g + 1) cs

/-- The binary32 quotient `(float) D / (float) N` is exact as far as the
mappers read it: its truncation is the integer quotient, and it exceeds its
truncation exactly when the division leaves a remainder. -/
def quotient_exact (D N : Nat) : Prop :=
  (F32.div (F32.ofInt (D : Int)) (F32.ofInt (N : Int))).toInt = ((D / N : Nat) : Int)
  ∧ (F32.sub_pos (F32.div (F32.ofInt (D : Int)) (F32.ofInt (N : Int)))
        (F32.ofInt ((D / N : Nat) : Int)) = true ↔ D % N ≠ 0)

/-- The mapping options have no density knob set. -/
def knobs_unset (opts : rmaps_base_t) : Prop :=
  opts.pernode = false ∧ opts.n_pernode ≤ 0 ∧ opts.n_persocket ≤ 0

/-! ## Runs of the transport and what the theorems compare them with -/

/-- The frame of a request: its header bytes followed by its payload bytes. -/
def frame (r : prte_oob_tcp_send_t) : List Byte := r.hdr_mem ++ payload_of r

/-- The request with its cursor put back on the start of the header. -/
def rewound (r : prte_oob_tcp_send_t) : prte_oob_tcp_send_t :=
  { r with hdr_sent := false, sdptr := { region := .hdr, off := 0 }, sdbytes := r.hdr_mem.length }

/-- A request as it is submitted: nothing is sent, the cursor covers the whole
header, and `hdr.nbytes` is the size of the payload buffer. -/
def fresh (r : prte_oob_tcp_send_t) : Prop :=
  r.hdr_sent = false ∧ r.sdptr = { region := .hdr, off := 0 } ∧ r.sdbytes = r.hdr_mem.length
    ∧ r.hdr_nbytes = (payload_of r).length

/-- The cursor of a request is where `send_msg` can have left it: inside the
header with the rest of the header to send, or inside the payload with the rest
of the payload to send. -/
def send_wf (r : prte_oob_tcp_send_t) : Prop :=
  r.hdr_nbytes = (payload_of r).length
    ∧ (if r.hdr_sent
       then r.sdptr.region = .data ∧ r.sdptr.off + r.sdbytes = (payload_of r).length
       else r.sdptr.region = .hdr ∧ r.sdptr.off + r.sdbytes = r.hdr_mem.length)

/-- Calling `send_msg` on a request again and again until it returns success:
the status and the accepted bytes of each call, for at most `fuel` calls and as
far as the socket results reach. -/
def send_calls : Nat → prte_oob_tcp_send_t → List WriteRes → List (Status × List Byte)
  | 0, _, _ => []
  | fuel + 1, msg, sock =>
    match send_msg msg sock with
    | none => []
    | some r =>
      (r.rc, r.written)
        :: (if r.rc = .PRRTE_SUCCESS then [] else send_calls fuel r.msg r.rest)

/-- What happens to a peer on its send side: a request is submitted
(`prte_oob_tcp_queue_msg` runs), or the socket is reported writable. -/
inductive SendOp
  | submit (snd : prte_oob_tcp_send_t)
  | writable
  deriving DecidableEq, Repr

/-- One step of a peer.  The event library calls `prte_oob_tcp_send_handler`
only while the send event is registered. -/
def send_step (cc : prte_oob_tcp_peer_t → prte_oob_tcp_peer_t) (w : World)
    (sock : List WriteRes) : SendOp → Option (World × List WriteRes)
  | .submit snd => some (prte_oob_tcp_queue_msg w snd, sock)
  | .writable => if w.peer.send_event = false then some (w, sock)
                 else prte_oob_tcp_send_handler cc w sock

/-- A sequence of steps of a peer; `none` when the socket results are exhausted
inside a call. -/
def send_run (cc : prte_oob_tcp_peer_t → prte_oob_tcp_peer_t) :
    World → List WriteRes → List SendOp → Option (World × List WriteRes)
  | w, sock, [] => some (w, sock)
  | w, sock, op :: ops =>
    match send_step cc w sock op with
    | none => none
    | some r => send_run cc r.1 r.2 ops

/-- The requests submitted by a sequence of steps, in order. -/
def submitted : List SendOp → List prte_oob_tcp_send_t
  | [] => []
  | .submit snd :: ops => snd :: submitted ops
  | .writable :: ops => submitted ops

/-- The bytes the socket accepted, in order. -/
def wire : List Event → List Byte
  | [] => []
  | .writev bytes :: log => bytes ++ wire log
  | _ :: log => wire log

/-- The requests released, in order. -/
def released : List Event → List prte_oob_tcp_send_t
  | [] => []
  | .release_snd snd :: log => snd :: released log
  | _ :: log => released log

/-- The RML messages for which `PRTE_RML_SEND_COMPLETE` ran, in order. -/
def completed : List Event → List Nat
  | [] => []
  | .send_complete m _ :: log => m :: completed log
  | _ :: log => completed log

/-- The requests a peer holds: the on-deck request, then the queue. -/
def pending (peer : prte_oob_tcp_peer_t) : List prte_oob_tcp_send_t :=
  peer.send_msg.toList ++ peer.send_queue

/-- The effect of `prte_oob_tcp_peer_complete_connect` leaves the requests of
the peer and its send event as they are. -/
def keeps_send_side (cc : prte_oob_tcp_peer_t → prte_oob_tcp_peer_t) : Prop :=
  ∀ p, (cc p).send_msg = p.send_msg ∧ (cc p).send_queue = p.send_queue
    ∧ (cc p).send_ev_active = p.send_ev_active ∧ (cc p).send_event = p.send_event

/-- The run has failed: a fault occurred or a communication failure was
reported. -/
def failed (w : World) : Prop := Event.fault ∈ w.log ∨ Event.comm_failed ∈ w.log

/-- The peer will not write any more: it is connected with the send event
deleted while `send_ev_active` still holds, so that no submission registers the
event again. -/
def dead (w : World) : Prop :=
  w.peer.send_event = false ∧ w.peer.send_ev_active = true
    ∧ w.peer.state = .MCA_OOB_TCP_CONNECTED

/-- The request has a buffer for `iov[1]`: relay data or an RML message. -/
def sendable (r : prte_oob_tcp_send_t) : Prop := r.data ≠ none ∨ r.msg ≠ none

/-- The peer faults at every send callback: it is connected and its on-deck
request has its header unsent and neither relay data nor an RML message, so that
`send_msg` dereferences `NULL` before it writes. -/
def stuck (w : World) : Prop :=
  w.peer.state = .MCA_OOB_TCP_CONNECTED
    ∧ ∃ r, w.peer.send_msg = some r ∧ r.hdr_sent = false ∧ iov1_base r = none

/-- The state of a peer that has not failed, after the requests `S` were
submitted: the send event is registered only with `send_ev_active` set; the
queue is empty when nothing is on deck; the on-deck cursor is well formed and the
queued requests are untouched; the released requests followed by the on-deck and
queued ones are the submitted requests in order; and the bytes on the wire
followed by the unsent bytes of the held requests are the frames of the
submitted requests in order. -/
def live (S : List prte_oob_tcp_send_t) (w : World) : Prop :=
  (w.peer.send_event = true → w.peer.send_ev_active = true)
  ∧ (w.peer.send_msg = none → w.peer.send_queue = [])
  ∧ (∀ r, w.peer.send_msg = some r → send_wf r)
  ∧ (∀ r ∈ w.peer.send_queue, fresh r)
  ∧ (released w.log).map rewound ++ (pending w.peer).map rewound = S
  ∧ wire w.log ++ (pending w.peer).flatMap iov_bytes = S.flatMap frame

/-- What holds of a peer after the requests `S` were submitted, failed or not. -/
def send_inv (S : List prte_oob_tcp_send_t) (w : World) : Prop :=
  wire w.log <+: S.flatMap frame
  ∧ (released w.log).map rewound <+: S
  ∧ ((released w.log).map rewound ++ (pending w.peer).map rewound).Perm S
  ∧ ((∀ r ∈ S, r.msg.isSome → r.data = none) →
      completed w.log = (released w.log).filterMap (fun r => r.msg))
  ∧ (failed w → dead w ∨ stuck w)
  ∧ (¬ failed w → live S w)

/-- Whether the event hands a received message on. -/
def is_dispatch : Event → Bool
  | .post_message _ _ _ _ _ => true
  | .oob_send _ _ _ _ _ _ => true
  | _ => false

/-- Whether the result of `read` brings bytes. -/
def is_chunk : ReadRes → Bool
  | .chunk _ => true
  | _ => false

/-- The successive `prte_oob_tcp_recv_handler` callbacks, at most `fuel` of
them, up to and including the first one that hands a message on; `none` when the
socket results are exhausted before. -/
def recv_callbacks (lay : HdrLayout) (my_name : ProcId)
    (connect_ack : prte_oob_tcp_peer_t → Status × prte_oob_tcp_peer_t) (new_ok : Bool) :
    Nat → World → List Byte → List ReadRes → Option (World × List Byte × List ReadRes)
  | 0, _, _, _ => none
  | fuel + 1, w, stream, sock =>
    match prte_oob_tcp_recv_handler lay my_name connect_ack new_ok w stream sock with
    | none => none
    | some r =>
      if r.1.log.any is_dispatch then some r
      else recv_callbacks lay my_name connect_ack new_ok fuel r.1 r.2.1 r.2.2

/-- The result of `read` either brings at least one byte or is one of `EINTR`,
`EAGAIN` and `EWOULDBLOCK`. -/
def benign : ReadRes → Bool
  | .chunk k => decide (0 < k)
  | .error errno => decide (errno = EINTR ∨ errno = EAGAIN ∨ errno = EWOULDBLOCK)

/-- The receive buffer after the first `d` bytes of a frame were read, for a
frame with the header bytes `hdr_wire` followed by the bytes `payload`: inside
the header, or inside the payload with the header converted. -/
def recv_at (lay : HdrLayout) (hdr_wire payload : List Byte) (d : Nat) : prte_oob_tcp_recv_t :=
  if d < lay.size then
    { new_recv lay with hdr_mem := hdr_wire.take d, rdbytes := lay.size - d }
  else
    { hdr_mem := hdr_wire, hdr := lay.ntoh (lay.of_mem hdr_wire), hdr_recvd := true,
      data := some (payload.take (d - lay.size)), rdptr := .data,
      rdbytes := payload.length - (d - lay.size) }

/-- Where a connected peer stands between two callbacks while the frame with
the header bytes `hdr_wire` and the payload `payload` arrives: `d` bytes of the
frame were read, in the pieces `rs`; the receive buffer is absent when nothing
was read and holds these bytes otherwise; the log lists these reads; and the rest
of the frame followed by `more` is still to arrive. -/
def receiving (lay : HdrLayout) (peer0 : prte_oob_tcp_peer_t) (hdr_wire payload more : List Byte)
    (d : Nat) (rs : List (List Byte)) (w : World) (stream : List Byte) : Prop :=
  ((d = 0 ∧ w.peer = { peer0 with recv_msg := none })
    ∨ (d < lay.size + payload.length
        ∧ w.peer = { peer0 with recv_msg := some (recv_at lay hdr_wire payload d) }))
  ∧ w.log = rs.map .read ∧ rs.flatten = (hdr_wire ++ payload).take d
  ∧ stream = (hdr_wire ++ payload).drop d ++ more

/-- The event that hands on a message with header `hdr` and payload `payload`:
to the local RML when it is for this process, and back to the OOB otherwise. -/
def dispatch_event (my_name : ProcId) (hdr : prte_oob_tcp_hdr_t) (payload : List Byte) : Event :=
  if hdr.dst = my_name then
    .post_message hdr.origin hdr.tag hdr.seq_num (if payload = [] then none else some payload)
      hdr.nbytes
  else
    .oob_send hdr.dst hdr.origin hdr.tag hdr.seq_num (if payload = [] then none else some payload)
      hdr.nbytes

/-- What one callback can do to a peer that has read `d` bytes of the frame: run
out of socket results, which takes fewer results with bytes than bytes missing;
hand the complete message on, once, and drop the receive buffer; or return with
`d1` bytes of the frame read. -/
def recv_outcome (lay : HdrLayout) (my_name : ProcId) (peer0 : prte_oob_tcp_peer_t)
    (hdr_wire payload more : List Byte) (d : Nat) (rs : List (List Byte)) (sock : List ReadRes)
    (res : Option (World × List Byte × List ReadRes)) : Prop :=
  (res = none ∧ (sock.filter is_chunk).length < lay.size + payload.length - d)
  ∨ (∃ (rs1 : List (List Byte)) (rest : List ReadRes),
      res = some ({ peer := { peer0 with recv_msg := none },
                    log := (rs ++ rs1).map .read
                      ++ [dispatch_event my_name (lay.ntoh (lay.of_mem hdr_wire)) payload,
                          .release_recv] }, more, rest)
      ∧ (rs ++ rs1).flatten = hdr_wire ++ payload)
  ∨ (∃ (d1 : Nat) (rs1 : List (List Byte)) (w1 : World) (rest : List ReadRes),
      res = some (w1, (hdr_wire ++ payload).drop d1 ++ more, rest)
      ∧ receiving lay peer0 hdr_wire payload more d1 (rs ++ rs1) w1
          ((hdr_wire ++ payload).drop d1 ++ more)
      ∧ d ≤ d1 ∧ rest.length < sock.length ∧ (∀ ev ∈ rest, ev ∈ sock)
      ∧ (sock.filter is_chunk).length ≤ (rest.filter is_chunk).length + (d1 - d))

/-- The peer predicate "`send_ev_active` implies that the peer is connected and
has an on-deck request". -/
def send_active_inv (p : prte_oob_tcp_peer_t) : Prop :=
  p.send_ev_active = true → p.state = .MCA_OOB_TCP_CONNECTED ∧ p.send_msg ≠ none

/-- The peer predicate "with no on-deck request the send queue is empty or the
peer is not connected". -/
def queue_inv (p : prte_oob_tcp_peer_t) : Prop :=
  p.send_msg = none → p.send_queue = [] ∨ p.state ≠ .MCA_OOB_TCP_CONNECTED

/-- The peer predicate "`recv_ev_active` implies that the peer waits for the
handshake or is connected". -/
def recv_active_inv (p : prte_oob_tcp_peer_t) : Prop :=
  p.recv_ev_active = true →
    p.state = .MCA_OOB_TCP_CONNECT_ACK ∨ p.state = .MCA_OOB_TCP_CONNECTED

/-- What a receive callback on a connected peer does to the fields that the
peer predicates read: it leaves the state, the requests and the flags of the
send and receive events as they are, or it closes the peer. -/
def unchanged_or_closed (p q : prte_oob_tcp_peer_t) : Prop :=
  (q.state = p.state ∧ q.send_msg = p.send_msg ∧ q.send_queue = p.send_queue
    ∧ q.send_ev_active = p.send_ev_active ∧ q.recv_ev_active = p.recv_ev_active)
  ∨ (q.state = .MCA_OOB_TCP_CLOSED ∧ q.send_msg = none ∧ q.send_queue = []
      ∧ q.send_ev_active = false ∧ q.recv_ev_active = false)

/-- Whether the read loop of `read_bytes`, entered with `need` bytes to go and
`avail` bytes still to arrive, comes to a `read` that returns zero (the remote
side closed the connection) before it returns for another reason. -/
def zero_read_at : List ReadRes → Nat → Nat → Bool
  | [], _, _ => false
  | ev :: rest, need, avail =>
    if need = 0 then false
    else
      match ev with
      | .error errno => if errno = EINTR then zero_read_at rest need avail else false
      | .chunk k =>
        if min k (min need avail) = 0 then true
        else zero_read_at rest (need - min k (min need avail)) (avail - min k (min need avail))

/-- Whether an event of the log is a `writev` that took bytes. -/
def is_writev : Event → Bool
  | .writev _ => true
  | _ => false

/-- The first pass of by-object no-span passes over the node without placing a
proc: the node has a topology and either no object of the target type or
nothing to place (`nprocs < 1`). -/
def byobj_skips (opts : rmaps_base_t) (target : hwloc_obj_type_t) (cache_level : Nat)
    (node : prrte_node_t) : Prop :=
  ∃ t, node.topology = some t
    ∧ (t.get_nbobjs_by_type target cache_level = 0
        ∨ byobj_nprocs opts t target (t.get_nbobjs_by_type target cache_level)
            ((node.slots : Int) - (node.slots_inuse : Int)) < 1)

/-! ## What one visit of a node may change -/

/-- The locale of a proc placed by a by-object mapper: an object of the target
type of the topology, wide enough for `cpus_per_rank`. -/
def locale_ok (opts : rmaps_base_t) (target : hwloc_obj_type_t) (cache_level : Nat)
    (topo : Option hwloc_topology_t) (p : prrte_proc_t) : Prop :=
  ∃ t o i, topo = some t ∧ p.locale = some o
    ∧ t.get_obj_by_type target cache_level i = some o
    ∧ opts.cpus_per_rank ≤ (t.get_npus o : Int)

/-- No condition on the procs placed. -/
def any_proc (_ : Option hwloc_topology_t) (_ : prrte_proc_t) : Prop := True

/-- What a mapper does to a node and to the job while it works on the node,
between a state with job `j` and `m` procs mapped and a later state with job
`j1` and `m1` procs mapped: it creates `m1 - m` procs on the node, each
satisfying `G`, counts them in `num_procs` and `slots_inuse`, never maps more
than `P` procs, and adds the node to the map at most once, and before it places
a proc on it. -/
structure node_step (P : Nat) (G : Option hwloc_topology_t → prrte_proc_t → Prop)
    (j : prrte_job_t) (m : Nat) (node : prrte_node_t)
    (j1 : prrte_job_t) (m1 : Nat) (node1 : prrte_node_t) : Prop where
  name_eq : node1.name = node.name
  topo_eq : node1.topology = node.topology
  slots_eq : node1.slots = node.slots
  given_eq : node1.slots_given = node.slots_given
  mono : m ≤ m1
  bounded : m ≤ P → m1 ≤ P
  placed : ∃ new, node1.procs = node.procs ++ new ∧ new.length + m = m1
    ∧ ∀ p ∈ new, G node.topology p
  num_procs_eq : node1.num_procs + m = node.num_procs + m1
  inuse_eq : node1.slots_inuse + m = node.slots_inuse + m1
  placed_mapped : m < m1 → node1.mapped = true
  map_once : (j1.nodes = j.nodes ∧ j1.num_nodes = j.num_nodes ∧ node1.mapped = node.mapped)
    ∨ (node.mapped = false ∧ node1.mapped = true ∧ j1.nodes = j.nodes ++ [node.name]
        ∧ j1.num_nodes = j.num_nodes + 1)

/-- A property of the job, the count of procs mapped and the node list that
every visit of a node keeps, wherever the node stands in the list. -/
def kept_by_steps (P : Nat) (G : Option hwloc_topology_t → prrte_proc_t → Prop)
    (Inv : prrte_job_t → Nat → List prrte_node_t → Prop) : Prop :=
  ∀ (pre post : List prrte_node_t) (node node1 : prrte_node_t) (j j1 : prrte_job_t) (m m1 : Nat),
    node_step P G j m node j1 m1 node1 →
    Inv j m (pre ++ node :: post) → Inv j1 m1 (pre ++ node1 :: post)

/-- The job map and the `MAPPED` flags agree: no node is in the map twice, the
nodes of the list have distinct names, and a node of the list is flagged exactly
when it is in the map. -/
def map_inv (jdata : prrte_job_t) (nodes : List prrte_node_t) : Prop :=
  jdata.nodes.Nodup ∧ (nodes.map (fun n => n.name)).Nodup
    ∧ ∀ n ∈ nodes, (n.mapped = true ↔ n.name ∈ jdata.nodes)

/-- The count of procs mapped is at most `P`, and the proc arrays of the nodes
hold `c0` procs plus the procs mapped. -/
def placed_inv (P c0 : Nat) (_ : prrte_job_t) (m : Nat) (l : List prrte_node_t) : Prop :=
  m ≤ P ∧ (l.map (fun n => n.procs.length)).sum = c0 + m

/-- Every node has the topology it had in `nodes0`, and the procs added to its
proc array since have a target object of the node, wide enough, as locale. -/
def locale_inv (opts : rmaps_base_t) (target : hwloc_obj_type_t) (cache_level : Nat)
    (nodes0 : List prrte_node_t) (_ : prrte_job_t) (_ : Nat) (l : List prrte_node_t) : Prop :=
  List.Forall₂
    (fun n0 n => n.topology = n0.topology
      ∧ ∃ new, n.procs = n0.procs ++ new
          ∧ ∀ p ∈ new, locale_ok opts target cache_level n0.topology p)
    nodes0 l

/-- The map and the flags agree, the map is the map of `jdata0` with nodes
appended and counted, and a node that holds more procs than in `nodes0` is
flagged. -/
def map_count_inv (jdata0 : prrte_job_t) (nodes0 : List prrte_node_t)
    (j : prrte_job_t) (_ : Nat) (l : List prrte_node_t) : Prop :=
  map_inv j l
  ∧ (∃ added, j.nodes = jdata0.nodes ++ added ∧ j.num_nodes = jdata0.num_nodes + added.length)
  ∧ List.Forall₂
      (fun n0 n => n.name = n0.name ∧ n0.procs.length ≤ n.procs.length
        ∧ (n0.procs.length < n.procs.length → n.mapped = true))
      nodes0 l

/-- What a mapper call that started from the job `jdata` and the nodes
`node_list` leaves in the map: the map and the `MAPPED` flags agree, the map is
the former map with nodes appended, `num_nodes` has grown by the number of nodes
appended, and every node that received a proc is flagged and in the map. -/
def map_ok (jdata : prrte_job_t) (node_list : List prrte_node_t) (out : Outcome) : Prop :=
  map_inv out.st.jdata out.nodes
  ∧ (∃ added, out.st.jdata.nodes = jdata.nodes ++ added
      ∧ out.st.jdata.num_nodes = jdata.num_nodes + added.length)
  ∧ List.Forall₂
      (fun n0 n => n.name = n0.name
        ∧ (n0.procs.length < n.procs.length → n.mapped = true ∧ n.name ∈ out.st.jdata.nodes))
      node_list out.nodes

/-- What a mapper call that started from the nodes `node_list` has placed: at
most `app->num_procs` procs, which are the procs added to the proc arrays of
the nodes. -/
def placed_ok (app : prrte_app_context_t) (node_list : List prrte_node_t) (out : Outcome) :
    Prop :=
  out.st.nprocs_mapped ≤ app.num_procs
  ∧ (out.nodes.map (fun n => n.procs.length)).sum
      = (node_list.map (fun n => n.procs.length)).sum + out.st.nprocs_mapped

/-- Between the node `n0` and its later state `n`: if the node was added to the
map in between, its proc array has grown; and the proc array never shrinks. -/
def appended_with_proc (n0 n : prrte_node_t) : Prop :=
  (n0.mapped = false → n.mapped = true → n0.procs.length < n.procs.length)
  ∧ n0.procs.length ≤ n.procs.length

/-! ## One visit of a node in by-object no-span -/

/-- The node `n` is the node `n0` after it received procs within its free room:
the slots are the same, `slots_inuse`, `num_procs` and the proc array grew by
the same amount, and the free room shrank by that amount. -/
def within_room (n0 n : prrte_node_t) : Prop :=
  n.slots = n0.slots
  ∧ n0.slots_inuse ≤ n.slots_inuse
  ∧ room n + n.slots_inuse = room n0 + n0.slots_inuse
  ∧ n.procs.length + n0.slots_inuse = n0.procs.length + n.slots_inuse
  ∧ n.num_procs + n0.slots_inuse = n0.num_procs + n.slots_inuse

/-- The index of the object that receives the proc number `j` of a visit that
starts at the object `start`: the objects are taken in the order
`(i + start) % nobjs`, `i = 0, 1, ...`, again and again. -/
def byobj_slot (nobjs start j : Nat) : Nat := (j % nobjs + start) % nobjs

/-- The value of `start` in a visit of by-object no-span: `num_procs % nobjs`
when the node is forced to take a proc (`nprocs < 1` on a second pass), else
`(bkmark_obj + 1) % nobjs` for a spawned job, else `0`. -/
def byobj_start (jdata : prrte_job_t) (node : prrte_node_t) (nobjs : Nat) (forced : Bool) :
    Nat :=
  if forced then node.num_procs % nobjs
  else if jdata.originator_valid then (jdata.bkmark_obj + 1) % nobjs
  else 0

/-- The procs number `first`, ..., `first + n - 1` of a visit that starts at the
object `start`. -/
def byobj_visit_procs (idx : Nat) (t : hwloc_topology_t) (target : hwloc_obj_type_t)
    (cache_level nobjs start first n : Nat) : List prrte_proc_t :=
  (List.range' first n).map
    (fun j => { app_idx := idx,
                locale := t.get_obj_by_type target cache_level (byobj_slot nobjs start j) })

/-- The object indices that receive the procs number `0`, ..., `n - 1` of a visit
that starts at the object `start`, in placement order. -/
def byobj_visit_slots (nobjs start n : Nat) : List Nat :=
  (List.range n).map (byobj_slot nobjs start)

/-- Every target object of the topology is there and has at least
`cpus_per_rank` processing units. -/
def objs_wide (opts : rmaps_base_t) (t : hwloc_topology_t) (target : hwloc_obj_type_t)
    (cache_level : Nat) : Prop :=
  ∀ i, i < t.get_nbobjs_by_type target cache_level →
    ∃ o, t.get_obj_by_type target cache_level i = some o
      ∧ opts.cpus_per_rank ≤ (t.get_npus o : Int)

/-! ## Concrete inputs used to evaluate the embedding -/

/-- A topology with two packages of four processing units each (objects `10`
and `11`) and no object of any other type. -/
def ex_topo : hwloc_topology_t :=
  { root_obj := 100,
    get_nbobjs_by_type := fun ty _ => if ty = .HWLOC_OBJ_PACKAGE then 2 else 0,
    get_obj_by_type := fun ty _ i => if ty = .HWLOC_OBJ_PACKAGE ∧ i < 2 then some (10 + i) else none,
    get_npus := fun _ => 4 }

/-- An empty node called `name` with `slots` slots, with or without a topology. -/
def ex_node (name slots : Nat) (topo : Bool) : prrte_node_t :=
  { name := name, slots := slots, slots_inuse := 0, num_procs := 0,
    topology := if topo then some ex_topo else none,
    mapped := false, oversubscribed := false, slots_given := false, procs := [] }

/-- A job with an empty map and the given mapping directive. -/
def ex_job (no_oversubscribe subscribe_given span : Bool) : prrte_job_t :=
  { nodes := [], num_nodes := 0,
    mapping := { no_oversubscribe := no_oversubscribe, subscribe_given := subscribe_given,
                 span := span },
    oversubscribed := false, bookmark := none, bkmark_obj := 0, originator_valid := false }

/-- The mapping options with no density knob set and one cpu per rank. -/
def no_knobs : rmaps_base_t :=
  { pernode := false, n_pernode := 0, n_persocket := 0, cpus_per_rank := 1 }

/-- The outcome reported when a run has none (the fuel ran out). -/
def no_outcome : Outcome :=
  { rc := .FAULT, st := init_locals (ex_job false false false) 0, nodes := [] }

/-- The by-node run of the spec: four empty nodes of eight slots, ten procs. -/
def ex_bynode_out : Outcome :=
  (prrte_rmaps_rr_bynode 10 no_knobs (ex_job false false false) { idx := 0, num_procs := 10 }
    [ex_node 0 8 false, ex_node 1 8 false, ex_node 2 8 false, ex_node 3 8 false] 32 100).getD
    no_outcome

/-- A submitted request for the RML message `m` with the given header bytes and
buffer. -/
def ex_snd (m : Nat) (hdr payload : List Byte) : prte_oob_tcp_send_t :=
  { hdr_mem := hdr, hdr_nbytes := payload.length, msg := some m, dbuf := payload, data := none,
    hdr_sent := false, sdptr := { region := .hdr, off := 0 }, sdbytes := hdr.length,
    activate := true }

/-- A connected peer with nothing to send or receive and only the receive event
registered. -/
def ex_peer : prte_oob_tcp_peer_t :=
  { name := ⟨1, 1⟩, sd := 5, state := .MCA_OOB_TCP_CONNECTED, send_msg := none, send_queue := [],
    recv_msg := none, send_ev_active := false, recv_ev_active := true, timer_ev_active := false,
    send_event := false, recv_event := true, timer_event := false }

/-- The effect of `prte_oob_tcp_peer_complete_connect` when the connection is
made: the peer waits for the handshake. -/
def ex_cc (p : prte_oob_tcp_peer_t) : prte_oob_tcp_peer_t :=
  { p with state := .MCA_OOB_TCP_CONNECT_ACK }

/-- A header of four bytes: destination, origin, tag and payload size. -/
def ex_lay : HdrLayout :=
  { size := 4,
    of_mem := fun b => { origin := ⟨0, b.getD 1 0⟩, dst := ⟨0, b.getD 0 0⟩, tag := b.getD 2 0,
                         seq_num := 0, nbytes := b.getD 3 0 },
    ntoh := fun h => h }

/-- Two requests are submitted and the socket is reported writable three times. -/
def ex_ops : List SendOp :=
  [.submit (ex_snd 1 [1, 2] [3, 4]), .submit (ex_snd 2 [5, 6] [7]), .writable, .writable,
   .writable]

/-- A socket that accepts three bytes and then whatever it is offered. -/
def ex_sock : List WriteRes := [.accept 3, .accept 100, .accept 100]

/-- The peer and the log after `ex_ops` on `ex_peer` with the socket `ex_sock`. -/
def ex_sent : World × List WriteRes :=
  (send_run ex_cc { peer := ex_peer, log := [] } ex_sock ex_ops).getD
    ({ peer := ex_peer, log := [] }, [])

/-- A connected peer with a request on deck, another one queued, and the send
event active and registered. -/
def ex_peer_sending : prte_oob_tcp_peer_t :=
  { ex_peer with send_msg := some (ex_snd 1 [1, 2] [3]), send_queue := [ex_snd 2 [5, 6] [7]],
                 send_ev_active := true, send_event := true }

/-- A peer that waits for the handshake, with the receive event active. -/
def ex_peer_ack : prte_oob_tcp_peer_t :=
  { ex_peer with state := .MCA_OOB_TCP_CONNECT_ACK }

/-- A handshake that succeeds and leaves the peer as it is. -/
def ex_ack (p : prte_oob_tcp_peer_t) : Status × prte_oob_tcp_peer_t := (.PRRTE_SUCCESS, p)

/-- A connected peer whose receive buffer holds the converted header of a
message of two bytes for the process `(0, 8)` and waits for the payload. -/
def ex_peer_recv : prte_oob_tcp_peer_t :=
  { ex_peer with
    recv_msg := some { hdr_mem := [8, 3, 9, 2],
                       hdr := { origin := ⟨0, 3⟩, dst := ⟨0, 8⟩, tag := 9, seq_num := 0,
                                nbytes := 2 },
                       hdr_recvd := true, data := some [], rdptr := .data, rdbytes := 2 } }

/-- A handshake routine that fails with the status `rc` and leaves the peer as
it is. -/
def ex_ack_fail (rc : Status) (p : prte_oob_tcp_peer_t) : Status × prte_oob_tcp_peer_t :=
  (rc, p)

/-- A relay request: it owns the buffer `payload` and has no RML message. -/
def ex_relay (hdr payload : List Byte) : prte_oob_tcp_send_t :=
  { hdr_mem := hdr, hdr_nbytes := payload.length, msg := none, dbuf := [], data := some payload,
    hdr_sent := false, sdptr := { region := .hdr, off := 0 }, sdbytes := hdr.length,
    activate := true }

/-- A topology with two cores of one processing unit each (objects `20` and
`21`) and no object of any other type, in particular no package. -/
def ex_topo_cores : hwloc_topology_t :=
  { root_obj := 100,
    get_nbobjs_by_type := fun ty _ => if ty = .HWLOC_OBJ_CORE then 2 else 0,
    get_obj_by_type := fun ty _ i => if ty = .HWLOC_OBJ_CORE ∧ i < 2 then some (20 + i) else none,
    get_npus := fun _ => 1 }

/-- A node of four slots whose topology has no package, as a by-node round
leaves it. -/
def ex_stuck_nodes : List prrte_node_t :=
  [{ ex_node 0 4 false with topology := some ex_topo_cores, mapped := true }]

/-- The locals of a by-node call for one proc after a round over `ex_stuck_nodes` that
placed nothing. -/
def ex_stuck_state : Locals :=
  { jdata := { ex_job false false false with nodes := [0], num_nodes := 1 },
    nprocs_mapped := 0, obj := some 100, mem := 100, extra_procs_to_assign := 0,
    nxtra_nodes := 0, add_one := false, nnodes := 1 }

/-- A topology with two packages, the first (object `10`) of four processing
units and the second (object `11`) of one. -/
def ex_topo_uneven : hwloc_topology_t :=
  { root_obj := 100,
    get_nbobjs_by_type := fun ty _ => if ty = .HWLOC_OBJ_PACKAGE then 2 else 0,
    get_obj_by_type := fun ty _ i => if ty = .HWLOC_OBJ_PACKAGE ∧ i < 2 then some (10 + i) else none,
    get_npus := fun o => if o = 10 then 4 else 1 }

/-- A spawned job with an empty map: the originator is valid and the parent
left off at the object of index `0`. -/
def ex_spawn_job : prrte_job_t :=
  { ex_job false false false with originator_valid := true, bkmark_obj := 0 }

/-- A node of two slots with two packages, full after a first pass of
by-object mapping of `ex_spawn_job` that started at the object of index `1`. -/
def ex_forced_node : prrte_node_t :=
  { ex_node 0 2 true with
    slots_inuse := 2, num_procs := 2, mapped := true,
    procs := [{ app_idx := 0, locale := some 11 }, { app_idx := 0, locale := some 10 }] }

/-- The locals at the start of the second pass of by-object mapping of three
procs of `ex_spawn_job` on `ex_forced_node`. -/
def ex_forced_state : Locals :=
  { init_locals { ex_spawn_job with nodes := [0], num_nodes := 1 } 98 with
    nprocs_mapped := 2, obj := some 10 }

end Prrte

namespace Prrte

/-! ## The permission gate and two evaluations of the mappers -/

/-- C1: by-object span mapping with `pernode` set, one node with two packages
and ten procs to map returns `PRRTE_SUCCESS` after placing two procs only. -/
theorem byobj_span_pernode_returns_ok_short :
    (let o := byobj_span { no_knobs with pernode := true } (ex_job false false true)
                { idx := 0, num_procs := 10 } [ex_node 0 8 true] 16 .HWLOC_OBJ_PACKAGE 0 100
     (o.rc, o.st.nprocs_mapped, o.nodes.map (fun n => n.num_procs)))
      = (.PRRTE_SUCCESS, 2, [2]) := by
  decide

/-- C2: by-slot mapping with `n_pernode = 5`, one node of two slots and five
procs returns `PRRTE_SUCCESS` with five procs on the node and neither the node
nor the job flagged as oversubscribed. -/
theorem byslot_npernode_oversubscribes_unflagged :
    (let o := prrte_rmaps_rr_byslot { no_knobs with n_pernode := 5 } (ex_job false false false)
                { idx := 0, num_procs := 5 } [ex_node 0 2 false] 2 100
     (o.rc, o.nodes.map (fun n => (n.slots, n.num_procs, n.oversubscribed)),
      o.st.jdata.oversubscribed))
      = (.PRRTE_SUCCESS, [(2, 5, false)], false) := by
  decide

/-- C3: when the mapping directive has `NO_OVERSUBSCRIBE` and `num_slots` is below
`app->num_procs`, each of the four mappers returns `PRRTE_ERR_SILENT` and leaves
the job (map, flags), every node of the list and the allocation budget as they
were: nothing is mapped and no proc is created. -/
theorem gate_silent_no_mutation (fuel : Nat) (opts : rmaps_base_t) (jdata : prrte_job_t)
    (app : prrte_app_context_t) (node_list : List prrte_node_t) (num_slots : Int)
    (target : hwloc_obj_type_t) (cache_level mem : Nat)
    (hno : jdata.mapping.no_oversubscribe = true)
    (hlt : num_slots < (app.num_procs : Int)) :
    prrte_rmaps_rr_byslot opts jdata app node_list num_slots mem
        = { rc := .PRRTE_ERR_SILENT, st := init_locals jdata mem, nodes := node_list }
    ∧ prrte_rmaps_rr_bynode fuel opts jdata app node_list num_slots mem
        = some { rc := .PRRTE_ERR_SILENT, st := init_locals jdata mem, nodes := node_list }
    ∧ prrte_rmaps_rr_byobj fuel opts jdata app node_list num_slots target cache_level mem
        = some { rc := .PRRTE_ERR_SILENT, st := init_locals jdata mem, nodes := node_list }
    ∧ byobj_span opts jdata app node_list num_slots target cache_level mem
        = { rc := .PRRTE_ERR_SILENT, st := init_locals jdata mem, nodes := node_list }
    ∧ (init_locals jdata mem).jdata = jdata
    ∧ (init_locals jdata mem).nprocs_mapped = 0
    ∧ (init_locals jdata mem).mem = mem := by
  have hg : gate jdata app num_slots = true := by
    simp [gate, hno, hlt]
  refine ⟨?_, ?_, ?_, ?_, rfl, rfl, rfl⟩
  · simp [prrte_rmaps_rr_byslot, hg]
  · simp [prrte_rmaps_rr_bynode, hg]
  · by_cases hs : jdata.mapping.span = true
    · simp [prrte_rmaps_rr_byobj, hs, byobj_span, hg]
    · simp [prrte_rmaps_rr_byobj, hs, hg]
  · simp [byobj_span, hg]

/-- C3 at a concrete input: three nodes of four slots, fifteen procs, twelve
slots and `NO_OVERSUBSCRIBE`. -/
theorem gate_silent_no_mutation_witness :
    (ex_job true false false).mapping.no_oversubscribe = true
    ∧ (12 : Int) < ((15 : Nat) : Int)
    ∧ prrte_rmaps_rr_byslot no_knobs (ex_job true false false) { idx := 0, num_procs := 15 }
        [ex_node 0 4 true, ex_node 1 4 true, ex_node 2 4 true] 12 100
      = { rc := .PRRTE_ERR_SILENT, st := init_locals (ex_job true false false) 100,
          nodes := [ex_node 0 4 true, ex_node 1 4 true, ex_node 2 4 true] } :=
  ⟨rfl, by decide,
   (gate_silent_no_mutation 10 no_knobs (ex_job true false false) { idx := 0, num_procs := 15 }
     [ex_node 0 4 true, ex_node 1 4 true, ex_node 2 4 true] 12 .HWLOC_OBJ_PACKAGE 0 100
     rfl (by decide)).1⟩

end Prrte

namespace Prrte

/-! ## Shared lemmas on the mapper loops -/

lemma add_to_map_of_mapped (jdata : prrte_job_t) (node : prrte_node_t)
    (h : node.mapped = true) : add_to_map jdata node = (jdata, node) := by
  simp [add_to_map, h]

lemma add_to_map_mapped (jdata : prrte_job_t) (node : prrte_node_t) :
    (add_to_map jdata node).2.mapped = true := by
  unfold add_to_map
  split <;> simp_all

lemma place_n_zero (app : prrte_app_context_t) (inmap : Bool) (s : Locals)
    (node : prrte_node_t) : place_n app inmap 0 s node = (s, node) := by
  simp [place_n]

/-- The placement loop either fails on an allocation or places exactly
`min k (P - nprocs_mapped)` procs. -/
lemma place_loop_spec (app : prrte_app_context_t) (inmap : Bool) :
    ∀ (k : Nat) (s : Locals) (node : prrte_node_t),
      (min k (app.num_procs - s.nprocs_mapped) ≤ s.mem →
        place_loop app inmap k s node
          = (.next (place_n app inmap (min k (app.num_procs - s.nprocs_mapped)) s node).1,
             (place_n app inmap (min k (app.num_procs - s.nprocs_mapped)) s node).2))
      ∧ (s.mem < min k (app.num_procs - s.nprocs_mapped) →
          ∃ s1 node1, place_loop app inmap k s node
            = (.ret .PRRTE_ERR_OUT_OF_RESOURCE s1, node1)) := by
  intro k
  induction k with
  | zero =>
    intro s node
    constructor
    · intro _
      simp [place_loop, place_n]
    · intro h
      simp at h
  | succ k ih =>
    intro s node
    by_cases hlt : s.nprocs_mapped < app.num_procs
    · have hmin : min (k + 1) (app.num_procs - s.nprocs_mapped)
          = min k (app.num_procs - (s.nprocs_mapped + 1)) + 1 := by omega
      cases hmem : s.mem with
      | zero =>
        constructor
        · intro h
          omega
        · intro _
          simp [place_loop, hlt, prrte_rmaps_base_setup_proc, hmem]
      | succ m =>
        obtain ⟨ih1, ih2⟩ := ih
          { s with jdata := (if inmap then add_to_map s.jdata node else (s.jdata, node)).1,
                   mem := m, nprocs_mapped := s.nprocs_mapped + 1 }
          (store_proc
            { (if inmap then add_to_map s.jdata node else (s.jdata, node)).2 with
                num_procs := (if inmap then add_to_map s.jdata node else (s.jdata, node)).2.num_procs + 1,
                slots_inuse := (if inmap then add_to_map s.jdata node else (s.jdata, node)).2.slots_inuse + 1 }
            (prrte_set_attribute { app_idx := app.idx, locale := none } s.obj))
        constructor
        · intro h
          have h' : min k (app.num_procs - (s.nprocs_mapped + 1)) ≤ m := by omega
          have e1 := ih1 h'
          simp only [place_loop, hlt, if_true, prrte_rmaps_base_setup_proc, hmem]
          rw [e1, hmin]
          cases inmap with
          | false =>
            simp [place_n, store_proc, prrte_set_attribute, List.replicate_succ]
            omega
          | true =>
            have hm := add_to_map_mapped s.jdata node
            simp [place_n, store_proc, prrte_set_attribute, List.replicate_succ,
              add_to_map_of_mapped, hm]
            omega
        · intro h
          have h' : m < min k (app.num_procs - (s.nprocs_mapped + 1)) := by omega
          obtain ⟨s1, node1, e2⟩ := ih2 h'
          refine ⟨s1, node1, ?_⟩
          simp only [place_loop, hlt, if_true, prrte_rmaps_base_setup_proc, hmem]
          exact e2
    · have hmin : min (k + 1) (app.num_procs - s.nprocs_mapped) = 0 := by omega
      constructor
      · intro _
        rw [hmin]
        simp [place_loop, hlt, place_n]
      · intro h
        omega

end Prrte

namespace Prrte

/-! ## By-slot: the first pass fills the nodes in list order -/

@[simp] lemma root_obj_of_nprocs_mapped (s : Locals) (node : prrte_node_t) :
    (root_obj_of s node).nprocs_mapped = s.nprocs_mapped := by
  unfold root_obj_of; split <;> rfl

@[simp] lemma root_obj_of_mem (s : Locals) (node : prrte_node_t) :
    (root_obj_of s node).mem = s.mem := by
  unfold root_obj_of; split <;> rfl

@[simp] lemma root_obj_of_jdata (s : Locals) (node : prrte_node_t) :
    (root_obj_of s node).jdata = s.jdata := by
  unfold root_obj_of; split <;> rfl

@[simp] lemma root_obj_of_extra (s : Locals) (node : prrte_node_t) :
    (root_obj_of s node).extra_procs_to_assign = s.extra_procs_to_assign := by
  unfold root_obj_of; split <;> rfl

@[simp] lemma root_obj_of_nxtra (s : Locals) (node : prrte_node_t) :
    (root_obj_of s node).nxtra_nodes = s.nxtra_nodes := by
  unfold root_obj_of; split <;> rfl

@[simp] lemma root_obj_of_add_one (s : Locals) (node : prrte_node_t) :
    (root_obj_of s node).add_one = s.add_one := by
  unfold root_obj_of; split <;> rfl

@[simp] lemma root_obj_of_nnodes (s : Locals) (node : prrte_node_t) :
    (root_obj_of s node).nnodes = s.nnodes := by
  unfold root_obj_of; split <;> rfl

@[simp] lemma add_to_map_oversubscribed (jdata : prrte_job_t) (node : prrte_node_t) :
    (add_to_map jdata node).1.oversubscribed = jdata.oversubscribed := by
  unfold add_to_map; split <;> rfl

@[simp] lemma add_to_map_node_fields (jdata : prrte_job_t) (node : prrte_node_t) :
    (add_to_map jdata node).2.num_procs = node.num_procs
    ∧ (add_to_map jdata node).2.slots = node.slots
    ∧ (add_to_map jdata node).2.slots_inuse = node.slots_inuse
    ∧ (add_to_map jdata node).2.oversubscribed = node.oversubscribed
    ∧ (add_to_map jdata node).2.slots_given = node.slots_given
    ∧ (add_to_map jdata node).2.procs = node.procs
    ∧ (add_to_map jdata node).2.topology = node.topology
    ∧ (add_to_map jdata node).2.name = node.name := by
  unfold add_to_map; split <;> simp

lemma place_n_fields (app : prrte_app_context_t) (inmap : Bool) (j : Nat) (s : Locals)
    (node : prrte_node_t) :
    (place_n app inmap j s node).1.nprocs_mapped = s.nprocs_mapped + j
    ∧ (place_n app inmap j s node).1.mem = s.mem - j
    ∧ (place_n app inmap j s node).1.jdata.oversubscribed = s.jdata.oversubscribed
    ∧ (place_n app inmap j s node).2.num_procs = node.num_procs + j
    ∧ (place_n app inmap j s node).2.oversubscribed = node.oversubscribed := by
  unfold place_n
  by_cases h : inmap = true ∧ 0 < j
  · simp [h, (add_to_map_node_fields s.jdata node).1, (add_to_map_node_fields s.jdata node).2.2.2.1]
  · simp [h]

/-- With no density knob set the first pass gives a node with free room a
placement loop of exactly its room. -/
lemma byslot_pass1_body_unset (opts : rmaps_base_t) (app : prrte_app_context_t)
    (hk : knobs_unset opts) (s : Locals) (node : prrte_node_t) :
    byslot_pass1_body opts app s node
      = if node.slots ≤ node.slots_inuse then (.next (root_obj_of s node), node)
        else place_loop app true (room node) (root_obj_of s node) node := by
  obtain ⟨h1, h2, h3⟩ := hk
  unfold byslot_pass1_body byslot_num_to_assign
  by_cases hfull : node.slots ≤ node.slots_inuse
  · simp [hfull]
  · have e : ((node.slots : Int) - (node.slots_inuse : Int)).toNat = room node := by
      unfold room; omega
    simp [hfull, h1, not_lt.mpr h2, not_lt.mpr h3, e]

lemma fill_counts_sum (P : Nat) : ∀ (rooms : List Nat) (m : Nat),
    (fill_counts P m rooms).sum = min (P - m) rooms.sum := by
  intro rooms
  induction rooms with
  | nil => intro m; simp [fill_counts]
  | cons r rest ih =>
    intro m
    simp only [fill_counts, List.sum_cons, ih]
    omega

lemma fill_counts_length (P : Nat) : ∀ (rooms : List Nat) (m : Nat),
    (fill_counts P m rooms).length = rooms.length := by
  intro rooms
  induction rooms with
  | nil => intro m; simp [fill_counts]
  | cons r rest ih => intro m; simp [fill_counts, ih]

lemma fill_counts_getD (P : Nat) : ∀ (rooms : List Nat) (m i : Nat),
    (fill_counts P m rooms).getD i 0 = min (rooms.getD i 0) (P - m - (rooms.take i).sum) := by
  intro rooms
  induction rooms with
  | nil => intro m i; simp [fill_counts]
  | cons r rest ih =>
    intro m i
    cases i with
    | zero => simp [fill_counts]
    | succ i =>
      simp only [fill_counts, List.getD_cons_succ, ih, List.take_succ_cons, List.sum_cons]
      omega

lemma getD_zipWith_add : ∀ (a b : List Nat) (i : Nat), a.length = b.length →
    (List.zipWith (· + ·) a b).getD i 0 = a.getD i 0 + b.getD i 0 := by
  intro a
  induction a with
  | nil => intro b i h; cases b <;> simp_all
  | cons x xs ih =>
    intro b i h
    cases b with
    | nil => simp at h
    | cons y ys =>
      cases i with
      | zero => simp
      | succ i =>
        simp only [List.zipWith_cons_cons, List.getD_cons_succ]
        exact ih ys i (by simpa using h)

/-- The first pass of by-slot, with no density knob set and enough allocations
left: it never breaks or returns, and it fills the nodes in list order. -/
lemma byslot_pass1_spec (opts : rmaps_base_t) (app : prrte_app_context_t)
    (hk : knobs_unset opts) :
    ∀ (nodes : List prrte_node_t) (s : Locals),
      app.num_procs - s.nprocs_mapped ≤ s.mem →
      ∃ s1, (foreachNode (byslot_pass1_body opts app) s nodes).1 = .next s1
        ∧ s1.nprocs_mapped
            = s.nprocs_mapped + (fill_counts app.num_procs s.nprocs_mapped (nodes.map room)).sum
        ∧ s1.jdata.oversubscribed = s.jdata.oversubscribed
        ∧ (foreachNode (byslot_pass1_body opts app) s nodes).2.map (fun n => n.num_procs)
            = List.zipWith (· + ·) (nodes.map (fun n => n.num_procs))
                (fill_counts app.num_procs s.nprocs_mapped (nodes.map room))
        ∧ (foreachNode (byslot_pass1_body opts app) s nodes).2.map (fun n => n.oversubscribed)
            = nodes.map (fun n => n.oversubscribed) := by
  intro nodes
  induction nodes with
  | nil =>
    intro s _
    exact ⟨s, by simp [foreachNode, fill_counts]⟩
  | cons node rest ih =>
    intro s hmem
    rw [foreachNode, byslot_pass1_body_unset opts app hk]
    by_cases hfull : node.slots ≤ node.slots_inuse
    · have hr : room node = 0 := by unfold room; omega
      obtain ⟨s1, e1, e2, e3, e4, e5⟩ := ih (root_obj_of s node) (by simpa using hmem)
      simp only [hfull, if_true]
      refine ⟨s1, ?_, ?_, ?_, ?_, ?_⟩
      · simpa using e1
      · simpa [fill_counts, hr] using e2
      · simpa using e3
      · simpa [fill_counts, hr] using e4
      · simpa using e5
    · simp only [hfull, if_false]
      have hj : min (room node) (app.num_procs - (root_obj_of s node).nprocs_mapped)
          ≤ (root_obj_of s node).mem := by
        simp only [root_obj_of_nprocs_mapped, root_obj_of_mem]; omega
      rw [(place_loop_spec app true (room node) (root_obj_of s node) node).1 hj]
      obtain ⟨f1, f2, f3, f4, f5⟩ := place_n_fields app true
        (min (room node) (app.num_procs - (root_obj_of s node).nprocs_mapped))
        (root_obj_of s node) node
      simp only [root_obj_of_nprocs_mapped, root_obj_of_mem, root_obj_of_jdata] at f1 f2 f3 f4 f5
      obtain ⟨s1, e1, e2, e3, e4, e5⟩ := ih
        (place_n app true (min (room node) (app.num_procs - (root_obj_of s node).nprocs_mapped))
          (root_obj_of s node) node).1
        (by simp only [root_obj_of_nprocs_mapped] at f1 f2 ⊢; rw [f1, f2]; omega)
      simp only [root_obj_of_nprocs_mapped] at e1 e2 e3 e4 e5 ⊢
      rw [f1] at e2 e4
      refine ⟨s1, ?_, ?_, ?_, ?_, ?_⟩
      · simpa using e1
      · rw [e2]; simp only [List.map_cons, fill_counts, List.sum_cons]; omega
      · rw [e3, f3]
      · simp only [List.map_cons, fill_counts, List.zipWith_cons_cons, e4, f4]
      · simp only [List.map_cons, e5, f5]

end Prrte

namespace Prrte

/-- C10 (as stated, refuted): a node list with free room for the single proc to
map, no density knob set, but `num_slots = 0` passed together with
`NO_OVERSUBSCRIBE`: by-slot returns `PRRTE_ERR_SILENT`, not `PRRTE_SUCCESS`. -/
theorem byslot_room_but_gate_closed :
    knobs_unset no_knobs
    ∧ 1 ≤ ([ex_node 0 4 false].map room).sum
    ∧ (prrte_rmaps_rr_byslot no_knobs (ex_job true false false) { idx := 0, num_procs := 1 }
        [ex_node 0 4 false] 0 100).rc = .PRRTE_ERR_SILENT := by
  refine ⟨?_, ?_, ?_⟩
  · simp [knobs_unset, no_knobs]
  · decide
  · decide

/-- C10 (amended): by-slot mapping with no density knob set, the gate open
(`num_slots ≥ app->num_procs` or `NO_OVERSUBSCRIBE` clear), free room of the node
list at least `P = app->num_procs` and `P` allocations available returns
`PRRTE_SUCCESS`; node `i` of the list receives
`min (room_i, max (0, P - sum of room_j for j < i))` procs, and no
`OVERSUBSCRIBED` flag (of a node or of the job) changes. -/
theorem byslot_fills_in_list_order (opts : rmaps_base_t) (jdata : prrte_job_t)
    (app : prrte_app_context_t) (node_list : List prrte_node_t) (num_slots : Int) (mem : Nat)
    (hk : knobs_unset opts)
    (hgate : ¬ (num_slots < (app.num_procs : Int) ∧ jdata.mapping.no_oversubscribe = true))
    (hroom : app.num_procs ≤ (node_list.map room).sum)
    (hmem : app.num_procs ≤ mem) :
    (prrte_rmaps_rr_byslot opts jdata app node_list num_slots mem).rc = .PRRTE_SUCCESS
    ∧ (prrte_rmaps_rr_byslot opts jdata app node_list num_slots mem).nodes.length
        = node_list.length
    ∧ (∀ i, i < node_list.length →
        ((prrte_rmaps_rr_byslot opts jdata app node_list num_slots mem).nodes.map
            (fun n => n.num_procs)).getD i 0
          = (node_list.map (fun n => n.num_procs)).getD i 0
            + min ((node_list.map room).getD i 0)
                (app.num_procs - ((node_list.map room).take i).sum))
    ∧ (prrte_rmaps_rr_byslot opts jdata app node_list num_slots mem).nodes.map
          (fun n => n.oversubscribed) = node_list.map (fun n => n.oversubscribed)
    ∧ (prrte_rmaps_rr_byslot opts jdata app node_list num_slots mem).st.jdata.oversubscribed
        = jdata.oversubscribed := by
  have hg : gate jdata app num_slots = false := by
    unfold gate
    by_cases h1 : num_slots < (app.num_procs : Int)
    · have h2 : jdata.mapping.no_oversubscribe = false := by
        cases h : jdata.mapping.no_oversubscribe
        · rfl
        · exact absurd ⟨h1, h⟩ hgate
      simp [h2]
    · simp [h1]
  obtain ⟨s1, e1, e2, e3, e4, e5⟩ := byslot_pass1_spec opts app hk node_list
    (init_locals jdata mem) (by simp [init_locals]; omega)
  have hdone : s1.nprocs_mapped = app.num_procs := by
    rw [e2, fill_counts_sum]
    simp [init_locals]
    omega
  have hout : prrte_rmaps_rr_byslot opts jdata app node_list num_slots mem
      = { rc := .PRRTE_SUCCESS, st := s1,
          nodes := (foreachNode (byslot_pass1_body opts app) (init_locals jdata mem)
                      node_list).2 } := by
    unfold prrte_rmaps_rr_byslot
    rw [hg]
    simp only [Bool.false_eq_true, if_false]
    generalize hr : foreachNode (byslot_pass1_body opts app) (init_locals jdata mem) node_list = r
      at e1
    obtain ⟨c, nodes1⟩ := r
    simp only at e1
    subst e1
    simp [Ctl.st, hdone]
  rw [hout]
  have hlen : ((foreachNode (byslot_pass1_body opts app) (init_locals jdata mem)
      node_list).2).length = node_list.length := by
    have := congrArg List.length e5
    simpa using this
  refine ⟨rfl, hlen, ?_, e5, ?_⟩
  · intro i _
    simp only
    rw [e4, getD_zipWith_add _ _ i (by simp [fill_counts_length]), fill_counts_getD]
    simp [init_locals]
  · simpa [init_locals] using e3

/-- C10 (amended) at the scenario of the spec: three nodes of four slots, ten
procs, twelve slots: `PRRTE_SUCCESS`. -/
theorem byslot_fills_in_list_order_witness :
    knobs_unset no_knobs
    ∧ (prrte_rmaps_rr_byslot no_knobs (ex_job true false false) { idx := 0, num_procs := 10 }
        [ex_node 0 4 false, ex_node 1 4 false, ex_node 2 4 false] 12 10).rc = .PRRTE_SUCCESS :=
  ⟨by simp [knobs_unset, no_knobs],
   (byslot_fills_in_list_order no_knobs (ex_job true false false) { idx := 0, num_procs := 10 }
      [ex_node 0 4 false, ex_node 1 4 false, ex_node 2 4 false] 12 10
      (by simp [knobs_unset, no_knobs]) (by decide) (by decide) (by decide)).1⟩

end Prrte

namespace Prrte

/-! ## Binary32 quotients of small integers -/

lemma ilog2Aux_mono : ∀ (f a b : Nat), a ≤ b → ilog2Aux f a ≤ ilog2Aux f b := by
  intro f
  induction f with
  | zero => intro a b _; simp [ilog2Aux]
  | succ f ih =>
    intro a b hab
    unfold ilog2Aux
    by_cases ha : a < 2
    · simp [ha]
    · have hb : ¬ b < 2 := by omega
      simp only [ha, hb, if_false]
      have := ih (a / 2) (b / 2) (Nat.div_le_div_right hab)
      omega

lemma ilog2_mono (a b : Nat) (h : a ≤ b) : ilog2 a ≤ ilog2 b :=
  ilog2Aux_mono 128 a b h

lemma rne_bounds (q r d : Nat) : q ≤ rne q r d ∧ rne q r d ≤ q + 1 := by
  unfold rne
  split <;> omega

lemma two_pow_ge_of_le (K : Nat) (h : 24 ≤ K) : 16777216 ≤ 2 ^ K := by
  have : (2 : Nat) ^ 24 ≤ 2 ^ K := Nat.pow_le_pow_right (by norm_num) h
  norm_num at this
  exact this

/-- The rounded quotient of `0 < x < y < 2 ^ 24` is `M * 2 ^ (-K)` with
`1 ≤ M < 2 ^ K`: a value strictly between zero and one. -/
lemma f32_round_lt_one (x y : Nat) (hx : 0 < x) (hxy : x < y) (hy : y < 16777216) :
    ∃ M K : Nat, f32_round x y = (M, -(K : Int)) ∧ 24 ≤ K ∧ 1 ≤ M ∧ M < 2 ^ K := by
  have hd : (ilog2 x : Int) - (ilog2 y : Int) ≤ 0 := by
    have := ilog2_mono x y (le_of_lt hxy)
    omega
  have key : ∀ K : Nat, 24 ≤ K →
      1 ≤ rne (x * 2 ^ K / y) (x * 2 ^ K % y) y ∧ rne (x * 2 ^ K / y) (x * 2 ^ K % y) y < 2 ^ K := by
    intro K hK
    have hp := two_pow_ge_of_le K hK
    obtain ⟨b1, b2⟩ := rne_bounds (x * 2 ^ K / y) (x * 2 ^ K % y) y
    have hy0 : 0 < y := by omega
    have q1 : 1 ≤ x * 2 ^ K / y := by
      rw [Nat.le_div_iff_mul_le hy0]
      have : 1 * 2 ^ K ≤ x * 2 ^ K := Nat.mul_le_mul_right _ hx
      omega
    have q2 : x * 2 ^ K / y < 2 ^ K - 1 := by
      rw [Nat.div_lt_iff_lt_mul hy0]
      have h1 : x * 2 ^ K ≤ (y - 1) * 2 ^ K := Nat.mul_le_mul_right _ (by omega)
      have h2 : (y - 1) * 2 ^ K + 2 ^ K = y * 2 ^ K := by
        have : y - 1 + 1 = y := by omega
        calc (y - 1) * 2 ^ K + 2 ^ K = (y - 1 + 1) * 2 ^ K := by ring
          _ = y * 2 ^ K := by rw [this]
      have h3 : (2 ^ K - 1) * y + y = y * 2 ^ K := by
        have : 2 ^ K - 1 + 1 = 2 ^ K := by omega
        calc (2 ^ K - 1) * y + y = (2 ^ K - 1 + 1) * y := by ring
          _ = 2 ^ K * y := by rw [this]
          _ = y * 2 ^ K := by ring
      omega
    omega
  unfold f32_round
  have hx0 : x ≠ 0 := by omega
  simp only [hx0, if_false]
  by_cases h0 : (0 : Int) ≤ (ilog2 x : Int) - (ilog2 y : Int)
  · have hz : (ilog2 x : Int) - (ilog2 y : Int) = 0 := by omega
    have hge : ¬ (y * 2 ^ 0 ≤ x) := by simp; omega
    refine ⟨rne (x * 2 ^ 24 / y) (x * 2 ^ 24 % y) y, 24, ?_, le_refl _, key 24 (le_refl _)⟩
    have hyx : ¬ (y ≤ x) := by omega
    simp [hz, hyx]
  · by_cases hge : y ≤ x * 2 ^ (-((ilog2 x : Int) - (ilog2 y : Int))).toNat
    · have ht : ¬ (0 : Int) ≤ (ilog2 x : Int) - (ilog2 y : Int) - 23 := by omega
      refine ⟨_, (-((ilog2 x : Int) - (ilog2 y : Int) - 23)).toNat, ?_, by omega,
        key _ (by omega)⟩
      simp only [h0, hge, if_false, decide_True, if_true, ht]
      congr 1
      omega
    · have ht : ¬ (0 : Int) ≤ (ilog2 x : Int) - (ilog2 y : Int) - 1 - 23 := by omega
      refine ⟨_, (-((ilog2 x : Int) - (ilog2 y : Int) - 1 - 23)).toNat, ?_, by omega,
        key _ (by omega)⟩
      simp only [h0, hge, if_false, decide_False, ht, Bool.false_eq_true]
      congr 1
      omega

lemma f32_ofInt_zero : F32.ofInt 0 = { neg := false, m := 0, e := 0 } := by
  simp [F32.ofInt]

lemma f32_ofInt_nat (x : Nat) (h : x < 16777216) :
    F32.ofInt (x : Int) = { neg := false, m := x, e := 0 } := by
  unfold F32.ofInt
  have : ¬ ((x : Int) < 0) := by omega
  simp [h, this]

lemma f32_ofInt_neg (x : Nat) (h0 : 0 < x) (h : x < 16777216) :
    F32.ofInt (-(x : Int)) = { neg := true, m := x, e := 0 } := by
  unfold F32.ofInt
  have h1 : (-(x : Int)).natAbs = x := by omega
  have h2 : (-(x : Int)) < 0 := by omega
  simp [h1, h, h2]

/-- A quotient of magnitude below one truncates to zero, and it is positive
exactly when the numerator is. -/
lemma f32_div_lt_one (x y : Nat) (sgn : Bool) (hxy : x < y) (hy : y < 16777216) :
    (F32.div { neg := sgn, m := x, e := 0 } { neg := false, m := y, e := 0 }).toInt = 0
    ∧ F32.sub_pos (F32.div { neg := sgn, m := x, e := 0 } { neg := false, m := y, e := 0 })
        (F32.ofInt 0) = (!sgn && decide (0 < x)) := by
  have hy0 : y ≠ 0 := by omega
  by_cases hx : x = 0
  · subst hx
    cases sgn <;>
      simp [F32.div, hy0, f32_round, F32.toInt, F32.sub_pos, F32.lt, F32.scaled, f32_ofInt_zero]
  · obtain ⟨M, K, e, hK, hM1, hM2⟩ := f32_round_lt_one x y (by omega) hxy hy
    have hdiv : F32.div { neg := sgn, m := x, e := 0 } { neg := false, m := y, e := 0 }
        = { neg := sgn, m := M, e := -(K : Int) } := by
      simp [F32.div, hy0, e]
    rw [hdiv]
    have hKneg : ¬ (0 : Int) ≤ -(K : Int) := by omega
    have hz : M / 2 ^ K = 0 := Nat.div_eq_of_lt hM2
    constructor
    · cases sgn <;> simp [F32.toInt, hKneg, hz]
    · have hmax : max (-(0 : Int)) (- -(K : Int)) = (K : Int) := by
        rw [neg_neg, neg_zero]; exact max_eq_right (by omega)
      cases sgn
      · simp [F32.sub_pos, F32.lt, F32.scaled, f32_ofInt_zero, hmax]
        omega
      · simp [F32.sub_pos, F32.lt, F32.scaled, f32_ofInt_zero, hmax]

/-- The quotient `(-y) / y` is exactly `-1`. -/
lemma f32_div_neg_self (y : Nat) (hy0 : 0 < y) (hy : y < 16777216) :
    (F32.div { neg := true, m := y, e := 0 } { neg := false, m := y, e := 0 }).toInt = -1
    ∧ F32.sub_pos (F32.div { neg := true, m := y, e := 0 } { neg := false, m := y, e := 0 })
        (F32.ofInt (-1)) = false := by
  have hne : y ≠ 0 := by omega
  have hr : f32_round y y = (8388608, -23) := by
    unfold f32_round
    have h1 : y * 8388608 / y = 8388608 := Nat.mul_div_cancel_left _ hy0
    have h2 : y * 8388608 % y = 0 := Nat.mul_mod_right _ _
    simp [hne, rne, h1, h2]
  have hdiv : F32.div { neg := true, m := y, e := 0 } { neg := false, m := y, e := 0 }
      = { neg := true, m := 8388608, e := -23 } := by
    simp [F32.div, hne, hr]
  rw [hdiv]
  constructor
  · decide
  · decide

end Prrte

namespace Prrte

/-! ## By-node: one balanced round -/

lemma oversub_check_fields (perm : Bool) (s : Locals) (node : prrte_node_t) :
    (oversub_check perm s node).2.1.nprocs_mapped = s.nprocs_mapped
    ∧ (oversub_check perm s node).2.1.mem = s.mem
    ∧ (oversub_check perm s node).2.1.add_one = s.add_one
    ∧ (oversub_check perm s node).2.1.extra_procs_to_assign = s.extra_procs_to_assign
    ∧ (oversub_check perm s node).2.1.nxtra_nodes = s.nxtra_nodes
    ∧ (oversub_check perm s node).2.1.nnodes = s.nnodes
    ∧ (oversub_check perm s node).2.2.num_procs = node.num_procs
    ∧ (oversub_check perm s node).2.2.slots = node.slots
    ∧ (oversub_check perm s node).2.2.slots_inuse = node.slots_inuse := by
  unfold oversub_check
  dsimp only
  split_ifs <;> simp

/-- When it does not return, the shared tail places `min n (P - nprocs_mapped)`
procs on the node and breaks exactly when every proc is mapped. -/
lemma place_and_check_spec (app : prrte_app_context_t) (n : Int) (s : Locals)
    (node : prrte_node_t) (hnr : (place_and_check app n s node).1.isRet = false) :
    ∃ s1 node1,
      place_and_check app n s node
        = (if s.nprocs_mapped + min n.toNat (app.num_procs - s.nprocs_mapped) = app.num_procs
           then .brk s1 else .next s1, node1)
      ∧ s1.nprocs_mapped = s.nprocs_mapped + min n.toNat (app.num_procs - s.nprocs_mapped)
      ∧ s1.mem = s.mem - min n.toNat (app.num_procs - s.nprocs_mapped)
      ∧ s1.add_one = s.add_one
      ∧ s1.extra_procs_to_assign = s.extra_procs_to_assign
      ∧ s1.nxtra_nodes = s.nxtra_nodes
      ∧ s1.nnodes = s.nnodes
      ∧ node1.num_procs = node.num_procs + min n.toNat (app.num_procs - s.nprocs_mapped)
      ∧ node1.slots = node.slots
      ∧ min n.toNat (app.num_procs - s.nprocs_mapped) ≤ s.mem := by
  by_cases hmem : min n.toNat (app.num_procs - s.nprocs_mapped) ≤ s.mem
  · have e := (place_loop_spec app false n.toNat s node).1 hmem
    obtain ⟨o1, o2, o3, o4, o5, o6, o7, o8, o9⟩ := oversub_check_fields true
      (place_n app false (min n.toNat (app.num_procs - s.nprocs_mapped)) s node).1
      (place_n app false (min n.toNat (app.num_procs - s.nprocs_mapped)) s node).2
    unfold place_and_check at hnr ⊢
    rw [e] at hnr ⊢
    simp only [Ctl.st] at hnr ⊢
    generalize hoc : oversub_check true
      (place_n app false (min n.toNat (app.num_procs - s.nprocs_mapped)) s node).1
      (place_n app false (min n.toNat (app.num_procs - s.nprocs_mapped)) s node).2 = oc
      at hnr o1 o2 o3 o4 o5 o6 o7 o8 o9 ⊢
    obtain ⟨orc, s2, node2⟩ := oc
    simp only at o1 o2 o3 o4 o5 o6 o7 o8 o9
    cases orc with
    | some rc => simp [Ctl.isRet] at hnr
    | none =>
      refine ⟨s2, node2, ?_, ?_, ?_, ?_, ?_, ?_, ?_, ?_, ?_, hmem⟩
      · simp only [o1]
        simp only [place_n]
        split <;> rfl
      · rw [o1]; simp [place_n]
      · rw [o2]; simp [place_n]
      · rw [o3]; simp [place_n]
      · rw [o4]; simp [place_n]
      · rw [o5]; simp [place_n]
      · rw [o6]; simp [place_n]
      · rw [o7]; simp [place_n]
      · rw [o8]; simp [place_n]
  · obtain ⟨s1, node1, e⟩ := (place_loop_spec app false n.toNat s node).2 (by omega)
    unfold place_and_check at hnr
    rw [e] at hnr
    simp [Ctl.isRet] at hnr

end Prrte

namespace Prrte

lemma take_extra_fields (s : Locals) :
    (take_extra s).nprocs_mapped = s.nprocs_mapped
    ∧ (take_extra s).mem = s.mem
    ∧ (take_extra s).nnodes = s.nnodes
    ∧ (take_extra s).jdata = s.jdata
    ∧ (take_extra s).obj = s.obj := by
  unfold take_extra
  split_ifs <;> simp

/-- One step of the extra-proc bookkeeping: the share of the node is
`b + 1` while an extra is owed and `b` afterwards. -/
lemma take_extra_round_state (navg : Int) (b k : Nat) (s : Locals)
    (h : round_state navg b k s) :
    navg + (take_extra s).extra_procs_to_assign = ((b + (if 0 < k then 1 else 0) : Nat) : Int)
    ∧ round_state navg b (k - 1) (take_extra s) := by
  unfold take_extra
  rcases h with ⟨h1, h2, h3⟩ | ⟨h1, h2, h3⟩
  · by_cases hk : k = 0
    · subst hk
      have hz : s.nxtra_nodes = 0 := by simpa using h2
      simp only [h1, hz, if_true]
      refine ⟨?_, Or.inr ⟨rfl, rfl, ?_⟩⟩
      · simp; omega
      · simp; omega
    · have hz : ¬ s.nxtra_nodes = 0 := by omega
      have hk0 : 0 < k := by omega
      simp only [h1, hz, if_true, if_false, hk0]
      refine ⟨?_, Or.inl ⟨rfl, ?_, h3⟩⟩
      · push_cast; omega
      · show s.nxtra_nodes - 1 = ((k - 1 : Nat) : Int)
        omega
  · subst h2
    simp only [h1, Bool.false_eq_true, if_false]
    refine ⟨?_, Or.inr ⟨h1, rfl, h3⟩⟩
    simp [h3]

/-- The body of a by-node round on a node with free room, no density knob set
and no oversubscription: the share is capped by the room of the node. -/
lemma bynode_round_body_unset (opts : rmaps_base_t) (app : prrte_app_context_t)
    (hk : knobs_unset opts) (navg : Int) (s : Locals) (node : prrte_node_t)
    (hroom : node.slots_inuse < node.slots) :
    bynode_round_body opts app false navg s node
      = place_and_check app
          (if (room node : Int)
                < navg + (take_extra { root_obj_of s node with
                            jdata := (add_to_map s.jdata node).1 }).extra_procs_to_assign
           then (room node : Int)
           else navg + (take_extra { root_obj_of s node with
                            jdata := (add_to_map s.jdata node).1 }).extra_procs_to_assign)
          { take_extra { root_obj_of s node with jdata := (add_to_map s.jdata node).1 } with
              nnodes := (take_extra { root_obj_of s node with
                            jdata := (add_to_map s.jdata node).1 }).nnodes + 1 }
          (add_to_map s.jdata node).2 := by
  obtain ⟨h1, h2, h3⟩ := hk
  obtain ⟨a1, a2, a3, -⟩ := add_to_map_node_fields s.jdata node
  have hfull : ¬ (add_to_map s.jdata node).2.slots ≤ (add_to_map s.jdata node).2.slots_inuse := by
    rw [a2, a3]; omega
  have hr : ((add_to_map s.jdata node).2.slots : Int) - ((add_to_map s.jdata node).2.slots_inuse : Int)
      = (room node : Int) := by
    rw [a2, a3]; unfold room; omega
  have hr0 : ¬ ((room node : Int) = 0) := by unfold room; omega
  unfold bynode_round_body bynode_assign
  simp only [h1, not_lt.mpr h2, not_lt.mpr h3, root_obj_of_jdata, hfull, hr, hr0,
    Bool.false_eq_true, if_false]
  split <;> rfl

/-- One node of a balanced round: when the body does not return it places the
share of the node, capped by the procs still to map. -/
lemma bynode_round_body_spec (opts : rmaps_base_t) (app : prrte_app_context_t)
    (hk : knobs_unset opts) (navg : Int) (b k : Nat) (s : Locals) (node : prrte_node_t)
    (hroom : node.slots_inuse < node.slots)
    (hg : round_state navg b k s)
    (hshare : b + (if 0 < k then 1 else 0) ≤ room node)
    (hnr : (bynode_round_body opts app false navg s node).1.isRet = false) :
    ∃ s1 node1,
      bynode_round_body opts app false navg s node
        = (if s.nprocs_mapped
                + min (b + (if 0 < k then 1 else 0)) (app.num_procs - s.nprocs_mapped)
              = app.num_procs
           then .brk s1 else .next s1, node1)
      ∧ s1.nprocs_mapped
          = s.nprocs_mapped + min (b + (if 0 < k then 1 else 0)) (app.num_procs - s.nprocs_mapped)
      ∧ round_state navg b (k - 1) s1
      ∧ node1.num_procs
          = node.num_procs + min (b + (if 0 < k then 1 else 0)) (app.num_procs - s.nprocs_mapped)
      ∧ node1.slots = node.slots := by
  rw [bynode_round_body_unset opts app hk navg s node hroom] at hnr ⊢
  have hg2 : round_state navg b k
      { root_obj_of s node with jdata := (add_to_map s.jdata node).1 } := by
    unfold round_state at hg ⊢
    simpa using hg
  obtain ⟨t1, t2⟩ := take_extra_round_state navg b k _ hg2
  obtain ⟨f1, f2, f3, f4, f5⟩ := take_extra_fields
    { root_obj_of s node with jdata := (add_to_map s.jdata node).1 }
  have f1 : (take_extra { root_obj_of s node with
      jdata := (add_to_map s.jdata node).1 }).nprocs_mapped = s.nprocs_mapped := by
    rw [f1]; simp
  have hn : (if (room node : Int)
                < navg + (take_extra { root_obj_of s node with
                            jdata := (add_to_map s.jdata node).1 }).extra_procs_to_assign
           then (room node : Int)
           else navg + (take_extra { root_obj_of s node with
                            jdata := (add_to_map s.jdata node).1 }).extra_procs_to_assign)
      = ((b + (if 0 < k then 1 else 0) : Nat) : Int) := by
    rw [t1]
    have : ¬ ((room node : Int) < ((b + (if 0 < k then 1 else 0) : Nat) : Int)) := by
      have := hshare
      omega
    simp only [this, if_false]
  rw [hn] at hnr ⊢
  generalize take_extra { root_obj_of s node with jdata := (add_to_map s.jdata node).1 } = T
    at t1 t2 f1 hnr ⊢
  obtain ⟨s1, node1, e, p1, p2, p3, p4, p5, p6, p7, p8, p9⟩ :=
    place_and_check_spec app _ _ _ hnr
  simp only [Int.toNat_ofNat, f1] at p1 p7
  obtain ⟨a1, a2, a3, -⟩ := add_to_map_node_fields s.jdata node
  refine ⟨s1, node1, ?_, p1, ?_, ?_, ?_⟩
  · rw [e]
    simp only [Int.toNat_ofNat, f1]
  · unfold round_state at t2 ⊢
    rw [p3, p4, p5]
    simpa using t2
  · rw [p7, a1]
  · rw [p8, a2]

end Prrte

namespace Prrte

/-! ## Generic facts on the node loop -/

lemma foreachNode_cons_isRet (body : Locals → prrte_node_t → Ctl × prrte_node_t)
    (s : Locals) (node : prrte_node_t) (rest : List prrte_node_t)
    (h : (foreachNode body s (node :: rest)).1.isRet = false) :
    (body s node).1.isRet = false := by
  unfold foreachNode at h
  rcases hb : body s node with ⟨c, n1⟩
  rw [hb] at h
  cases c <;> simp_all [Ctl.isRet]

lemma foreachNode_length (body : Locals → prrte_node_t → Ctl × prrte_node_t) :
    ∀ (nodes : List prrte_node_t) (s : Locals),
      (foreachNode body s nodes).2.length = nodes.length := by
  intro nodes
  induction nodes with
  | nil => intro s; simp [foreachNode]
  | cons node rest ih =>
    intro s
    unfold foreachNode
    rcases hb : body s node with ⟨c, n1⟩
    cases c <;> simp [ih]

lemma foreachNode_ret_ne_success (body : Locals → prrte_node_t → Ctl × prrte_node_t)
    (hbody : ∀ s node rc s1 node1, body s node = (.ret rc s1, node1) → rc ≠ .PRRTE_SUCCESS) :
    ∀ (nodes : List prrte_node_t) (s : Locals) rc s1 nodes1,
      foreachNode body s nodes = (.ret rc s1, nodes1) → rc ≠ .PRRTE_SUCCESS := by
  intro nodes
  induction nodes with
  | nil => intro s rc s1 nodes1 h; simp [foreachNode] at h
  | cons node rest ih =>
    intro s rc s1 nodes1 h
    unfold foreachNode at h
    rcases hb : body s node with ⟨c, n1⟩
    rw [hb] at h
    cases c with
    | next s2 =>
      simp only at h
      rcases hr : foreachNode body s2 rest with ⟨c2, r2⟩
      rw [hr] at h
      simp only [Prod.mk.injEq] at h
      obtain ⟨h1, -⟩ := h
      subst h1
      exact ih s2 rc s1 r2 hr
    | brk s2 => simp at h
    | ret rc2 s2 =>
      simp only [Prod.mk.injEq, Ctl.ret.injEq] at h
      obtain ⟨⟨h1, -⟩, -⟩ := h
      subst h1
      exact hbody s node rc2 s2 n1 hb

lemma place_loop_ret (app : prrte_app_context_t) (inmap : Bool) (k : Nat) (s : Locals)
    (node : prrte_node_t) (rc : Status) (s1 : Locals) (node1 : prrte_node_t)
    (h : place_loop app inmap k s node = (.ret rc s1, node1)) :
    rc = .PRRTE_ERR_OUT_OF_RESOURCE := by
  by_cases hmem : min k (app.num_procs - s.nprocs_mapped) ≤ s.mem
  · rw [(place_loop_spec app inmap k s node).1 hmem] at h
    simp at h
  · obtain ⟨s2, node2, e⟩ := (place_loop_spec app inmap k s node).2 (by omega)
    rw [e] at h
    simp only [Prod.mk.injEq, Ctl.ret.injEq] at h
    exact h.1.1.symm

lemma oversub_check_rc (perm : Bool) (s : Locals) (node : prrte_node_t) (rc : Status)
    (h : (oversub_check perm s node).1 = some rc) : rc = .PRRTE_ERR_SILENT := by
  unfold oversub_check at h
  dsimp only at h
  split_ifs at h <;> simp_all

lemma place_and_check_ret (app : prrte_app_context_t) (n : Int) (s : Locals)
    (node : prrte_node_t) (rc : Status) (s1 : Locals) (node1 : prrte_node_t)
    (h : place_and_check app n s node = (.ret rc s1, node1)) : rc ≠ .PRRTE_SUCCESS := by
  unfold place_and_check at h
  rcases hp : place_loop app false n.toNat s node with ⟨c, n1⟩
  rw [hp] at h
  cases c with
  | ret rc2 s2 =>
    have := place_loop_ret app false n.toNat s node rc2 s2 n1 hp
    simp only [Prod.mk.injEq, Ctl.ret.injEq] at h
    obtain ⟨⟨h1, -⟩, -⟩ := h
    subst h1
    rw [this]
    decide
  | next s2 =>
    simp only [Ctl.st] at h
    rcases ho : oversub_check true s2 n1 with ⟨orc, s3, n3⟩
    rw [ho] at h
    cases orc with
    | some rc3 =>
      have := oversub_check_rc true s2 n1 rc3 (by rw [ho])
      simp only [Prod.mk.injEq, Ctl.ret.injEq] at h
      obtain ⟨⟨h1, -⟩, -⟩ := h
      subst h1
      rw [this]
      decide
    | none =>
      simp only at h
      split_ifs at h <;> simp at h
  | brk s2 =>
    simp only [Ctl.st] at h
    rcases ho : oversub_check true s2 n1 with ⟨orc, s3, n3⟩
    rw [ho] at h
    cases orc with
    | some rc3 =>
      have := oversub_check_rc true s2 n1 rc3 (by rw [ho])
      simp only [Prod.mk.injEq, Ctl.ret.injEq] at h
      obtain ⟨⟨h1, -⟩, -⟩ := h
      subst h1
      rw [this]
      decide
    | none =>
      simp only at h
      split_ifs at h <;> simp at h

lemma bynode_round_body_ret (opts : rmaps_base_t) (app : prrte_app_context_t)
    (ov : Bool) (navg : Int) (s : Locals) (node : prrte_node_t) (rc : Status) (s1 : Locals)
    (node1 : prrte_node_t)
    (h : bynode_round_body opts app ov navg s node = (.ret rc s1, node1)) :
    rc ≠ .PRRTE_SUCCESS := by
  unfold bynode_round_body bynode_assign at h
  dsimp only at h
  split_ifs at h
  all_goals first
    | exact place_and_check_ret _ _ _ _ _ _ _ h
    | (split at h
       · simp only [Prod.mk.injEq, Ctl.ret.injEq] at h
         obtain ⟨⟨h1, -⟩, -⟩ := h
         subst h1
         decide
       · exact place_and_check_ret _ _ _ _ _ _ _ h)
    | (simp at h)

/-! ## Arithmetic of the round-robin shares -/

lemma rr_counts_length (P b : Nat) : ∀ (len k m : Nat), (rr_counts P b k m len).length = len := by
  intro len
  induction len with
  | zero => intro k m; simp [rr_counts]
  | succ len ih => intro k m; simp [rr_counts, ih]

lemma rr_counts_done (P b : Nat) : ∀ (len k m : Nat), P ≤ m →
    rr_counts P b k m len = List.replicate len 0 := by
  intro len
  induction len with
  | zero => intro k m _; simp [rr_counts]
  | succ len ih =>
    intro k m h
    have h0 : P - m = 0 := by omega
    simp only [rr_counts, h0, Nat.min_zero, Nat.add_zero, List.replicate_succ]
    rw [ih (k - 1) m h]

lemma zipWith_add_replicate_zero : ∀ (l : List Nat),
    List.zipWith (· + ·) l (List.replicate l.length 0) = l := by
  intro l
  induction l with
  | nil => simp
  | cons x xs ih => simp [List.replicate_succ, ih]

lemma zipWith_add_zeros : ∀ (l c : List Nat), (∀ x ∈ l, x = 0) → l.length = c.length →
    List.zipWith (· + ·) l c = c := by
  intro l
  induction l with
  | nil => intro c _ h; cases c <;> simp_all
  | cons x xs ih =>
    intro c hz h
    cases c with
    | nil => simp at h
    | cons y ys =>
      have hx : x = 0 := hz x (by simp)
      subst hx
      simp only [List.zipWith_cons_cons, Nat.zero_add]
      rw [ih ys (fun z hz' => hz z (by simp [hz'])) (by simpa using h)]

/-- When the shares add up exactly to what is left, every place gets its full
share: `b` or `b + 1`. -/
lemma rr_counts_exact (P b : Nat) : ∀ (len k m : Nat), m + b * len + min k len = P →
    (∀ x ∈ rr_counts P b k m len, b ≤ x ∧ x ≤ b + 1) ∧ (rr_counts P b k m len).sum = P - m := by
  intro len
  induction len with
  | zero =>
    intro k m h
    simp [rr_counts]
    omega
  | succ len ih =>
    intro k m h
    rw [Nat.mul_succ] at h
    have hsh : min (b + (if 0 < k then 1 else 0)) (P - m) = b + (if 0 < k then 1 else 0) := by
      split_ifs <;> omega
    have hnext : (m + (b + (if 0 < k then 1 else 0))) + b * len + min (k - 1) len = P := by
      split_ifs <;> omega
    obtain ⟨i1, i2⟩ := ih (k - 1) (m + (b + (if 0 < k then 1 else 0))) hnext
    simp only [rr_counts, hsh]
    constructor
    · intro x hx
      rcases List.mem_cons.mp hx with hx | hx
      · subst hx
        split_ifs <;> omega
      · exact i1 x hx
    · rw [List.sum_cons, i2]
      split_ifs <;> omega

/-- With a base share of at most one and no extra, every place gets at most
one proc; with base share one and enough places everything is placed. -/
lemma rr_counts_small (P b : Nat) (hb : b ≤ 1) : ∀ (len m : Nat),
    (∀ x ∈ rr_counts P b 0 m len, x ≤ 1)
    ∧ (b = 1 → P - m ≤ len → (rr_counts P b 0 m len).sum = P - m) := by
  intro len
  induction len with
  | zero =>
    intro m
    simp [rr_counts]
    omega
  | succ len ih =>
    intro m
    obtain ⟨i1, i2⟩ := ih (m + min (b + 0) (P - m))
    simp only [rr_counts, lt_self_iff_false, if_false, Nat.zero_sub]
    constructor
    · intro x hx
      rcases List.mem_cons.mp hx with hx | hx
      · subst hx
        omega
      · exact i1 x hx
    · intro hb1 hlen
      rw [List.sum_cons, i2 hb1 (by omega)]
      omega

end Prrte

namespace Prrte

/-! ## By-node: the first round on nodes with room for their share -/

/-- A balanced round over nodes that all have room for their share: when the
loop does not return, node `i` gets the `i`-th round-robin share. -/
lemma bynode_round_spec (opts : rmaps_base_t) (app : prrte_app_context_t)
    (hk : knobs_unset opts) (navg : Int) (b : Nat) :
    ∀ (nodes : List prrte_node_t) (s : Locals) (k : Nat),
      round_state navg b k s →
      (∀ n ∈ nodes, n.slots_inuse < n.slots ∧ b + (if 0 < k then 1 else 0) ≤ room n) →
      (foreachNode (bynode_round_body opts app false navg) s nodes).1.isRet = false →
      (foreachNode (bynode_round_body opts app false navg) s nodes).2.map (fun n => n.num_procs)
          = List.zipWith (· + ·) (nodes.map (fun n => n.num_procs))
              (rr_counts app.num_procs b k s.nprocs_mapped nodes.length)
      ∧ (foreachNode (bynode_round_body opts app false navg) s nodes).1.st.nprocs_mapped
          = s.nprocs_mapped + (rr_counts app.num_procs b k s.nprocs_mapped nodes.length).sum := by
  intro nodes
  induction nodes with
  | nil =>
    intro s k _ _ _
    simp [foreachNode, rr_counts, Ctl.st]
  | cons node rest ih =>
    intro s k hg hrooms hnr
    have hb := foreachNode_cons_isRet _ s node rest hnr
    obtain ⟨hroom, hshare⟩ := hrooms node (by simp)
    obtain ⟨s1, node1, e, p1, p2, p3, -⟩ :=
      bynode_round_body_spec opts app hk navg b k s node hroom hg hshare hb
    by_cases hdone : s.nprocs_mapped
        + min (b + (if 0 < k then 1 else 0)) (app.num_procs - s.nprocs_mapped) = app.num_procs
    · rw [if_pos hdone] at e
      have hz := rr_counts_done app.num_procs b rest.length (k - 1)
        (s.nprocs_mapped + min (b + (if 0 < k then 1 else 0)) (app.num_procs - s.nprocs_mapped))
        (by omega)
      unfold foreachNode
      rw [e]
      simp only [List.map_cons, List.length_cons, rr_counts, List.zipWith_cons_cons, hz,
        List.sum_cons, List.sum_replicate, smul_zero, Nat.add_zero, Ctl.st, p1, p3]
      constructor
      · have := zipWith_add_replicate_zero (rest.map (fun n => n.num_procs))
        simp only [List.length_map] at this
        rw [this]
      · trivial
    · rw [if_neg hdone] at e
      have hrest : ∀ n ∈ rest, n.slots_inuse < n.slots
          ∧ b + (if 0 < k - 1 then 1 else 0) ≤ room n := by
        intro n hn
        obtain ⟨q1, q2⟩ := hrooms n (by simp [hn])
        refine ⟨q1, ?_⟩
        split_ifs at q2 ⊢ <;> omega
      have hnr2 : (foreachNode (bynode_round_body opts app false navg) s1 rest).1.isRet
          = false := by
        unfold foreachNode at hnr
        rw [e] at hnr
        simpa using hnr
      obtain ⟨i1, i2⟩ := ih s1 (k - 1) p2 hrest hnr2
      unfold foreachNode
      rw [e]
      simp only [List.map_cons, List.length_cons, rr_counts, List.zipWith_cons_cons,
        List.sum_cons, i1, i2, p1, p3]
      constructor
      · trivial
      · omega

/-- A round over nodes without free room, with no density knob set and no
oversubscription, skips every node. -/
lemma bynode_round_all_full (opts : rmaps_base_t) (app : prrte_app_context_t)
    (hk : knobs_unset opts) (navg : Int) :
    ∀ (nodes : List prrte_node_t) (s : Locals),
      (∀ n ∈ nodes, n.slots ≤ n.slots_inuse) →
      ∃ s1, (foreachNode (bynode_round_body opts app false navg) s nodes).1 = .next s1
        ∧ s1.nprocs_mapped = s.nprocs_mapped
        ∧ (foreachNode (bynode_round_body opts app false navg) s nodes).2.map
              (fun n => n.num_procs) = nodes.map (fun n => n.num_procs) := by
  intro nodes
  induction nodes with
  | nil => intro s _; exact ⟨s, by simp [foreachNode]⟩
  | cons node rest ih =>
    intro s hfull
    obtain ⟨h1, h2, h3⟩ := hk
    obtain ⟨a1, a2, a3, -⟩ := add_to_map_node_fields s.jdata node
    have hf : (add_to_map s.jdata node).2.slots ≤ (add_to_map s.jdata node).2.slots_inuse := by
      rw [a2, a3]; exact hfull node (by simp)
    have e : bynode_round_body opts app false navg s node
        = (.next { root_obj_of s node with jdata := (add_to_map s.jdata node).1 },
           (add_to_map s.jdata node).2) := by
      unfold bynode_round_body
      simp only [h1, not_lt.mpr h2, not_lt.mpr h3, root_obj_of_jdata, hf,
        Bool.false_eq_true, if_false, if_true]
    obtain ⟨s1, i1, i2, i3⟩ := ih { root_obj_of s node with jdata := (add_to_map s.jdata node).1 }
      (fun n hn => hfull n (by simp [hn]))
    unfold foreachNode
    rw [e]
    refine ⟨s1, i1, ?_, ?_⟩
    · rw [i2]; simp
    · simp only [List.map_cons, i3, a1]

/-- The head of a by-node round when the counts fit the 24-bit mantissa of a
binary32: `navg` is the quotient (at least one) and the remainder is handed out
one proc at a time. -/
lemma bynode_balance_spec (app : prrte_app_context_t) (s : Locals)
    (hN : 0 < s.nnodes) (hN24 : s.nnodes < 16777216)
    (hm : s.nprocs_mapped ≤ app.num_procs)
    (hrem : app.num_procs - s.nprocs_mapped < 16777216) :
    ∃ (b k : Nat),
      round_state (bynode_balance app s).1 b k { (bynode_balance app s).2 with nnodes := 0 }
      ∧ (bynode_balance app s).2.nprocs_mapped = s.nprocs_mapped
      ∧ ((s.nnodes ≤ app.num_procs - s.nprocs_mapped
            ∧ b = (app.num_procs - s.nprocs_mapped) / s.nnodes
            ∧ k = (app.num_procs - s.nprocs_mapped) % s.nnodes)
          ∨ (0 < app.num_procs - s.nprocs_mapped ∧ app.num_procs - s.nprocs_mapped < s.nnodes
              ∧ b = 1 ∧ k = 0)
          ∨ (app.num_procs - s.nprocs_mapped = 0 ∧ b = 0 ∧ k = 0)) := by
  obtain ⟨R, hR⟩ : ∃ R : Nat, R = app.num_procs - s.nprocs_mapped := ⟨_, rfl⟩
  have hRi : (app.num_procs : Int) - (s.nprocs_mapped : Int) = (R : Int) := by omega
  have htd : Int.tdiv (R : Int) (s.nnodes : Int) = ((R / s.nnodes : Nat) : Int) := by
    rw [Int.tdiv_eq_ediv (by omega) (by omega)]
    norm_cast
  rw [← hR] at hrem ⊢
  have hNf := f32_ofInt_nat s.nnodes hN24
  unfold bynode_balance
  simp only [hRi, htd]
  rcases Nat.lt_or_ge R s.nnodes with hlt | hge
  · have hq : R / s.nnodes = 0 := Nat.div_eq_of_lt hlt
    simp only [hq, Nat.cast_zero, if_true, one_mul]
    by_cases hR0 : R = 0
    · subst hR0
      have hnum : ((0 : Nat) : Int) - (s.nnodes : Int) = -(s.nnodes : Int) := by omega
      obtain ⟨d1, d2⟩ := f32_div_neg_self s.nnodes hN hN24
      rw [hnum, f32_ofInt_neg s.nnodes hN hN24, hNf, d1, d2]
      refine ⟨0, 0, ?_, ?_, Or.inr (Or.inr ⟨rfl, rfl, rfl⟩)⟩
      · exact Or.inr ⟨rfl, rfl, by simp⟩
      · simp
    · have hx : 0 < s.nnodes - R := by omega
      have hnum : (R : Int) - (s.nnodes : Int) = -((s.nnodes - R : Nat) : Int) := by omega
      obtain ⟨d1, d2⟩ := f32_div_lt_one (s.nnodes - R) s.nnodes true (by omega) hN24
      rw [hnum, f32_ofInt_neg (s.nnodes - R) hx (by omega), hNf, d1, d2]
      refine ⟨1, 0, ?_, ?_, Or.inr (Or.inl ⟨by omega, hlt, rfl, rfl⟩)⟩
      · exact Or.inr ⟨by simp, rfl, by simp⟩
      · simp
  · have hq : 0 < R / s.nnodes := Nat.div_pos hge hN
    have hq0 : ¬ (((R / s.nnodes : Nat) : Int) = 0) := by omega
    have hmod := Nat.div_add_mod R s.nnodes
    have hnum : (R : Int) - ((R / s.nnodes : Nat) : Int) * (s.nnodes : Int)
        = ((R % s.nnodes : Nat) : Int) := by
      have : ((s.nnodes * (R / s.nnodes) + R % s.nnodes : Nat) : Int) = (R : Int) := by
        rw [hmod]
      simp only [Nat.cast_add, Nat.cast_mul] at this
      linear_combination (-1 : Int) * this
    have hml : R % s.nnodes < s.nnodes := Nat.mod_lt _ hN
    obtain ⟨d1, d2⟩ := f32_div_lt_one (R % s.nnodes) s.nnodes false hml hN24
    simp only [hq0, if_false]
    rw [hnum, f32_ofInt_nat (R % s.nnodes) (by omega), hNf, d1, d2]
    refine ⟨R / s.nnodes, R % s.nnodes, ?_, ?_, Or.inl ⟨hge, rfl, rfl⟩⟩
    · by_cases hr0 : 0 < R % s.nnodes
      · simp only [Bool.not_false, Bool.true_and, decide_eq_true_eq, hr0, if_true]
        refine Or.inl ⟨rfl, ?_, ?_⟩
        · simp only [add_zero]; linarith
        · simp
      · have hr : R % s.nnodes = 0 := by omega
        simp only [Bool.not_false, Bool.true_and, decide_eq_true_eq, hr0, if_false]
        exact Or.inr ⟨rfl, hr, by simp⟩
    · split_ifs <;> simp

end Prrte

namespace Prrte

/-! ## By-node: balance -/

lemma bynode_fill_done (app : prrte_app_context_t) (fuel : Nat) (s : Locals)
    (nodes : List prrte_node_t) (h : ¬ s.nprocs_mapped < app.num_procs) :
    bynode_fill app fuel s nodes = some (.next s, nodes) := by
  cases fuel <;> simp [bynode_fill, h]

/-- The first round of by-node on empty nodes of equal size that can hold all
the procs: if the node loop does not return, it maps every proc and the counts
of any two nodes differ by at most one. -/
lemma bynode_first_round_equal_slots (opts : rmaps_base_t) (app : prrte_app_context_t)
    (hk : knobs_unset opts) (node_list : List prrte_node_t) (slots : Nat) (s0 : Locals)
    (hempty : ∀ n ∈ node_list, n.num_procs = 0 ∧ n.slots_inuse = 0)
    (hslots : ∀ n ∈ node_list, n.slots = slots)
    (hcap : app.num_procs ≤ node_list.length * slots)
    (hP : app.num_procs < 16777216) (hN0 : 0 < node_list.length)
    (hN : node_list.length < 16777216)
    (hs0 : s0.nnodes = node_list.length) (hm0 : s0.nprocs_mapped = 0)
    (hnr : (foreachNode (bynode_round_body opts app false (bynode_balance app s0).1)
              { (bynode_balance app s0).2 with nnodes := 0 } node_list).1.isRet = false) :
    (foreachNode (bynode_round_body opts app false (bynode_balance app s0).1)
        { (bynode_balance app s0).2 with nnodes := 0 } node_list).1.st.nprocs_mapped
      = app.num_procs
    ∧ ∃ c, ∀ x ∈ (foreachNode (bynode_round_body opts app false (bynode_balance app s0).1)
                    { (bynode_balance app s0).2 with nnodes := 0 } node_list).2.map
                  (fun n => n.num_procs), c ≤ x ∧ x ≤ c + 1 := by
  obtain ⟨b, k, hstate, hmapped, hcases⟩ := bynode_balance_spec app s0
    (by omega) (by omega) (by omega) (by omega)
  rw [hs0, hm0] at hcases
  simp only [Nat.sub_zero] at hcases
  have hm1 : ({ (bynode_balance app s0).2 with nnodes := 0 } : Locals).nprocs_mapped = 0 := by
    show (bynode_balance app s0).2.nprocs_mapped = 0
    rw [hmapped, hm0]
  have hzero : ∀ x ∈ node_list.map (fun n => n.num_procs), x = 0 := by
    intro x hx
    obtain ⟨n, hn, rfl⟩ := List.mem_map.mp hx
    exact (hempty n hn).1
  by_cases hsl : slots = 0
  · subst hsl
    have hP0 : app.num_procs = 0 := by simpa using hcap
    obtain ⟨s1, e1, e2, e3⟩ := bynode_round_all_full opts app hk (bynode_balance app s0).1
      node_list { (bynode_balance app s0).2 with nnodes := 0 }
      (fun n hn => by rw [hslots n hn]; omega)
    rw [e1, e3]
    refine ⟨?_, 0, ?_⟩
    · simp only [Ctl.st]; rw [e2, hm1, hP0]
    · intro x hx
      rw [hzero x hx]
      omega
  · have hslpos : 0 < slots := by omega
    have hshare : b + (if 0 < k then 1 else 0) ≤ slots := by
      rcases hcases with ⟨h1, h2, h3⟩ | ⟨h1, h2, h3, h4⟩ | ⟨h1, h2, h3⟩
      · have hdm := Nat.div_add_mod app.num_procs node_list.length
        have hle : app.num_procs / node_list.length ≤ slots :=
          Nat.div_le_of_le_mul hcap
        by_cases hk0 : 0 < k
        · simp only [hk0, if_true]
          by_contra hcon
          have hq : slots ≤ app.num_procs / node_list.length := by omega
          have := Nat.mul_le_mul_left node_list.length hq
          omega
        · simp only [hk0, if_false]; omega
      · subst h3; subst h4; simp; omega
      · subst h2; subst h3; simp
    have hrooms : ∀ n ∈ node_list, n.slots_inuse < n.slots
        ∧ b + (if 0 < k then 1 else 0) ≤ room n := by
      intro n hn
      have h1 := (hempty n hn).2
      have h2 := hslots n hn
      unfold room
      rw [h1, h2]
      exact ⟨hslpos, by simpa using hshare⟩
    obtain ⟨r1, r2⟩ := bynode_round_spec opts app hk (bynode_balance app s0).1 b node_list
      { (bynode_balance app s0).2 with nnodes := 0 } k hstate hrooms hnr
    rw [hm1] at r1 r2
    rw [r1, r2, zipWith_add_zeros _ _ hzero (by simp [rr_counts_length])]
    rcases hcases with ⟨h1, h2, h3⟩ | ⟨h1, h2, h3, h4⟩ | ⟨h1, h2, h3⟩
    · have hdm := Nat.div_add_mod app.num_procs node_list.length
      have hml : app.num_procs % node_list.length < node_list.length := Nat.mod_lt _ hN0
      have hex : 0 + b * node_list.length + min k node_list.length = app.num_procs := by
        rw [h2, h3, Nat.mul_comm]
        omega
      obtain ⟨x1, x2⟩ := rr_counts_exact app.num_procs b node_list.length k 0 hex
      exact ⟨by rw [x2]; omega, b, x1⟩
    · subst h3; subst h4
      obtain ⟨x1, x2⟩ := rr_counts_small app.num_procs 1 (le_refl _) node_list.length 0
      refine ⟨?_, 0, ?_⟩
      · rw [x2 rfl (by omega)]; omega
      · intro x hx
        have := x1 x hx
        omega
    · subst h2; subst h3
      obtain ⟨x1, -⟩ := rr_counts_small app.num_procs 0 (by omega) node_list.length 0
      have hs : (rr_counts app.num_procs 0 0 0 node_list.length).sum = 0 := by
        rw [rr_counts_done app.num_procs 0 node_list.length 0 0 (by omega)]
        simp
      refine ⟨?_, 0, ?_⟩
      · rw [hs]; omega
      · intro x hx
        have := x1 x hx
        omega

/-- C4 (as stated, refuted): by-node mapping with no density knob set of seven
procs on empty nodes of 8, 8 and 1 slots (17 slots in all) returns
`PRRTE_SUCCESS` with 4, 2 and 1 procs: the two nodes of eight slots differ by two. -/
theorem bynode_equal_slots_pair_differs_by_two :
    (prrte_rmaps_rr_bynode 10 no_knobs (ex_job false false false) { idx := 0, num_procs := 7 }
        [ex_node 0 8 false, ex_node 1 8 false, ex_node 2 1 false] 17 100).map
      (fun o => (o.rc, o.nodes.map (fun n => (n.slots, n.num_procs))))
      = some (.PRRTE_SUCCESS, [(8, 4), (8, 2), (1, 1)]) := by
  decide

/-- C4 (amended): by-node mapping with no density knob set, on nodes that hold no
procs and all have the same number of slots, with `app->num_procs` at most the
capacity of the list and at most `num_slots`, and proc and node counts below
`2 ^ 24`: if the call returns `PRRTE_SUCCESS`, the numbers of procs on any two
nodes of the list differ by at most one. -/
theorem bynode_equal_slots_balanced (fuel : Nat) (opts : rmaps_base_t) (jdata : prrte_job_t)
    (app : prrte_app_context_t) (node_list : List prrte_node_t) (num_slots : Int)
    (mem slots : Nat) (out : Outcome)
    (hk : knobs_unset opts)
    (hempty : ∀ n ∈ node_list, n.num_procs = 0 ∧ n.slots_inuse = 0)
    (hslots : ∀ n ∈ node_list, n.slots = slots)
    (hcap : app.num_procs ≤ node_list.length * slots)
    (hns : (app.num_procs : Int) ≤ num_slots)
    (hP : app.num_procs < 16777216) (hN : node_list.length < 16777216)
    (hrun : prrte_rmaps_rr_bynode fuel opts jdata app node_list num_slots mem = some out)
    (hok : out.rc = .PRRTE_SUCCESS) :
    out.nodes.length = node_list.length
    ∧ ∀ a ∈ out.nodes, ∀ b ∈ out.nodes, a.num_procs ≤ b.num_procs + 1 := by
  have hlt : ¬ (num_slots < (app.num_procs : Int)) := by omega
  have hg : gate jdata app num_slots = false := by simp [gate, hlt]
  unfold prrte_rmaps_rr_bynode at hrun
  simp only [hg, Bool.false_eq_true, if_false, hlt, decide_False] at hrun
  cases fuel with
  | zero => simp [bynode_rounds] at hrun
  | succ f =>
    unfold bynode_rounds at hrun
    by_cases hnil : node_list.length = 0
    · simp only [hnil, if_true] at hrun
      simp only [Option.some.injEq] at hrun
      rw [← hrun] at hok
      simp at hok
    · have hN0 : 0 < node_list.length := by omega
      simp only [hnil, if_false] at hrun
      have key := bynode_first_round_equal_slots opts app hk node_list slots
        { init_locals jdata mem with nnodes := node_list.length } hempty hslots hcap hP hN0 hN
        rfl rfl
      rcases hr : foreachNode
        (bynode_round_body opts app false
          (bynode_balance app { init_locals jdata mem with nnodes := node_list.length }).1)
        { (bynode_balance app { init_locals jdata mem with nnodes := node_list.length }).2 with
            nnodes := 0 } node_list with ⟨c, nodes1⟩
      rw [hr] at hrun key
      have hlen : nodes1.length = node_list.length := by
        have h1 := foreachNode_length
          (bynode_round_body opts app false
            (bynode_balance app { init_locals jdata mem with nnodes := node_list.length }).1)
          node_list
          { (bynode_balance app { init_locals jdata mem with nnodes := node_list.length }).2 with
              nnodes := 0 }
        rw [hr] at h1
        exact h1
      cases c with
      | ret rc s1 =>
        have hne := foreachNode_ret_ne_success _
          (bynode_round_body_ret opts app false _) node_list _ rc s1 nodes1 hr
        simp only [Option.some.injEq] at hrun
        rw [← hrun] at hok
        exact absurd hok hne
      | next s1 =>
        obtain ⟨k1, c0, k2⟩ := key (by simp [Ctl.isRet])
        simp only [Ctl.st] at k1 hrun
        have hnlt : ¬ s1.nprocs_mapped < app.num_procs := by omega
        simp only [hnlt, false_and, if_false, bynode_fill_done app (f + 1) s1 nodes1 hnlt,
          Ctl.st, Option.some.injEq] at hrun
        subst hrun
        refine ⟨hlen, ?_⟩
        intro a ha b hb
        have h1 := k2 a.num_procs (List.mem_map.mpr ⟨a, ha, rfl⟩)
        have h2 := k2 b.num_procs (List.mem_map.mpr ⟨b, hb, rfl⟩)
        omega
      | brk s1 =>
        obtain ⟨k1, c0, k2⟩ := key (by simp [Ctl.isRet])
        simp only [Ctl.st] at k1 hrun
        have hnlt : ¬ s1.nprocs_mapped < app.num_procs := by omega
        simp only [hnlt, false_and, if_false, bynode_fill_done app (f + 1) s1 nodes1 hnlt,
          Ctl.st, Option.some.injEq] at hrun
        subst hrun
        refine ⟨hlen, ?_⟩
        intro a ha b hb
        have h1 := k2 a.num_procs (List.mem_map.mpr ⟨a, ha, rfl⟩)
        have h2 := k2 b.num_procs (List.mem_map.mpr ⟨b, hb, rfl⟩)
        omega

/-- C4 (amended) at the scenario of the spec: four empty nodes of eight slots and
ten procs give 3, 3, 2 and 2 procs. -/
theorem bynode_equal_slots_balanced_witness :
    ex_bynode_out.rc = .PRRTE_SUCCESS
    ∧ ex_bynode_out.nodes.map (fun n => n.num_procs) = [3, 3, 2, 2]
    ∧ (ex_bynode_out.nodes.length = 4
        ∧ ∀ a ∈ ex_bynode_out.nodes, ∀ b ∈ ex_bynode_out.nodes, a.num_procs ≤ b.num_procs + 1) :=
  ⟨by decide, by decide,
   bynode_equal_slots_balanced 10 no_knobs (ex_job false false false)
     { idx := 0, num_procs := 10 }
     [ex_node 0 8 false, ex_node 1 8 false, ex_node 2 8 false, ex_node 3 8 false] 32 100 8
     ex_bynode_out
     (by simp [knobs_unset, no_knobs])
     (by intro n hn; simp at hn; rcases hn with rfl | rfl | rfl | rfl <;> exact ⟨rfl, rfl⟩)
     (by intro n hn; simp at hn; rcases hn with rfl | rfl | rfl | rfl <;> rfl)
     (by decide) (by decide) (by decide) (by decide) rfl (by decide)⟩

end Prrte

namespace Prrte

/-! ## By-object span: the object loop of one node -/

lemma byobj_nprocs_unset (opts : rmaps_base_t) (hk : knobs_unset opts) (t : hwloc_topology_t)
    (target : hwloc_obj_type_t) (nobjs : Nat) (dflt : Int) :
    byobj_nprocs opts t target nobjs dflt = dflt := by
  obtain ⟨h1, h2, h3⟩ := hk
  simp [byobj_nprocs, h1, not_lt.mpr h2, not_lt.mpr h3]

lemma span_procs_zeros (idx : Nat) (obj : Nat → Option hwloc_obj_t) :
    ∀ (n i : Nat), span_procs idx obj i (List.replicate n 0) = [] := by
  intro n
  induction n with
  | zero => intro i; simp [span_procs]
  | succ n ih => intro i; simp [List.replicate_succ, span_procs, ih]

lemma rr_counts_sum_le (P b : Nat) : ∀ (len k m : Nat), m ≤ P →
    m + (rr_counts P b k m len).sum ≤ P := by
  intro len
  induction len with
  | zero => intro k m h; simpa [rr_counts] using h
  | succ len ih =>
    intro k m h
    simp only [rr_counts, List.sum_cons]
    have := ih (k - 1) (m + min (b + (if 0 < k then 1 else 0)) (P - m)) (by omega)
    omega

/-- One iteration of the object loop on an object that exists and is wide
enough. -/
lemma span_for_succ (opts : rmaps_base_t) (app : prrte_app_context_t)
    (t : hwloc_topology_t) (target : hwloc_obj_type_t) (cache_level nobjs : Nat) (navg : Int)
    (cnt i : Nat) (s : Locals) (node : prrte_node_t) (o : hwloc_obj_t)
    (hlt : s.nprocs_mapped < app.num_procs)
    (ho : t.get_obj_by_type target cache_level i = some o)
    (hcpu : ¬ opts.cpus_per_rank > (t.get_npus o : Int)) :
    span_for opts app t target cache_level nobjs navg (cnt + 1) i s node
      = match place_loop app false
            (if 0 < s.nxtra_nodes then byobj_nprocs opts t target nobjs navg + 1
             else byobj_nprocs opts t target nobjs navg).toNat
            (if 0 < s.nxtra_nodes
             then ({ s with obj := some o, nxtra_nodes := s.nxtra_nodes - 1 } : Locals)
             else { s with obj := some o }) node with
        | (.ret rc s3, node3) => (.ret rc s3, node3)
        | (c, node3) =>
          span_for opts app t target cache_level nobjs navg cnt (i + 1)
            { c.st with jdata := { c.st.jdata with bookmark := some node3.name } } node3 := by
  conv_lhs => unfold span_for
  simp only [hlt, if_true, ho, hcpu, if_false]

/-- The object loop of one node with no density knob set: when it does not
return, the visited objects receive their round-robin shares in index order. -/
lemma span_for_spec (opts : rmaps_base_t) (app : prrte_app_context_t) (hk : knobs_unset opts)
    (t : hwloc_topology_t) (target : hwloc_obj_type_t) (cache_level nobjs b : Nat) :
    ∀ (cnt i : Nat) (s : Locals) (node : prrte_node_t) (k : Nat),
      s.nxtra_nodes = (k : Int) →
      (span_for opts app t target cache_level nobjs (b : Int) cnt i s node).1.isRet = false →
      (span_for opts app t target cache_level nobjs (b : Int) cnt i s node).2.procs
          = node.procs ++ span_procs app.idx (t.get_obj_by_type target cache_level) i
              (rr_counts app.num_procs b k s.nprocs_mapped cnt)
      ∧ (span_for opts app t target cache_level nobjs (b : Int) cnt i s node).1.st.nprocs_mapped
          = s.nprocs_mapped + (rr_counts app.num_procs b k s.nprocs_mapped cnt).sum
      ∧ ((span_for opts app t target cache_level nobjs (b : Int) cnt i s node).1.st.nprocs_mapped
            < app.num_procs →
          (span_for opts app t target cache_level nobjs (b : Int) cnt i s node).1.st.nxtra_nodes
            = ((k - cnt : Nat) : Int)) := by
  intro cnt
  induction cnt with
  | zero =>
    intro i s node k hx _
    simp [span_for, rr_counts, span_procs, Ctl.st, hx]
  | succ cnt ih =>
    intro i s node k hx hnr
    by_cases hlt : s.nprocs_mapped < app.num_procs
    · cases ho : t.get_obj_by_type target cache_level i with
      | none =>
        unfold span_for at hnr
        simp [hlt, ho, Ctl.isRet] at hnr
      | some o =>
        by_cases hcpu : opts.cpus_per_rank > (t.get_npus o : Int)
        · unfold span_for at hnr
          simp [hlt, ho, hcpu, Ctl.isRet] at hnr
        · rw [span_for_succ opts app t target cache_level nobjs (b : Int) cnt i s node o
            hlt ho hcpu] at hnr ⊢
          have hn : (if 0 < s.nxtra_nodes
              then byobj_nprocs opts t target nobjs (b : Int) + 1
              else byobj_nprocs opts t target nobjs (b : Int)).toNat
              = b + (if 0 < k then 1 else 0) := by
            rw [byobj_nprocs_unset opts hk, hx]
            by_cases hk0 : 0 < k
            · have : (0 : Int) < (k : Int) := by omega
              simp only [this, hk0, if_true]
              omega
            · have : ¬ (0 : Int) < (k : Int) := by omega
              simp only [this, hk0, if_false]
              omega
          rw [hn] at hnr ⊢
          generalize hs2 : (if 0 < s.nxtra_nodes
              then ({ s with obj := some o, nxtra_nodes := s.nxtra_nodes - 1 } : Locals)
              else { s with obj := some o }) = s2 at hnr ⊢
          have hs2m : s2.nprocs_mapped = s.nprocs_mapped := by
            rw [← hs2]; split_ifs <;> rfl
          have hs2o : s2.obj = some o := by
            rw [← hs2]; split_ifs <;> rfl
          have hs2x : s2.nxtra_nodes = ((k - 1 : Nat) : Int) := by
            rw [← hs2]
            split_ifs with h0
            · show s.nxtra_nodes - 1 = ((k - 1 : Nat) : Int)
              omega
            · show s.nxtra_nodes = ((k - 1 : Nat) : Int)
              omega
          by_cases hmem : min (b + (if 0 < k then 1 else 0)) (app.num_procs - s2.nprocs_mapped)
              ≤ s2.mem
          · have e := (place_loop_spec app false (b + (if 0 < k then 1 else 0)) s2 node).1 hmem
            rw [e] at hnr ⊢
            simp only [Ctl.st] at hnr ⊢
            obtain ⟨i1, i2, i3⟩ := ih (i + 1) _ _ (k - 1)
              (by simp only [place_n]; exact hs2x) hnr
            refine ⟨i1.trans ?_, i2.trans ?_, fun h => (i3 h).trans ?_⟩
            · simp only [rr_counts, span_procs, ho, List.append_assoc, place_n, hs2m, hs2o]
              simp
            · simp only [rr_counts, List.sum_cons, place_n, hs2m]
              omega
            · congr 1
              omega
          · obtain ⟨s3, node3, e⟩ :=
              (place_loop_spec app false (b + (if 0 < k then 1 else 0)) s2 node).2 (by omega)
            rw [e] at hnr
            simp [Ctl.isRet] at hnr
    · have hz := rr_counts_done app.num_procs b (cnt + 1) k s.nprocs_mapped (by omega)
      unfold span_for
      simp only [hlt, if_false, hz, span_procs_zeros, List.append_nil, List.sum_replicate,
        smul_zero, Nat.add_zero, Ctl.st, true_and]
      intro h
      exact h.elim

end Prrte

namespace Prrte

/-! ## By-object span: the node loop and the span law -/

lemma oversub_check_procs (perm : Bool) (s : Locals) (node : prrte_node_t) :
    (oversub_check perm s node).2.2.procs = node.procs := by
  unfold oversub_check
  dsimp only
  split_ifs <;> simp

lemma span_procs_congr (idx : Nat) (f g : Nat → Option hwloc_obj_t) (h : ∀ i, f i = g i) :
    ∀ (cs : List Nat) (i : Nat), span_procs idx f i cs = span_procs idx g i cs := by
  intro cs
  induction cs with
  | nil => intro i; simp [span_procs]
  | cons c cs ih => intro i; simp [span_procs, h, ih]

/-- One node of the span mapping with no density knob set: when the body does
not return, the objects of the node receive their round-robin shares. -/
lemma span_body_spec (opts : rmaps_base_t) (app : prrte_app_context_t) (hk : knobs_unset opts)
    (target : hwloc_obj_type_t) (cache_level b : Nat) (s : Locals) (node : prrte_node_t)
    (k : Nat) (hx : s.nxtra_nodes = (k : Int))
    (hnr : (span_body opts app target cache_level (b : Int) s node).1.isRet = false) :
    ∃ s1 node1,
      span_body opts app target cache_level (b : Int) s node
        = (if s.nprocs_mapped
                + (rr_counts app.num_procs b k s.nprocs_mapped
                    (nobjs_of target cache_level node)).sum = app.num_procs
           then .brk s1 else .next s1, node1)
      ∧ node1.procs = node.procs ++ span_procs app.idx (obj_of target cache_level node) 0
            (rr_counts app.num_procs b k s.nprocs_mapped (nobjs_of target cache_level node))
      ∧ s1.nprocs_mapped
          = s.nprocs_mapped
            + (rr_counts app.num_procs b k s.nprocs_mapped (nobjs_of target cache_level node)).sum
      ∧ (s1.nprocs_mapped < app.num_procs →
          s1.nxtra_nodes = ((k - nobjs_of target cache_level node : Nat) : Int)) := by
  obtain ⟨-, -, -, -, -, a6, a7, -⟩ := add_to_map_node_fields s.jdata node
  unfold span_body at hnr ⊢
  simp only [a7] at hnr ⊢
  cases ht : node.topology with
  | none =>
    rw [ht] at hnr
    simp [Ctl.isRet] at hnr
  | some t =>
    rw [ht] at hnr
    simp only at hnr ⊢
    have hno : nobjs_of target cache_level node = t.get_nbobjs_by_type target cache_level := by
      simp [nobjs_of, ht]
    have hob : ∀ i, obj_of target cache_level node i = t.get_obj_by_type target cache_level i := by
      intro i; simp [obj_of, ht]
    rw [hno, span_procs_congr app.idx _ _ hob]
    have hsx : ({ s with jdata := (add_to_map s.jdata node).1 } : Locals).nxtra_nodes = (k : Int) := hx
    rcases hsf : span_for opts app t target cache_level (t.get_nbobjs_by_type target cache_level)
        (b : Int) (t.get_nbobjs_by_type target cache_level) 0
        { s with jdata := (add_to_map s.jdata node).1 } (add_to_map s.jdata node).2
      with ⟨c, node2⟩
    rw [hsf] at hnr
    have hsnr : (span_for opts app t target cache_level (t.get_nbobjs_by_type target cache_level)
        (b : Int) (t.get_nbobjs_by_type target cache_level) 0
        { s with jdata := (add_to_map s.jdata node).1 } (add_to_map s.jdata node).2).1.isRet
        = false := by
      rw [hsf]
      cases c <;> simp_all [Ctl.isRet]
    obtain ⟨f1, f2, f3⟩ := span_for_spec opts app hk t target cache_level
      (t.get_nbobjs_by_type target cache_level) b (t.get_nbobjs_by_type target cache_level) 0
      { s with jdata := (add_to_map s.jdata node).1 } (add_to_map s.jdata node).2 k hsx hsnr
    rw [hsf] at f1 f2 f3
    simp only [a6] at f1 f2 f3
    have hcases : ∀ s2 : Locals, c.st = s2 → c.isRet = false →
        (match (c, node2) with
          | (.ret rc s2, node2) => (Ctl.ret rc s2, node2)
          | (c, node2) =>
            if (oversub_check false c.st node2).2.1.nprocs_mapped = app.num_procs
            then (Ctl.brk (oversub_check false c.st node2).2.1, (oversub_check false c.st node2).2.2)
            else (Ctl.next (oversub_check false c.st node2).2.1,
                  (oversub_check false c.st node2).2.2))
          = (if (oversub_check false s2 node2).2.1.nprocs_mapped = app.num_procs
             then .brk (oversub_check false s2 node2).2.1
             else .next (oversub_check false s2 node2).2.1,
             (oversub_check false s2 node2).2.2) := by
      intro s2 hst hcr
      cases c with
      | ret rc s3 => simp [Ctl.isRet] at hcr
      | next s3 =>
        simp only [Ctl.st] at hst ⊢
        subst hst
        split_ifs <;> rfl
      | brk s3 =>
        simp only [Ctl.st] at hst ⊢
        subst hst
        split_ifs <;> rfl
    have hcr : c.isRet = false := by
      rw [hsf] at hsnr; exact hsnr
    obtain ⟨o1, o2, o3, o4, o5, o6, o7, o8, o9⟩ := oversub_check_fields false c.st node2
    have o10 := oversub_check_procs false c.st node2
    refine ⟨(oversub_check false c.st node2).2.1, (oversub_check false c.st node2).2.2, ?_,
      ?_, ?_, ?_⟩
    · refine (hcases c.st rfl hcr).trans ?_
      rw [o1, f2]
    · rw [o10]; exact f1
    · rw [o1]; exact f2
    · intro h
      rw [o1] at h
      rw [o5]
      exact f3 h

lemma span_expected_done (P b idx : Nat) (target : hwloc_obj_type_t) (cache_level : Nat) :
    ∀ (nodes : List prrte_node_t) (k m : Nat), P ≤ m →
      span_expected P b idx target cache_level k m nodes = nodes.map (fun n => n.procs) := by
  intro nodes
  induction nodes with
  | nil => intro k m _; simp [span_expected]
  | cons node rest ih =>
    intro k m h
    have hz := rr_counts_done P b (nobjs_of target cache_level node) k m h
    simp only [span_expected, hz, span_procs_zeros, List.append_nil, List.sum_replicate,
      smul_zero, Nat.add_zero, List.map_cons]
    rw [ih _ m h]

lemma span_body_ret (opts : rmaps_base_t) (app : prrte_app_context_t)
    (target : hwloc_obj_type_t) (cache_level : Nat) (navg : Int) :
    ∀ (s : Locals) (node : prrte_node_t) (rc : Status) (s1 : Locals) (node1 : prrte_node_t),
      span_body opts app target cache_level navg s node = (.ret rc s1, node1) →
      rc ≠ .PRRTE_SUCCESS := by
  have hfor : ∀ (t : hwloc_topology_t) (nobjs cnt i : Nat) (s : Locals) (node : prrte_node_t)
      (rc : Status) (s1 : Locals) (node1 : prrte_node_t),
      span_for opts app t target cache_level nobjs navg cnt i s node = (.ret rc s1, node1) →
      rc ≠ .PRRTE_SUCCESS := by
    intro t nobjs cnt
    induction cnt with
    | zero => intro i s node rc s1 node1 h; simp [span_for] at h
    | succ cnt ih =>
      intro i s node rc s1 node1 h
      unfold span_for at h
      split_ifs at h with h1
      · split at h
        · simp only [Prod.mk.injEq, Ctl.ret.injEq] at h
          obtain ⟨⟨e, -⟩, -⟩ := h
          subst e; decide
        · split_ifs at h with h2
          · simp only [Prod.mk.injEq, Ctl.ret.injEq] at h
            obtain ⟨⟨e, -⟩, -⟩ := h
            subst e; decide
          · dsimp only at h
            split at h
            · rename_i rc3 s3 node3 hp
              have := place_loop_ret _ _ _ _ _ _ _ _ hp
              simp only [Prod.mk.injEq, Ctl.ret.injEq] at h
              obtain ⟨⟨e, -⟩, -⟩ := h
              subst e
              rw [this]; decide
            · exact ih _ _ _ _ _ _ h
      · simp at h
  intro s node rc s1 node1 h
  unfold span_body at h
  dsimp only at h
  split at h
  · simp only [Prod.mk.injEq, Ctl.ret.injEq] at h
    obtain ⟨⟨e, -⟩, -⟩ := h
    subst e; decide
  · split at h
    · rename_i rc2 s2 node2 hp
      have := hfor _ _ _ _ _ _ _ _ _ hp
      simp only [Prod.mk.injEq, Ctl.ret.injEq] at h
      obtain ⟨⟨e, -⟩, -⟩ := h
      subst e
      exact this
    · split_ifs at h <;> simp at h

/-- The node loop of the span mapping with no density knob set: when it does
not return, the proc arrays are those of the round-robin shares. -/
lemma span_nodes_spec (opts : rmaps_base_t) (app : prrte_app_context_t) (hk : knobs_unset opts)
    (target : hwloc_obj_type_t) (cache_level b : Nat) :
    ∀ (nodes : List prrte_node_t) (s : Locals) (k : Nat),
      s.nxtra_nodes = (k : Int) → s.nprocs_mapped ≤ app.num_procs →
      (foreachNode (span_body opts app target cache_level (b : Int)) s nodes).1.isRet = false →
      (foreachNode (span_body opts app target cache_level (b : Int)) s nodes).2.map
          (fun n => n.procs)
        = span_expected app.num_procs b app.idx target cache_level k s.nprocs_mapped nodes := by
  intro nodes
  induction nodes with
  | nil => intro s k _ _ _; simp [foreachNode, span_expected]
  | cons node rest ih =>
    intro s k hx hm hnr
    have hb := foreachNode_cons_isRet _ s node rest hnr
    obtain ⟨s1, node1, e, p1, p2, p3⟩ :=
      span_body_spec opts app hk target cache_level b s node k hx hb
    have hle := rr_counts_sum_le app.num_procs b (nobjs_of target cache_level node) k
      s.nprocs_mapped hm
    by_cases hdone : s.nprocs_mapped
        + (rr_counts app.num_procs b k s.nprocs_mapped (nobjs_of target cache_level node)).sum
        = app.num_procs
    · rw [if_pos hdone] at e
      unfold foreachNode
      rw [e]
      simp only [List.map_cons, span_expected, p1]
      rw [span_expected_done app.num_procs b app.idx target cache_level rest _ _ (by omega)]
    · rw [if_neg hdone] at e
      have hnr2 : (foreachNode (span_body opts app target cache_level (b : Int)) s1 rest).1.isRet
          = false := by
        unfold foreachNode at hnr
        rw [e] at hnr
        simpa using hnr
      have hx1 := p3 (by omega)
      have i1 := ih s1 _ hx1 (by omega) hnr2
      unfold foreachNode
      rw [e]
      simp only [List.map_cons, span_expected, p1, i1, p2]

lemma span_count_objs_eq (target : hwloc_obj_type_t) (cache_level : Nat) :
    ∀ (nodes : List prrte_node_t) (n : Nat), span_count_objs target cache_level nodes = some n →
      n = (nodes.map (nobjs_of target cache_level)).sum := by
  intro nodes
  induction nodes with
  | nil => intro n h; simp [span_count_objs] at h; simp [h]
  | cons node rest ih =>
    intro n h
    unfold span_count_objs at h
    cases ht : node.topology with
    | none => rw [ht] at h; simp at h
    | some t =>
      rw [ht] at h
      simp only at h
      cases hr : span_count_objs target cache_level rest with
      | none => rw [hr] at h; simp at h
      | some m =>
        rw [hr] at h
        simp only [Option.some.injEq] at h
        have := ih m hr
        simp only [List.map_cons, List.sum_cons, nobjs_of, ht]
        simp only [nobjs_of] at this
        omega

end Prrte

namespace Prrte

/-! ## By-object span: the shares in closed form -/

/-- When enough procs are left, every place gets its full share. -/
lemma rr_counts_full (P b : Nat) : ∀ (len k m : Nat), m + b * len + min k len ≤ P →
    rr_counts P b k m len = (List.range len).map (fun i => b + (if i < k then 1 else 0))
    ∧ (rr_counts P b k m len).sum = b * len + min k len := by
  intro len
  induction len with
  | zero => intro k m _; simp [rr_counts]
  | succ len ih =>
    intro k m h
    rw [Nat.mul_succ] at h
    have hsh : min (b + (if 0 < k then 1 else 0)) (P - m) = b + (if 0 < k then 1 else 0) := by
      split_ifs <;> omega
    have hnext : (m + (b + (if 0 < k then 1 else 0))) + b * len + min (k - 1) len ≤ P := by
      split_ifs <;> omega
    obtain ⟨i1, i2⟩ := ih (k - 1) (m + (b + (if 0 < k then 1 else 0))) hnext
    simp only [rr_counts, hsh]
    constructor
    · rw [i1, List.range_succ_eq_map, List.map_cons, List.map_map]
      congr 1
      apply List.map_congr_left
      intro i _
      simp only [Function.comp]
      have : (i < k - 1) ↔ (i + 1 < k) := by omega
      simp only [this]
    · rw [List.sum_cons, i2, Nat.mul_succ]
      split_ifs <;> omega

/-- With base share one and no extra, the places take one proc each until none
is left. -/
lemma rr_counts_ones (P : Nat) : ∀ (len m : Nat),
    rr_counts P 1 0 m len = (List.range len).map (fun i => if i < P - m then 1 else 0)
    ∧ (rr_counts P 1 0 m len).sum = min len (P - m) := by
  intro len
  induction len with
  | zero => intro m; simp [rr_counts]
  | succ len ih =>
    intro m
    obtain ⟨i1, i2⟩ := ih (m + min (1 + 0) (P - m))
    simp only [rr_counts, lt_self_iff_false, if_false, Nat.zero_sub]
    constructor
    · rw [i1, List.range_succ_eq_map, List.map_cons, List.map_map]
      congr 1
      · split_ifs <;> omega
      · apply List.map_congr_left
        intro i _
        simp only [Function.comp]
        have : (i < P - (m + min (1 + 0) (P - m))) ↔ (i + 1 < P - m) := by omega
        simp only [this]
    · rw [List.sum_cons, i2]
      omega

/-- The round-robin shares with quotient `q` and remainder `r`, started at
object number `g`, are the span law. -/
lemma span_expected_exact (P q r idx : Nat) (target : hwloc_obj_type_t) (cache_level : Nat) :
    ∀ (nodes : List prrte_node_t) (g : Nat),
      q * (g + (nodes.map (nobjs_of target cache_level)).sum) + r ≤ P →
      span_expected P q idx target cache_level (r - g) (q * g + min g r) nodes
        = span_law idx target cache_level q r g nodes := by
  intro nodes
  induction nodes with
  | nil => intro g _; simp [span_expected, span_law]
  | cons node rest ih =>
    intro g h
    simp only [List.map_cons, List.sum_cons] at h
    have hexp : q * (g + (nobjs_of target cache_level node
        + (rest.map (nobjs_of target cache_level)).sum))
        = q * g + q * nobjs_of target cache_level node
          + q * (rest.map (nobjs_of target cache_level)).sum := by ring
    have hfull : q * g + min g r + q * nobjs_of target cache_level node
        + min (r - g) (nobjs_of target cache_level node) ≤ P := by
      have := Nat.zero_le (q * (rest.map (nobjs_of target cache_level)).sum)
      omega
    obtain ⟨c1, c2⟩ := rr_counts_full P q (nobjs_of target cache_level node) (r - g)
      (q * g + min g r) hfull
    have hnext : q * (g + nobjs_of target cache_level node
        + (rest.map (nobjs_of target cache_level)).sum) + r ≤ P := by
      have : q * (g + nobjs_of target cache_level node
          + (rest.map (nobjs_of target cache_level)).sum)
          = q * g + q * nobjs_of target cache_level node
            + q * (rest.map (nobjs_of target cache_level)).sum := by ring
      omega
    have i1 := ih (g + nobjs_of target cache_level node) hnext
    have hk : r - g - nobjs_of target cache_level node
        = r - (g + nobjs_of target cache_level node) := by omega
    have hm : q * g + min g r + (q * nobjs_of target cache_level node
        + min (r - g) (nobjs_of target cache_level node))
        = q * (g + nobjs_of target cache_level node)
          + min (g + nobjs_of target cache_level node) r := by
      rw [Nat.mul_add]; omega
    have hcounts : rr_counts P q (r - g) (q * g + min g r) (nobjs_of target cache_level node)
        = (List.range (nobjs_of target cache_level node)).map
            (fun i => q + (if g + i < r then 1 else 0)) := by
      rw [c1]
      apply List.map_congr_left
      intro i _
      have : (i < r - g) ↔ (g + i < r) := by omega
      simp only [this]
    simp only [span_expected, span_law]
    rw [c2, hk, hm, i1, hcounts]

/-- The round-robin shares of one proc per object, started at object number
`g`, are the span law with quotient zero and remainder `P`. -/
lemma span_expected_ones (P idx : Nat) (target : hwloc_obj_type_t) (cache_level : Nat) :
    ∀ (nodes : List prrte_node_t) (g : Nat),
      span_expected P 1 idx target cache_level 0 (min P g) nodes
        = span_law idx target cache_level 0 P g nodes := by
  intro nodes
  induction nodes with
  | nil => intro g; simp [span_expected, span_law]
  | cons node rest ih =>
    intro g
    obtain ⟨c1, c2⟩ := rr_counts_ones P (nobjs_of target cache_level node) (min P g)
    have i1 := ih (g + nobjs_of target cache_level node)
    have hm : min P g + min (nobjs_of target cache_level node) (P - min P g)
        = min P (g + nobjs_of target cache_level node) := by omega
    have hcounts : rr_counts P 1 0 (min P g) (nobjs_of target cache_level node)
        = (List.range (nobjs_of target cache_level node)).map
            (fun i => 0 + (if g + i < P then 1 else 0)) := by
      rw [c1]
      apply List.map_congr_left
      intro i _
      have : (i < P - min P g) ↔ (g + i < P) := by omega
      simp only [this, Nat.zero_add]
    simp only [span_expected, span_law]
    rw [c2, Nat.zero_sub, hm, i1, hcounts]

/-- C5: by-object span mapping with no density knob set that returns
`PRRTE_SUCCESS`: with `T` the total number of target objects of the node list
and `P = app->num_procs`, `T` is positive and the object number `g` (counting
the objects in node-list then object-index order) has received exactly
`P / T` procs, plus one if `g < P % T`; so every object holds `floor (P/T)` or
`floor (P/T) + 1` procs and the `P mod T` first objects hold the larger count. -/
theorem byobj_span_law (opts : rmaps_base_t) (jdata : prrte_job_t)
    (app : prrte_app_context_t) (node_list : List prrte_node_t) (num_slots : Int)
    (target : hwloc_obj_type_t) (cache_level mem : Nat)
    (hk : knobs_unset opts)
    (hok : (byobj_span opts jdata app node_list num_slots target cache_level mem).rc
            = .PRRTE_SUCCESS) :
    0 < (node_list.map (nobjs_of target cache_level)).sum
    ∧ (byobj_span opts jdata app node_list num_slots target cache_level mem).nodes.map
          (fun n => n.procs)
        = span_law app.idx target cache_level
            (app.num_procs / (node_list.map (nobjs_of target cache_level)).sum)
            (app.num_procs % (node_list.map (nobjs_of target cache_level)).sum) 0 node_list := by
  unfold byobj_span at hok ⊢
  by_cases hg : gate jdata app num_slots = true
  · simp [hg] at hok
  simp only [hg, Bool.false_eq_true, if_false] at hok ⊢
  cases hc : span_count_objs target cache_level node_list with
  | none => rw [hc] at hok; simp at hok
  | some T =>
    rw [hc] at hok
    simp only at hok ⊢
    have hT := span_count_objs_eq target cache_level node_list T hc
    rw [← hT]
    by_cases hT0 : T = 0
    · simp [hT0] at hok
    simp only [hT0, if_false] at hok ⊢
    have hTpos : 0 < T := by omega
    refine ⟨hTpos, ?_⟩
    have hdm := Nat.div_add_mod app.num_procs T
    have hml : app.num_procs % T < T := Nat.mod_lt _ hTpos
    by_cases hq : app.num_procs / T = 0
    · have hlt : app.num_procs < T := by
        rcases Nat.lt_or_ge app.num_procs T with h | h
        · exact h
        · have := Nat.div_pos h hTpos
          omega
      have hmod : app.num_procs % T = app.num_procs := Nat.mod_eq_of_lt hlt
      have hneg : (app.num_procs : Int) - ((1 : Nat) : Int) * (T : Int) < 0 := by
        push_cast; omega
      simp only [hq, if_true, hneg] at hok ⊢
      rw [hmod]
      rcases hr : foreachNode (span_body opts app target cache_level ((1 : Nat) : Int))
          { init_locals jdata mem with nxtra_nodes := 0 } node_list with ⟨c, nodes1⟩
      rw [hr] at hok
      have hnr : (foreachNode (span_body opts app target cache_level ((1 : Nat) : Int))
          { init_locals jdata mem with nxtra_nodes := 0 } node_list).1.isRet = false := by
        rw [hr]
        cases c with
        | ret rc s1 =>
          have := foreachNode_ret_ne_success _
            (span_body_ret opts app target cache_level _) node_list _ rc s1 nodes1 hr
          simp only at hok
          exact absurd hok this
        | next s1 => rfl
        | brk s1 => rfl
      have key := span_nodes_spec opts app hk target cache_level 1 node_list
        { init_locals jdata mem with nxtra_nodes := 0 } 0 rfl (Nat.zero_le _) hnr
      rw [hr] at key
      have e2 := span_expected_ones app.num_procs app.idx target cache_level node_list 0
      simp only [Nat.min_zero] at e2
      cases c <;> simp only [] <;> rw [key] <;> exact e2
    · have hqpos : 0 < app.num_procs / T := Nat.pos_of_ne_zero hq
      have hx : (app.num_procs : Int) - ((app.num_procs / T : Nat) : Int) * (T : Int)
          = ((app.num_procs % T : Nat) : Int) := by
        have : ((T * (app.num_procs / T) + app.num_procs % T : Nat) : Int)
            = (app.num_procs : Int) := by rw [hdm]
        simp only [Nat.cast_add, Nat.cast_mul] at this
        linear_combination (-1 : Int) * this
      have hnn : ¬ (((app.num_procs % T : Nat) : Int) < 0) := not_lt.mpr (Nat.cast_nonneg _)
      simp only [hq, if_false, hx, hnn] at hok ⊢
      rcases hr : foreachNode
          (span_body opts app target cache_level ((app.num_procs / T : Nat) : Int))
          { init_locals jdata mem with nxtra_nodes := ((app.num_procs % T : Nat) : Int) }
          node_list with ⟨c, nodes1⟩
      rw [hr] at hok
      have hnr : (foreachNode
          (span_body opts app target cache_level ((app.num_procs / T : Nat) : Int))
          { init_locals jdata mem with nxtra_nodes := ((app.num_procs % T : Nat) : Int) }
          node_list).1.isRet = false := by
        rw [hr]
        cases c with
        | ret rc s1 =>
          have := foreachNode_ret_ne_success _
            (span_body_ret opts app target cache_level _) node_list _ rc s1 nodes1 hr
          simp only at hok
          exact absurd hok this
        | next s1 => rfl
        | brk s1 => rfl
      have key := span_nodes_spec opts app hk target cache_level (app.num_procs / T) node_list
        { init_locals jdata mem with nxtra_nodes := ((app.num_procs % T : Nat) : Int) }
        (app.num_procs % T) rfl (Nat.zero_le _) hnr
      rw [hr] at key
      have e1 := span_expected_exact app.num_procs (app.num_procs / T) (app.num_procs % T)
        app.idx target cache_level node_list 0
        (by rw [← hT, Nat.zero_add, Nat.mul_comm]; exact le_of_eq hdm)
      simp only [Nat.sub_zero, Nat.mul_zero, Nat.zero_min, Nat.add_zero] at e1
      cases c <;> simp only [] <;> rw [key] <;> exact e1

/-- C5 at the scenario of the spec: two nodes of two packages each and five
procs: the first object receives two procs and the three others one each. -/
theorem byobj_span_law_witness :
    knobs_unset no_knobs
    ∧ (byobj_span no_knobs (ex_job false false true) { idx := 0, num_procs := 5 }
          [ex_node 0 8 true, ex_node 1 8 true] 16 .HWLOC_OBJ_PACKAGE 0 100).nodes.map
        (fun n => n.procs.map (fun p => p.locale))
        = [[some 10, some 10, some 11], [some 10, some 11]]
    ∧ (0 < ([ex_node 0 8 true, ex_node 1 8 true].map (nobjs_of .HWLOC_OBJ_PACKAGE 0)).sum
      ∧ (byobj_span no_knobs (ex_job false false true) { idx := 0, num_procs := 5 }
            [ex_node 0 8 true, ex_node 1 8 true] 16 .HWLOC_OBJ_PACKAGE 0 100).nodes.map
          (fun n => n.procs)
          = span_law 0 .HWLOC_OBJ_PACKAGE 0
              (5 / ([ex_node 0 8 true, ex_node 1 8 true].map (nobjs_of .HWLOC_OBJ_PACKAGE 0)).sum)
              (5 % ([ex_node 0 8 true, ex_node 1 8 true].map (nobjs_of .HWLOC_OBJ_PACKAGE 0)).sum)
              0 [ex_node 0 8 true, ex_node 1 8 true]) :=
  ⟨by simp [knobs_unset, no_knobs], by decide,
   byobj_span_law no_knobs (ex_job false false true) { idx := 0, num_procs := 5 }
     [ex_node 0 8 true, ex_node 1 8 true] 16 .HWLOC_OBJ_PACKAGE 0 100
     (by simp [knobs_unset, no_knobs]) (by decide)⟩

end Prrte

namespace Prrte

/-! ## One call of `send_msg` -/

theorem iov1_base_eq_none (msg : prte_oob_tcp_send_t) :
    iov1_base msg = none ↔ msg.data = none ∧ msg.msg = none := by
  unfold iov1_base
  cases msg.data <;> cases msg.msg <;> simp

theorem iov1_base_sendable (msg : prte_oob_tcp_send_t) (h : sendable msg) :
    ∃ b, iov1_base msg = some b := by
  cases hb : iov1_base msg with
  | some b => exact ⟨b, rfl⟩
  | none =>
    obtain ⟨h1, h2⟩ := (iov1_base_eq_none msg).mp hb
    rcases h with h | h
    · exact absurd h1 h
    · exact absurd h2 h

/-- A request with its header sent, or with relay data or an RML message, gets
to the first `writev` of `send_msg`. -/
theorem send_msg_eq (msg : prte_oob_tcp_send_t) (h : msg.hdr_sent = true ∨ sendable msg)
    (sock : List WriteRes) : send_msg msg sock = send_msg_retry msg 0 sock := by
  unfold send_msg
  rcases h with h | h
  · rw [if_pos h]
  · obtain ⟨b, hb⟩ := iov1_base_sendable msg h
    rw [hb]
    split <;> rfl

/-- A request with its header unsent and neither relay data nor an RML message
faults in `send_msg` before anything is written. -/
theorem send_msg_null (msg : prte_oob_tcp_send_t) (h1 : msg.hdr_sent = false)
    (h2 : iov1_base msg = none) (sock : List WriteRes) :
    send_msg msg sock = some { rc := .FAULT, msg := msg, written := [], rest := sock } := by
  unfold send_msg
  rw [h1, h2]
  rfl

/-- The two ways of a call of `send_msg`. -/
theorem send_msg_cases (msg : prte_oob_tcp_send_t) (sock : List WriteRes) :
    (msg.hdr_sent = false ∧ iov1_base msg = none
      ∧ send_msg msg sock = some { rc := .FAULT, msg := msg, written := [], rest := sock })
    ∨ ((msg.hdr_sent = true ∨ sendable msg)
      ∧ send_msg msg sock = send_msg_retry msg 0 sock) := by
  by_cases hs : msg.hdr_sent = true
  · exact Or.inr ⟨Or.inl hs, send_msg_eq msg (Or.inl hs) sock⟩
  · have hs : msg.hdr_sent = false := by simpa using hs
    by_cases hb : iov1_base msg = none
    · exact Or.inl ⟨hs, hb, send_msg_null msg hs hb sock⟩
    · have hsend : sendable msg := by
        unfold sendable
        by_contra hn
        push_neg at hn
        exact hb ((iov1_base_eq_none msg).mpr hn)
      exact Or.inr ⟨Or.inr hsend, send_msg_eq msg (Or.inr hsend) sock⟩

theorem sendable_of_rewound (a b : prte_oob_tcp_send_t) (h : rewound a = rewound b)
    (hb : sendable b) : sendable a := by
  cases a; cases b
  simp only [rewound, prte_oob_tcp_send_t.mk.injEq] at h
  obtain ⟨-, -, h3, -, h5, -⟩ := h
  unfold sendable at hb ⊢
  simp only at hb ⊢
  rw [h3, h5]
  exact hb

theorem rewound_fresh (r : prte_oob_tcp_send_t) (h : fresh r) : rewound r = r := by
  obtain ⟨h1, h2, h3, _⟩ := h
  cases r
  simp only [rewound] at *
  subst h1 h2 h3
  rfl

theorem fresh_wf (r : prte_oob_tcp_send_t) (h : fresh r) : send_wf r := by
  obtain ⟨h1, h2, h3, h4⟩ := h
  refine ⟨h4, ?_⟩
  rw [h1]
  simp [h2, h3]

theorem fresh_iov (r : prte_oob_tcp_send_t) (h : fresh r) : iov_bytes r = frame r := by
  obtain ⟨h1, h2, h3, h4⟩ := h
  simp [iov_bytes, frame, mem_read, h1, h2, h3, h4]

theorem wf_iov_length (r : prte_oob_tcp_send_t) (h : send_wf r) :
    (iov_bytes r).length = iov_remain r := by
  obtain ⟨h1, h2⟩ := h
  by_cases hs : r.hdr_sent = true
  · simp only [hs, if_true] at h2
    simp [iov_bytes, iov_remain, mem_read, hs, h2.1]
    omega
  · simp only [hs] at h2
    simp only [Bool.false_eq_true, if_false] at h2
    simp [iov_bytes, iov_remain, mem_read, hs, h2.1, h1]
    omega

end Prrte

namespace Prrte

theorem rewound_payload (a b : prte_oob_tcp_send_t) (h : rewound a = rewound b) :
    a.hdr_mem = b.hdr_mem ∧ payload_of a = payload_of b ∧ a.msg = b.msg ∧ a.data = b.data
      ∧ a.hdr_nbytes = b.hdr_nbytes := by
  cases a; cases b
  simp only [rewound, prte_oob_tcp_send_t.mk.injEq] at h
  obtain ⟨h1, h2, h3, h4, h5, -⟩ := h
  subst h1 h2 h3 h4 h5
  simp [payload_of, iov1_base]

theorem take_drop_all {α : Type} (l : List α) (off n : Nat) (h : off + n = l.length) :
    (l.drop off).take n = l.drop off := by
  apply List.take_of_length_le
  simp; omega

theorem payload_of_mk (hm : List Byte) (hn : Nat) (m : Option Nat) (db : List Byte)
    (da : Option (List Byte)) (hs : Bool) (sp : Ptr) (sb : Nat) (act : Bool) :
    payload_of ⟨hm, hn, m, db, da, hs, sp, sb, act⟩
      = da.getD (if m.isSome then db else []) := by
  cases da <;> cases m <;> rfl

theorem send_accept_spec (msg : prte_oob_tcp_send_t) (h : send_wf msg) (retries k : Nat)
    (rest : List WriteRes) :
    ∃ r, send_msg_retry msg retries (.accept k :: rest) = some r ∧ r.rest = rest
      ∧ r.written = (iov_bytes msg).take k
      ∧ iov_bytes r.msg = (iov_bytes msg).drop k
      ∧ send_wf r.msg ∧ rewound r.msg = rewound msg
      ∧ r.rc = (if iov_remain msg ≤ k then .PRRTE_SUCCESS else .PRRTE_ERR_RESOURCE_BUSY) := by
  obtain ⟨h1, h2⟩ := h
  rcases msg with ⟨hm, hn, m, db, da, hs, ⟨reg, off⟩, sb, act⟩
  obtain ⟨P, hP⟩ : ∃ P, da.getD (if m.isSome then db else []) = P := ⟨_, rfl⟩
  simp only [payload_of_mk, hP] at h1 h2
  subst h1
  cases hs
  · simp only [Bool.false_eq_true, if_false] at h2
    obtain ⟨h2a, h2b⟩ := h2
    subst h2a
    simp only [send_msg_retry, iov_remain, iov_bytes, mem_read, send_wf, rewound, payload_of_mk,
      hP, Bool.false_eq_true, if_false, List.drop_zero, take_drop_all hm off sb h2b,
      List.take_length]
    have hA : (hm.drop off).length = sb := by simp; omega
    have hA2 : ∀ j, hm.drop (off + j) = (hm.drop off).drop j := by
      intro j; rw [List.drop_drop, Nat.add_comm]
    obtain ⟨A, hAe⟩ : ∃ A, hm.drop off = A := ⟨_, rfl⟩
    simp only [hAe] at hA hA2 ⊢
    subst hA
    by_cases c1 : min k (A.length + P.length) = A.length + P.length
    · simp only [c1, if_true]
      have hk : A.length + P.length ≤ k := by omega
      refine ⟨_, rfl, rfl, ?_, ?_, ?_, ?_, ?_⟩
      · have e1 : List.take (A.length + P.length) (A ++ P) = A ++ P :=
          List.take_of_length_le (by simp)
        have e2 : List.take k (A ++ P) = A ++ P :=
          List.take_of_length_le (by simp only [List.length_append]; exact hk)
        simp only [e1, e2]
      · have e : List.drop k (A ++ P) = [] :=
          List.drop_of_length_le (by simp only [List.length_append]; exact hk)
        simp [payload_of_mk, hP, e]
      · simp [payload_of_mk, hP]
      · rfl
      · simp [hk]
    · simp only [c1, if_false]
      have hk : k < A.length + P.length := by omega
      have hmin : min k (A.length + P.length) = k := by omega
      simp only [hmin]
      by_cases c2 : k < A.length
      · simp only [c2, if_true]
        refine ⟨_, rfl, rfl, rfl, ?_, ?_, ?_, ?_⟩
        · simp only [Bool.false_eq_true, if_false, hA2, payload_of_mk, hP]
          rw [List.drop_append_of_le_length (by omega), List.take_of_length_le (by simp)]
          simp
        · simp only [Bool.false_eq_true, if_false, true_and, payload_of_mk, hP]
          omega
        · rfl
        · simp [Nat.not_le.mpr hk]
      · simp only [c2, if_false]
        refine ⟨_, rfl, rfl, rfl, ?_, ?_, ?_, ?_⟩
        · simp only [if_true, List.append_nil, payload_of_mk, hP]
          rw [List.drop_append_eq_append_drop, List.drop_of_length_le (Nat.not_lt.mp c2),
            List.nil_append, List.take_of_length_le (by simp)]
        · simp only [if_true, true_and, payload_of_mk, hP]
          omega
        · rfl
        · simp [Nat.not_le.mpr hk]
  · simp only [if_true] at h2
    obtain ⟨h2a, h2b⟩ := h2
    subst h2a
    simp only [send_msg_retry, iov_remain, iov_bytes, mem_read, send_wf, rewound, payload_of_mk,
      hP, if_true, List.append_nil, Nat.add_zero, take_drop_all P off sb h2b]
    have hA : (P.drop off).length = sb := by simp; omega
    have hA2 : ∀ j, P.drop (off + j) = (P.drop off).drop j := by
      intro j; rw [List.drop_drop, Nat.add_comm]
    obtain ⟨A, hAe⟩ : ∃ A, P.drop off = A := ⟨_, rfl⟩
    simp only [hAe] at hA hA2 ⊢
    subst hA
    by_cases c1 : min k A.length = A.length
    · simp only [c1, if_true]
      have hk : A.length ≤ k := by omega
      refine ⟨_, rfl, rfl, ?_, ?_, ?_, ?_, ?_⟩
      · simp only []
        rw [List.take_of_length_le (by simp), List.take_of_length_le hk]
      · simp only [payload_of_mk, hP, hA2]
        rw [List.drop_of_length_le hk]
        simp
      · simp only [payload_of_mk, hP, if_true, true_and]
        omega
      · rfl
      · simp [hk]
    · simp only [c1, if_false]
      have hk : k < A.length := by omega
      have hmin : min k A.length = k := by omega
      simp only [hmin, hk, if_true]
      refine ⟨_, rfl, rfl, rfl, ?_, ?_, ?_, ?_⟩
      · simp only [if_true, List.append_nil, hA2, payload_of_mk, hP]
        rw [List.take_of_length_le (by simp)]
      · simp only [if_true, true_and, payload_of_mk, hP]
        omega
      · rfl
      · simp [Nat.not_le.mpr hk]

end Prrte

namespace Prrte

theorem send_msg_retry_spec (msg : prte_oob_tcp_send_t) (h : send_wf msg) :
    ∀ (sock : List WriteRes) (retries : Nat) (r : SendRes),
      send_msg_retry msg retries sock = some r →
      send_wf r.msg ∧ rewound r.msg = rewound msg
        ∧ r.written ++ iov_bytes r.msg = iov_bytes msg
        ∧ r.rest.length < sock.length
        ∧ ((r.rc = .PRRTE_SUCCESS ∧ iov_bytes r.msg = [])
            ∨ r.rc = .PRRTE_ERR_RESOURCE_BUSY ∨ r.rc = .PRRTE_ERR_WOULD_BLOCK
            ∨ (r.rc = .PRRTE_ERR_UNREACH ∧ r.written = [] ∧ r.msg = msg)) := by
  intro sock
  induction sock with
  | nil => intro retries r hr; simp [send_msg_retry] at hr
  | cons ev rest ih =>
    intro retries r hr
    cases ev with
    | accept k =>
      obtain ⟨r1, e, f1, f2, f3, f4, f5, f6⟩ := send_accept_spec msg h retries k rest
      rw [e] at hr
      cases hr
      refine ⟨f4, f5, ?_, ?_, ?_⟩
      · rw [f2, f3, List.take_append_drop]
      · rw [f1]; simp
      · by_cases c : iov_remain msg ≤ k
        · left
          rw [if_pos c] at f6
          refine ⟨f6, ?_⟩
          rw [f3]
          exact List.drop_of_length_le (by rw [wf_iov_length msg h]; exact c)
        · right; left
          rw [if_neg c] at f6
          exact f6
    | error n =>
      simp only [send_msg_retry] at hr
      split at hr
      · obtain ⟨a, b, c, d, e⟩ := ih retries r hr
        exact ⟨a, b, c, by simp only [List.length_cons]; omega, e⟩
      · split at hr
        · split at hr
          · obtain ⟨a, b, c, d, e⟩ := ih _ r hr
            exact ⟨a, b, c, by simp only [List.length_cons]; omega, e⟩
          · cases hr
            exact ⟨h, rfl, by simp, by simp, Or.inr (Or.inl rfl)⟩
        · split at hr
          · split at hr
            · obtain ⟨a, b, c, d, e⟩ := ih _ r hr
              exact ⟨a, b, c, by simp only [List.length_cons]; omega, e⟩
            · cases hr
              exact ⟨h, rfl, by simp, by simp, Or.inr (Or.inr (Or.inl rfl))⟩
          · cases hr
            exact ⟨h, rfl, by simp, by simp, Or.inr (Or.inr (Or.inr ⟨rfl, rfl, rfl⟩))⟩

theorem send_calls_nil (fuel : Nat) (msg : prte_oob_tcp_send_t)
    (hb : msg.hdr_sent = true ∨ sendable msg) : send_calls fuel msg [] = [] := by
  cases fuel <;> simp [send_calls, send_msg_eq msg hb, send_msg_retry]

theorem send_calls_accepts (ks : List Nat) :
    ∀ (msg : prte_oob_tcp_send_t) (fuel : Nat), send_wf msg → sendable msg →
      ks.length ≤ fuel →
      ((send_calls fuel msg (ks.map .accept)).map Prod.snd).flatten <+: iov_bytes msg
      ∧ (∀ c ∈ (send_calls fuel msg (ks.map .accept)).dropLast, c.1 = .PRRTE_ERR_RESOURCE_BUSY)
      ∧ ((send_calls fuel msg (ks.map .accept)).getLast?.map Prod.fst = some .PRRTE_SUCCESS →
          ((send_calls fuel msg (ks.map .accept)).map Prod.snd).flatten = iov_bytes msg)
      ∧ ((∀ k ∈ ks, 1 ≤ k) → iov_remain msg ≤ ks.length → ks ≠ [] →
          (send_calls fuel msg (ks.map .accept)).getLast?.map Prod.fst = some .PRRTE_SUCCESS) := by
  induction ks with
  | nil =>
    intro msg fuel _ hb _
    simp [send_calls_nil fuel msg (Or.inr hb)]
  | cons k ks ih =>
    intro msg fuel h hb hf
    obtain ⟨f, rfl⟩ : ∃ f, fuel = f + 1 := ⟨fuel - 1, by simp at hf; omega⟩
    obtain ⟨r, e, f1, f2, f3, f4, f5, f6⟩ := send_accept_spec msg h 0 k (ks.map .accept)
    have hlen := wf_iov_length msg h
    simp only [List.map_cons, send_calls, send_msg_eq msg (Or.inr hb), e]
    by_cases c : iov_remain msg ≤ k
    · rw [if_pos c] at f6
      have e2 : (iov_bytes msg).take k = iov_bytes msg :=
        List.take_of_length_le (by rw [hlen]; exact c)
      simp [f6, f2, e2]
    · rw [if_neg c] at f6
      have hf2 : ks.length ≤ f := by simp at hf; omega
      obtain ⟨i1, i2, i3, i4⟩ := ih r.msg f f4 (sendable_of_rewound r.msg msg f5 hb) hf2
      rw [f1]
      have hne : r.rc ≠ .PRRTE_SUCCESS := by rw [f6]; decide
      simp only [hne, if_false, List.map_cons, List.flatten_cons]
      generalize send_calls f r.msg (ks.map .accept) = calls at i1 i2 i3 i4
      have hs : iov_bytes msg = r.written ++ iov_bytes r.msg := by
        rw [f2, f3, List.take_append_drop]
      have hrem : iov_remain r.msg = iov_remain msg - k := by
        rw [← wf_iov_length r.msg f4, f3, List.length_drop, hlen]
      have hlast : ∀ x : Status × List Byte, calls ≠ [] →
          (x :: calls).getLast? = calls.getLast? := by
        intro x hc
        cases calls with
        | nil => exact absurd rfl hc
        | cons y ys => exact List.getLast?_cons_cons
      refine ⟨?_, ?_, ?_, ?_⟩
      · rw [hs]
        exact (List.prefix_append_right_inj _).mpr i1
      · intro c hc
        cases calls with
        | nil => simp at hc
        | cons y ys =>
          rw [List.dropLast_cons_of_ne_nil (List.cons_ne_nil _ _)] at hc
          rcases List.mem_cons.mp hc with hc1 | hc1
          · rw [hc1]; exact f6
          · exact i2 c hc1
      · intro hl
        cases calls with
        | nil =>
          simp only [List.getLast?_singleton, Option.map_some'] at hl
          rw [f6] at hl
          exact absurd (Option.some.inj hl) (by decide)
        | cons y ys =>
          rw [hlast _ (List.cons_ne_nil _ _)] at hl
          rw [hs, i3 hl]
      · intro hk hr _
        have hk1 : 1 ≤ k := hk k (List.mem_cons_self _ _)
        have hr2 : iov_remain msg ≤ ks.length + 1 := by simpa using hr
        have hks : ks ≠ [] := by
          intro hnil
          rw [hnil] at hr2
          simp at hr2
          omega
        have i5 := i4 (fun k1 hk1 => hk k1 (List.mem_cons_of_mem _ hk1))
          (by rw [hrem]; omega) hks
        have hc : calls ≠ [] := by
          intro hnil
          rw [hnil] at i5
          simp at i5
        rw [hlast _ hc]
        exact i5

end Prrte

namespace Prrte

/-- Partial-write resumption of `send_msg` for a request that has relay data or
an RML message.  For such a request as submitted
(header `hdr_mem`, payload `payload_of msg` of `hdr_nbytes` bytes) and a socket
whose `writev` calls accept `min k requested` bytes for an arbitrary list of
sizes `k`, calling `send_msg` until it returns success: the bytes accepted, in
call order, are always a prefix of the header followed by the payload; every
call before the last returns `PRRTE_ERR_RESOURCE_BUSY`; when the last call
returns `PRRTE_SUCCESS` the accepted bytes are exactly the header followed by
the payload and their number is the header size plus the payload size; and the
last call does return `PRRTE_SUCCESS` when every size is at least one and there
are at least as many sizes as bytes to send. -/
theorem send_msg_partial_write_resumption (msg : prte_oob_tcp_send_t) (ks : List Nat)
    (hfresh : fresh msg) (hb : sendable msg) :
    ((send_calls ks.length msg (ks.map .accept)).map Prod.snd).flatten <+: frame msg
    ∧ (∀ c ∈ (send_calls ks.length msg (ks.map .accept)).dropLast,
        c.1 = .PRRTE_ERR_RESOURCE_BUSY)
    ∧ ((send_calls ks.length msg (ks.map .accept)).getLast?.map Prod.fst = some .PRRTE_SUCCESS →
        ((send_calls ks.length msg (ks.map .accept)).map Prod.snd).flatten
            = msg.hdr_mem ++ payload_of msg
        ∧ ((send_calls ks.length msg (ks.map .accept)).map Prod.snd).flatten.length
            = msg.hdr_mem.length + (payload_of msg).length)
    ∧ ((∀ k ∈ ks, 1 ≤ k) → msg.hdr_mem.length + (payload_of msg).length ≤ ks.length → ks ≠ [] →
        (send_calls ks.length msg (ks.map .accept)).getLast?.map Prod.fst
          = some .PRRTE_SUCCESS) := by
  obtain ⟨i1, i2, i3, i4⟩ := send_calls_accepts ks msg ks.length (fresh_wf msg hfresh) hb
    le_rfl
  have hl := wf_iov_length msg (fresh_wf msg hfresh)
  rw [fresh_iov msg hfresh] at i1 i3 hl
  refine ⟨i1, i2, ?_, ?_⟩
  · intro h
    have e := i3 h
    refine ⟨e, ?_⟩
    rw [e]
    simp [frame]
  · intro hk hr hne
    refine i4 hk ?_ hne
    rw [← hl]
    simpa [frame] using hr

/-- Partial-write resumption at a request with a header of four bytes and a
payload of five, on a socket that accepts three bytes, then none, then two, then
the rest. -/
theorem send_msg_partial_write_resumption_witness :
    fresh (ex_snd 7 [1, 2, 3, 4] [9, 8, 7, 6, 5])
    ∧ send_calls 4 (ex_snd 7 [1, 2, 3, 4] [9, 8, 7, 6, 5])
          [.accept 3, .accept 0, .accept 2, .accept 10]
        = [(.PRRTE_ERR_RESOURCE_BUSY, [1, 2, 3]), (.PRRTE_ERR_RESOURCE_BUSY, []),
           (.PRRTE_ERR_RESOURCE_BUSY, [4, 9]), (.PRRTE_SUCCESS, [8, 7, 6, 5])]
    ∧ ((send_calls [3, 0, 2, 10].length (ex_snd 7 [1, 2, 3, 4] [9, 8, 7, 6, 5])
          ([3, 0, 2, 10].map .accept)).getLast?.map Prod.fst = some .PRRTE_SUCCESS →
        ((send_calls [3, 0, 2, 10].length (ex_snd 7 [1, 2, 3, 4] [9, 8, 7, 6, 5])
            ([3, 0, 2, 10].map .accept)).map Prod.snd).flatten
            = (ex_snd 7 [1, 2, 3, 4] [9, 8, 7, 6, 5]).hdr_mem
                ++ payload_of (ex_snd 7 [1, 2, 3, 4] [9, 8, 7, 6, 5])
        ∧ ((send_calls [3, 0, 2, 10].length (ex_snd 7 [1, 2, 3, 4] [9, 8, 7, 6, 5])
            ([3, 0, 2, 10].map .accept)).map Prod.snd).flatten.length
            = (ex_snd 7 [1, 2, 3, 4] [9, 8, 7, 6, 5]).hdr_mem.length
                + (payload_of (ex_snd 7 [1, 2, 3, 4] [9, 8, 7, 6, 5])).length) :=
  ⟨⟨rfl, rfl, rfl, rfl⟩, by decide,
   (send_msg_partial_write_resumption (ex_snd 7 [1, 2, 3, 4] [9, 8, 7, 6, 5]) [3, 0, 2, 10]
      ⟨rfl, rfl, rfl, rfl⟩ (Or.inr (by decide))).2.2.1⟩

end Prrte

namespace Prrte

/-! ## What the log of a peer tells -/

theorem wire_append (a b : List Event) : wire (a ++ b) = wire a ++ wire b := by
  induction a with
  | nil => rfl
  | cons e a ih => cases e <;> simp [wire, ih]

theorem released_append (a b : List Event) : released (a ++ b) = released a ++ released b := by
  induction a with
  | nil => rfl
  | cons e a ih => cases e <;> simp [released, ih]

theorem completed_append (a b : List Event) :
    completed (a ++ b) = completed a ++ completed b := by
  induction a with
  | nil => rfl
  | cons e a ih => cases e <;> simp [completed, ih]

theorem rewound_rewound (r : prte_oob_tcp_send_t) : rewound (rewound r) = rewound r := rfl

theorem frame_rewound (r : prte_oob_tcp_send_t) : frame (rewound r) = frame r := by
  cases r; simp [frame, rewound, payload_of_mk]

theorem frame_of_rewound_eq (a b : prte_oob_tcp_send_t) (h : rewound a = rewound b) :
    frame a = frame b := by
  rw [← frame_rewound a, h, frame_rewound]

theorem flatMap_frame_rewound (l : List prte_oob_tcp_send_t) :
    (l.map rewound).flatMap frame = l.flatMap frame := by
  induction l with
  | nil => rfl
  | cons a l ih => simp [List.flatMap_cons, frame_rewound, ih]

theorem flatMap_iov_fresh (l : List prte_oob_tcp_send_t) (h : ∀ r ∈ l, fresh r) :
    l.flatMap iov_bytes = l.flatMap frame := by
  induction l with
  | nil => rfl
  | cons a l ih =>
    simp only [List.flatMap_cons]
    rw [fresh_iov a (h a (List.mem_cons_self _ _)),
      ih (fun r hr => h r (List.mem_cons_of_mem _ hr))]

theorem map_rewound_fresh (l : List prte_oob_tcp_send_t) (h : ∀ r ∈ l, fresh r) :
    l.map rewound = l := by
  induction l with
  | nil => rfl
  | cons a l ih =>
    simp only [List.map_cons]
    rw [rewound_fresh a (h a (List.mem_cons_self _ _)),
      ih (fun r hr => h r (List.mem_cons_of_mem _ hr))]

/-! ## The effect of `prte_oob_tcp_queue_msg` -/

theorem queue_msg_log (w : World) (snd : prte_oob_tcp_send_t) :
    wire (prte_oob_tcp_queue_msg w snd).log = wire w.log
    ∧ released (prte_oob_tcp_queue_msg w snd).log = released w.log
    ∧ completed (prte_oob_tcp_queue_msg w snd).log = completed w.log
    ∧ (failed (prte_oob_tcp_queue_msg w snd) ↔ failed w) := by
  unfold prte_oob_tcp_queue_msg failed
  dsimp only
  split_ifs <;>
    simp [wire_append, released_append, completed_append, wire, released, completed]

theorem queue_msg_pending (w : World) (snd : prte_oob_tcp_send_t) :
    (w.peer.send_msg = none → w.peer.send_queue = []) →
      pending (prte_oob_tcp_queue_msg w snd).peer = pending w.peer ++ [snd] := by
  intro h
  unfold prte_oob_tcp_queue_msg pending
  dsimp only
  cases hm : w.peer.send_msg with
  | none => simp only [h hm]; split_ifs <;> simp
  | some m => dsimp only; split_ifs <;> simp

theorem queue_msg_pending_perm (w : World) (snd : prte_oob_tcp_send_t) :
    (pending (prte_oob_tcp_queue_msg w snd).peer).Perm (pending w.peer ++ [snd]) := by
  unfold prte_oob_tcp_queue_msg pending
  dsimp only
  cases hm : w.peer.send_msg with
  | none =>
    have : (snd :: w.peer.send_queue).Perm (w.peer.send_queue ++ [snd]) := by
      rw [List.perm_comm]; exact List.perm_append_singleton _ _
    dsimp only; split_ifs <;> simpa using this
  | some m => dsimp only; split_ifs <;> simp

theorem queue_msg_fields (w : World) (snd : prte_oob_tcp_send_t) :
    ((prte_oob_tcp_queue_msg w snd).peer.send_msg = some (w.peer.send_msg.getD snd))
    ∧ ((prte_oob_tcp_queue_msg w snd).peer.send_queue
        = if w.peer.send_msg.isSome then w.peer.send_queue ++ [snd] else w.peer.send_queue)
    ∧ ((w.peer.send_event = true → w.peer.send_ev_active = true) →
        ((prte_oob_tcp_queue_msg w snd).peer.send_event = true →
          (prte_oob_tcp_queue_msg w snd).peer.send_ev_active = true))
    ∧ ((w.peer.send_event = false ∧ w.peer.send_ev_active = true
          ∧ w.peer.state = .MCA_OOB_TCP_CONNECTED) →
        ((prte_oob_tcp_queue_msg w snd).peer.send_event = false
          ∧ (prte_oob_tcp_queue_msg w snd).peer.send_ev_active = true
          ∧ (prte_oob_tcp_queue_msg w snd).peer.state = .MCA_OOB_TCP_CONNECTED
          ∧ (prte_oob_tcp_queue_msg w snd).log = w.log)) := by
  unfold prte_oob_tcp_queue_msg
  dsimp only
  cases hm : w.peer.send_msg with
  | none =>
    dsimp only
    refine ⟨?_, ?_, ?_, ?_⟩
    · split_ifs <;> simp
    · simp only [Option.isSome_none, Bool.false_eq_true, if_false]; split_ifs <;> simp
    · intro hR; split_ifs <;> simp_all
    · rintro ⟨h1, h2, h3⟩; split_ifs <;> simp_all
  | some m =>
    dsimp only
    refine ⟨?_, ?_, ?_, ?_⟩
    · split_ifs <;> simp
    · simp only [Option.isSome_some, if_true]; split_ifs <;> simp
    · intro hR; split_ifs <;> simp_all
    · rintro ⟨h1, h2, h3⟩; split_ifs <;> simp_all

theorem queue_msg_stuck (w : World) (snd : prte_oob_tcp_send_t) (h : stuck w) :
    stuck (prte_oob_tcp_queue_msg w snd) := by
  obtain ⟨hst, r, hm, h1, h2⟩ := h
  unfold prte_oob_tcp_queue_msg stuck
  dsimp only
  rw [hm]
  dsimp only
  split_ifs
  · rename_i h3 h4
    exact absurd hst h4
  · exact ⟨hst, r, rfl, h1, h2⟩
  · exact ⟨hst, r, rfl, h1, h2⟩
  · exact ⟨hst, r, rfl, h1, h2⟩

end Prrte

namespace Prrte

/-! ## Steps of a peer keep the invariant -/

theorem live_inv (S : List prte_oob_tcp_send_t) (w : World) (h : live S w) :
    wire w.log <+: S.flatMap frame
    ∧ (released w.log).map rewound <+: S
    ∧ ((released w.log).map rewound ++ (pending w.peer).map rewound).Perm S := by
  obtain ⟨_, _, _, _, h5, h6⟩ := h
  exact ⟨⟨_, h6⟩, ⟨_, h5⟩, by rw [h5]⟩

theorem submit_inv (S : List prte_oob_tcp_send_t) (w : World) (snd : prte_oob_tcp_send_t)
    (hf : fresh snd) (h : send_inv S w) : send_inv (S ++ [snd]) (prte_oob_tcp_queue_msg w snd) := by
  obtain ⟨i1, i2, i3, i4, i5, i6⟩ := h
  obtain ⟨l1, l2, l3, l4⟩ := queue_msg_log w snd
  obtain ⟨q1, q2, q3, q4⟩ := queue_msg_fields w snd
  have hperm := queue_msg_pending_perm w snd
  refine ⟨?_, ?_, ?_, ?_, ?_, ?_⟩
  · rw [l1, List.flatMap_append]
    exact i1.trans (List.prefix_append _ _)
  · rw [l2]
    exact i2.trans (List.prefix_append _ _)
  · rw [l2]
    have e : ((pending (prte_oob_tcp_queue_msg w snd).peer).map rewound).Perm
        ((pending w.peer).map rewound ++ [snd]) := by
      have := hperm.map rewound
      simpa [rewound_fresh snd hf] using this
    refine ((List.Perm.append_left _ e).trans ?_)
    rw [← List.append_assoc]
    exact List.Perm.append_right _ i3
  · intro hS
    rw [l2, l3]
    exact i4 (fun r hr => hS r (List.mem_append_left _ hr))
  · intro hfail
    rcases i5 (l4.mp hfail) with hd | hs
    · obtain ⟨a, b, c, _⟩ := q4 hd
      exact Or.inl ⟨a, b, c⟩
    · exact Or.inr (queue_msg_stuck w snd hs)
  · intro hfail
    obtain ⟨h1, h2, h3, h4, h5, h6⟩ := i6 (fun hx => hfail (l4.mpr hx))
    have hp := queue_msg_pending w snd h2
    refine ⟨q3 h1, ?_, ?_, ?_, ?_, ?_⟩
    · intro hn; rw [q1] at hn; cases hn
    · intro r hr
      rw [q1] at hr
      cases hm : w.peer.send_msg with
      | none =>
        rw [hm] at hr
        simp only [Option.getD_none, Option.some.injEq] at hr
        rw [← hr]; exact fresh_wf snd hf
      | some m =>
        rw [hm] at hr
        simp only [Option.getD_some, Option.some.injEq] at hr
        rw [← hr]; exact h3 m hm
    · intro r hr
      rw [q2] at hr
      split at hr
      · rcases List.mem_append.mp hr with hr1 | hr1
        · exact h4 r hr1
        · rw [List.mem_singleton.mp hr1]; exact hf
      · exact h4 r hr
    · rw [l2, hp, List.map_append, ← List.append_assoc, h5]
      simp [rewound_fresh snd hf]
    · rw [l1, hp, List.flatMap_append, ← List.append_assoc, h6, List.flatMap_append]
      simp [fresh_iov snd hf]

end Prrte

namespace Prrte

theorem send_inv_of_live (S : List prte_oob_tcp_send_t) (w : World) (hl : live S w)
    (hn : ¬ failed w)
    (hc : (∀ r ∈ S, r.msg.isSome → r.data = none) →
      completed w.log = (released w.log).filterMap (fun r => r.msg)) : send_inv S w :=
  ⟨(live_inv S w hl).1, (live_inv S w hl).2.1, (live_inv S w hl).2.2, hc,
   fun hf => absurd hf hn, fun _ => hl⟩

theorem live_of_same (S : List prte_oob_tcp_send_t) (w w1 : World) (h : live S w)
    (hw : wire w1.log = wire w.log) (hr : released w1.log = released w.log)
    (hm : w1.peer.send_msg = w.peer.send_msg) (hq : w1.peer.send_queue = w.peer.send_queue)
    (hR : w1.peer.send_event = true → w1.peer.send_ev_active = true) : live S w1 := by
  obtain ⟨h1, h2, h3, h4, h5, h6⟩ := h
  have hp : pending w1.peer = pending w.peer := by simp [pending, hm, hq]
  refine ⟨hR, ?_, ?_, ?_, ?_, ?_⟩
  · rw [hm, hq]; exact h2
  · rw [hm]; exact h3
  · rw [hq]; exact h4
  · rw [hr, hp]; exact h5
  · rw [hw, hp]; exact h6

theorem wire_log1 (log : List Event) (b : List Byte) :
    wire (if b = [] then log else log ++ [.writev b]) = wire log ++ b
    ∧ released (if b = [] then log else log ++ [.writev b]) = released log
    ∧ completed (if b = [] then log else log ++ [.writev b]) = completed log
    ∧ (Event.fault ∈ (if b = [] then log else log ++ [.writev b]) ↔ Event.fault ∈ log)
    ∧ (Event.comm_failed ∈ (if b = [] then log else log ++ [.writev b])
        ↔ Event.comm_failed ∈ log) := by
  by_cases hb : b = []
  · simp [hb]
  · simp [hb, wire_append, released_append, completed_append, wire, released, completed]

/-- The connected case of the handler when `send_msg` returns success. -/
theorem send_handler_done (cc : prte_oob_tcp_peer_t → prte_oob_tcp_peer_t) (w : World)
    (sock : List WriteRes) (msg : prte_oob_tcp_send_t) (r : SendRes)
    (hst : w.peer.state = .MCA_OOB_TCP_CONNECTED) (hm : w.peer.send_msg = some msg)
    (hr : send_msg msg sock = some r) (hrc : r.rc = .PRRTE_SUCCESS) :
    ∃ w1, prte_oob_tcp_send_handler cc w sock = some (w1, r.rest)
      ∧ wire w1.log = wire w.log ++ r.written
      ∧ released w1.log = released w.log ++ [r.msg]
      ∧ completed w1.log
          = completed w.log ++ (if r.msg.data.isSome then [] else r.msg.msg.toList)
      ∧ (failed w1 ↔ failed w)
      ∧ w1.peer.send_msg = w.peer.send_queue.head?
      ∧ w1.peer.send_queue = w.peer.send_queue.tail
      ∧ ((w.peer.send_event = true → w.peer.send_ev_active = true) →
          (w1.peer.send_event = true → w1.peer.send_ev_active = true)) := by
  obtain ⟨l1, l2, l3, l4, l5⟩ := wire_log1 w.log r.written
  unfold prte_oob_tcp_send_handler
  simp only [hst, hm, hr, hrc, if_true]
  refine ⟨_, rfl, ?_, ?_, ?_, ?_, ?_, ?_, ?_⟩
  · dsimp only
    split
    · simp [wire_append, l1, wire]
    · split <;> simp [wire_append, l1, wire]
  · dsimp only
    split
    · simp [released_append, l2, released]
    · split <;> simp [released_append, l2, released]
  · dsimp only
    split
    · rename_i hc
      simp only [Bool.or_eq_true, Option.isNone_iff_eq_none] at hc
      rcases hc with hc | hc
      · simp [completed_append, l3, completed, hc]
      · simp [completed_append, l3, completed, hc]
    · rename_i hc
      simp only [Bool.or_eq_true, Option.isNone_iff_eq_none, not_or] at hc
      split
      · rename_i m hmm
        simp [completed_append, l3, completed, hc.1, hmm]
      · rename_i hmm
        exact absurd hmm hc.2
  · dsimp only [failed]
    split
    · simp [l4, l5]
    · split <;> simp [l4, l5]
  · simp only [send_idle_check, promote_next]
    split <;> rfl
  · simp only [send_idle_check, promote_next]
    split <;> rfl
  · intro hR
    simp only [send_idle_check, promote_next]
    split
    · simp
    · exact hR

/-- The connected case of the handler when `send_msg` returns busy or would
block. -/
theorem send_handler_busy (cc : prte_oob_tcp_peer_t → prte_oob_tcp_peer_t) (w : World)
    (sock : List WriteRes) (msg : prte_oob_tcp_send_t) (r : SendRes)
    (hst : w.peer.state = .MCA_OOB_TCP_CONNECTED) (hm : w.peer.send_msg = some msg)
    (hr : send_msg msg sock = some r)
    (hrc : r.rc = .PRRTE_ERR_RESOURCE_BUSY ∨ r.rc = .PRRTE_ERR_WOULD_BLOCK) :
    ∃ w1, prte_oob_tcp_send_handler cc w sock = some (w1, r.rest)
      ∧ wire w1.log = wire w.log ++ r.written
      ∧ released w1.log = released w.log
      ∧ completed w1.log = completed w.log
      ∧ (failed w1 ↔ failed w)
      ∧ w1.peer = { w.peer with send_msg := some r.msg } := by
  obtain ⟨l1, l2, l3, l4, l5⟩ := wire_log1 w.log r.written
  have hne : r.rc ≠ .PRRTE_SUCCESS := by
    rcases hrc with h | h <;> rw [h] <;> decide
  unfold prte_oob_tcp_send_handler
  simp only [hst, hm, hr, hne, hrc, if_true, if_false]
  exact ⟨_, rfl, l1, l2, l3, by simp [failed, l4, l5], rfl⟩

/-- The connected case of the handler when `send_msg` fails on a request with an
RML message. -/
theorem send_handler_fatal (cc : prte_oob_tcp_peer_t → prte_oob_tcp_peer_t) (w : World)
    (sock : List WriteRes) (msg : prte_oob_tcp_send_t) (r : SendRes) (m : Nat)
    (hst : w.peer.state = .MCA_OOB_TCP_CONNECTED) (hm : w.peer.send_msg = some msg)
    (hr : send_msg msg sock = some r) (hrc : r.rc = .PRRTE_ERR_UNREACH)
    (hmsg : r.msg.msg = some m) :
    ∃ w1, prte_oob_tcp_send_handler cc w sock = some (w1, r.rest)
      ∧ wire w1.log = wire w.log ++ r.written
      ∧ released w1.log = released w.log ++ [r.msg]
      ∧ completed w1.log = completed w.log ++ [m]
      ∧ failed w1
      ∧ w1.peer = { w.peer with send_msg := none, send_event := false } := by
  obtain ⟨l1, l2, l3, l4, l5⟩ := wire_log1 w.log r.written
  unfold prte_oob_tcp_send_handler
  simp only [hst, hm, hr, hrc, hmsg]
  refine ⟨_, rfl, ?_, ?_, ?_, ?_, rfl⟩
  · simp [wire_append, l1, wire]
  · simp [released_append, l2, released]
  · simp [completed_append, l3, completed]
  · simp [failed]

/-- The connected case of the handler when `send_msg` fails on a request
without an RML message: `msg->msg->status` dereferences `NULL`. -/
theorem send_handler_fatal_relay (cc : prte_oob_tcp_peer_t → prte_oob_tcp_peer_t) (w : World)
    (sock : List WriteRes) (msg : prte_oob_tcp_send_t) (r : SendRes)
    (hst : w.peer.state = .MCA_OOB_TCP_CONNECTED) (hm : w.peer.send_msg = some msg)
    (hr : send_msg msg sock = some r) (hrc : r.rc = .PRRTE_ERR_UNREACH)
    (hmsg : r.msg.msg = none) :
    ∃ w1, prte_oob_tcp_send_handler cc w sock = some (w1, r.rest)
      ∧ wire w1.log = wire w.log ++ r.written
      ∧ released w1.log = released w.log
      ∧ completed w1.log = completed w.log
      ∧ failed w1
      ∧ w1.peer = { w.peer with send_msg := some r.msg, send_event := false } := by
  obtain ⟨l1, l2, l3, l4, l5⟩ := wire_log1 w.log r.written
  unfold prte_oob_tcp_send_handler
  simp only [hst, hm, hr, hrc, hmsg]
  refine ⟨_, rfl, ?_, ?_, ?_, ?_, rfl⟩
  · simp [wire_append, l1, wire]
  · simp [released_append, l2, released]
  · simp [completed_append, l3, completed]
  · simp [failed]

/-- The connected case of the handler when the on-deck request has its header
unsent and neither relay data nor an RML message: `send_msg` dereferences `NULL`
and nothing else happens. -/
theorem send_handler_null (cc : prte_oob_tcp_peer_t → prte_oob_tcp_peer_t) (w : World)
    (sock : List WriteRes) (msg : prte_oob_tcp_send_t)
    (hst : w.peer.state = .MCA_OOB_TCP_CONNECTED) (hm : w.peer.send_msg = some msg)
    (h1 : msg.hdr_sent = false) (h2 : iov1_base msg = none) :
    prte_oob_tcp_send_handler cc w sock
      = some ({ peer := { w.peer with send_msg := some msg }, log := w.log ++ [.fault] },
              sock) := by
  unfold prte_oob_tcp_send_handler
  simp only [hst, hm, send_msg_null msg h1 h2 sock]
  simp

/-- The cases of the handler that write nothing. -/
theorem send_handler_idle (cc : prte_oob_tcp_peer_t → prte_oob_tcp_peer_t)
    (hcc : keeps_send_side cc) (w : World) (sock : List WriteRes)
    (h : w.peer.state = .MCA_OOB_TCP_CONNECTED → w.peer.send_msg = none) :
    ∃ w1, prte_oob_tcp_send_handler cc w sock = some (w1, sock)
      ∧ wire w1.log = wire w.log
      ∧ released w1.log = released w.log
      ∧ completed w1.log = completed w.log
      ∧ (failed w1 ↔ failed w)
      ∧ w1.peer.send_msg = w.peer.send_msg
      ∧ w1.peer.send_queue = w.peer.send_queue
      ∧ ((w.peer.send_event = true → w.peer.send_ev_active = true) →
          (w1.peer.send_event = true → w1.peer.send_ev_active = true)) := by
  obtain ⟨c1, c2, c3, c4⟩ := hcc w.peer
  unfold prte_oob_tcp_send_handler
  dsimp only
  cases hst : w.peer.state
  case MCA_OOB_TCP_CONNECTED =>
    simp only [h hst]
    refine ⟨_, rfl, rfl, rfl, rfl, Iff.rfl, ?_, ?_, ?_⟩
    · simp only [send_idle_check]; split <;> simp [h hst]
    · simp only [send_idle_check]; split <;> rfl
    · intro hR
      simp only [send_idle_check]
      split
      · simp
      · exact hR
  case MCA_OOB_TCP_CONNECTING =>
    dsimp only
    refine ⟨_, rfl, ?_, ?_, ?_, ?_, ?_, ?_, ?_⟩
    · simp [wire_append, wire]
    · simp [released_append, released]
    · simp [completed_append, completed]
    · simp [failed]
    · split <;> simp [c1]
    · split <;> simp [c2]
    · intro hR
      split
      · simp
      · rw [c3, c4]; exact hR
  case MCA_OOB_TCP_CLOSED =>
    dsimp only
    refine ⟨_, rfl, ?_, ?_, ?_, ?_, ?_, ?_, ?_⟩
    · simp [wire_append, wire]
    · simp [released_append, released]
    · simp [completed_append, completed]
    · simp [failed]
    · split <;> simp [c1]
    · split <;> simp [c2]
    · intro hR
      split
      · simp
      · rw [c3, c4]; exact hR
  all_goals
    dsimp only
    refine ⟨_, rfl, rfl, rfl, rfl, Iff.rfl, ?_, ?_, ?_⟩
    · split <;> rfl
    · split <;> rfl
    · intro hR
      split
      · simp
      · exact hR

end Prrte

namespace Prrte

theorem head_toList_tail {α : Type} (l : List α) : l.head?.toList ++ l.tail = l := by
  cases l <;> rfl

/-- A send callback that faults on the `NULL` dereference of `send_msg` keeps
what holds of a peer after a failure. -/
theorem null_step_inv (S : List prte_oob_tcp_send_t) (w : World) (msg : prte_oob_tcp_send_t)
    (hst : w.peer.state = .MCA_OOB_TCP_CONNECTED) (hm : w.peer.send_msg = some msg)
    (h1 : msg.hdr_sent = false) (h2 : iov1_base msg = none)
    (i1 : wire w.log <+: S.flatMap frame)
    (i2 : (released w.log).map rewound <+: S)
    (i3 : ((released w.log).map rewound ++ (pending w.peer).map rewound).Perm S)
    (i4 : (∀ r ∈ S, r.msg.isSome → r.data = none) →
      completed w.log = (released w.log).filterMap (fun r => r.msg)) :
    send_inv S { peer := { w.peer with send_msg := some msg }, log := w.log ++ [.fault] } := by
  have hp : pending ({ w.peer with send_msg := some msg } : prte_oob_tcp_peer_t)
      = pending w.peer := by
    simp [pending, hm]
  have hw : wire (w.log ++ [.fault]) = wire w.log := by simp [wire_append, wire]
  have hr : released (w.log ++ [.fault]) = released w.log := by
    simp [released_append, released]
  have hc : completed (w.log ++ [.fault]) = completed w.log := by
    simp [completed_append, completed]
  refine ⟨?_, ?_, ?_, ?_, ?_, ?_⟩
  · show wire (w.log ++ [.fault]) <+: _
    rw [hw]; exact i1
  · show (released (w.log ++ [.fault])).map rewound <+: _
    rw [hr]; exact i2
  · show ((released (w.log ++ [.fault])).map rewound
      ++ (pending ({ w.peer with send_msg := some msg } : prte_oob_tcp_peer_t)).map
          rewound).Perm S
    rw [hr, hp]; exact i3
  · intro hS
    show completed (w.log ++ [.fault]) = (released (w.log ++ [.fault])).filterMap _
    rw [hc, hr]; exact i4 hS
  · intro _
    exact Or.inr ⟨hst, msg, rfl, h1, h2⟩
  · intro hn
    exact absurd (Or.inl (by simp)) hn

theorem writable_inv (cc : prte_oob_tcp_peer_t → prte_oob_tcp_peer_t) (hcc : keeps_send_side cc)
    (S : List prte_oob_tcp_send_t) (w : World) (sock : List WriteRes) (w1 : World)
    (sock1 : List WriteRes) (h : send_inv S w)
    (hs : send_step cc w sock .writable = some (w1, sock1)) : send_inv S w1 := by
  simp only [send_step] at hs
  split at hs
  · cases hs; exact h
  · rename_i hev
    have hev : w.peer.send_event = true := by simpa using hev
    obtain ⟨i1, i2, i3, i4, i5, i6⟩ := h
    by_cases hfail : failed w
    · rcases i5 hfail with hd | hstuck
      · have := hd.1; rw [hev] at this; cases this
      · obtain ⟨hst, msg, hm, h1, h2⟩ := hstuck
        rw [send_handler_null cc w sock msg hst hm h1 h2] at hs
        cases hs
        exact null_step_inv S w msg hst hm h1 h2 i1 i2 i3 i4
    have hnf : ¬ failed w := hfail
    have hl := i6 hnf
    by_cases hidle : w.peer.state = .MCA_OOB_TCP_CONNECTED → w.peer.send_msg = none
    · obtain ⟨w2, e, a1, a2, a3, a4, a5, a6, a7⟩ := send_handler_idle cc hcc w sock hidle
      rw [e] at hs
      cases hs
      have hl2 := live_of_same S w w1 hl a1 a2 a5 a6 (a7 hl.1)
      exact send_inv_of_live S w1 hl2 (fun hf => hnf (a4.mp hf))
        (by intro hS; rw [a3, a2]; exact i4 hS)
    · push_neg at hidle
      obtain ⟨hst, hm⟩ := hidle
      obtain ⟨msg, hmsg⟩ := Option.ne_none_iff_exists'.mp hm
      obtain ⟨h1, h2, h3, h4, h5, h6⟩ := hl
      have hpend : pending w.peer = msg :: w.peer.send_queue := by simp [pending, hmsg]
      rw [hpend] at h5 h6
      simp only [List.map_cons, List.flatMap_cons] at h5 h6
      cases hr : send_msg msg sock with
      | none =>
        unfold prte_oob_tcp_send_handler at hs
        simp [hst, hmsg, hr] at hs
      | some r =>
        have hwf := h3 msg hmsg
        rcases send_msg_cases msg sock with ⟨n1, n2, -⟩ | ⟨-, e⟩
        · rw [send_handler_null cc w sock msg hst hmsg n1 n2] at hs
          cases hs
          exact null_step_inv S w msg hst hmsg n1 n2 i1 i2 i3 i4
        have hr0 : send_msg_retry msg 0 sock = some r := by rw [← e]; exact hr
        obtain ⟨s1, s2, s3, s4, s5⟩ := send_msg_retry_spec msg hwf sock 0 r hr0
        obtain ⟨p1, p2, p3, p4, p5⟩ := rewound_payload r.msg msg s2
        rcases s5 with ⟨hrc, hempty⟩ | hrc | hrc | ⟨hrc, hw0, hmm⟩
        · obtain ⟨w2, e, a1, a2, a3, a4, a5, a6, a7⟩ :=
            send_handler_done cc w sock msg r hst hmsg hr hrc
          rw [e] at hs
          cases hs
          have hp1 : pending w1.peer = w.peer.send_queue := by
            simp [pending, a5, a6, head_toList_tail]
          refine send_inv_of_live S w1 ⟨a7 h1, ?_, ?_, ?_, ?_, ?_⟩ (fun hf => hnf (a4.mp hf)) ?_
          · intro hn
            rw [a5] at hn
            rw [a6, List.head?_eq_none_iff.mp hn]
            rfl
          · intro x hx
            rw [a5] at hx
            exact fresh_wf x (h4 x (List.mem_of_mem_head? hx))
          · intro x hx
            rw [a6] at hx
            exact h4 x (List.mem_of_mem_tail hx)
          · rw [a2, hp1, List.map_append, List.map_singleton, s2, List.append_assoc]
            exact h5
          · rw [a1, hp1, ← h6, ← s3, hempty]
            simp
          · intro hS
            rw [a3, a2, List.filterMap_append, i4 hS]
            congr 1
            have hin : rewound msg ∈ S := by rw [← h5]; simp
            have := hS _ hin
            cases hmm : r.msg.msg with
            | none => simp [hmm]
            | some m =>
              have hd : r.msg.data = none := by
                rw [p4]
                apply this
                show msg.msg.isSome = true
                rw [← p3, hmm]; rfl
              simp [hmm, hd]
        · have HRC : r.rc = .PRRTE_ERR_RESOURCE_BUSY ∨ r.rc = .PRRTE_ERR_WOULD_BLOCK :=
            Or.inl hrc
          obtain ⟨w2, e, a1, a2, a3, a4, a5⟩ :=
            send_handler_busy cc w sock msg r hst hmsg hr HRC
          rw [e] at hs
          cases hs
          have hp1 : pending w1.peer = r.msg :: w.peer.send_queue := by
            simp [pending, a5]
          refine send_inv_of_live S w1 ⟨?_, ?_, ?_, ?_, ?_, ?_⟩ (fun hf => hnf (a4.mp hf)) ?_
          · rw [a5]; exact h1
          · intro hn; rw [a5] at hn; cases hn
          · intro x hx
            rw [a5] at hx
            cases hx
            exact s1
          · intro x hx
            rw [a5] at hx
            exact h4 x hx
          · rw [a2, hp1, List.map_cons, s2]
            exact h5
          · rw [a1, hp1, List.flatMap_cons, ← h6, ← s3]
            simp
          · intro hS
            rw [a3, a2]
            exact i4 hS
        · have HRC : r.rc = .PRRTE_ERR_RESOURCE_BUSY ∨ r.rc = .PRRTE_ERR_WOULD_BLOCK :=
            Or.inr hrc
          obtain ⟨w2, e, a1, a2, a3, a4, a5⟩ :=
            send_handler_busy cc w sock msg r hst hmsg hr HRC
          rw [e] at hs
          cases hs
          have hp1 : pending w1.peer = r.msg :: w.peer.send_queue := by
            simp [pending, a5]
          refine send_inv_of_live S w1 ⟨?_, ?_, ?_, ?_, ?_, ?_⟩ (fun hf => hnf (a4.mp hf)) ?_
          · rw [a5]; exact h1
          · intro hn; rw [a5] at hn; cases hn
          · intro x hx
            rw [a5] at hx
            cases hx
            exact s1
          · intro x hx
            rw [a5] at hx
            exact h4 x hx
          · rw [a2, hp1, List.map_cons, s2]
            exact h5
          · rw [a1, hp1, List.flatMap_cons, ← h6, ← s3]
            simp
          · intro hS
            rw [a3, a2]
            exact i4 hS
        · have hflag : w.peer.send_ev_active = true := h1 hev
          cases hmm2 : r.msg.msg with
          | some m =>
            obtain ⟨w2, e, a1, a2, a3, a4, a5⟩ :=
              send_handler_fatal cc w sock msg r m hst hmsg hr hrc hmm2
            rw [e] at hs
            cases hs
            have hp1 : pending w1.peer = w.peer.send_queue := by simp [pending, a5]
            refine ⟨?_, ?_, ?_, ?_, ?_, ?_⟩
            · rw [a1, hw0, List.append_nil]; exact i1
            · rw [a2, List.map_append, List.map_singleton, s2, ← h5]
              exact (List.prefix_append_right_inj _).mpr (List.prefix_append [rewound msg] _)
            · rw [a2, hp1, List.map_append, List.map_singleton, s2, List.append_assoc]
              exact List.Perm.of_eq h5
            · intro hS
              rw [a3, a2, List.filterMap_append, i4 hS]
              simp [hmm2]
            · intro _
              exact Or.inl ⟨by rw [a5], by rw [a5]; exact hflag, by rw [a5]; exact hst⟩
            · intro hn; exact absurd a4 hn
          | none =>
            obtain ⟨w2, e, a1, a2, a3, a4, a5⟩ :=
              send_handler_fatal_relay cc w sock msg r hst hmsg hr hrc hmm2
            rw [e] at hs
            cases hs
            have hp1 : pending w1.peer = pending w.peer := by simp [pending, a5, hmm, hmsg]
            refine ⟨?_, ?_, ?_, ?_, ?_, ?_⟩
            · rw [a1, hw0, List.append_nil]; exact i1
            · rw [a2]; exact i2
            · rw [a2, hp1]; exact i3
            · intro hS
              rw [a3, a2]
              exact i4 hS
            · intro _
              exact Or.inl ⟨by rw [a5], by rw [a5]; exact hflag, by rw [a5]; exact hst⟩
            · intro hn; exact absurd a4 hn

end Prrte

namespace Prrte

theorem send_inv_init (w0 : World) (hm : w0.peer.send_msg = none)
    (hq : w0.peer.send_queue = []) (hlog : w0.log = [])
    (hR : w0.peer.send_event = true → w0.peer.send_ev_active = true) : send_inv [] w0 := by
  have hl : live [] w0 := by
    refine ⟨hR, fun _ => hq, ?_, ?_, ?_, ?_⟩
    · intro r hr; rw [hm] at hr; cases hr
    · intro r hr; rw [hq] at hr; cases hr
    · simp [hlog, released, pending, hm, hq]
    · simp [hlog, wire, pending, hm, hq]
  refine send_inv_of_live [] w0 hl ?_ ?_
  · simp [failed, hlog]
  · intro _; simp [hlog, completed, released]

theorem send_run_inv (cc : prte_oob_tcp_peer_t → prte_oob_tcp_peer_t)
    (hcc : keeps_send_side cc) :
    ∀ (ops : List SendOp) (S : List prte_oob_tcp_send_t) (w : World) (sock : List WriteRes)
      (out : World × List WriteRes),
      send_inv S w → (∀ r ∈ submitted ops, fresh r) → send_run cc w sock ops = some out →
      send_inv (S ++ submitted ops) out.1 := by
  intro ops
  induction ops with
  | nil =>
    intro S w sock out h _ hrun
    simp only [send_run, Option.some.injEq] at hrun
    subst hrun
    simpa [submitted] using h
  | cons op ops ih =>
    intro S w sock out h hf hrun
    simp only [send_run] at hrun
    cases hstep : send_step cc w sock op with
    | none => rw [hstep] at hrun; cases hrun
    | some r =>
      rw [hstep] at hrun
      dsimp only at hrun
      cases op with
      | submit snd =>
        simp only [send_step, Option.some.injEq] at hstep
        subst hstep
        have hfs : fresh snd := hf snd (by simp [submitted])
        have h2 := submit_inv S w snd hfs h
        have := ih (S ++ [snd]) _ _ out h2
          (fun x hx => hf x (by simp [submitted, hx])) hrun
        simpa [submitted, List.append_assoc] using this
      | writable =>
        obtain ⟨w2, sock2⟩ := r
        have h2 := writable_inv cc hcc S w sock w2 sock2 h hstep
        have := ih S w2 sock2 out h2 (fun x hx => hf x (by simpa [submitted] using hx)) hrun
        simpa [submitted] using this

end Prrte

namespace Prrte

/-- C6: FIFO per peer.  Start from a peer that holds no request (with the send
event registered only if `send_ev_active` is set), let requests as submitted be
queued by `prte_oob_tcp_queue_msg` and let `prte_oob_tcp_send_handler` run
whenever the send event is registered, in any interleaving and for any results
of `writev`, with `prte_oob_tcp_peer_complete_connect` leaving the send side of
the peer alone.  Then the bytes accepted by the socket are a prefix of the
frames of the submitted requests in submission order, and the requests released
are a prefix of the submitted requests.  As long as no write has failed, the
released requests followed by the on-deck and the queued ones are exactly the
submitted requests in order, the bytes on the wire followed by the unsent bytes
of the on-deck request and the whole frames of the queued ones are exactly the
frames in submission order, and no byte of a queued request has been written:
a request is fully written and released before any byte of a later one
leaves. -/
theorem send_fifo_per_peer (cc : prte_oob_tcp_peer_t → prte_oob_tcp_peer_t) (w0 : World)
    (sock : List WriteRes) (ops : List SendOp) (out : World × List WriteRes)
    (hcc : keeps_send_side cc)
    (hm : w0.peer.send_msg = none) (hq : w0.peer.send_queue = []) (hlog : w0.log = [])
    (hR : w0.peer.send_event = true → w0.peer.send_ev_active = true)
    (hfresh : ∀ r ∈ submitted ops, fresh r)
    (hrun : send_run cc w0 sock ops = some out) :
    wire out.1.log <+: (submitted ops).flatMap frame
    ∧ (released out.1.log).map rewound <+: submitted ops
    ∧ (¬ failed out.1 →
        (released out.1.log).map rewound ++ (pending out.1.peer).map rewound = submitted ops
        ∧ wire out.1.log ++ (pending out.1.peer).flatMap iov_bytes
            = (submitted ops).flatMap frame
        ∧ (∀ r ∈ out.1.peer.send_queue, fresh r)
        ∧ (out.1.peer.send_msg = none → out.1.peer.send_queue = [])) := by
  have h := send_run_inv cc hcc ops [] w0 sock out (send_inv_init w0 hm hq hlog hR) hfresh hrun
  rw [List.nil_append] at h
  obtain ⟨i1, i2, _, _, _, i6⟩ := h
  refine ⟨i1, i2, ?_⟩
  intro hn
  obtain ⟨_, h2, _, h4, h5, h6⟩ := i6 hn
  exact ⟨h5, h6, h4, h2⟩

/-- C6 on two requests and a socket that takes the first one in two pieces: the
wire carries the frame of the first request followed by that of the second. -/
theorem send_fifo_per_peer_witness :
    send_run ex_cc { peer := ex_peer, log := [] } ex_sock ex_ops = some ex_sent
    ∧ wire ex_sent.1.log = [1, 2, 3, 4, 5, 6, 7]
    ∧ (wire ex_sent.1.log <+: (submitted ex_ops).flatMap frame
      ∧ (released ex_sent.1.log).map rewound <+: submitted ex_ops
      ∧ (¬ failed ex_sent.1 →
          (released ex_sent.1.log).map rewound ++ (pending ex_sent.1.peer).map rewound
              = submitted ex_ops
          ∧ wire ex_sent.1.log ++ (pending ex_sent.1.peer).flatMap iov_bytes
              = (submitted ex_ops).flatMap frame
          ∧ (∀ r ∈ ex_sent.1.peer.send_queue, fresh r)
          ∧ (ex_sent.1.peer.send_msg = none → ex_sent.1.peer.send_queue = []))) :=
  ⟨by decide, by decide,
   send_fifo_per_peer ex_cc { peer := ex_peer, log := [] } ex_sock ex_ops ex_sent
     (fun _ => ⟨rfl, rfl, rfl, rfl⟩) rfl rfl rfl (fun h => by cases h)
     (by
       intro r hr
       simp only [ex_ops, submitted, List.mem_cons, List.mem_singleton, List.not_mem_nil,
         or_false] at hr
       rcases hr with rfl | rfl <;> exact ⟨rfl, rfl, rfl, rfl⟩)
     (by decide)⟩

end Prrte

namespace Prrte

theorem filterMap_msg_rewound (l : List prte_oob_tcp_send_t) :
    (l.map rewound).filterMap (fun r => r.msg) = l.filterMap (fun r => r.msg) := by
  induction l with
  | nil => rfl
  | cons a l ih =>
    simp only [List.map_cons, List.filterMap_cons, ih]
    rfl

/-- C7: no duplicate completion.  Start from a peer that holds no request, let
requests as submitted be queued and the send handler run whenever the send
event is registered, in any interleaving and for any results of `writev`, where
the requests that carry an RML message carry no relay data and their RML
messages are distinct.  Then `PRTE_RML_SEND_COMPLETE` runs at most once for
every RML message and only for submitted ones; for every released request that
carries an RML message it has run exactly once and the request is neither on
deck nor queued any more.  A request is released exactly when its write
returns success or fails: one callback on a connected peer whose on-deck
request carries the RML message `m` either gets `PRRTE_SUCCESS` or
`PRRTE_ERR_UNREACH` from `send_msg`, completes `m` once, releases the request
and keeps only the queued requests, or gets `PRRTE_ERR_RESOURCE_BUSY` or
`PRRTE_ERR_WOULD_BLOCK`, completes and releases nothing and keeps the request
on deck. -/
theorem send_complete_once (cc : prte_oob_tcp_peer_t → prte_oob_tcp_peer_t) (w0 : World)
    (sock : List WriteRes) (ops : List SendOp) (out : World × List WriteRes)
    (hcc : keeps_send_side cc)
    (hm : w0.peer.send_msg = none) (hq : w0.peer.send_queue = []) (hlog : w0.log = [])
    (hR : w0.peer.send_event = true → w0.peer.send_ev_active = true)
    (hfresh : ∀ r ∈ submitted ops, fresh r)
    (hone : ∀ r ∈ submitted ops, r.msg.isSome → r.data = none)
    (hdistinct : ((submitted ops).filterMap (fun r => r.msg)).Nodup)
    (hrun : send_run cc w0 sock ops = some out) :
    (∀ m, (completed out.1.log).count m ≤ 1)
    ∧ (completed out.1.log).Sublist ((submitted ops).filterMap (fun r => r.msg))
    ∧ (∀ r ∈ released out.1.log, ∀ m, r.msg = some m →
        (completed out.1.log).count m = 1 ∧ ∀ p ∈ pending out.1.peer, p.msg ≠ some m)
    ∧ (∀ (w : World) (sk : List WriteRes) (msg : prte_oob_tcp_send_t) (r : SendRes) (m : Nat),
        w.peer.state = .MCA_OOB_TCP_CONNECTED → w.peer.send_msg = some msg → send_wf msg →
        msg.msg = some m → msg.data = none → send_msg msg sk = some r →
        ∃ w1, prte_oob_tcp_send_handler cc w sk = some (w1, r.rest)
          ∧ (((r.rc = .PRRTE_SUCCESS ∨ r.rc = .PRRTE_ERR_UNREACH)
                ∧ completed w1.log = completed w.log ++ [m]
                ∧ released w1.log = released w.log ++ [r.msg]
                ∧ pending w1.peer = w.peer.send_queue)
              ∨ ((r.rc = .PRRTE_ERR_RESOURCE_BUSY ∨ r.rc = .PRRTE_ERR_WOULD_BLOCK)
                ∧ completed w1.log = completed w.log
                ∧ released w1.log = released w.log
                ∧ w1.peer.send_msg = some r.msg))) := by
  have h := send_run_inv cc hcc ops [] w0 sock out (send_inv_init w0 hm hq hlog hR) hfresh hrun
  rw [List.nil_append] at h
  obtain ⟨_, i2, i3, i4, _, _⟩ := h
  have hc := i4 hone
  have hsub : (completed out.1.log).Sublist ((submitted ops).filterMap (fun r => r.msg)) := by
    rw [hc, ← filterMap_msg_rewound]
    exact i2.sublist.filterMap _
  have hnd : (completed out.1.log).Nodup := hdistinct.sublist hsub
  have hperm := i3.filterMap (fun r => r.msg)
  rw [List.filterMap_append, filterMap_msg_rewound, filterMap_msg_rewound] at hperm
  have hnd2 := (List.Perm.nodup_iff hperm).mpr hdistinct
  refine ⟨fun m => List.nodup_iff_count_le_one.mp hnd m, hsub, ?_, ?_⟩
  · intro r hr m hrm
    have hin : m ∈ (released out.1.log).filterMap (fun r => r.msg) :=
      List.mem_filterMap.mpr ⟨r, hr, hrm⟩
    refine ⟨List.count_eq_one_of_mem hnd (by rw [hc]; exact hin), ?_⟩
    intro p hp hpm
    have hin2 : m ∈ (pending out.1.peer).filterMap (fun r => r.msg) :=
      List.mem_filterMap.mpr ⟨p, hp, hpm⟩
    exact (List.nodup_append.mp hnd2).2.2 hin hin2
  · intro w sk msg r m hst hmsg hwf hmm hd hr
    have hr0 : send_msg_retry msg 0 sk = some r := by
      rw [← send_msg_eq msg (Or.inr (Or.inr (by rw [hmm]; exact Option.some_ne_none m))) sk]
      exact hr
    obtain ⟨s1, s2, s3, s4, s5⟩ := send_msg_retry_spec msg hwf sk 0 r hr0
    obtain ⟨p1, p2, p3, p4, p5⟩ := rewound_payload r.msg msg s2
    have hrm : r.msg.msg = some m := by rw [p3]; exact hmm
    have hrd : r.msg.data = none := by rw [p4]; exact hd
    rcases s5 with ⟨hrc, _⟩ | hrc | hrc | ⟨hrc, _, _⟩
    · obtain ⟨w1, e, a1, a2, a3, a4, a5, a6, a7⟩ :=
        send_handler_done cc w sk msg r hst hmsg hr hrc
      refine ⟨w1, e, Or.inl ⟨Or.inl hrc, ?_, a2, ?_⟩⟩
      · rw [a3, hrd, hrm]; rfl
      · simp [pending, a5, a6, head_toList_tail]
    · obtain ⟨w1, e, a1, a2, a3, a4, a5⟩ :=
        send_handler_busy cc w sk msg r hst hmsg hr (Or.inl hrc)
      exact ⟨w1, e, Or.inr ⟨Or.inl hrc, a3, a2, by rw [a5]⟩⟩
    · obtain ⟨w1, e, a1, a2, a3, a4, a5⟩ :=
        send_handler_busy cc w sk msg r hst hmsg hr (Or.inr hrc)
      exact ⟨w1, e, Or.inr ⟨Or.inr hrc, a3, a2, by rw [a5]⟩⟩
    · obtain ⟨w1, e, a1, a2, a3, a4, a5⟩ :=
        send_handler_fatal cc w sk msg r m hst hmsg hr hrc hrm
      refine ⟨w1, e, Or.inl ⟨Or.inr hrc, a3, a2, ?_⟩⟩
      simp [pending, a5]

/-- C7 on two requests that are both written completely: each RML message is
completed once, in submission order. -/
theorem send_complete_once_witness :
    send_run ex_cc { peer := ex_peer, log := [] } ex_sock ex_ops = some ex_sent
    ∧ completed ex_sent.1.log = [1, 2]
    ∧ (∀ m, (completed ex_sent.1.log).count m ≤ 1) :=
  ⟨by decide, by decide,
   (send_complete_once ex_cc { peer := ex_peer, log := [] } ex_sock ex_ops ex_sent
      (fun _ => ⟨rfl, rfl, rfl, rfl⟩) rfl rfl rfl (fun h => by cases h)
      (by
        intro r hr
        simp only [ex_ops, submitted, List.mem_cons, List.mem_singleton, List.not_mem_nil,
          or_false] at hr
        rcases hr with rfl | rfl <;> exact ⟨rfl, rfl, rfl, rfl⟩)
      (by
        intro r hr _
        simp only [ex_ops, submitted, List.mem_cons, List.mem_singleton, List.not_mem_nil,
          or_false] at hr
        rcases hr with rfl | rfl <;> rfl)
      (by decide) (by decide)).1⟩

end Prrte

namespace Prrte

/-! ## One call of `read_bytes` -/

theorem recv_store_nil (rm : prte_oob_tcp_recv_t) (h : rm.rdptr = .data → rm.data ≠ none) :
    recv_store rm [] = rm := by
  rcases rm with ⟨hm, hd, hr, da, rp, rb⟩
  cases rp
  · simp [recv_store]
  · cases da with
    | none => exact absurd rfl (h rfl)
    | some d => simp [recv_store]

theorem recv_store_append (rm : prte_oob_tcp_recv_t) (a b : List Byte) :
    recv_store (recv_store rm a) b = recv_store rm (a ++ b) := by
  rcases rm with ⟨hm, hd, hr, da, rp, rb⟩
  cases rp
  · simp [recv_store, Nat.sub_sub]
  · simp [recv_store, Nat.sub_sub]

theorem recv_store_fields (rm : prte_oob_tcp_recv_t) (a : List Byte) :
    (recv_store rm a).rdptr = rm.rdptr ∧ (recv_store rm a).rdbytes = rm.rdbytes - a.length
    ∧ (recv_store rm a).hdr_recvd = rm.hdr_recvd ∧ (recv_store rm a).hdr = rm.hdr
    ∧ ((recv_store rm a).rdptr = .data → (recv_store rm a).data ≠ none) := by
  rcases rm with ⟨hm, hd, hr, da, rp, rb⟩
  cases rp <;> simp [recv_store]

theorem peer_recv_eta (p : prte_oob_tcp_peer_t) (rm : prte_oob_tcp_recv_t)
    (h : p.recv_msg = some rm) : { p with recv_msg := some rm } = p := by
  cases p
  simp only at h
  subst h
  rfl

end Prrte

namespace Prrte

theorem world_eta (w : World) (rm : prte_oob_tcp_recv_t) (h : w.peer.recv_msg = some rm)
    (hd : rm.rdptr = .data → rm.data ≠ none) :
    w = { peer := { w.peer with recv_msg := some (recv_store rm (List.take 0 ([] : List Byte))) },
          log := w.log ++ List.map Event.read [] } := by
  rcases w with ⟨p, l⟩
  simp only [List.take_nil, List.map_nil, List.append_nil, recv_store_nil rm hd]
  rw [peer_recv_eta p rm h]

theorem read_bytes_spec :
    ∀ (sock : List ReadRes) (w : World) (rm : prte_oob_tcp_recv_t) (body tail : List Byte),
      w.peer.recv_msg = some rm → rm.rdbytes = body.length →
      (rm.rdptr = .data → rm.data ≠ none) → (∀ ev ∈ sock, benign ev = true) →
      (read_bytes sock w (body ++ tail) = none ∧ (sock.filter is_chunk).length < body.length)
      ∨ ∃ (r : ReadOut) (j : Nat) (reads : List (List Byte)),
          read_bytes sock w (body ++ tail) = some r ∧ j ≤ body.length
          ∧ reads.flatten = body.take j
          ∧ r.w = { peer := { w.peer with recv_msg := some (recv_store rm (body.take j)) },
                    log := w.log ++ reads.map .read }
          ∧ r.stream = body.drop j ++ tail
          ∧ (sock.filter is_chunk).length ≤ (r.rest.filter is_chunk).length + j
          ∧ (∀ ev ∈ r.rest, ev ∈ sock)
          ∧ ((r.rc = .PRRTE_SUCCESS ∧ j = body.length ∧ r.rest.length ≤ sock.length)
             ∨ ((r.rc = .PRRTE_ERR_RESOURCE_BUSY ∨ r.rc = .PRRTE_ERR_WOULD_BLOCK)
                 ∧ j < body.length ∧ r.rest.length < sock.length)) := by
  intro sock
  induction sock with
  | nil =>
    intro w rm body tail hrm hrb hd _
    by_cases hz : body = []
    · right
      subst hz
      have h0 : rm.rdbytes = 0 := by simpa using hrb
      have e : read_bytes [] w ([] ++ tail)
          = some { rc := .PRRTE_SUCCESS, w := w, stream := [] ++ tail, rest := [] } := by
        simp only [read_bytes, hrm, h0, if_true]
      exact ⟨_, 0, [], e, le_rfl, rfl, world_eta w rm hrm hd, rfl, by simp, fun _ h => h,
        Or.inl ⟨rfl, rfl, le_rfl⟩⟩
    · left
      have hpos : rm.rdbytes ≠ 0 := by
        rw [hrb]; exact fun h => hz (List.length_eq_zero.mp h)
      refine ⟨by simp only [read_bytes, hrm, hpos, if_false], ?_⟩
      simpa using List.length_pos.mpr hz
  | cons ev rest ih =>
    intro w rm body tail hrm hrb hd hb
    by_cases hz : body = []
    · right
      subst hz
      have h0 : rm.rdbytes = 0 := by simpa using hrb
      have e : read_bytes (ev :: rest) w ([] ++ tail)
          = some { rc := .PRRTE_SUCCESS, w := w, stream := [] ++ tail, rest := ev :: rest } := by
        simp only [read_bytes, hrm, h0, if_true]
      exact ⟨_, 0, [], e, le_rfl, rfl, world_eta w rm hrm hd, rfl, by simp, fun _ h => h,
        Or.inl ⟨rfl, rfl, le_rfl⟩⟩
    · have hpos : rm.rdbytes ≠ 0 := by
        rw [hrb]; exact fun h => hz (List.length_eq_zero.mp h)
      have hblen : 0 < body.length := List.length_pos.mpr hz
      have hb2 : ∀ ev ∈ rest, benign ev = true := fun e he => hb e (List.mem_cons_of_mem _ he)
      have hev := hb ev (List.mem_cons_self _ _)
      cases ev with
      | error n =>
        have hn : n = EINTR ∨ n = EAGAIN ∨ n = EWOULDBLOCK := by simpa [benign] using hev
        by_cases h1 : n = EINTR
        · have e : read_bytes (.error n :: rest) w (body ++ tail)
              = read_bytes rest w (body ++ tail) := by
            simp only [read_bytes, hrm, hpos, if_false, h1, if_true]
          rw [e]
          rcases ih w rm body tail hrm hrb hd hb2 with
            ⟨h1, h2⟩ | ⟨r, j, reads, h1, h2, h3, h4, h5, h6, h8, h7⟩
          · left; exact ⟨h1, by simpa [is_chunk] using h2⟩
          · right
            refine ⟨r, j, reads, h1, h2, h3, h4, h5, by simpa [is_chunk] using h6,
              fun ev hev => List.mem_cons_of_mem _ (h8 ev hev), ?_⟩
            rcases h7 with ⟨a, b, c⟩ | ⟨a, b, c⟩
            · exact Or.inl ⟨a, b, by simp only [List.length_cons]; omega⟩
            · exact Or.inr ⟨a, b, by simp only [List.length_cons]; omega⟩
        · have h2 : n = EAGAIN := by
            rcases hn with h | h | h
            · exact absurd h h1
            · exact h
            · exact h
          right
          have e : read_bytes (.error n :: rest) w (body ++ tail)
              = some { rc := .PRRTE_ERR_RESOURCE_BUSY, w := w, stream := body ++ tail,
                       rest := rest } := by
            subst h2
            simp only [read_bytes, hrm, hpos, if_false, if_true,
              (by decide : ¬ EAGAIN = EINTR)]
          exact ⟨_, 0, [], e, Nat.zero_le _, rfl, world_eta w rm hrm hd, rfl,
            by simp [is_chunk], fun ev hev => List.mem_cons_of_mem _ hev,
            Or.inr ⟨Or.inl rfl, hblen, by simp⟩⟩
      | chunk k =>
        have hk : 0 < k := by simpa [benign] using hev
        obtain ⟨c, hc⟩ : ∃ c, c = min k body.length := ⟨_, rfl⟩
        have hc1 : 0 < c := by omega
        have hc2 : c ≤ body.length := by omega
        have hmin : min k (min rm.rdbytes (body ++ tail).length) = c := by
          rw [hrb, List.length_append]; omega
        have ht : (body ++ tail).take c = body.take c := List.take_append_of_le_length hc2
        have hdr : (body ++ tail).drop c = body.drop c ++ tail :=
          List.drop_append_of_le_length hc2
        have e : read_bytes (.chunk k :: rest) w (body ++ tail)
            = read_bytes rest
                { peer := { w.peer with recv_msg := some (recv_store rm (body.take c)) },
                  log := w.log ++ [.read (body.take c)] } (body.drop c ++ tail) := by
          simp only [read_bytes, hrm, hpos, if_false, hmin, Nat.pos_iff_ne_zero.mp hc1, ht, hdr]
        rw [e]
        obtain ⟨f1, f2, f3, f4, f5⟩ := recv_store_fields rm (body.take c)
        have hlen : (recv_store rm (body.take c)).rdbytes = (body.drop c).length := by
          rw [f2, hrb, List.length_take, List.length_drop]; omega
        rcases ih { peer := { w.peer with recv_msg := some (recv_store rm (body.take c)) },
                    log := w.log ++ [.read (body.take c)] }
            (recv_store rm (body.take c)) (body.drop c) tail rfl hlen f5 hb2 with
          ⟨h1, h2⟩ | ⟨r, j, reads, h1, h2, h3, h4, h5, h6, h8, h7⟩
        · left
          refine ⟨h1, ?_⟩
          rw [List.length_drop] at h2
          simp only [List.filter_cons, is_chunk, if_true, List.length_cons]
          omega
        · right
          rw [List.length_drop] at h2 h7
          refine ⟨r, c + j, body.take c :: reads, h1, by omega, ?_, ?_, ?_, ?_,
            fun ev hev => List.mem_cons_of_mem _ (h8 ev hev), ?_⟩
          · rw [List.flatten_cons, h3, List.take_add]
          · rw [h4, recv_store_append, ← List.take_add]
            simp
          · rw [h5, List.drop_drop, Nat.add_comm]
          · simp only [List.filter_cons, is_chunk, if_true, List.length_cons]
            omega
          · rcases h7 with ⟨a, b, d⟩ | ⟨a, b, d⟩
            · exact Or.inl ⟨a, by omega, by simp only [List.length_cons]; omega⟩
            · exact Or.inr ⟨a, by omega, by simp only [List.length_cons]; omega⟩

end Prrte

namespace Prrte

/-! ## One callback of `prte_oob_tcp_recv_handler` -/

theorem recv_payload_spec (my_name : ProcId) (w : World) (rm : prte_oob_tcp_recv_t)
    (H : prte_oob_tcp_hdr_t) (payload got body more : List Byte) (sock : List ReadRes)
    (hrm : w.peer.recv_msg = some rm) (hh : rm.hdr = H) (hb : rm.rdbytes = body.length)
    (hgb : got ++ body = payload)
    (hdat : (rm.rdptr = .data ∧ rm.data = some got ∧ payload ≠ [])
            ∨ (rm.rdptr = .hdr ∧ rm.data = none ∧ payload = []))
    (hnice : ∀ ev ∈ sock, benign ev = true) :
    (recv_payload my_name w (body ++ more) sock = none
      ∧ (sock.filter is_chunk).length < body.length)
    ∨ (∃ (reads : List (List Byte)) (rest : List ReadRes),
        recv_payload my_name w (body ++ more) sock
          = some ({ peer := { w.peer with recv_msg := none },
                    log := w.log ++ reads.map .read
                             ++ [dispatch_event my_name H payload, .release_recv] }, more, rest)
        ∧ reads.flatten = body)
    ∨ (∃ (j : Nat) (reads : List (List Byte)) (rest : List ReadRes),
        recv_payload my_name w (body ++ more) sock
          = some ({ peer := { w.peer with recv_msg := some (recv_store rm (body.take j)) },
                    log := w.log ++ reads.map .read }, body.drop j ++ more, rest)
        ∧ j < body.length ∧ reads.flatten = body.take j ∧ rest.length < sock.length
        ∧ (sock.filter is_chunk).length ≤ (rest.filter is_chunk).length + j
        ∧ (∀ ev ∈ rest, ev ∈ sock)) := by
  have hd : rm.rdptr = .data → rm.data ≠ none := by
    intro hp
    rcases hdat with ⟨_, h2, _⟩ | ⟨h1, _, _⟩
    · rw [h2]; simp
    · rw [hp] at h1; cases h1
  rcases read_bytes_spec sock w rm body more hrm hb hd hnice with
    ⟨h1, h2⟩ | ⟨r, j, reads, h1, h2, h3, h4, h5, h6, h8, h7⟩
  · left
    exact ⟨by simp only [recv_payload, h1], h2⟩
  · rcases h7 with ⟨a, b, c⟩ | ⟨a, b, c⟩
    · right; left
      subst b
      refine ⟨reads, r.rest, ?_, by simpa using h3⟩
      simp only [recv_payload, h1, a, if_true, h4, h5]
      simp only [List.take_length, List.drop_length, List.nil_append, recv_dispatch]
      have e1 : (recv_store rm body).hdr = H := by rw [(recv_store_fields rm body).2.2.2.1, hh]
      have e2 : (recv_store rm body).data = (if payload = [] then none else some payload) := by
        rcases hdat with ⟨p1, p2, p3⟩ | ⟨p1, p2, p3⟩
        · rw [if_neg p3, ← hgb]
          rcases rm with ⟨_, _, _, da, rp, _⟩
          simp only at p1 p2
          subst p1 p2
          simp [recv_store]
        · rw [if_pos p3]
          rcases rm with ⟨_, _, _, da, rp, _⟩
          simp only at p1 p2
          subst p1 p2
          simp [recv_store]
      simp only [e1, e2, dispatch_event]
    · right; right
      refine ⟨j, reads, r.rest, ?_, b, h3, c, h6, h8⟩
      have hne : r.rc ≠ .PRRTE_SUCCESS := by
        rcases a with a | a <;> rw [a] <;> decide
      simp only [recv_payload, h1, hne, if_false, a, if_true, ← h4, ← h5]

end Prrte

namespace Prrte

theorem take_add_drop {α : Type} (l : List α) (d j : Nat) :
    l.take d ++ (l.drop d).take j = l.take (d + j) := by
  rw [List.take_add]

theorem recv_at_hdr (lay : HdrLayout) (hdr_wire payload : List Byte) (d : Nat)
    (h : d < lay.size) :
    recv_at lay hdr_wire payload d
      = { new_recv lay with hdr_mem := hdr_wire.take d, rdbytes := lay.size - d } := by
  simp only [recv_at, h, if_true]

theorem recv_at_pay (lay : HdrLayout) (hdr_wire payload : List Byte) (d : Nat)
    (h : lay.size ≤ d) :
    recv_at lay hdr_wire payload d
      = { hdr_mem := hdr_wire, hdr := lay.ntoh (lay.of_mem hdr_wire), hdr_recvd := true,
          data := some (payload.take (d - lay.size)), rdptr := .data,
          rdbytes := payload.length - (d - lay.size) } := by
  simp only [recv_at, Nat.not_lt.mpr h, if_false]

theorem recv_store_hdr (lay : HdrLayout) (hdr_wire : List Byte) (d j : Nat)
    (hH : hdr_wire.length = lay.size) (hj : d + j ≤ lay.size) :
    recv_store { new_recv lay with hdr_mem := hdr_wire.take d, rdbytes := lay.size - d }
        ((hdr_wire.drop d).take j)
      = { new_recv lay with hdr_mem := hdr_wire.take (d + j), rdbytes := lay.size - (d + j) } := by
  have hl : ((hdr_wire.drop d).take j).length = j := by
    rw [List.length_take, List.length_drop, hH]; omega
  simp only [recv_store, new_recv, take_add_drop, hl, Nat.sub_sub]

theorem recv_store_pay (lay : HdrLayout) (hdr_wire payload : List Byte) (d j : Nat)
    (hd : lay.size ≤ d) (hj : d + j ≤ lay.size + payload.length) :
    recv_store (recv_at lay hdr_wire payload d) ((payload.drop (d - lay.size)).take j)
      = recv_at lay hdr_wire payload (d + j) := by
  have hl : ((payload.drop (d - lay.size)).take j).length = j := by
    rw [List.length_take, List.length_drop]; omega
  have e : d + j - lay.size = d - lay.size + j := by omega
  rw [recv_at_pay lay hdr_wire payload d hd, recv_at_pay lay hdr_wire payload (d + j) (by omega)]
  simp only [recv_store, Option.getD_some, take_add_drop, hl, Nat.sub_sub, e]

/-- Allocating the receive buffer first does not change the callback. -/
theorem recv_handler_alloc (lay : HdrLayout) (my_name : ProcId)
    (connect_ack : prte_oob_tcp_peer_t → Status × prte_oob_tcp_peer_t) (w : World)
    (stream : List Byte) (sock : List ReadRes)
    (hst : w.peer.state = .MCA_OOB_TCP_CONNECTED) (hn : w.peer.recv_msg = none) :
    prte_oob_tcp_recv_handler lay my_name connect_ack true w stream sock
      = prte_oob_tcp_recv_handler lay my_name connect_ack true
          { w with peer := { w.peer with recv_msg := some (new_recv lay) } } stream sock := by
  unfold prte_oob_tcp_recv_handler
  simp [hst, hn]

/-- The callback on a connected peer whose header is incomplete. -/
theorem recv_handler_hdr (lay : HdrLayout) (my_name : ProcId)
    (connect_ack : prte_oob_tcp_peer_t → Status × prte_oob_tcp_peer_t) (w : World)
    (stream : List Byte) (sock : List ReadRes) (rm0 : prte_oob_tcp_recv_t)
    (hst : w.peer.state = .MCA_OOB_TCP_CONNECTED) (hrm : w.peer.recv_msg = some rm0)
    (hh : rm0.hdr_recvd = false) :
    prte_oob_tcp_recv_handler lay my_name connect_ack true w stream sock
      = match read_bytes sock w stream with
        | none => none
        | some r =>
          if r.rc = .PRRTE_SUCCESS then
            match r.w.peer.recv_msg with
            | none => some ({ r.w with log := r.w.log ++ [.fault] }, r.stream, r.rest)
            | some rm =>
              recv_payload my_name
                { r.w with
                  peer :=
                    { r.w.peer with
                      recv_msg :=
                        some (hdr_done lay rm) } }
                r.stream r.rest
          else if r.rc = .PRRTE_ERR_RESOURCE_BUSY ∨ r.rc = .PRRTE_ERR_WOULD_BLOCK then
            some (r.w, r.stream, r.rest)
          else
            some ({ peer := prte_oob_tcp_peer_close r.w.peer, log := r.w.log ++ [.peer_close] },
                  r.stream, r.rest) := by
  unfold prte_oob_tcp_recv_handler
  simp only [hst, hrm, hh]
  simp [hrm, hh]

/-- The callback on a connected peer whose header is complete. -/
theorem recv_handler_pay (lay : HdrLayout) (my_name : ProcId)
    (connect_ack : prte_oob_tcp_peer_t → Status × prte_oob_tcp_peer_t) (w : World)
    (stream : List Byte) (sock : List ReadRes) (rm0 : prte_oob_tcp_recv_t)
    (hst : w.peer.state = .MCA_OOB_TCP_CONNECTED) (hrm : w.peer.recv_msg = some rm0)
    (hh : rm0.hdr_recvd = true) :
    prte_oob_tcp_recv_handler lay my_name connect_ack true w stream sock
      = recv_payload my_name w stream sock := by
  unfold prte_oob_tcp_recv_handler
  simp only [hst, hrm, hh]
  simp [hrm, hh]

end Prrte

namespace Prrte

theorem frame_drop_pay (hdr_wire payload : List Byte) (size d : Nat)
    (hH : hdr_wire.length = size) (hd : size ≤ d) :
    (hdr_wire ++ payload).drop d = payload.drop (d - size) := by
  rw [List.drop_append_eq_append_drop, List.drop_of_length_le (by omega), hH]
  rfl

theorem frame_drop_hdr (hdr_wire payload : List Byte) (size d : Nat)
    (hH : hdr_wire.length = size) (hd : d ≤ size) :
    (hdr_wire ++ payload).drop d = hdr_wire.drop d ++ payload :=
  List.drop_append_of_le_length (by omega)

theorem recv_step_pay (lay : HdrLayout) (my_name : ProcId) (peer0 : prte_oob_tcp_peer_t)
    (hdr_wire payload more : List Byte) (d : Nat) (rs : List (List Byte)) (w : World)
    (sock : List ReadRes) (rm : prte_oob_tcp_recv_t)
    (hH : hdr_wire.length = lay.size)
    (hd1 : lay.size ≤ d) (hd2 : d ≤ lay.size + payload.length)
    (hw : w = { peer := { peer0 with recv_msg := some rm }, log := rs.map .read })
    (hrs : rs.flatten = (hdr_wire ++ payload).take d)
    (hrm : (payload = [] ∧ rm.rdptr = .hdr ∧ rm.data = none ∧ rm.rdbytes = 0
              ∧ rm.hdr = lay.ntoh (lay.of_mem hdr_wire))
           ∨ (payload ≠ [] ∧ rm = recv_at lay hdr_wire payload d))
    (hnice : ∀ ev ∈ sock, benign ev = true) :
    recv_outcome lay my_name peer0 hdr_wire payload more d rs sock
      (recv_payload my_name w ((hdr_wire ++ payload).drop d ++ more) sock) := by
  have hF := frame_drop_pay hdr_wire payload lay.size d hH hd1
  have hblen : (payload.drop (d - lay.size)).length = lay.size + payload.length - d := by
    rw [List.length_drop]; omega
  have hpeer : w.peer.recv_msg = some rm := by rw [hw]
  have hh : rm.hdr = lay.ntoh (lay.of_mem hdr_wire) := by
    rcases hrm with ⟨_, _, _, _, h⟩ | ⟨_, h⟩
    · exact h
    · rw [h, recv_at_pay lay hdr_wire payload d hd1]
  have hb : rm.rdbytes = (payload.drop (d - lay.size)).length := by
    rcases hrm with ⟨h0, _, _, h, _⟩ | ⟨_, h⟩
    · rw [h, h0]; simp
    · rw [h, recv_at_pay lay hdr_wire payload d hd1, List.length_drop]
  have hdat : (rm.rdptr = .data ∧ rm.data = some (payload.take (d - lay.size)) ∧ payload ≠ [])
      ∨ (rm.rdptr = .hdr ∧ rm.data = none ∧ payload = []) := by
    rcases hrm with ⟨h0, h1, h2, _, _⟩ | ⟨h0, h⟩
    · exact Or.inr ⟨h1, h2, h0⟩
    · left
      rw [h, recv_at_pay lay hdr_wire payload d hd1]
      exact ⟨rfl, rfl, h0⟩
  rw [hF]
  rcases recv_payload_spec my_name w rm (lay.ntoh (lay.of_mem hdr_wire)) payload
      (payload.take (d - lay.size)) (payload.drop (d - lay.size)) more sock hpeer hh hb
      (List.take_append_drop _ _) hdat hnice with
    ⟨h1, h2⟩ | ⟨reads, rest, h1, h2⟩ | ⟨j, reads, rest, h1, h2, h3, h4, h5, h8⟩
  · left
    exact ⟨h1, by rw [← hblen]; exact h2⟩
  · right; left
    refine ⟨reads, rest, ?_, ?_⟩
    · rw [h1, hw]
      simp
    · rw [List.flatten_append, hrs, h2, ← hF, List.take_append_drop]
  · right; right
    rw [hblen] at h2
    have hne : payload ≠ [] := by
      intro h0
      rw [h0] at h2
      simp at h2
      omega
    have hrm2 : rm = recv_at lay hdr_wire payload d := by
      rcases hrm with ⟨h0, _⟩ | ⟨_, h⟩
      · exact absurd h0 hne
      · exact h
    have hF2 : (hdr_wire ++ payload).drop (d + j) = (payload.drop (d - lay.size)).drop j := by
      rw [← hF, List.drop_drop, Nat.add_comm]
    refine ⟨d + j, reads,
      { peer := { peer0 with recv_msg := some (recv_at lay hdr_wire payload (d + j)) },
        log := (rs ++ reads).map .read }, rest, ?_, ?_, Nat.le_add_right _ _, h4, h8, ?_⟩
    · rw [h1, hF2, hw, hrm2]
      simp only [recv_store_pay lay hdr_wire payload d j hd1 (by omega), List.map_append]
    · refine ⟨Or.inr ⟨by omega, rfl⟩, rfl, ?_, ?_⟩
      · rw [List.flatten_append, hrs, h3, ← hF, take_add_drop]
      · rw [hF2]
    · rw [Nat.add_sub_cancel_left]; exact h5

end Prrte

namespace Prrte

theorem recv_outcome_mono (lay : HdrLayout) (my_name : ProcId) (peer0 : prte_oob_tcp_peer_t)
    (hdr_wire payload more : List Byte) (d d2 : Nat) (rs reads : List (List Byte))
    (sock sock2 : List ReadRes) (res : Option (World × List Byte × List ReadRes))
    (h : recv_outcome lay my_name peer0 hdr_wire payload more d2 (rs ++ reads) sock2 res)
    (hd : d ≤ d2) (hd2 : d2 ≤ lay.size + payload.length)
    (hlen : sock2.length ≤ sock.length) (hsub : ∀ ev ∈ sock2, ev ∈ sock)
    (hch : (sock.filter is_chunk).length ≤ (sock2.filter is_chunk).length + (d2 - d)) :
    recv_outcome lay my_name peer0 hdr_wire payload more d rs sock res := by
  rcases h with ⟨h1, h2⟩ | ⟨rs1, rest, h1, h2⟩ | ⟨d1, rs1, w1, rest, h1, h2, h3, h4, h8, h5⟩
  · left
    exact ⟨h1, by omega⟩
  · right; left
    refine ⟨reads ++ rs1, rest, ?_, ?_⟩
    · rw [h1, List.append_assoc]
    · rw [← List.append_assoc]; exact h2
  · right; right
    refine ⟨d1, reads ++ rs1, w1, rest, h1, ?_, by omega, by omega,
      fun ev hev => hsub ev (h8 ev hev), by omega⟩
    rw [← List.append_assoc]; exact h2

theorem recv_step_hdr (lay : HdrLayout) (my_name : ProcId)
    (connect_ack : prte_oob_tcp_peer_t → Status × prte_oob_tcp_peer_t)
    (peer0 : prte_oob_tcp_peer_t) (hdr_wire payload more : List Byte) (d : Nat)
    (rs : List (List Byte)) (w : World) (sock : List ReadRes)
    (hst : peer0.state = .MCA_OOB_TCP_CONNECTED)
    (hH : hdr_wire.length = lay.size)
    (hL : (lay.ntoh (lay.of_mem hdr_wire)).nbytes = payload.length)
    (hd : d ≤ lay.size)
    (hw : w = { peer := { peer0 with recv_msg := some { new_recv lay with
                                                        hdr_mem := hdr_wire.take d,
                                                        rdbytes := lay.size - d } },
                log := rs.map .read })
    (hrs : rs.flatten = (hdr_wire ++ payload).take d)
    (hnice : ∀ ev ∈ sock, benign ev = true) :
    recv_outcome lay my_name peer0 hdr_wire payload more d rs sock
      (prte_oob_tcp_recv_handler lay my_name connect_ack true w
        ((hdr_wire ++ payload).drop d ++ more) sock) := by
  obtain ⟨rm0, hrm0⟩ : ∃ rm0 : prte_oob_tcp_recv_t, rm0 = { new_recv lay with
      hdr_mem := hdr_wire.take d, rdbytes := lay.size - d } := ⟨_, rfl⟩
  rw [← hrm0] at hw
  have hpeer : w.peer.recv_msg = some rm0 := by rw [hw]
  have hwst : w.peer.state = .MCA_OOB_TCP_CONNECTED := by rw [hw]; exact hst
  have hnr : rm0.hdr_recvd = false := by rw [hrm0]; rfl
  have hblen : (hdr_wire.drop d).length = lay.size - d := by rw [List.length_drop, hH]
  have hrb : rm0.rdbytes = (hdr_wire.drop d).length := by rw [hrm0, hblen]
  have hdp : rm0.rdptr = .data → rm0.data ≠ none := by
    intro h; rw [hrm0] at h; cases h
  rw [recv_handler_hdr lay my_name connect_ack w _ sock rm0 hwst hpeer hnr,
    frame_drop_hdr hdr_wire payload lay.size d hH hd, List.append_assoc]
  rcases read_bytes_spec sock w rm0 (hdr_wire.drop d) (payload ++ more) hpeer hrb hdp hnice with
    ⟨h1, h2⟩ | ⟨r, j, reads, h1, h2, h3, h4, h5, h6, h8, h7⟩
  · left
    rw [h1]
    exact ⟨rfl, by omega⟩
  · rw [h1]
    dsimp only
    rcases h7 with ⟨a, b, c⟩ | ⟨a, b, c⟩
    · rw [if_pos a]
      subst b
      rw [List.take_length] at h3 h4
      rw [List.drop_length, List.nil_append] at h5
      have hrm : recv_store rm0 (hdr_wire.drop d)
          = { new_recv lay with hdr_mem := hdr_wire, rdbytes := 0 } := by
        rw [hrm0]
        simp only [recv_store, new_recv, List.take_append_drop, hblen, Nat.sub_self]
      have hrw : r.w.peer.recv_msg = some { new_recv lay with hdr_mem := hdr_wire, rdbytes := 0 } := by
        rw [h4, hrm]
      simp only [hrw]
      have hs : r.stream = (hdr_wire ++ payload).drop lay.size ++ more := by
        rw [h5, frame_drop_pay hdr_wire payload lay.size lay.size hH le_rfl, Nat.sub_self,
          List.drop_zero]
      rw [hs]
      have hrs2 : (rs ++ reads).flatten = (hdr_wire ++ payload).take lay.size := by
        have e1 : (hdr_wire ++ payload).take d = hdr_wire.take d :=
          List.take_append_of_le_length (by omega)
        have e2 : (hdr_wire ++ payload).take lay.size = hdr_wire := by
          rw [List.take_append_of_le_length (by omega), List.take_of_length_le (by omega)]
        rw [List.flatten_append, hrs, h3, e1, e2, List.take_append_drop]
      refine recv_outcome_mono lay my_name peer0 hdr_wire payload more d lay.size rs reads sock
        r.rest _ ?_ hd (Nat.le_add_right _ _) c h8 (by rw [hblen] at h6; exact h6)
      refine recv_step_pay lay my_name peer0 hdr_wire payload more lay.size (rs ++ reads) _
        r.rest (hdr_done lay { new_recv lay with hdr_mem := hdr_wire, rdbytes := 0 }) hH le_rfl
        (Nat.le_add_right _ _) ?_ hrs2 ?_ (fun ev hev => hnice ev (h8 ev hev))
      · rw [h4, hw]
        simp
      · by_cases hz : (lay.ntoh (lay.of_mem hdr_wire)).nbytes = 0
        · left
          have hp : payload = [] := List.length_eq_zero.mp (by rw [← hL, hz])
          refine ⟨hp, ?_, ?_, ?_, ?_⟩ <;> simp [hdr_done, hz, new_recv]
        · right
          have hp : payload ≠ [] := by
            intro h0
            rw [h0] at hL
            exact hz hL
          refine ⟨hp, ?_⟩
          rw [recv_at_pay lay hdr_wire payload lay.size le_rfl]
          have hz2 : ¬ payload.length = 0 := fun h => hp (List.length_eq_zero.mp h)
          simp only [hdr_done, hz, if_false, Nat.sub_self, List.take_zero, Nat.sub_zero, hL, hz2]
    · right; right
      have hne : r.rc ≠ .PRRTE_SUCCESS := by
        rcases a with a | a <;> rw [a] <;> decide
      rw [if_neg hne, if_pos a]
      rw [hblen] at b
      have hF2 : (hdr_wire ++ payload).drop (d + j) = (hdr_wire.drop d).drop j ++ payload := by
        rw [frame_drop_hdr hdr_wire payload lay.size (d + j) hH (by omega), List.drop_drop]
      refine ⟨d + j, reads,
        { peer := { peer0 with recv_msg := some (recv_at lay hdr_wire payload (d + j)) },
          log := (rs ++ reads).map .read }, r.rest, ?_, ?_, Nat.le_add_right _ _, c, h8, ?_⟩
      · rw [h4, h5, hF2, hw, hrm0, recv_store_hdr lay hdr_wire d j hH (by omega),
          recv_at_hdr lay hdr_wire payload (d + j) (by omega)]
        simp
      · refine ⟨Or.inr ⟨by omega, rfl⟩, rfl, ?_, ?_⟩
        · have e1 : (hdr_wire ++ payload).take d = hdr_wire.take d :=
            List.take_append_of_le_length (by omega)
          have e2 : (hdr_wire ++ payload).take (d + j) = hdr_wire.take (d + j) :=
            List.take_append_of_le_length (by omega)
          rw [List.flatten_append, hrs, h3, e1, e2, take_add_drop]
        · rfl
      · rw [Nat.add_sub_cancel_left]; exact h6

end Prrte

namespace Prrte

theorem recv_handler_step (lay : HdrLayout) (my_name : ProcId)
    (connect_ack : prte_oob_tcp_peer_t → Status × prte_oob_tcp_peer_t)
    (peer0 : prte_oob_tcp_peer_t) (hdr_wire payload more : List Byte) (d : Nat)
    (rs : List (List Byte)) (w : World) (sock : List ReadRes)
    (hst : peer0.state = .MCA_OOB_TCP_CONNECTED)
    (hH : hdr_wire.length = lay.size)
    (hL : (lay.ntoh (lay.of_mem hdr_wire)).nbytes = payload.length)
    (hB : receiving lay peer0 hdr_wire payload more d rs w
            ((hdr_wire ++ payload).drop d ++ more))
    (hnice : ∀ ev ∈ sock, benign ev = true) :
    recv_outcome lay my_name peer0 hdr_wire payload more d rs sock
      (prte_oob_tcp_recv_handler lay my_name connect_ack true w
        ((hdr_wire ++ payload).drop d ++ more) sock) := by
  obtain ⟨hX, hlog, hrs, _⟩ := hB
  rcases hX with ⟨hd0, hp⟩ | ⟨hdlt, hp⟩
  · subst hd0
    have hwst : w.peer.state = .MCA_OOB_TCP_CONNECTED := by rw [hp]; exact hst
    have hn : w.peer.recv_msg = none := by rw [hp]
    rw [recv_handler_alloc lay my_name connect_ack w _ sock hwst hn]
    refine recv_step_hdr lay my_name connect_ack peer0 hdr_wire payload more 0 rs _ sock hst hH hL
      (Nat.zero_le _) ?_ hrs hnice
    rw [hp, hlog]
    simp [new_recv]
  · have hw : w = { peer := { peer0 with recv_msg := some (recv_at lay hdr_wire payload d) },
                    log := rs.map .read } := by
      rcases w with ⟨p, l⟩
      simp only at hp hlog
      rw [hp, hlog]
    by_cases hd : d < lay.size
    · refine recv_step_hdr lay my_name connect_ack peer0 hdr_wire payload more d rs _ sock hst hH
        hL (Nat.le_of_lt hd) ?_ hrs hnice
      rw [hw, recv_at_hdr lay hdr_wire payload d hd]
    · have hd1 : lay.size ≤ d := Nat.not_lt.mp hd
      have hwst : w.peer.state = .MCA_OOB_TCP_CONNECTED := by rw [hp]; exact hst
      have hrm : w.peer.recv_msg = some (recv_at lay hdr_wire payload d) := by rw [hp]
      rw [recv_handler_pay lay my_name connect_ack w _ sock _ hwst hrm
        (by rw [recv_at_pay lay hdr_wire payload d hd1])]
      refine recv_step_pay lay my_name peer0 hdr_wire payload more d rs w sock _ hH hd1
        (Nat.le_of_lt hdlt) hw hrs (Or.inr ⟨?_, rfl⟩) hnice
      intro h0
      rw [h0] at hdlt
      simp at hdlt
      omega

theorem dispatch_event_is (my_name : ProcId) (hdr : prte_oob_tcp_hdr_t) (payload : List Byte) :
    is_dispatch (dispatch_event my_name hdr payload) = true := by
  unfold dispatch_event
  split <;> rfl

theorem reads_no_dispatch (rs : List (List Byte)) :
    (rs.map Event.read).any is_dispatch = false := by
  induction rs with
  | nil => rfl
  | cons a rs ih => simp [List.any_cons, is_dispatch, ih]

theorem recv_callbacks_spec (lay : HdrLayout) (my_name : ProcId)
    (connect_ack : prte_oob_tcp_peer_t → Status × prte_oob_tcp_peer_t)
    (peer0 : prte_oob_tcp_peer_t) (hdr_wire payload more : List Byte)
    (hst : peer0.state = .MCA_OOB_TCP_CONNECTED)
    (hH : hdr_wire.length = lay.size)
    (hL : (lay.ntoh (lay.of_mem hdr_wire)).nbytes = payload.length) :
    ∀ (n : Nat) (sock : List ReadRes) (d : Nat) (rs : List (List Byte)) (w : World) (fuel : Nat),
      sock.length ≤ n → n < fuel →
      receiving lay peer0 hdr_wire payload more d rs w ((hdr_wire ++ payload).drop d ++ more) →
      (∀ ev ∈ sock, benign ev = true) →
      (recv_callbacks lay my_name connect_ack true fuel w
            ((hdr_wire ++ payload).drop d ++ more) sock = none
          ∧ (sock.filter is_chunk).length < lay.size + payload.length - d)
      ∨ (∃ (rs1 : List (List Byte)) (rest : List ReadRes),
          recv_callbacks lay my_name connect_ack true fuel w
              ((hdr_wire ++ payload).drop d ++ more) sock
            = some ({ peer := { peer0 with recv_msg := none },
                      log := (rs ++ rs1).map .read
                        ++ [dispatch_event my_name (lay.ntoh (lay.of_mem hdr_wire)) payload,
                            .release_recv] }, more, rest)
          ∧ (rs ++ rs1).flatten = hdr_wire ++ payload) := by
  intro n
  induction n with
  | zero =>
    intro sock d rs w fuel hlen hfuel hB hnice
    obtain ⟨f, rfl⟩ : ∃ f, fuel = f + 1 := ⟨fuel - 1, by omega⟩
    simp only [recv_callbacks]
    rcases recv_handler_step lay my_name connect_ack peer0 hdr_wire payload more d rs w sock hst
        hH hL hB hnice with
      ⟨h1, h2⟩ | ⟨rs1, rest, h1, h2⟩ | ⟨d1, rs1, w1, rest, h1, h2, h3, h4, h8, h5⟩
    · left; rw [h1]; exact ⟨rfl, h2⟩
    · right
      refine ⟨rs1, rest, ?_, h2⟩
      rw [h1]
      simp [dispatch_event_is]
    · omega
  | succ n ih =>
    intro sock d rs w fuel hlen hfuel hB hnice
    obtain ⟨f, rfl⟩ : ∃ f, fuel = f + 1 := ⟨fuel - 1, by omega⟩
    simp only [recv_callbacks]
    rcases recv_handler_step lay my_name connect_ack peer0 hdr_wire payload more d rs w sock hst
        hH hL hB hnice with
      ⟨h1, h2⟩ | ⟨rs1, rest, h1, h2⟩ | ⟨d1, rs1, w1, rest, h1, h2, h3, h4, h8, h5⟩
    · left; rw [h1]; exact ⟨rfl, h2⟩
    · right
      refine ⟨rs1, rest, ?_, h2⟩
      rw [h1]
      simp [dispatch_event_is]
    · rw [h1]
      have hnd : w1.log.any is_dispatch = false := by
        rw [h2.2.1]; exact reads_no_dispatch _
      simp only [hnd, Bool.false_eq_true, if_false]
      have hd1 : d1 ≤ lay.size + payload.length := by
        rcases h2.1 with ⟨h0, _⟩ | ⟨h0, _⟩ <;> omega
      rcases ih rest d1 (rs ++ rs1) w1 f (by omega) (by omega) h2
          (fun ev hev => hnice ev (h8 ev hev)) with
        ⟨i1, i2⟩ | ⟨rs2, rest2, i1, i2⟩
      · left
        exact ⟨i1, by omega⟩
      · right
        refine ⟨rs1 ++ rs2, rest2, ?_, ?_⟩
        · rw [i1, List.append_assoc]
        · rw [← List.append_assoc]; exact i2

end Prrte

namespace Prrte

/-- C9: frame round trip on the receive side.  A frame made of the header
bytes `hdr_wire` (of the size of the header) and of a payload whose length is
the `nbytes` of the converted header arrives, followed by any further bytes, on
a connected peer with no receive in progress; the `read` calls return any
positive numbers of bytes, interleaved with `EINTR`, `EAGAIN` and `EWOULDBLOCK`,
and the receive buffer can be allocated.  Then the successive callbacks of
`prte_oob_tcp_recv_handler`, up to the first that hands a message on, leave the
peer as it was with no receive buffer, and their log consists of reads whose
bytes are exactly the frame, followed by one dispatch that carries the fields
of the header converted to host order and the payload bytes as sent, followed
by the release of the buffer; the bytes after the frame stay unread.  The
callbacks do get that far when the results that bring bytes are at least as
many as the bytes of the frame. -/
theorem recv_frame_round_trip (lay : HdrLayout) (my_name : ProcId)
    (connect_ack : prte_oob_tcp_peer_t → Status × prte_oob_tcp_peer_t)
    (peer : prte_oob_tcp_peer_t) (hdr_wire payload more : List Byte) (sock : List ReadRes)
    (hst : peer.state = .MCA_OOB_TCP_CONNECTED) (hnone : peer.recv_msg = none)
    (hH : hdr_wire.length = lay.size)
    (hL : (lay.ntoh (lay.of_mem hdr_wire)).nbytes = payload.length)
    (hnice : ∀ ev ∈ sock, benign ev = true) :
    (∀ out, recv_callbacks lay my_name connect_ack true (sock.length + 1)
              { peer := peer, log := [] } (hdr_wire ++ payload ++ more) sock = some out →
        ∃ reads : List (List Byte),
          out.1.peer = peer
          ∧ out.1.log = reads.map .read
              ++ [dispatch_event my_name (lay.ntoh (lay.of_mem hdr_wire)) payload, .release_recv]
          ∧ reads.flatten = hdr_wire ++ payload
          ∧ out.2.1 = more)
    ∧ (lay.size + payload.length ≤ (sock.filter is_chunk).length →
        (recv_callbacks lay my_name connect_ack true (sock.length + 1)
          { peer := peer, log := [] } (hdr_wire ++ payload ++ more) sock).isSome = true) := by
  have hpe : ({ peer with recv_msg := none } : prte_oob_tcp_peer_t) = peer := by
    cases peer
    simp only at hnone
    subst hnone
    rfl
  have hB : receiving lay peer hdr_wire payload more 0 []
      { peer := peer, log := [] } ((hdr_wire ++ payload).drop 0 ++ more) :=
    ⟨Or.inl ⟨rfl, hpe.symm⟩, rfl, rfl, rfl⟩
  have key := recv_callbacks_spec lay my_name connect_ack peer hdr_wire payload more hst hH hL
    sock.length sock 0 [] { peer := peer, log := [] } (sock.length + 1) le_rfl
    (Nat.lt_succ_self _) hB hnice
  simp only [List.drop_zero, List.nil_append, Nat.sub_zero] at key
  rcases key with ⟨k1, k2⟩ | ⟨rs1, rest, k1, k2⟩
  · refine ⟨?_, ?_⟩
    · intro out ho
      rw [k1] at ho
      cases ho
    · intro hen
      omega
  · refine ⟨?_, ?_⟩
    · intro out ho
      rw [k1] at ho
      cases ho
      exact ⟨rs1, hpe, rfl, k2, rfl⟩
    · intro _
      rw [k1]
      rfl

/-- C9 on a frame with a header of four bytes and a payload of two, read in
four pieces over two callbacks: the message is handed to the RML once. -/
theorem recv_frame_round_trip_witness :
    recv_callbacks ex_lay ⟨0, 7⟩ (fun p => (.PRRTE_SUCCESS, p)) true 7
        { peer := ex_peer, log := [] } ([7, 3, 9, 2] ++ [5, 6] ++ [])
        [.chunk 3, .eagain, .eintr, .chunk 10, .chunk 1, .chunk 5]
      = some ({ peer := ex_peer,
                log := [.read [7, 3, 9], .read [2], .read [5], .read [6],
                        .post_message ⟨0, 3⟩ 9 0 (some [5, 6]) 2, .release_recv] }, [], [])
    ∧ (ex_lay.size + [5, 6].length
          ≤ ([ReadRes.chunk 3, .eagain, .eintr, .chunk 10, .chunk 1, .chunk 5].filter
              is_chunk).length →
        (recv_callbacks ex_lay ⟨0, 7⟩ (fun p => (.PRRTE_SUCCESS, p)) true
          ([ReadRes.chunk 3, .eagain, .eintr, .chunk 10, .chunk 1, .chunk 5].length + 1)
          { peer := ex_peer, log := [] } ([7, 3, 9, 2] ++ [5, 6] ++ [])
          [.chunk 3, .eagain, .eintr, .chunk 10, .chunk 1, .chunk 5]).isSome = true) :=
  ⟨by decide,
   (recv_frame_round_trip ex_lay ⟨0, 7⟩ (fun p => (.PRRTE_SUCCESS, p)) ex_peer [7, 3, 9, 2] [5, 6]
      [] [.chunk 3, .eagain, .eintr, .chunk 10, .chunk 1, .chunk 5] rfl rfl rfl rfl
      (by decide)).2⟩

end Prrte

namespace Prrte

/-! ## Submission: `prte_oob_tcp_queue_msg` -/

/-- C15: `prte_oob_tcp_queue_msg` puts the request in exactly one place.  With
no on-deck request the request becomes the on-deck one and the send queue is
unchanged; with an on-deck request that one stays and the send queue is the old
queue with the request appended at its tail.  Nothing is written: the log is
unchanged or gains the start of a connect, and the bytes on the wire are the
same. -/
theorem queue_msg_places_once (w : World) (snd : prte_oob_tcp_send_t) :
    (w.peer.send_msg = none →
      (prte_oob_tcp_queue_msg w snd).peer.send_msg = some snd
      ∧ (prte_oob_tcp_queue_msg w snd).peer.send_queue = w.peer.send_queue)
    ∧ (∀ m, w.peer.send_msg = some m →
        (prte_oob_tcp_queue_msg w snd).peer.send_msg = some m
        ∧ (prte_oob_tcp_queue_msg w snd).peer.send_queue = w.peer.send_queue ++ [snd])
    ∧ ((prte_oob_tcp_queue_msg w snd).log = w.log
        ∨ (prte_oob_tcp_queue_msg w snd).log = w.log ++ [.try_connect])
    ∧ wire (prte_oob_tcp_queue_msg w snd).log = wire w.log := by
  obtain ⟨q1, q2, _, _⟩ := queue_msg_fields w snd
  refine ⟨?_, ?_, ?_, (queue_msg_log w snd).1⟩
  · intro h
    rw [q1, q2, h]
    exact ⟨rfl, rfl⟩
  · intro m h
    rw [q1, q2, h]
    exact ⟨rfl, rfl⟩
  · unfold prte_oob_tcp_queue_msg
    dsimp only
    split_ifs <;> simp

/-- C15 on an idle peer and on a peer that already has a request on deck. -/
theorem queue_msg_places_once_witness :
    ({ peer := ex_peer, log := [] } : World).peer.send_msg = none
    ∧ ((prte_oob_tcp_queue_msg { peer := ex_peer, log := [] } (ex_snd 3 [1] [2])).peer.send_msg
          = some (ex_snd 3 [1] [2])
        ∧ (prte_oob_tcp_queue_msg { peer := ex_peer, log := [] } (ex_snd 3 [1] [2])).peer.send_queue
          = ({ peer := ex_peer, log := [] } : World).peer.send_queue)
    ∧ (prte_oob_tcp_queue_msg { peer := ex_peer_sending, log := [] }
          (ex_snd 3 [1] [2])).peer.send_queue
        = [ex_snd 2 [5, 6] [7], ex_snd 3 [1] [2]] :=
  ⟨rfl, (queue_msg_places_once { peer := ex_peer, log := [] } (ex_snd 3 [1] [2])).1 rfl,
   by decide⟩

/-- C16: what `prte_oob_tcp_queue_msg` does to the connection.  With `activate`
set and a peer that is not connected, whatever its state, the state becomes
`CONNECTING` and a connect is started; with `activate` set and a connected peer
the state stays `CONNECTED`, `send_ev_active` holds, and the send event is
registered if the flag was clear before; without `activate` the state, the three
event flags and the three registrations are unchanged and nothing is started. -/
theorem queue_msg_activation (w : World) (snd : prte_oob_tcp_send_t) :
    (snd.activate = true → w.peer.state ≠ .MCA_OOB_TCP_CONNECTED →
      (prte_oob_tcp_queue_msg w snd).peer.state = .MCA_OOB_TCP_CONNECTING
      ∧ (prte_oob_tcp_queue_msg w snd).log = w.log ++ [.try_connect])
    ∧ (snd.activate = true → w.peer.state = .MCA_OOB_TCP_CONNECTED →
        (prte_oob_tcp_queue_msg w snd).peer.state = .MCA_OOB_TCP_CONNECTED
        ∧ (prte_oob_tcp_queue_msg w snd).peer.send_ev_active = true
        ∧ (w.peer.send_ev_active = false →
            (prte_oob_tcp_queue_msg w snd).peer.send_event = true)
        ∧ (prte_oob_tcp_queue_msg w snd).log = w.log)
    ∧ (snd.activate = false →
        (prte_oob_tcp_queue_msg w snd).peer.state = w.peer.state
        ∧ (prte_oob_tcp_queue_msg w snd).peer.send_ev_active = w.peer.send_ev_active
        ∧ (prte_oob_tcp_queue_msg w snd).peer.recv_ev_active = w.peer.recv_ev_active
        ∧ (prte_oob_tcp_queue_msg w snd).peer.timer_ev_active = w.peer.timer_ev_active
        ∧ (prte_oob_tcp_queue_msg w snd).peer.send_event = w.peer.send_event
        ∧ (prte_oob_tcp_queue_msg w snd).peer.recv_event = w.peer.recv_event
        ∧ (prte_oob_tcp_queue_msg w snd).peer.timer_event = w.peer.timer_event
        ∧ (prte_oob_tcp_queue_msg w snd).log = w.log) := by
  unfold prte_oob_tcp_queue_msg
  dsimp only
  refine ⟨?_, ?_, ?_⟩
  · intro ha hs
    cases hm : w.peer.send_msg <;> simp [ha, hs]
  · intro ha hs
    cases hm : w.peer.send_msg <;> cases hf : w.peer.send_ev_active <;> simp [ha, hs, hf]
  · intro ha
    cases hm : w.peer.send_msg <;> simp [ha]

/-- C16 on a peer that waits for the handshake: an activating submission puts
it back to `CONNECTING` and starts a connect. -/
theorem queue_msg_activation_witness :
    (ex_snd 3 [1] [2]).activate = true
    ∧ ({ peer := ex_peer_ack, log := [] } : World).peer.state ≠ .MCA_OOB_TCP_CONNECTED
    ∧ ((prte_oob_tcp_queue_msg { peer := ex_peer_ack, log := [] } (ex_snd 3 [1] [2])).peer.state
          = .MCA_OOB_TCP_CONNECTING
        ∧ (prte_oob_tcp_queue_msg { peer := ex_peer_ack, log := [] } (ex_snd 3 [1] [2])).log
          = ({ peer := ex_peer_ack, log := [] } : World).log ++ [.try_connect]) :=
  ⟨rfl, by decide,
   (queue_msg_activation { peer := ex_peer_ack, log := [] } (ex_snd 3 [1] [2])).1 rfl
     (by decide)⟩

end Prrte

namespace Prrte

/-! ## Complete reads and the dispatch -/

/-- With nothing left to read `read_bytes` returns at once, without a `read`. -/
lemma read_bytes_zero (sock : List ReadRes) (w : World) (stream : List Byte)
    (rm : prte_oob_tcp_recv_t) (hrm : w.peer.recv_msg = some rm) (hz : rm.rdbytes = 0) :
    read_bytes sock w stream
      = some { rc := .PRRTE_SUCCESS, w := w, stream := stream, rest := sock } := by
  cases sock <;> simp only [read_bytes, hrm, hz, if_true]

/-- When `read_bytes` returns success the receive buffer is there and full. -/
lemma read_bytes_success : ∀ (sock : List ReadRes) (w : World) (stream : List Byte)
    (r : ReadOut), read_bytes sock w stream = some r → r.rc = .PRRTE_SUCCESS →
    ∃ rm, r.w.peer.recv_msg = some rm ∧ rm.rdbytes = 0 := by
  intro sock
  induction sock with
  | nil =>
    intro w stream r hr hrc
    cases hrm : w.peer.recv_msg with
    | none =>
      simp only [read_bytes, hrm, Option.some.injEq] at hr
      subst hr
      cases hrc
    | some rm =>
      simp only [read_bytes, hrm] at hr
      split at hr
      · rename_i hz
        cases hr
        exact ⟨rm, hrm, hz⟩
      · cases hr
  | cons ev rest ih =>
    intro w stream r hr hrc
    cases hrm : w.peer.recv_msg with
    | none =>
      simp only [read_bytes, hrm, Option.some.injEq] at hr
      subst hr
      cases hrc
    | some rm =>
      simp only [read_bytes, hrm] at hr
      split at hr
      · rename_i hz
        cases hr
        exact ⟨rm, hrm, hz⟩
      · cases ev with
        | error n =>
          dsimp only at hr
          split at hr
          · exact ih w stream r hr hrc
          · split at hr
            · cases hr; cases hrc
            · split at hr
              · cases hr; cases hrc
              · cases hr; cases hrc
        | chunk k =>
          dsimp only at hr
          split at hr
          · cases hr; cases hrc
          · exact ih _ _ r hr hrc

/-- The payload part of the handler when its `read_bytes` returns success. -/
lemma recv_payload_done (my_name : ProcId) (w : World) (stream : List Byte)
    (sock : List ReadRes) (r : ReadOut) (rm : prte_oob_tcp_recv_t)
    (hr : read_bytes sock w stream = some r) (hrc : r.rc = .PRRTE_SUCCESS)
    (hrm : r.w.peer.recv_msg = some rm) :
    recv_payload my_name w stream sock = some (recv_dispatch my_name r.w rm, r.stream, r.rest) := by
  simp only [recv_payload, hr, hrc, if_true, hrm]

end Prrte

namespace Prrte

/-- With a receive buffer in place the callback does not allocate. -/
lemma recv_handler_new_ok (lay : HdrLayout) (my_name : ProcId)
    (connect_ack : prte_oob_tcp_peer_t → Status × prte_oob_tcp_peer_t) (new_ok : Bool)
    (w : World) (stream : List Byte) (sock : List ReadRes) (rm0 : prte_oob_tcp_recv_t)
    (hrm : w.peer.recv_msg = some rm0) :
    prte_oob_tcp_recv_handler lay my_name connect_ack new_ok w stream sock
      = prte_oob_tcp_recv_handler lay my_name connect_ack true w stream sock := by
  unfold prte_oob_tcp_recv_handler
  simp [hrm]

/-- The callback that completes the header of a message without payload. -/
lemma recv_handler_zero (lay : HdrLayout) (my_name : ProcId)
    (connect_ack : prte_oob_tcp_peer_t → Status × prte_oob_tcp_peer_t)
    (w : World) (stream : List Byte) (sock : List ReadRes) (rm0 : prte_oob_tcp_recv_t)
    (r : ReadOut) (rm : prte_oob_tcp_recv_t) (hdr : prte_oob_tcp_hdr_t)
    (hst : w.peer.state = .MCA_OOB_TCP_CONNECTED) (hrm0 : w.peer.recv_msg = some rm0)
    (hh : rm0.hdr_recvd = false) (hr : read_bytes sock w stream = some r)
    (hrc : r.rc = .PRRTE_SUCCESS) (hrm : r.w.peer.recv_msg = some rm)
    (hhdr : hdr = lay.ntoh (lay.of_mem rm.hdr_mem)) (hz : hdr.nbytes = 0) :
    prte_oob_tcp_recv_handler lay my_name connect_ack true w stream sock
      = some ({ peer := { r.w.peer with recv_msg := none },
                log := r.w.log
                  ++ [if hdr.dst = my_name
                      then .post_message hdr.origin hdr.tag hdr.seq_num none 0
                      else .oob_send hdr.dst hdr.origin hdr.tag hdr.seq_num none 0,
                      .release_recv] }, r.stream, r.rest) := by
  obtain ⟨rm2, h1, h2⟩ := read_bytes_success sock w stream r hr hrc
  rw [hrm] at h1
  cases h1
  rw [recv_handler_hdr lay my_name connect_ack w stream sock rm0 hst hrm0 hh]
  simp only [hr, hrc, if_true, hrm]
  have hz2 : (lay.ntoh (lay.of_mem rm.hdr_mem)).nbytes = 0 := by rw [← hhdr]; exact hz
  have hd : hdr_done lay rm
      = { rm with hdr_recvd := true, hdr := hdr, data := none } := by
    simp only [hdr_done, hz2, if_true, hhdr]
  rw [hd]
  have hrb := read_bytes_zero r.rest
    { r.w with peer := { r.w.peer with
        recv_msg := some { rm with hdr_recvd := true, hdr := hdr, data := none } } }
    r.stream { rm with hdr_recvd := true, hdr := hdr, data := none } rfl h2
  rw [recv_payload_done my_name _ r.stream r.rest _ _ hrb rfl rfl]
  simp only [recv_dispatch, hz]

end Prrte

namespace Prrte

/-- A frame without payload.  On the sending side, for a request as submitted
whose `hdr.nbytes` is zero and that has relay data or an RML message, `send_msg`
offers the socket exactly the header bytes, and a `writev` that takes them all
completes the request.  On the
receiving side, when the `read_bytes` call of a callback completes a header
whose converted `nbytes` is zero, that same callback hands the message on with
a `NULL` payload and the length zero (to the RML when the destination is this
process, to the OOB otherwise) and releases the buffer; it consumes no further
result of `read` and no further byte of the stream. -/
theorem zero_byte_frame (lay : HdrLayout) (my_name : ProcId)
    (connect_ack : prte_oob_tcp_peer_t → Status × prte_oob_tcp_peer_t) (new_ok : Bool) :
    (∀ (msg : prte_oob_tcp_send_t) (k : Nat) (rest : List WriteRes),
        fresh msg → msg.hdr_nbytes = 0 → sendable msg →
        iov_bytes msg = msg.hdr_mem ∧ iov_remain msg = msg.hdr_mem.length
        ∧ (msg.hdr_mem.length ≤ k →
            ∃ r, send_msg msg (.accept k :: rest) = some r ∧ r.rc = .PRRTE_SUCCESS
              ∧ r.written = msg.hdr_mem ∧ r.rest = rest))
    ∧ (∀ (w : World) (stream : List Byte) (sock : List ReadRes) (rm0 : prte_oob_tcp_recv_t)
        (r : ReadOut) (rm : prte_oob_tcp_recv_t) (hdr : prte_oob_tcp_hdr_t),
        w.peer.state = .MCA_OOB_TCP_CONNECTED → w.peer.recv_msg = some rm0 →
        rm0.hdr_recvd = false → read_bytes sock w stream = some r → r.rc = .PRRTE_SUCCESS →
        r.w.peer.recv_msg = some rm → hdr = lay.ntoh (lay.of_mem rm.hdr_mem) → hdr.nbytes = 0 →
        prte_oob_tcp_recv_handler lay my_name connect_ack new_ok w stream sock
          = some ({ peer := { r.w.peer with recv_msg := none },
                    log := r.w.log
                      ++ [if hdr.dst = my_name
                          then .post_message hdr.origin hdr.tag hdr.seq_num none 0
                          else .oob_send hdr.dst hdr.origin hdr.tag hdr.seq_num none 0,
                          .release_recv] }, r.stream, r.rest))
    ∧ (∀ (w : World) (stream : List Byte) (sock : List ReadRes) (r : ReadOut)
        (rm : prte_oob_tcp_recv_t) (hdr : prte_oob_tcp_hdr_t),
        w.peer.state = .MCA_OOB_TCP_CONNECTED → w.peer.recv_msg = none →
        read_bytes sock { w with peer := { w.peer with recv_msg := some (new_recv lay) } } stream
          = some r →
        r.rc = .PRRTE_SUCCESS →
        r.w.peer.recv_msg = some rm → hdr = lay.ntoh (lay.of_mem rm.hdr_mem) → hdr.nbytes = 0 →
        prte_oob_tcp_recv_handler lay my_name connect_ack true w stream sock
          = some ({ peer := { r.w.peer with recv_msg := none },
                    log := r.w.log
                      ++ [if hdr.dst = my_name
                          then .post_message hdr.origin hdr.tag hdr.seq_num none 0
                          else .oob_send hdr.dst hdr.origin hdr.tag hdr.seq_num none 0,
                          .release_recv] }, r.stream, r.rest)) := by
  refine ⟨?_, ?_, ?_⟩
  · intro msg k rest hf hz hb
    have hp : payload_of msg = [] := by
      have := hf.2.2.2
      rw [hz] at this
      exact List.length_eq_zero.mp this.symm
    have hiov : iov_bytes msg = msg.hdr_mem := by
      rw [fresh_iov msg hf, frame, hp, List.append_nil]
    have hlen := wf_iov_length msg (fresh_wf msg hf)
    rw [hiov] at hlen
    refine ⟨hiov, hlen.symm, ?_⟩
    intro hk
    obtain ⟨r, e, f1, f2, _, _, _, f6⟩ := send_accept_spec msg (fresh_wf msg hf) 0 k rest
    refine ⟨r, by rw [send_msg_eq msg (Or.inr hb)]; exact e, ?_, ?_, f1⟩
    · rw [f6, if_pos (by rw [← hlen]; exact hk)]
    · rw [f2, hiov]
      exact List.take_of_length_le hk
  · intro w stream sock rm0 r rm hdr hst hrm0 hh hr hrc hrm hhdr hz
    rw [recv_handler_new_ok lay my_name connect_ack new_ok w stream sock rm0 hrm0]
    exact recv_handler_zero lay my_name connect_ack w stream sock rm0 r rm hdr hst hrm0 hh hr hrc
      hrm hhdr hz
  · intro w stream sock r rm hdr hst hn hr hrc hrm hhdr hz
    rw [recv_handler_alloc lay my_name connect_ack w stream sock hst hn]
    exact recv_handler_zero lay my_name connect_ack _ stream sock (new_recv lay) r rm hdr hst rfl
      rfl hr hrc hrm hhdr hz

/-- A header of four bytes that announces no payload: the sender offers
the four bytes, and the receiver hands the message to the RML in the callback
that reads them, leaving the next read and the following bytes alone. -/
theorem zero_byte_frame_witness :
    fresh (ex_snd 7 [7, 3, 9, 0] [])
    ∧ (ex_snd 7 [7, 3, 9, 0] []).hdr_nbytes = 0
    ∧ iov_bytes (ex_snd 7 [7, 3, 9, 0] []) = [7, 3, 9, 0]
    ∧ prte_oob_tcp_recv_handler ex_lay ⟨0, 7⟩ ex_ack true { peer := ex_peer, log := [] }
          [7, 3, 9, 0, 1, 2] [.chunk 3, .chunk 3, .chunk 2]
        = some ({ peer := ex_peer,
                  log := [.read [7, 3, 9], .read [0],
                          .post_message ⟨0, 3⟩ 9 0 none 0, .release_recv] },
                [1, 2], [.chunk 2]) :=
  ⟨⟨rfl, rfl, rfl, rfl⟩, rfl,
   ((zero_byte_frame ex_lay ⟨0, 7⟩ ex_ack true).1 (ex_snd 7 [7, 3, 9, 0] []) 4 []
      ⟨rfl, rfl, rfl, rfl⟩ rfl (Or.inr (by decide))).1,
   by decide⟩

/-- C17: the dispatch of a completely received message.  When the `read_bytes`
call of the payload part of a callback on a connected peer returns success, the
callback hands the message on exactly once and drops the receive buffer: if the
destination of the header is this process it posts the message to the RML with
the origin, the tag, the sequence number, the payload and the length of the
header, and sends nothing to the OOB; otherwise it posts nothing and hands one
request to the OOB with the destination, origin, tag and sequence number of the
header and the payload as data.  The header is the one the buffer had before the
read.  A callback that first completes the header continues with the same
payload part. -/
theorem recv_dispatch_routes (lay : HdrLayout) (my_name : ProcId)
    (connect_ack : prte_oob_tcp_peer_t → Status × prte_oob_tcp_peer_t) (new_ok : Bool)
    (w : World) (stream : List Byte) (sock : List ReadRes) (rm0 : prte_oob_tcp_recv_t)
    (hst : w.peer.state = .MCA_OOB_TCP_CONNECTED) (hrm0 : w.peer.recv_msg = some rm0) :
    (rm0.hdr_recvd = true →
      prte_oob_tcp_recv_handler lay my_name connect_ack new_ok w stream sock
        = recv_payload my_name w stream sock)
    ∧ (rm0.hdr_recvd = false → ∀ (r : ReadOut) (rm : prte_oob_tcp_recv_t),
        read_bytes sock w stream = some r → r.rc = .PRRTE_SUCCESS →
        r.w.peer.recv_msg = some rm →
        prte_oob_tcp_recv_handler lay my_name connect_ack new_ok w stream sock
          = recv_payload my_name
              { r.w with peer := { r.w.peer with recv_msg := some (hdr_done lay rm) } }
              r.stream r.rest)
    ∧ (∀ (v : World) (st : List Byte) (sk : List ReadRes) (r : ReadOut)
        (rm : prte_oob_tcp_recv_t),
        read_bytes sk v st = some r → r.rc = .PRRTE_SUCCESS → r.w.peer.recv_msg = some rm →
        (rm.hdr.dst = my_name →
          recv_payload my_name v st sk
            = some ({ peer := { r.w.peer with recv_msg := none },
                      log := r.w.log
                        ++ [.post_message rm.hdr.origin rm.hdr.tag rm.hdr.seq_num rm.data
                              rm.hdr.nbytes, .release_recv] }, r.stream, r.rest))
        ∧ (rm.hdr.dst ≠ my_name →
          recv_payload my_name v st sk
            = some ({ peer := { r.w.peer with recv_msg := none },
                      log := r.w.log
                        ++ [.oob_send rm.hdr.dst rm.hdr.origin rm.hdr.tag rm.hdr.seq_num rm.data
                              rm.hdr.nbytes, .release_recv] }, r.stream, r.rest))) := by
  refine ⟨?_, ?_, ?_⟩
  · intro hh
    rw [recv_handler_new_ok lay my_name connect_ack new_ok w stream sock rm0 hrm0]
    exact recv_handler_pay lay my_name connect_ack w stream sock rm0 hst hrm0 hh
  · intro hh r rm hr hrc hrm
    rw [recv_handler_new_ok lay my_name connect_ack new_ok w stream sock rm0 hrm0,
      recv_handler_hdr lay my_name connect_ack w stream sock rm0 hst hrm0 hh]
    simp only [hr, hrc, if_true, hrm]
  · intro v st sk r rm hr hrc hrm
    rw [recv_payload_done my_name v st sk r rm hr hrc hrm]
    refine ⟨?_, ?_⟩
    · intro hd
      simp only [recv_dispatch, hd, if_true]
    · intro hd
      simp only [recv_dispatch, hd, if_false]

/-- C17 on a message for another process: the payload arrives and the message
is handed to the OOB, not to the RML. -/
theorem recv_dispatch_routes_witness :
    ({ peer := ex_peer_recv, log := [] } : World).peer.state = .MCA_OOB_TCP_CONNECTED
    ∧ prte_oob_tcp_recv_handler ex_lay ⟨0, 7⟩ ex_ack true { peer := ex_peer_recv, log := [] }
          [5, 6] [.chunk 2]
        = some ({ peer := ex_peer,
                  log := [.read [5, 6], .oob_send ⟨0, 8⟩ ⟨0, 3⟩ 9 0 (some [5, 6]) 2,
                          .release_recv] }, [], [])
    ∧ prte_oob_tcp_recv_handler ex_lay ⟨0, 7⟩ ex_ack true { peer := ex_peer_recv, log := [] }
          [5, 6] [.chunk 2]
        = recv_payload ⟨0, 7⟩ { peer := ex_peer_recv, log := [] } [5, 6] [.chunk 2] :=
  ⟨rfl, by decide,
   (recv_dispatch_routes ex_lay ⟨0, 7⟩ ex_ack true { peer := ex_peer_recv, log := [] } [5, 6]
      [.chunk 2] _ rfl rfl).1 rfl⟩

end Prrte

namespace Prrte

/-! ## The peer predicates across the callbacks -/

/-- The statuses of `send_msg`; a failed write accepts no byte. -/
lemma send_msg_retry_rc (msg : prte_oob_tcp_send_t) :
    ∀ (sock : List WriteRes) (retries : Nat) (r : SendRes),
      send_msg_retry msg retries sock = some r →
      r.rc = .PRRTE_SUCCESS ∨ r.rc = .PRRTE_ERR_RESOURCE_BUSY ∨ r.rc = .PRRTE_ERR_WOULD_BLOCK
        ∨ r.rc = .FAULT ∨ (r.rc = .PRRTE_ERR_UNREACH ∧ r.written = []) := by
  intro sock
  induction sock with
  | nil => intro retries r hr; simp [send_msg_retry] at hr
  | cons ev rest ih =>
    intro retries r hr
    cases ev with
    | accept k =>
      simp only [send_msg_retry] at hr
      split at hr
      · cases hr; exact Or.inl rfl
      · split at hr
        · cases hr; exact Or.inr (Or.inl rfl)
        · split at hr
          · cases hr; exact Or.inr (Or.inr (Or.inr (Or.inl rfl)))
          · cases hr; exact Or.inr (Or.inl rfl)
    | error n =>
      simp only [send_msg_retry] at hr
      split at hr
      · exact ih _ r hr
      · split at hr
        · split at hr
          · exact ih _ r hr
          · cases hr; exact Or.inr (Or.inl rfl)
        · split at hr
          · split at hr
            · exact ih _ r hr
            · cases hr; exact Or.inr (Or.inr (Or.inl rfl))
          · cases hr
            exact Or.inr (Or.inr (Or.inr (Or.inr ⟨rfl, rfl⟩)))

/-- The statuses of a whole call of `send_msg`. -/
lemma send_msg_rc (msg : prte_oob_tcp_send_t) (sock : List WriteRes) (r : SendRes)
    (hr : send_msg msg sock = some r) :
    r.rc = .PRRTE_SUCCESS ∨ r.rc = .PRRTE_ERR_RESOURCE_BUSY ∨ r.rc = .PRRTE_ERR_WOULD_BLOCK
      ∨ r.rc = .FAULT ∨ (r.rc = .PRRTE_ERR_UNREACH ∧ r.written = []) := by
  rcases send_msg_cases msg sock with ⟨-, -, e⟩ | ⟨-, e⟩
  · rw [e] at hr
    cases hr
    exact Or.inr (Or.inr (Or.inr (Or.inl rfl)))
  · rw [e] at hr
    exact send_msg_retry_rc msg sock 0 r hr

lemma unchanged_or_closed_trans (p q t : prte_oob_tcp_peer_t)
    (h1 : unchanged_or_closed p q) (h2 : unchanged_or_closed q t) : unchanged_or_closed p t := by
  rcases h2 with ⟨a, b, c, d, e⟩ | h2
  · rcases h1 with ⟨a1, b1, c1, d1, e1⟩ | ⟨a1, b1, c1, d1, e1⟩
    · exact Or.inl ⟨a.trans a1, b.trans b1, c.trans c1, d.trans d1, e.trans e1⟩
    · exact Or.inr ⟨a.trans a1, b.trans b1, c.trans c1, d.trans d1, e.trans e1⟩
  · exact Or.inr h2

/-- What `read_bytes` does to the state, the requests and the event flags. -/
lemma read_bytes_side : ∀ (sock : List ReadRes) (w : World) (stream : List Byte) (r : ReadOut),
    read_bytes sock w stream = some r → unchanged_or_closed w.peer r.w.peer := by
  intro sock
  induction sock with
  | nil =>
    intro w stream r hr
    cases hrm : w.peer.recv_msg with
    | none =>
      simp only [read_bytes, hrm, Option.some.injEq] at hr
      subst hr
      exact Or.inl ⟨rfl, rfl, rfl, rfl, rfl⟩
    | some rm =>
      simp only [read_bytes, hrm] at hr
      split at hr
      · cases hr; exact Or.inl ⟨rfl, rfl, rfl, rfl, rfl⟩
      · cases hr
  | cons ev rest ih =>
    intro w stream r hr
    cases hrm : w.peer.recv_msg with
    | none =>
      simp only [read_bytes, hrm, Option.some.injEq] at hr
      subst hr
      exact Or.inl ⟨rfl, rfl, rfl, rfl, rfl⟩
    | some rm =>
      simp only [read_bytes, hrm] at hr
      split at hr
      · cases hr; exact Or.inl ⟨rfl, rfl, rfl, rfl, rfl⟩
      · cases ev with
        | error n =>
          dsimp only at hr
          split at hr
          · exact ih w stream r hr
          · split at hr
            · cases hr; exact Or.inl ⟨rfl, rfl, rfl, rfl, rfl⟩
            · split at hr
              · cases hr; exact Or.inl ⟨rfl, rfl, rfl, rfl, rfl⟩
              · cases hr; exact Or.inl ⟨rfl, rfl, rfl, rfl, rfl⟩
        | chunk k =>
          dsimp only at hr
          split at hr
          · cases hr
            exact Or.inr ⟨rfl, rfl, rfl, rfl, rfl⟩
          · have h2 := ih _ _ r hr
            exact unchanged_or_closed_trans _ _ _ (Or.inl ⟨rfl, rfl, rfl, rfl, rfl⟩) h2

/-- What the payload part of the receive callback does to these fields. -/
lemma recv_payload_side (my_name : ProcId) (w : World) (stream : List Byte)
    (sock : List ReadRes) (out : World × List Byte × List ReadRes)
    (h : recv_payload my_name w stream sock = some out) :
    unchanged_or_closed w.peer out.1.peer := by
  unfold recv_payload at h
  cases hr : read_bytes sock w stream with
  | none => rw [hr] at h; cases h
  | some r =>
    have hs := read_bytes_side sock w stream r hr
    rw [hr] at h
    dsimp only at h
    refine unchanged_or_closed_trans _ _ _ hs ?_
    split at h
    · split at h
      · cases h; exact Or.inl ⟨rfl, rfl, rfl, rfl, rfl⟩
      · cases h; exact Or.inl ⟨rfl, rfl, rfl, rfl, rfl⟩
    · split at h
      · cases h; exact Or.inl ⟨rfl, rfl, rfl, rfl, rfl⟩
      · cases h; exact Or.inl ⟨rfl, rfl, rfl, rfl, rfl⟩

/-- What the receive callback on a connected peer does to these fields. -/
lemma recv_handler_connected_side (lay : HdrLayout) (my_name : ProcId)
    (connect_ack : prte_oob_tcp_peer_t → Status × prte_oob_tcp_peer_t) (new_ok : Bool)
    (w : World) (stream : List Byte) (sock : List ReadRes)
    (out : World × List Byte × List ReadRes)
    (hst : w.peer.state = .MCA_OOB_TCP_CONNECTED)
    (h : prte_oob_tcp_recv_handler lay my_name connect_ack new_ok w stream sock = some out) :
    unchanged_or_closed w.peer out.1.peer := by
  unfold prte_oob_tcp_recv_handler at h
  simp only [hst] at h
  split at h
  · cases h; exact Or.inl ⟨rfl, rfl, rfl, rfl, rfl⟩
  · obtain ⟨w1, hw1⟩ : ∃ w1 : World, (if w.peer.recv_msg.isNone
        then { w with peer := { w.peer with state := .MCA_OOB_TCP_CONNECTED,
                                            recv_msg := some (new_recv lay) } } else w) = w1 :=
      ⟨_, rfl⟩
    have h1 : unchanged_or_closed w.peer w1.peer := by
      rw [← hw1]
      split
      · exact Or.inl ⟨hst.symm, rfl, rfl, rfl, rfl⟩
      · exact Or.inl ⟨rfl, rfl, rfl, rfl, rfl⟩
    dsimp only at hw1
    simp only [hw1] at h
    refine unchanged_or_closed_trans _ _ _ h1 ?_
    split at h
    · cases h; exact Or.inl ⟨rfl, rfl, rfl, rfl, rfl⟩
    · split at h
      · cases hr : read_bytes sock w1 stream with
        | none => rw [hr] at h; cases h
        | some r =>
          have hs := read_bytes_side sock w1 stream r hr
          rw [hr] at h
          dsimp only at h
          refine unchanged_or_closed_trans _ _ _ hs ?_
          split at h
          · split at h
            · cases h; exact Or.inl ⟨rfl, rfl, rfl, rfl, rfl⟩
            · have h2 := recv_payload_side my_name _ _ _ out h
              exact unchanged_or_closed_trans _ _ _ (Or.inl ⟨rfl, rfl, rfl, rfl, rfl⟩) h2
          · split at h
            · cases h; exact Or.inl ⟨rfl, rfl, rfl, rfl, rfl⟩
            · cases h; exact Or.inr ⟨rfl, rfl, rfl, rfl, rfl⟩
      · exact recv_payload_side my_name _ _ _ out h

end Prrte

namespace Prrte

/-! ## The send-event predicate and the fatal write -/

/-- Claim C18, as stated: on a connected peer whose send event is registered,
with one request on deck and one queued, a `writev` that fails with an error
other than `EINTR`, `EAGAIN` and `EWOULDBLOCK` makes `prte_oob_tcp_send_handler`
delete the send event and clear the on-deck request while `send_ev_active` stays
set: the predicate "send event active implies `CONNECTED` with a request on
deck" holds before the callback and not after it. -/
theorem send_handler_fatal_keeps_flag :
    send_active_inv ex_peer_sending ∧
    ∃ out, prte_oob_tcp_send_handler ex_cc { peer := ex_peer_sending, log := [] } [.error 32]
        = some out ∧
      out.1.peer.send_ev_active = true ∧ out.1.peer.send_event = false ∧
      out.1.peer.send_msg = none ∧ out.1.peer.state = .MCA_OOB_TCP_CONNECTED ∧
      out.1.log = [.send_complete 1 .PRRTE_ERR_UNREACH, .release_snd (ex_snd 1 [1, 2] [3]),
                   .comm_failed] ∧
      ¬ send_active_inv out.1.peer := by
  refine ⟨fun _ => ⟨rfl, by decide⟩, _, rfl, rfl, rfl, rfl, rfl, rfl, ?_⟩
  intro h
  exact (h rfl).2 rfl

/-! ## The queue predicate -/

/-- Claim C19, as stated: the same fatal write leaves the peer `CONNECTED` with
no request on deck and the queued request still in the send queue. -/
theorem queue_inv_broken_by_fatal_write :
    queue_inv ex_peer_sending ∧
    ∃ out, prte_oob_tcp_send_handler ex_cc { peer := ex_peer_sending, log := [] } [.error 32]
        = some out ∧
      out.1.peer.send_msg = none ∧ out.1.peer.send_queue = [ex_snd 2 [5, 6] [7]] ∧
      out.1.peer.state = .MCA_OOB_TCP_CONNECTED ∧ ¬ queue_inv out.1.peer := by
  have h0 : queue_inv ex_peer_sending := fun h => by cases h
  refine ⟨h0, _, rfl, ?_, ?_, ?_, ?_⟩
  · rfl
  · rfl
  · rfl
  · intro h
    rcases h rfl with h1 | h1
    · cases h1
    · exact h1 rfl

/-- Claim C19, amended.  Given that `prte_oob_tcp_peer_complete_connect` and
`prte_oob_tcp_peer_recv_connect_ack` preserve the predicate "no request on deck
implies an empty send queue or a peer that is not `CONNECTED`":
`prte_oob_tcp_queue_msg` establishes it, `prte_oob_tcp_recv_handler` preserves
it, and `prte_oob_tcp_send_handler` preserves it unless the write failed
fatally, which the log shows by a completion with `PRRTE_ERR_UNREACH` followed
by the release of the request and `COMM_FAILED`. -/
theorem queue_inv_preserved (cc : prte_oob_tcp_peer_t → prte_oob_tcp_peer_t)
    (connect_ack : prte_oob_tcp_peer_t → Status × prte_oob_tcp_peer_t)
    (hcc : ∀ p, queue_inv p → queue_inv (cc p))
    (hack : ∀ p, queue_inv p → queue_inv (connect_ack p).2) :
    (∀ (w : World) (snd : prte_oob_tcp_send_t), queue_inv (prte_oob_tcp_queue_msg w snd).peer) ∧
    (∀ (w : World) (sock : List WriteRes) (out : World × List WriteRes),
      queue_inv w.peer → prte_oob_tcp_send_handler cc w sock = some out →
      queue_inv out.1.peer ∨
        ∃ (m : Nat) (r : prte_oob_tcp_send_t),
          out.1.log = w.log ++ [.send_complete m .PRRTE_ERR_UNREACH, .release_snd r,
                                .comm_failed]) ∧
    (∀ (lay : HdrLayout) (my_name : ProcId) (new_ok : Bool) (w : World) (stream : List Byte)
        (sock : List ReadRes) (out : World × List Byte × List ReadRes),
      queue_inv w.peer →
      prte_oob_tcp_recv_handler lay my_name connect_ack new_ok w stream sock = some out →
      queue_inv out.1.peer) := by
  refine ⟨?_, ?_, ?_⟩
  · intro w snd
    unfold prte_oob_tcp_queue_msg queue_inv
    dsimp only
    cases hm : w.peer.send_msg <;> (split_ifs <;> simp)
  · intro w sock out hinv h
    unfold prte_oob_tcp_send_handler at h
    dsimp only at h
    cases hst : w.peer.state <;> simp only [hst] at h
    case MCA_OOB_TCP_CONNECTED =>
      cases hm : w.peer.send_msg with
      | none =>
        simp only [hm, Option.some.injEq] at h
        subst h
        left
        have hq := hinv hm
        unfold send_idle_check queue_inv
        split_ifs <;> intro _ <;> exact hq
      | some msg =>
        simp only [hm] at h
        cases hr : send_msg msg sock with
        | none => rw [hr] at h; cases h
        | some r =>
          rw [hr] at h
          dsimp only at h
          have hrc := send_msg_rc msg sock r hr
          split at h
          · cases h
            left
            unfold send_idle_check promote_next queue_inv
            dsimp only
            cases hq : w.peer.send_queue <;> simp
            split_ifs <;> simp
          · split at h
            · cases h; left; intro h0; cases h0
            · split at h
              · cases h; left; intro h0; cases h0
              · split at h
                · cases h; left; intro h0; cases h0
                · rename_i m hmm
                  cases h
                  right
                  rcases hrc with h1 | h1 | h1 | h1 | ⟨h1, h2⟩
                  · contradiction
                  · simp_all
                  · simp_all
                  · contradiction
                  · exact ⟨m, r.msg, by simp [h1, h2]⟩
    case MCA_OOB_TCP_CONNECTING =>
      cases h
      left
      have hq := hcc _ hinv
      unfold queue_inv at hq ⊢
      split_ifs <;> exact hq
    case MCA_OOB_TCP_CLOSED =>
      cases h
      left
      have hq := hcc _ hinv
      unfold queue_inv at hq ⊢
      split_ifs <;> exact hq
    all_goals
      cases h
      left
      unfold queue_inv at hinv ⊢
      split_ifs
      · intro h0; exact Or.inr (by simp)
      · exact hinv
  · intro lay my_name new_ok w stream sock out hinv h
    cases hst : w.peer.state
    case MCA_OOB_TCP_CONNECTED =>
      have hs := recv_handler_connected_side lay my_name connect_ack new_ok w stream sock out hst h
      unfold queue_inv at hinv ⊢
      rcases hs with ⟨a, b, c, _, _⟩ | ⟨a, b, c, _, _⟩
      · rw [a, b, c]; exact hinv
      · intro _; exact Or.inl c
    case MCA_OOB_TCP_CONNECT_ACK =>
      unfold prte_oob_tcp_recv_handler at h
      simp only [hst] at h
      have hq := hack _ hinv
      split at h
      · cases h
        unfold queue_inv promote_next
        dsimp only
        intro h0
        left
        revert h0
        split_ifs <;> simp_all
      · split at h
        · cases h; exact hq
        · cases h; exact hq
    all_goals
      unfold prte_oob_tcp_recv_handler at h
      simp only [hst] at h
      cases h
      exact hinv

/-- Claim C19, amended, on a callback that writes the whole on-deck request: the
queued request is promoted and the predicate holds afterwards. -/
theorem queue_inv_preserved_witness :
    queue_inv ex_peer_sending ∧
    ∃ out, prte_oob_tcp_send_handler ex_cc { peer := ex_peer_sending, log := [] } [.accept 3]
        = some out ∧
      (queue_inv out.1.peer ∨
        ∃ (m : Nat) (r : prte_oob_tcp_send_t),
          out.1.log = [] ++ [.send_complete m .PRRTE_ERR_UNREACH, .release_snd r,
                             .comm_failed]) :=
  have h0 : queue_inv ex_peer_sending := fun h => by cases h
  ⟨h0, _, rfl,
    (queue_inv_preserved ex_cc ex_ack (fun _ _ _ => Or.inr (by simp [ex_cc]))
      (fun _ h => h)).2.1 { peer := ex_peer_sending, log := [] } [.accept 3] _ h0 rfl⟩

/-! ## The receive-event predicate -/

/-- Claim C20, as stated: on a peer in `CONNECT_ACK` whose receive event is
active, `prte_oob_tcp_queue_msg` with a request that asks for activation
starts a new connection attempt: the state becomes `CONNECTING` and the receive
event stays active. -/
theorem recv_active_inv_broken_by_queue_msg :
    recv_active_inv ex_peer_ack ∧
    (prte_oob_tcp_queue_msg { peer := ex_peer_ack, log := [] } (ex_snd 3 [1] [2])).peer.state
      = .MCA_OOB_TCP_CONNECTING ∧
    (prte_oob_tcp_queue_msg { peer := ex_peer_ack, log := [] }
      (ex_snd 3 [1] [2])).peer.recv_ev_active = true ∧
    ¬ recv_active_inv
      (prte_oob_tcp_queue_msg { peer := ex_peer_ack, log := [] } (ex_snd 3 [1] [2])).peer := by
  refine ⟨fun _ => Or.inl rfl, rfl, rfl, ?_⟩
  intro h
  rcases h rfl with h1 | h1
  · cases h1
  · cases h1

/-- Claim C20, amended.  Given that `prte_oob_tcp_peer_complete_connect` and
`prte_oob_tcp_peer_recv_connect_ack` preserve the predicate "receive event
active implies `CONNECT_ACK` or `CONNECTED`": `prte_oob_tcp_send_handler` and
`prte_oob_tcp_recv_handler` preserve it, and `prte_oob_tcp_queue_msg` preserves
it when the request does not ask for activation, or the peer is `CONNECTED`, or
the receive event is not active. -/
theorem recv_active_inv_preserved (cc : prte_oob_tcp_peer_t → prte_oob_tcp_peer_t)
    (connect_ack : prte_oob_tcp_peer_t → Status × prte_oob_tcp_peer_t)
    (hcc : ∀ p, recv_active_inv p → recv_active_inv (cc p))
    (hack : ∀ p, recv_active_inv p → recv_active_inv (connect_ack p).2) :
    (∀ (w : World) (snd : prte_oob_tcp_send_t), recv_active_inv w.peer →
      (snd.activate = false ∨ w.peer.state = .MCA_OOB_TCP_CONNECTED
        ∨ w.peer.recv_ev_active = false) →
      recv_active_inv (prte_oob_tcp_queue_msg w snd).peer) ∧
    (∀ (w : World) (sock : List WriteRes) (out : World × List WriteRes),
      recv_active_inv w.peer → prte_oob_tcp_send_handler cc w sock = some out →
      recv_active_inv out.1.peer) ∧
    (∀ (lay : HdrLayout) (my_name : ProcId) (new_ok : Bool) (w : World) (stream : List Byte)
        (sock : List ReadRes) (out : World × List Byte × List ReadRes),
      recv_active_inv w.peer →
      prte_oob_tcp_recv_handler lay my_name connect_ack new_ok w stream sock = some out →
      recv_active_inv out.1.peer) := by
  refine ⟨?_, ?_, ?_⟩
  · intro w snd hinv hc
    unfold prte_oob_tcp_queue_msg
    unfold recv_active_inv at hinv ⊢
    dsimp only
    cases hm : w.peer.send_msg <;> (split_ifs <;> simp_all)
  · intro w sock out hinv h
    unfold prte_oob_tcp_send_handler at h
    dsimp only at h
    cases hst : w.peer.state <;> simp only [hst] at h
    case MCA_OOB_TCP_CONNECTED =>
      cases hm : w.peer.send_msg with
      | none =>
        simp only [hm, Option.some.injEq] at h
        subst h
        unfold send_idle_check recv_active_inv
        split_ifs <;> intro _ <;> exact Or.inr hst
      | some msg =>
        simp only [hm] at h
        cases hr : send_msg msg sock with
        | none => rw [hr] at h; cases h
        | some r =>
          rw [hr] at h
          dsimp only at h
          split at h
          · cases h
            unfold send_idle_check promote_next recv_active_inv
            dsimp only
            split_ifs <;> intro _ <;> exact Or.inr rfl
          · split at h
            · cases h; intro _; exact Or.inr rfl
            · split at h
              · cases h; intro _; exact Or.inr rfl
              · split at h
                · cases h; intro _; exact Or.inr rfl
                · cases h; intro _; exact Or.inr rfl
    case MCA_OOB_TCP_CONNECTING =>
      cases h
      have hq := hcc _ hinv
      unfold recv_active_inv at hq ⊢
      split_ifs <;> exact hq
    case MCA_OOB_TCP_CLOSED =>
      cases h
      have hq := hcc _ hinv
      unfold recv_active_inv at hq ⊢
      split_ifs <;> exact hq
    all_goals
      cases h
      unfold recv_active_inv at hinv ⊢
      split_ifs <;> simp_all
  · intro lay my_name new_ok w stream sock out hinv h
    cases hst : w.peer.state
    case MCA_OOB_TCP_CONNECTED =>
      have hs := recv_handler_connected_side lay my_name connect_ack new_ok w stream sock out hst h
      unfold recv_active_inv at hinv ⊢
      rcases hs with ⟨a, _, _, _, e⟩ | ⟨_, _, _, _, e⟩
      · rw [a, e]; exact hinv
      · intro h0; rw [e] at h0; cases h0
    case MCA_OOB_TCP_CONNECT_ACK =>
      unfold prte_oob_tcp_recv_handler at h
      simp only [hst] at h
      have hq := hack _ hinv
      split at h
      · cases h
        intro _
        exact Or.inr rfl
      · split at h
        · cases h; exact hq
        · cases h; exact hq
    all_goals
      unfold prte_oob_tcp_recv_handler at h
      simp only [hst] at h
      cases h
      exact hinv

/-- Claim C20, amended, on the callback that completes the handshake: the peer
becomes `CONNECTED` with its receive event active. -/
theorem recv_active_inv_preserved_witness :
    recv_active_inv ex_peer_ack ∧
    ∃ out, prte_oob_tcp_recv_handler ex_lay ⟨0, 8⟩ ex_ack true { peer := ex_peer_ack, log := [] }
        [] [] = some out ∧
      out.1.peer.state = .MCA_OOB_TCP_CONNECTED ∧ recv_active_inv out.1.peer :=
  have h0 : recv_active_inv ex_peer_ack := fun _ => Or.inl rfl
  ⟨h0, _, rfl, rfl,
    (recv_active_inv_preserved ex_cc ex_ack (fun _ _ _ => Or.inl rfl)
      (fun _ h => h)).2.2 ex_lay ⟨0, 8⟩ true { peer := ex_peer_ack, log := [] } [] [] _ h0 rfl⟩

end Prrte

namespace Prrte

/-- Claim C18, amended.  Given that `prte_oob_tcp_peer_recv_connect_ack`
preserves the predicate "send event active implies `CONNECTED` with a request
on deck": `prte_oob_tcp_queue_msg` and `prte_oob_tcp_recv_handler` preserve it,
and `prte_oob_tcp_send_handler` preserves it unless the write failed fatally,
which the log shows by a completion with `PRRTE_ERR_UNREACH` followed by the
release of the request and `COMM_FAILED`. -/
theorem send_active_inv_preserved (cc : prte_oob_tcp_peer_t → prte_oob_tcp_peer_t)
    (connect_ack : prte_oob_tcp_peer_t → Status × prte_oob_tcp_peer_t)
    (hack : ∀ p, send_active_inv p → send_active_inv (connect_ack p).2) :
    (∀ (w : World) (snd : prte_oob_tcp_send_t), send_active_inv w.peer →
      send_active_inv (prte_oob_tcp_queue_msg w snd).peer) ∧
    (∀ (w : World) (sock : List WriteRes) (out : World × List WriteRes),
      send_active_inv w.peer → prte_oob_tcp_send_handler cc w sock = some out →
      send_active_inv out.1.peer ∨
        ∃ (m : Nat) (r : prte_oob_tcp_send_t),
          out.1.log = w.log ++ [.send_complete m .PRRTE_ERR_UNREACH, .release_snd r,
                                .comm_failed]) ∧
    (∀ (lay : HdrLayout) (my_name : ProcId) (new_ok : Bool) (w : World) (stream : List Byte)
        (sock : List ReadRes) (out : World × List Byte × List ReadRes),
      send_active_inv w.peer →
      prte_oob_tcp_recv_handler lay my_name connect_ack new_ok w stream sock = some out →
      send_active_inv out.1.peer) := by
  refine ⟨?_, ?_, ?_⟩
  · intro w snd hinv
    unfold prte_oob_tcp_queue_msg
    unfold send_active_inv at hinv ⊢
    dsimp only
    cases hm : w.peer.send_msg <;> (split_ifs <;> simp_all)
  · intro w sock out hinv h
    unfold prte_oob_tcp_send_handler at h
    dsimp only at h
    cases hst : w.peer.state <;> simp only [hst] at h
    case MCA_OOB_TCP_CONNECTED =>
      cases hm : w.peer.send_msg with
      | none =>
        simp only [hm, Option.some.injEq] at h
        subst h
        left
        unfold send_idle_check send_active_inv
        split_ifs <;> simp_all
      | some msg =>
        simp only [hm] at h
        cases hr : send_msg msg sock with
        | none => rw [hr] at h; cases h
        | some r =>
          rw [hr] at h
          dsimp only at h
          have hrc := send_msg_rc msg sock r hr
          split at h
          · cases h
            left
            unfold send_idle_check promote_next send_active_inv
            dsimp only
            cases hq : w.peer.send_queue <;> cases hf : w.peer.send_ev_active <;> simp
          · split at h
            · cases h; left; intro _; exact ⟨rfl, by simp⟩
            · split at h
              · cases h; left; intro _; exact ⟨rfl, by simp⟩
              · split at h
                · cases h; left; intro _; exact ⟨rfl, by simp⟩
                · rename_i m hmm
                  cases h
                  right
                  rcases hrc with h1 | h1 | h1 | h1 | ⟨h1, h2⟩
                  · contradiction
                  · simp_all
                  · simp_all
                  · contradiction
                  · exact ⟨m, r.msg, by simp [h1, h2]⟩
    all_goals
      cases h
      left
      unfold send_active_inv
      split_ifs <;> simp_all
  · intro lay my_name new_ok w stream sock out hinv h
    cases hst : w.peer.state
    case MCA_OOB_TCP_CONNECTED =>
      have hs := recv_handler_connected_side lay my_name connect_ack new_ok w stream sock out hst h
      unfold send_active_inv at hinv ⊢
      rcases hs with ⟨a, b, _, d, _⟩ | ⟨_, _, _, d, _⟩
      · rw [a, b, d]; exact hinv
      · intro h0; rw [d] at h0; cases h0
    case MCA_OOB_TCP_CONNECT_ACK =>
      unfold prte_oob_tcp_recv_handler at h
      simp only [hst] at h
      have hq := hack _ hinv
      split at h
      · cases h
        unfold send_active_inv at hq ⊢
        unfold promote_next
        dsimp only
        intro h0
        refine ⟨rfl, ?_⟩
        revert h0
        split_ifs <;> simp_all
      · split at h
        · cases h; exact hq
        · cases h; exact hq
    all_goals
      unfold prte_oob_tcp_recv_handler at h
      simp only [hst] at h
      cases h
      exact hinv

/-- Claim C18, amended, on a callback that writes the whole on-deck request: the
queued request is promoted, the send event stays active and the predicate holds
afterwards. -/
theorem send_active_inv_preserved_witness :
    send_active_inv ex_peer_sending ∧
    ∃ out, prte_oob_tcp_send_handler ex_cc { peer := ex_peer_sending, log := [] } [.accept 3]
        = some out ∧
      out.1.peer.send_ev_active = true ∧
      (send_active_inv out.1.peer ∨
        ∃ (m : Nat) (r : prte_oob_tcp_send_t),
          out.1.log = [] ++ [.send_complete m .PRRTE_ERR_UNREACH, .release_snd r,
                             .comm_failed]) :=
  have h0 : send_active_inv ex_peer_sending := fun _ => ⟨rfl, by decide⟩
  ⟨h0, _, rfl, rfl,
    (send_active_inv_preserved ex_cc ex_ack (fun _ h => h)).2.1
      { peer := ex_peer_sending, log := [] } [.accept 3] _ h0 rfl⟩

end Prrte

namespace Prrte

/-! ## By-object span: the bookmark -/

/-- The object loop of the span mapping with no density knob set and a positive
average: when it does not return, it either leaves everything as it is (no
object, or nothing left to map) or places a proc on the node and leaves the
bookmark on it. -/
lemma span_for_bookmark (opts : rmaps_base_t) (app : prrte_app_context_t) (hk : knobs_unset opts)
    (t : hwloc_topology_t) (target : hwloc_obj_type_t) (cache_level nobjs b : Nat)
    (hb : 1 ≤ b) :
    ∀ (cnt i : Nat) (s : Locals) (node : prrte_node_t),
      (span_for opts app t target cache_level nobjs (b : Int) cnt i s node).1.isRet = false →
      (span_for opts app t target cache_level nobjs (b : Int) cnt i s node).2.name = node.name
      ∧ (if 0 < cnt ∧ s.nprocs_mapped < app.num_procs then
          node.procs.length
              < (span_for opts app t target cache_level nobjs (b : Int) cnt i s node).2.procs.length
            ∧ (span_for opts app t target cache_level nobjs (b : Int) cnt i s
                node).1.st.jdata.bookmark = some node.name
         else span_for opts app t target cache_level nobjs (b : Int) cnt i s node
                = (.next s, node)) := by
  intro cnt
  induction cnt with
  | zero =>
    intro i s node _
    simp [span_for]
  | succ cnt ih =>
    intro i s node hnr
    by_cases hlt : s.nprocs_mapped < app.num_procs
    · cases ho : t.get_obj_by_type target cache_level i with
      | none =>
        unfold span_for at hnr
        simp [hlt, ho, Ctl.isRet] at hnr
      | some o =>
        by_cases hcpu : opts.cpus_per_rank > (t.get_npus o : Int)
        · unfold span_for at hnr
          simp [hlt, ho, hcpu, Ctl.isRet] at hnr
        · rw [span_for_succ opts app t target cache_level nobjs (b : Int) cnt i s node o
            hlt ho hcpu] at hnr ⊢
          obtain ⟨n, hn, hn1⟩ : ∃ n : Nat, (if 0 < s.nxtra_nodes
              then byobj_nprocs opts t target nobjs (b : Int) + 1
              else byobj_nprocs opts t target nobjs (b : Int)).toNat = n ∧ 1 ≤ n := by
            refine ⟨_, rfl, ?_⟩
            rw [byobj_nprocs_unset opts hk]
            split_ifs <;> omega
          rw [hn] at hnr ⊢
          generalize hs2 : (if 0 < s.nxtra_nodes
              then ({ s with obj := some o, nxtra_nodes := s.nxtra_nodes - 1 } : Locals)
              else { s with obj := some o }) = s2 at hnr ⊢
          have hs2m : s2.nprocs_mapped = s.nprocs_mapped := by
            rw [← hs2]; split_ifs <;> rfl
          by_cases hmem : min n (app.num_procs - s2.nprocs_mapped) ≤ s2.mem
          · have e := (place_loop_spec app false n s2 node).1 hmem
            rw [e] at hnr ⊢
            simp only [Ctl.st] at hnr ⊢
            obtain ⟨i1, i2⟩ := ih (i + 1) _ _ hnr
            have hj : 1 ≤ min n (app.num_procs - s2.nprocs_mapped) := by omega
            have hname : (place_n app false (min n (app.num_procs - s2.nprocs_mapped)) s2
                node).2.name = node.name := by simp [place_n]
            have hprocs : (place_n app false (min n (app.num_procs - s2.nprocs_mapped)) s2
                node).2.procs.length
                = node.procs.length + min n (app.num_procs - s2.nprocs_mapped) := by
              simp [place_n]
            refine ⟨i1.trans hname, ?_⟩
            rw [if_pos ⟨Nat.succ_pos _, hlt⟩]
            split_ifs at i2 with hc
            · refine ⟨?_, i2.2.trans (by rw [hname])⟩
              omega
            · rw [i2]
              simp only [Ctl.st]
              refine ⟨by omega, by rw [hname]⟩
          · obtain ⟨s3, node3, e⟩ := (place_loop_spec app false n s2 node).2 (by omega)
            rw [e] at hnr
            simp [Ctl.isRet] at hnr
    · unfold span_for
      simp [hlt]

lemma add_to_map_bookmark (jdata : prrte_job_t) (node : prrte_node_t) :
    (add_to_map jdata node).1.bookmark = jdata.bookmark := by
  unfold add_to_map; split <;> rfl

lemma oversub_check_bookmark (perm : Bool) (s : Locals) (node : prrte_node_t) :
    (oversub_check perm s node).2.1.jdata.bookmark = s.jdata.bookmark
    ∧ (oversub_check perm s node).2.2.name = node.name := by
  unfold oversub_check
  dsimp only
  split_ifs <;> simp

/-- One node of the span mapping with no density knob set and a positive
average: when the body does not return, a node with a target object and procs
left to map receives a proc and the bookmark; any other node keeps its procs and
leaves the bookmark and the count of mapped procs as they are. -/
lemma span_body_bookmark (opts : rmaps_base_t) (app : prrte_app_context_t)
    (hk : knobs_unset opts) (target : hwloc_obj_type_t) (cache_level b : Nat) (hb : 1 ≤ b)
    (s : Locals) (node : prrte_node_t)
    (hnr : (span_body opts app target cache_level (b : Int) s node).1.isRet = false) :
    ∃ s1 node1,
      span_body opts app target cache_level (b : Int) s node
        = (if s1.nprocs_mapped = app.num_procs then .brk s1 else .next s1, node1)
      ∧ node1.name = node.name
      ∧ (if 0 < nobjs_of target cache_level node ∧ s.nprocs_mapped < app.num_procs then
          node.procs.length < node1.procs.length ∧ s1.jdata.bookmark = some node.name
         else node1.procs = node.procs ∧ s1.jdata.bookmark = s.jdata.bookmark
              ∧ s1.nprocs_mapped = s.nprocs_mapped) := by
  obtain ⟨-, -, -, -, -, a6, a7, a8⟩ := add_to_map_node_fields s.jdata node
  have a9 := add_to_map_bookmark s.jdata node
  unfold span_body at hnr ⊢
  simp only [a7] at hnr ⊢
  cases ht : node.topology with
  | none =>
    rw [ht] at hnr
    simp [Ctl.isRet] at hnr
  | some t =>
    rw [ht] at hnr
    simp only at hnr ⊢
    have hno : nobjs_of target cache_level node = t.get_nbobjs_by_type target cache_level := by
      simp [nobjs_of, ht]
    rw [hno]
    rcases hsf : span_for opts app t target cache_level (t.get_nbobjs_by_type target cache_level)
        (b : Int) (t.get_nbobjs_by_type target cache_level) 0
        { s with jdata := (add_to_map s.jdata node).1 } (add_to_map s.jdata node).2
      with ⟨c, node2⟩
    rw [hsf] at hnr
    have hsnr : (span_for opts app t target cache_level (t.get_nbobjs_by_type target cache_level)
        (b : Int) (t.get_nbobjs_by_type target cache_level) 0
        { s with jdata := (add_to_map s.jdata node).1 } (add_to_map s.jdata node).2).1.isRet
        = false := by
      rw [hsf]
      cases c <;> simp_all [Ctl.isRet]
    obtain ⟨f1, f2⟩ := span_for_bookmark opts app hk t target cache_level
      (t.get_nbobjs_by_type target cache_level) b hb (t.get_nbobjs_by_type target cache_level) 0
      { s with jdata := (add_to_map s.jdata node).1 } (add_to_map s.jdata node).2 hsnr
    rw [hsf] at f1 f2
    simp only [a6, a8] at f1 f2
    have hcr : c.isRet = false := by
      rw [hsf] at hsnr; exact hsnr
    have hcases :
        (match (c, node2) with
          | (.ret rc s2, node2) => (Ctl.ret rc s2, node2)
          | (c, node2) =>
            if (oversub_check false c.st node2).2.1.nprocs_mapped = app.num_procs
            then (Ctl.brk (oversub_check false c.st node2).2.1, (oversub_check false c.st node2).2.2)
            else (Ctl.next (oversub_check false c.st node2).2.1,
                  (oversub_check false c.st node2).2.2))
          = (if (oversub_check false c.st node2).2.1.nprocs_mapped = app.num_procs
             then .brk (oversub_check false c.st node2).2.1
             else .next (oversub_check false c.st node2).2.1,
             (oversub_check false c.st node2).2.2) := by
      cases c with
      | ret rc s3 => simp [Ctl.isRet] at hcr
      | next s3 => simp only [Ctl.st]; split_ifs <;> rfl
      | brk s3 => simp only [Ctl.st]; split_ifs <;> rfl
    obtain ⟨o1, -⟩ := oversub_check_fields false c.st node2
    have o10 := oversub_check_procs false c.st node2
    obtain ⟨o11, o12⟩ := oversub_check_bookmark false c.st node2
    refine ⟨(oversub_check false c.st node2).2.1, (oversub_check false c.st node2).2.2, hcases,
      o12.trans f1, ?_⟩
    rw [o10, o11, o1]
    split_ifs at f2 ⊢ with hc
    · exact f2
    · cases f2
      exact ⟨a6, a9, rfl⟩

/-- The node loop of the span mapping with no density knob set and a positive
average, when it does not return: either no proc is placed, and then the
bookmark is untouched and, if procs are left to map, no node has a target object;
or the bookmark is the last node, in list order, that received a proc. -/
lemma span_nodes_bookmark (opts : rmaps_base_t) (app : prrte_app_context_t)
    (hk : knobs_unset opts) (target : hwloc_obj_type_t) (cache_level b : Nat) (hb : 1 ≤ b) :
    ∀ (nodes : List prrte_node_t) (s : Locals),
      (foreachNode (span_body opts app target cache_level (b : Int)) s nodes).1.isRet = false →
      ((s.nprocs_mapped < app.num_procs → ∀ n ∈ nodes, nobjs_of target cache_level n = 0)
        ∧ (foreachNode (span_body opts app target cache_level (b : Int)) s nodes).2.map
              (fun n => n.procs) = nodes.map (fun n => n.procs)
        ∧ (foreachNode (span_body opts app target cache_level (b : Int)) s
              nodes).1.st.jdata.bookmark = s.jdata.bookmark)
      ∨ ∃ (pre : List prrte_node_t) (node : prrte_node_t) (post pre1 : List prrte_node_t)
          (node1 : prrte_node_t) (post1 : List prrte_node_t),
          nodes = pre ++ node :: post
          ∧ (foreachNode (span_body opts app target cache_level (b : Int)) s nodes).2
              = pre1 ++ node1 :: post1
          ∧ pre1.length = pre.length
          ∧ post1.map (fun n => n.procs) = post.map (fun n => n.procs)
          ∧ node1.name = node.name
          ∧ node.procs.length < node1.procs.length
          ∧ (foreachNode (span_body opts app target cache_level (b : Int)) s
                nodes).1.st.jdata.bookmark = some node.name := by
  intro nodes
  induction nodes with
  | nil =>
    intro s _
    left
    simp [foreachNode, Ctl.st]
  | cons node rest ih =>
    intro s hnr
    have hb1 := foreachNode_cons_isRet _ s node rest hnr
    obtain ⟨s1, node1, e, hname, hcase⟩ :=
      span_body_bookmark opts app hk target cache_level b hb s node hb1
    by_cases hdone : s1.nprocs_mapped = app.num_procs
    · rw [if_pos hdone] at e
      have hf : foreachNode (span_body opts app target cache_level (b : Int)) s (node :: rest)
          = (.brk s1, node1 :: rest) := by
        unfold foreachNode
        rw [e]
      rw [hf]
      simp only [Ctl.st]
      split_ifs at hcase with hc
      · right
        exact ⟨[], node, rest, [], node1, rest, rfl, rfl, rfl, rfl, hname, hcase.1, hcase.2⟩
      · left
        refine ⟨fun h => ?_, by simp [hcase.1], hcase.2.1⟩
        have := hcase.2.2
        omega
    · rw [if_neg hdone] at e
      have hf : foreachNode (span_body opts app target cache_level (b : Int)) s (node :: rest)
          = ((foreachNode (span_body opts app target cache_level (b : Int)) s1 rest).1,
             node1 :: (foreachNode (span_body opts app target cache_level (b : Int)) s1 rest).2) := by
        conv_lhs => unfold foreachNode
        rw [e]
      have hnr2 : (foreachNode (span_body opts app target cache_level (b : Int)) s1 rest).1.isRet
          = false := by
        rw [hf] at hnr
        exact hnr
      rw [hf]
      rcases ih s1 hnr2 with ⟨i1, i2, i3⟩ | ⟨pre, nd, post, pre1, nd1, post1, j1, j2, j3, j4, j5, j6, j7⟩
      · split_ifs at hcase with hc
        · right
          exact ⟨[], node, rest, [], node1, _, rfl, rfl, rfl, i2, hname, hcase.1,
            i3.trans hcase.2⟩
        · left
          refine ⟨fun h n hn => ?_, by simp [hcase.1, i2], i3.trans hcase.2.1⟩
          rcases List.mem_cons.mp hn with h1 | h1
          · subst h1
            by_contra h0
            exact hc ⟨by omega, h⟩
          · exact i1 (by rw [hcase.2.2]; exact h) n h1
      · right
        refine ⟨node :: pre, nd, post, node1 :: pre1, nd1, post1, by simp [j1], by simp [j2],
          by simp [j3], j4, j5, j6, j7⟩

end Prrte

namespace Prrte

/-- Claim C13.  By-object span mapping with no density knob set and at least one
proc to map that returns `PRRTE_SUCCESS`: the node list splits around a node
that received a proc, no node after it received one, and the bookmark of the job
is that node. -/
theorem byobj_span_bookmark_last (opts : rmaps_base_t) (jdata : prrte_job_t)
    (app : prrte_app_context_t) (node_list : List prrte_node_t) (num_slots : Int)
    (target : hwloc_obj_type_t) (cache_level mem : Nat)
    (hk : knobs_unset opts) (hP : 1 ≤ app.num_procs)
    (hok : (byobj_span opts jdata app node_list num_slots target cache_level mem).rc
            = .PRRTE_SUCCESS) :
    ∃ (pre : List prrte_node_t) (node : prrte_node_t) (post pre1 : List prrte_node_t)
      (node1 : prrte_node_t) (post1 : List prrte_node_t),
      node_list = pre ++ node :: post
      ∧ (byobj_span opts jdata app node_list num_slots target cache_level mem).nodes
          = pre1 ++ node1 :: post1
      ∧ pre1.length = pre.length
      ∧ post1.map (fun n => n.procs) = post.map (fun n => n.procs)
      ∧ node1.name = node.name
      ∧ node.procs.length < node1.procs.length
      ∧ (byobj_span opts jdata app node_list num_slots target cache_level mem).st.jdata.bookmark
          = some node.name := by
  unfold byobj_span at hok ⊢
  by_cases hg : gate jdata app num_slots = true
  · simp [hg] at hok
  simp only [hg, Bool.false_eq_true, if_false] at hok ⊢
  cases hc : span_count_objs target cache_level node_list with
  | none => rw [hc] at hok; simp at hok
  | some T =>
    rw [hc] at hok
    simp only at hok ⊢
    have hT := span_count_objs_eq target cache_level node_list T hc
    by_cases hT0 : T = 0
    · simp [hT0] at hok
    simp only [hT0, if_false] at hok ⊢
    obtain ⟨b, hbe, hb⟩ : ∃ b : Nat,
        (if app.num_procs / T = 0 then 1 else app.num_procs / T) = b ∧ 1 ≤ b := by
      refine ⟨_, rfl, ?_⟩
      split_ifs with h0
      · exact le_refl 1
      · exact Nat.pos_of_ne_zero h0
    rw [hbe] at hok ⊢
    generalize (if (app.num_procs : Int) - (b : Int) * (T : Int) < 0 then (0 : Int)
        else (app.num_procs : Int) - (b : Int) * (T : Int)) = x at hok ⊢
    rcases hr : foreachNode (span_body opts app target cache_level (b : Int))
        { init_locals jdata mem with nxtra_nodes := x } node_list with ⟨c, nodes1⟩
    rw [hr] at hok
    have hnr : (foreachNode (span_body opts app target cache_level (b : Int))
        { init_locals jdata mem with nxtra_nodes := x } node_list).1.isRet = false := by
      rw [hr]
      cases c with
      | ret rc s1 =>
        have := foreachNode_ret_ne_success _
          (span_body_ret opts app target cache_level _) node_list _ rc s1 nodes1 hr
        simp only at hok
        exact absurd hok this
      | next s1 => rfl
      | brk s1 => rfl
    have key := span_nodes_bookmark opts app hk target cache_level b hb node_list
      { init_locals jdata mem with nxtra_nodes := x } hnr
    rw [hr] at key
    rcases key with ⟨k1, -, -⟩ | key
    · exfalso
      have hz : ∀ n ∈ node_list, nobjs_of target cache_level n = 0 :=
        k1 (by simp only [init_locals]; omega)
      have : (node_list.map (nobjs_of target cache_level)).sum = 0 := by
        apply List.sum_eq_zero
        intro v hv
        obtain ⟨n, hn, rfl⟩ := List.mem_map.mp hv
        exact hz n hn
      omega
    · cases c with
      | ret rc s1 => rw [hr] at hnr; simp [Ctl.isRet] at hnr
      | next s1 => exact key
      | brk s1 => exact key

/-- Claim C13 at the scenario of the spec: two nodes of two packages each and
five procs; the bookmark is the second node. -/
theorem byobj_span_bookmark_last_witness :
    (byobj_span no_knobs (ex_job false false true) { idx := 0, num_procs := 5 }
        [ex_node 0 8 true, ex_node 1 8 true] 16 .HWLOC_OBJ_PACKAGE 0 100).st.jdata.bookmark
      = some 1
    ∧ ∃ (pre : List prrte_node_t) (node : prrte_node_t) (post pre1 : List prrte_node_t)
      (node1 : prrte_node_t) (post1 : List prrte_node_t),
      [ex_node 0 8 true, ex_node 1 8 true] = pre ++ node :: post
      ∧ (byobj_span no_knobs (ex_job false false true) { idx := 0, num_procs := 5 }
          [ex_node 0 8 true, ex_node 1 8 true] 16 .HWLOC_OBJ_PACKAGE 0 100).nodes
          = pre1 ++ node1 :: post1
      ∧ pre1.length = pre.length
      ∧ post1.map (fun n => n.procs) = post.map (fun n => n.procs)
      ∧ node1.name = node.name
      ∧ node.procs.length < node1.procs.length
      ∧ (byobj_span no_knobs (ex_job false false true) { idx := 0, num_procs := 5 }
          [ex_node 0 8 true, ex_node 1 8 true] 16 .HWLOC_OBJ_PACKAGE 0
          100).st.jdata.bookmark = some node.name :=
  ⟨by decide,
   byobj_span_bookmark_last no_knobs (ex_job false false true) { idx := 0, num_procs := 5 }
     [ex_node 0 8 true, ex_node 1 8 true] 16 .HWLOC_OBJ_PACKAGE 0 100
     (by simp [knobs_unset, no_knobs]) (by decide) (by decide)⟩

end Prrte

namespace Prrte

/-! ## The shared tail of the balanced passes, when it does not return -/

/-- The shared tail with enough memory for its placements, on a node that can
take them without exceeding its slots or on which oversubscription is allowed:
it places `min n (P - nprocs_mapped)` procs, breaks exactly when every proc is
mapped, and flags the node and the job only if the node exceeds its slots. -/
lemma place_and_check_run (app : prrte_app_context_t) (n : Int) (s : Locals)
    (node : prrte_node_t)
    (hmem : min n.toNat (app.num_procs - s.nprocs_mapped) ≤ s.mem)
    (hperm : node.num_procs + min n.toNat (app.num_procs - s.nprocs_mapped) ≤ node.slots
      ∨ node.slots_given = false
      ∨ (s.jdata.mapping.subscribe_given = true ∧ s.jdata.mapping.no_oversubscribe = false)) :
    ∃ s1 node1,
      place_and_check app n s node
        = (if s.nprocs_mapped + min n.toNat (app.num_procs - s.nprocs_mapped) = app.num_procs
           then .brk s1 else .next s1, node1)
      ∧ s1.nprocs_mapped = s.nprocs_mapped + min n.toNat (app.num_procs - s.nprocs_mapped)
      ∧ s1.mem = s.mem - min n.toNat (app.num_procs - s.nprocs_mapped)
      ∧ s1.add_one = s.add_one
      ∧ s1.extra_procs_to_assign = s.extra_procs_to_assign
      ∧ s1.nxtra_nodes = s.nxtra_nodes
      ∧ s1.nnodes = s.nnodes
      ∧ s1.jdata.mapping = s.jdata.mapping
      ∧ node1.num_procs = node.num_procs + min n.toNat (app.num_procs - s.nprocs_mapped)
      ∧ node1.slots = node.slots
      ∧ node1.slots_inuse = node.slots_inuse + min n.toNat (app.num_procs - s.nprocs_mapped)
      ∧ node1.slots_given = node.slots_given
      ∧ (node.num_procs + min n.toNat (app.num_procs - s.nprocs_mapped) ≤ node.slots →
          node1.oversubscribed = node.oversubscribed
          ∧ s1.jdata.oversubscribed = s.jdata.oversubscribed) := by
  have e := (place_loop_spec app false n.toNat s node).1 hmem
  obtain ⟨j, hj⟩ : ∃ j, min n.toNat (app.num_procs - s.nprocs_mapped) = j := ⟨_, rfl⟩
  rw [hj] at e hperm ⊢
  have hnone : (oversub_check true (place_n app false j s node).1
      (place_n app false j s node).2).1 = none := by
    unfold oversub_check place_n
    simp only [Bool.false_eq_true, false_and, if_false, Bool.true_and]
    by_cases hfit : node.slots < node.num_procs + j
    · simp only [hfit, if_true]
      rcases hperm with h | h | h
      · omega
      · simp [h]
      · simp [h.1, h.2]
    · simp only [hfit, if_false]
  refine ⟨(oversub_check true (place_n app false j s node).1 (place_n app false j s node).2).2.1,
    (oversub_check true (place_n app false j s node).1 (place_n app false j s node).2).2.2,
    ?_, ?_⟩
  · unfold place_and_check
    rw [e]
    simp only [Ctl.st]
    rcases hoc : oversub_check true (place_n app false j s node).1
      (place_n app false j s node).2 with ⟨orc, s2, node2⟩
    rw [hoc] at hnone
    simp only at hnone
    subst hnone
    have hm : s2.nprocs_mapped = s.nprocs_mapped + j := by
      have := (oversub_check_fields true (place_n app false j s node).1
        (place_n app false j s node).2).1
      rw [hoc] at this
      simpa [place_n] using this
    simp only [hm]
    split_ifs <;> rfl
  · unfold oversub_check place_n
    simp only [Bool.false_eq_true, false_and, if_false, Bool.true_and]
    by_cases hfit : node.slots < node.num_procs + j
    · simp only [hfit, if_true]
      have hno : ¬ (node.num_procs + j ≤ node.slots) := by omega
      split_ifs <;> simp [hno]
    · simp only [hfit, if_false]
      simp

/-- The quotient law as an entrywise sum. -/
lemma share_law_zipWith (q r : Nat) : ∀ (l : List Nat) (g : Nat),
    List.zipWith (· + ·) l ((List.range l.length).map (fun i => q + (if g + i < r then 1 else 0)))
      = share_law q r g l := by
  intro l
  induction l with
  | nil => intro g; simp [share_law]
  | cons c cs ih =>
    intro g
    rw [List.length_cons, List.range_succ_eq_map, List.map_cons, List.map_map,
      List.zipWith_cons_cons]
    simp only [share_law, Nat.add_zero]
    congr 1
    · omega
    · rw [← ih (g + 1)]
      congr 1
      apply List.map_congr_left
      intro i _
      simp only [Function.comp]
      have : (g + (i + 1) < r) ↔ (g + 1 + i < r) := by omega
      simp only [this]

end Prrte

namespace Prrte

/-! ## By-node: a single round that maps every proc -/

/-- One node of a balanced round on a node with room for its share, whose procs
all occupy slots, with enough memory: the body places the share of the node,
capped by the procs still to map, and flags nothing. -/
lemma bynode_round_body_run (opts : rmaps_base_t) (app : prrte_app_context_t)
    (hk : knobs_unset opts) (navg : Int) (b k : Nat) (s : Locals) (node : prrte_node_t)
    (hroom : node.slots_inuse < node.slots)
    (hg : round_state navg b k s)
    (hshare : b + (if 0 < k then 1 else 0) ≤ room node)
    (hnp : node.num_procs ≤ node.slots_inuse)
    (hmem : app.num_procs - s.nprocs_mapped ≤ s.mem) :
    ∃ s1 node1,
      bynode_round_body opts app false navg s node
        = (if s.nprocs_mapped
                + min (b + (if 0 < k then 1 else 0)) (app.num_procs - s.nprocs_mapped)
              = app.num_procs
           then .brk s1 else .next s1, node1)
      ∧ s1.nprocs_mapped
          = s.nprocs_mapped + min (b + (if 0 < k then 1 else 0)) (app.num_procs - s.nprocs_mapped)
      ∧ round_state navg b (k - 1) s1
      ∧ node1.num_procs
          = node.num_procs + min (b + (if 0 < k then 1 else 0)) (app.num_procs - s.nprocs_mapped)
      ∧ node1.oversubscribed = node.oversubscribed
      ∧ s1.jdata.oversubscribed = s.jdata.oversubscribed
      ∧ app.num_procs - s1.nprocs_mapped ≤ s1.mem := by
  rw [bynode_round_body_unset opts app hk navg s node hroom]
  have hg2 : round_state navg b k
      { root_obj_of s node with jdata := (add_to_map s.jdata node).1 } := by
    unfold round_state at hg ⊢
    simpa using hg
  obtain ⟨t1, t2⟩ := take_extra_round_state navg b k _ hg2
  obtain ⟨f1, f2, f3, f4, f5⟩ := take_extra_fields
    { root_obj_of s node with jdata := (add_to_map s.jdata node).1 }
  have f1 : (take_extra { root_obj_of s node with
      jdata := (add_to_map s.jdata node).1 }).nprocs_mapped = s.nprocs_mapped := by
    rw [f1]; simp
  have f2 : (take_extra { root_obj_of s node with
      jdata := (add_to_map s.jdata node).1 }).mem = s.mem := by
    rw [f2]; simp
  have f4 : (take_extra { root_obj_of s node with
      jdata := (add_to_map s.jdata node).1 }).jdata.oversubscribed = s.jdata.oversubscribed := by
    rw [f4]; simp
  have hn : (if (room node : Int)
                < navg + (take_extra { root_obj_of s node with
                            jdata := (add_to_map s.jdata node).1 }).extra_procs_to_assign
           then (room node : Int)
           else navg + (take_extra { root_obj_of s node with
                            jdata := (add_to_map s.jdata node).1 }).extra_procs_to_assign)
      = ((b + (if 0 < k then 1 else 0) : Nat) : Int) := by
    rw [t1]
    have : ¬ ((room node : Int) < ((b + (if 0 < k then 1 else 0) : Nat) : Int)) := by
      have := hshare
      omega
    simp only [this, if_false]
  rw [hn]
  generalize take_extra { root_obj_of s node with jdata := (add_to_map s.jdata node).1 } = T
    at t1 t2 f1 f2 f4 ⊢
  obtain ⟨a1, a2, a3, a4, -⟩ := add_to_map_node_fields s.jdata node
  have hfit : (add_to_map s.jdata node).2.num_procs
      + min ((b + (if 0 < k then 1 else 0) : Nat) : Int).toNat
          (app.num_procs - ({ T with nnodes := T.nnodes + 1 } : Locals).nprocs_mapped)
      ≤ (add_to_map s.jdata node).2.slots := by
    rw [a1, a2]
    simp only [Int.toNat_ofNat]
    unfold room at hshare
    omega
  obtain ⟨s1, node1, e, p1, p2, p3, p4, p5, p6, p7, p8, p9, p10, p11, p12⟩ :=
    place_and_check_run app ((b + (if 0 < k then 1 else 0) : Nat) : Int)
      { T with nnodes := T.nnodes + 1 } (add_to_map s.jdata node).2
      (by simp only [Int.toNat_ofNat, f1, f2]; omega) (Or.inl hfit)
  obtain ⟨q1, q2⟩ := p12 hfit
  simp only [Int.toNat_ofNat, f1, f2] at p1 p2 p8
  refine ⟨s1, node1, ?_, p1, ?_, ?_, ?_, ?_, ?_⟩
  · rw [e]
    simp only [Int.toNat_ofNat, f1]
  · unfold round_state at t2 ⊢
    rw [p3, p4, p5]
    simpa using t2
  · rw [p8, a1]
  · rw [q1, a4]
  · rw [q2]; exact f4
  · rw [p1, p2]; omega

/-- A balanced round over nodes that all have room for their share and whose
procs all occupy slots, with enough memory: the loop does not return, node `i`
gets the `i`-th round-robin share, and nothing is flagged. -/
lemma bynode_round_run (opts : rmaps_base_t) (app : prrte_app_context_t)
    (hk : knobs_unset opts) (navg : Int) (b : Nat) :
    ∀ (nodes : List prrte_node_t) (s : Locals) (k : Nat),
      round_state navg b k s →
      (∀ n ∈ nodes, n.slots_inuse < n.slots ∧ b + (if 0 < k then 1 else 0) ≤ room n
        ∧ n.num_procs ≤ n.slots_inuse) →
      app.num_procs - s.nprocs_mapped ≤ s.mem →
      (foreachNode (bynode_round_body opts app false navg) s nodes).1.isRet = false
      ∧ (foreachNode (bynode_round_body opts app false navg) s nodes).2.map (fun n => n.num_procs)
          = List.zipWith (· + ·) (nodes.map (fun n => n.num_procs))
              (rr_counts app.num_procs b k s.nprocs_mapped nodes.length)
      ∧ (foreachNode (bynode_round_body opts app false navg) s nodes).1.st.nprocs_mapped
          = s.nprocs_mapped + (rr_counts app.num_procs b k s.nprocs_mapped nodes.length).sum
      ∧ (foreachNode (bynode_round_body opts app false navg) s nodes).2.map
            (fun n => n.oversubscribed) = nodes.map (fun n => n.oversubscribed)
      ∧ (foreachNode (bynode_round_body opts app false navg) s nodes).1.st.jdata.oversubscribed
          = s.jdata.oversubscribed := by
  intro nodes
  induction nodes with
  | nil =>
    intro s k _ _ _
    simp [foreachNode, rr_counts, Ctl.st, Ctl.isRet]
  | cons node rest ih =>
    intro s k hg hrooms hmem
    obtain ⟨hroom, hshare, hnp⟩ := hrooms node (by simp)
    obtain ⟨s1, node1, e, p1, p2, p3, p4, p5, p6⟩ :=
      bynode_round_body_run opts app hk navg b k s node hroom hg hshare hnp hmem
    by_cases hdone : s.nprocs_mapped
        + min (b + (if 0 < k then 1 else 0)) (app.num_procs - s.nprocs_mapped) = app.num_procs
    · rw [if_pos hdone] at e
      have hz := rr_counts_done app.num_procs b rest.length (k - 1)
        (s.nprocs_mapped + min (b + (if 0 < k then 1 else 0)) (app.num_procs - s.nprocs_mapped))
        (by omega)
      unfold foreachNode
      rw [e]
      simp only [List.map_cons, List.length_cons, rr_counts, List.zipWith_cons_cons, hz,
        List.sum_cons, List.sum_replicate, smul_zero, Nat.add_zero, Ctl.st, p1, p3, p4, p5,
        Ctl.isRet]
      refine ⟨trivial, ?_, trivial, trivial, trivial⟩
      have := zipWith_add_replicate_zero (rest.map (fun n => n.num_procs))
      simp only [List.length_map] at this
      rw [this]
    · rw [if_neg hdone] at e
      have hrest : ∀ n ∈ rest, n.slots_inuse < n.slots
          ∧ b + (if 0 < k - 1 then 1 else 0) ≤ room n ∧ n.num_procs ≤ n.slots_inuse := by
        intro n hn
        obtain ⟨q1, q2, q3⟩ := hrooms n (by simp [hn])
        refine ⟨q1, ?_, q3⟩
        split_ifs at q2 ⊢ <;> omega
      obtain ⟨i0, i1, i2, i3, i4⟩ := ih s1 (k - 1) p2 hrest p6
      unfold foreachNode
      rw [e]
      simp only [List.map_cons, List.length_cons, rr_counts, List.zipWith_cons_cons,
        List.sum_cons, i0, i1, i2, i3, i4, p1, p3, p4, p5]
      refine ⟨trivial, trivial, ?_, trivial, trivial⟩
      omega

end Prrte

namespace Prrte

/-- A round entered with every proc already mapped, over nodes none of which
holds more procs than slots: the loop skips the full nodes, breaks at the first
node with free room, places nothing and flags nothing. -/
lemma bynode_round_idle (opts : rmaps_base_t) (app : prrte_app_context_t)
    (hk : knobs_unset opts) (navg : Int) :
    ∀ (nodes : List prrte_node_t) (s : Locals),
      s.nprocs_mapped = app.num_procs →
      (∀ n ∈ nodes, n.slots_inuse < n.slots → n.num_procs ≤ n.slots) →
      (foreachNode (bynode_round_body opts app false navg) s nodes).1.isRet = false
      ∧ (foreachNode (bynode_round_body opts app false navg) s nodes).2.map (fun n => n.num_procs)
          = nodes.map (fun n => n.num_procs)
      ∧ (foreachNode (bynode_round_body opts app false navg) s nodes).1.st.nprocs_mapped
          = s.nprocs_mapped
      ∧ (foreachNode (bynode_round_body opts app false navg) s nodes).2.map
            (fun n => n.oversubscribed) = nodes.map (fun n => n.oversubscribed)
      ∧ (foreachNode (bynode_round_body opts app false navg) s nodes).1.st.jdata.oversubscribed
          = s.jdata.oversubscribed := by
  intro nodes
  induction nodes with
  | nil =>
    intro s _ _
    simp [foreachNode, Ctl.st, Ctl.isRet]
  | cons node rest ih =>
    intro s hm hfit
    obtain ⟨a1, a2, a3, a4, -⟩ := add_to_map_node_fields s.jdata node
    by_cases hfull : node.slots ≤ node.slots_inuse
    · obtain ⟨h1, h2, h3⟩ := hk
      have hf : (add_to_map s.jdata node).2.slots ≤ (add_to_map s.jdata node).2.slots_inuse := by
        rw [a2, a3]; exact hfull
      have e : bynode_round_body opts app false navg s node
          = (.next { root_obj_of s node with jdata := (add_to_map s.jdata node).1 },
             (add_to_map s.jdata node).2) := by
        unfold bynode_round_body
        simp only [h1, not_lt.mpr h2, not_lt.mpr h3, root_obj_of_jdata, hf,
          Bool.false_eq_true, if_false, if_true]
      obtain ⟨i0, i1, i2, i3, i4⟩ :=
        ih { root_obj_of s node with jdata := (add_to_map s.jdata node).1 }
          (by simpa using hm) (fun n hn => hfit n (by simp [hn]))
      unfold foreachNode
      rw [e]
      simp only [List.map_cons, i0, i1, i2, i3, i4, a1, a4]
      simp
    · rw [foreachNode, bynode_round_body_unset opts app hk navg s node (by omega)]
      obtain ⟨f1, f2, f3, f4, f5⟩ := take_extra_fields
        { root_obj_of s node with jdata := (add_to_map s.jdata node).1 }
      have f1 : (take_extra { root_obj_of s node with
          jdata := (add_to_map s.jdata node).1 }).nprocs_mapped = s.nprocs_mapped := by
        rw [f1]; simp
      have f4 : (take_extra { root_obj_of s node with
          jdata := (add_to_map s.jdata node).1 }).jdata.oversubscribed
            = s.jdata.oversubscribed := by
        rw [f4]; simp
      generalize take_extra { root_obj_of s node with jdata := (add_to_map s.jdata node).1 } = T
        at f1 f4 ⊢
      generalize (if (room node : Int) < navg + T.extra_procs_to_assign then (room node : Int)
        else navg + T.extra_procs_to_assign) = n
      have hj : min n.toNat
          (app.num_procs - ({ T with nnodes := T.nnodes + 1 } : Locals).nprocs_mapped) = 0 := by
        have : ({ T with nnodes := T.nnodes + 1 } : Locals).nprocs_mapped = s.nprocs_mapped := f1
        rw [this]; omega
      have hfit1 : (add_to_map s.jdata node).2.num_procs
          + min n.toNat
              (app.num_procs - ({ T with nnodes := T.nnodes + 1 } : Locals).nprocs_mapped)
          ≤ (add_to_map s.jdata node).2.slots := by
        rw [hj, a1, a2]
        exact hfit node (by simp) (by omega)
      obtain ⟨s1, node1, e, p1, p2, p3, p4, p5, p6, p7, p8, p9, p10, p11, p12⟩ :=
        place_and_check_run app n { T with nnodes := T.nnodes + 1 } (add_to_map s.jdata node).2
          (by rw [hj]; exact Nat.zero_le _) (Or.inl hfit1)
      obtain ⟨q1, q2⟩ := p12 hfit1
      rw [hj] at e p1 p8
      have hc : ({ T with nnodes := T.nnodes + 1 } : Locals).nprocs_mapped + 0
          = app.num_procs := by
        show T.nprocs_mapped + 0 = app.num_procs
        rw [f1]; omega
      rw [if_pos hc] at e
      rw [e]
      simp only [List.map_cons, Ctl.st, Ctl.isRet, p1, p8, q1, q2, a1, a4, Nat.add_zero]
      exact ⟨trivial, trivial, f1, trivial, f4⟩

/-- The head of a by-node round when the number of nodes fits the 24-bit
mantissa of a binary32: `navg` is the quotient (at least one) and the remainder
is handed out one proc at a time. -/
lemma bynode_balance_nodes (app : prrte_app_context_t) (s : Locals)
    (hN : 0 < s.nnodes) (hN24 : s.nnodes < 16777216)
    (hm : s.nprocs_mapped ≤ app.num_procs) :
    ∃ (b k : Nat),
      round_state (bynode_balance app s).1 b k { (bynode_balance app s).2 with nnodes := 0 }
      ∧ (bynode_balance app s).2.nprocs_mapped = s.nprocs_mapped
      ∧ (bynode_balance app s).2.mem = s.mem
      ∧ (bynode_balance app s).2.jdata = s.jdata
      ∧ ((s.nnodes ≤ app.num_procs - s.nprocs_mapped
            ∧ b = (app.num_procs - s.nprocs_mapped) / s.nnodes
            ∧ k = (app.num_procs - s.nprocs_mapped) % s.nnodes)
          ∨ (0 < app.num_procs - s.nprocs_mapped ∧ app.num_procs - s.nprocs_mapped < s.nnodes
              ∧ b = 1 ∧ k = 0)
          ∨ (app.num_procs - s.nprocs_mapped = 0 ∧ b = 0 ∧ k = 0)) := by
  obtain ⟨R, hR⟩ : ∃ R : Nat, R = app.num_procs - s.nprocs_mapped := ⟨_, rfl⟩
  have hRi : (app.num_procs : Int) - (s.nprocs_mapped : Int) = (R : Int) := by omega
  have htd : Int.tdiv (R : Int) (s.nnodes : Int) = ((R / s.nnodes : Nat) : Int) := by
    rw [Int.tdiv_eq_ediv (by omega) (by omega)]
    norm_cast
  rw [← hR]
  have hNf := f32_ofInt_nat s.nnodes hN24
  unfold bynode_balance
  simp only [hRi, htd]
  rcases Nat.lt_or_ge R s.nnodes with hlt | hge
  · have hq : R / s.nnodes = 0 := Nat.div_eq_of_lt hlt
    simp only [hq, Nat.cast_zero, if_true, one_mul]
    by_cases hR0 : R = 0
    · subst hR0
      have hnum : ((0 : Nat) : Int) - (s.nnodes : Int) = -(s.nnodes : Int) := by omega
      obtain ⟨d1, d2⟩ := f32_div_neg_self s.nnodes hN hN24
      rw [hnum, f32_ofInt_neg s.nnodes hN hN24, hNf, d1, d2]
      refine ⟨0, 0, ?_, ?_, ?_, ?_, Or.inr (Or.inr ⟨rfl, rfl, rfl⟩)⟩
      · exact Or.inr ⟨rfl, rfl, by simp⟩
      · simp
      · simp
      · simp
    · have hx : 0 < s.nnodes - R := by omega
      have hnum : (R : Int) - (s.nnodes : Int) = -((s.nnodes - R : Nat) : Int) := by omega
      obtain ⟨d1, d2⟩ := f32_div_lt_one (s.nnodes - R) s.nnodes true (by omega) hN24
      rw [hnum, f32_ofInt_neg (s.nnodes - R) hx (by omega), hNf, d1, d2]
      refine ⟨1, 0, ?_, ?_, ?_, ?_, Or.inr (Or.inl ⟨by omega, hlt, rfl, rfl⟩)⟩
      · exact Or.inr ⟨by simp, rfl, by simp⟩
      · simp
      · simp
      · simp
  · have hq : 0 < R / s.nnodes := Nat.div_pos hge hN
    have hq0 : ¬ (((R / s.nnodes : Nat) : Int) = 0) := by omega
    have hmod := Nat.div_add_mod R s.nnodes
    have hnum : (R : Int) - ((R / s.nnodes : Nat) : Int) * (s.nnodes : Int)
        = ((R % s.nnodes : Nat) : Int) := by
      have : ((s.nnodes * (R / s.nnodes) + R % s.nnodes : Nat) : Int) = (R : Int) := by
        rw [hmod]
      simp only [Nat.cast_add, Nat.cast_mul] at this
      linear_combination (-1 : Int) * this
    have hml : R % s.nnodes < s.nnodes := Nat.mod_lt _ hN
    obtain ⟨d1, d2⟩ := f32_div_lt_one (R % s.nnodes) s.nnodes false hml hN24
    simp only [hq0, if_false]
    rw [hnum, f32_ofInt_nat (R % s.nnodes) (by omega), hNf, d1, d2]
    refine ⟨R / s.nnodes, R % s.nnodes, ?_, ?_, ?_, ?_, Or.inl ⟨hge, rfl, rfl⟩⟩
    · by_cases hr0 : 0 < R % s.nnodes
      · simp only [Bool.not_false, Bool.true_and, decide_eq_true_eq, hr0, if_true]
        refine Or.inl ⟨rfl, ?_, ?_⟩
        · simp only [add_zero]; linarith
        · simp
      · have hr : R % s.nnodes = 0 := by omega
        simp only [Bool.not_false, Bool.true_and, decide_eq_true_eq, hr0, if_false]
        exact Or.inr ⟨rfl, hr, by simp⟩
    · split_ifs <;> simp
    · split_ifs <;> simp
    · split_ifs <;> simp

end Prrte

namespace Prrte

lemma share_law_zero : ∀ (l : List Nat) (g : Nat), share_law 0 0 g l = l := by
  intro l
  induction l with
  | nil => intro g; simp [share_law]
  | cons c cs ih => intro g; simp [share_law, ih]

/-- The first round of by-node with no density knob set, fewer than `2 ^ 24`
nodes, room for the ceiling of the average on every node, procs that all occupy
slots and enough memory: it maps every proc by the quotient law without
returning and flags nothing. -/
lemma bynode_first_round_shares (opts : rmaps_base_t) (app : prrte_app_context_t)
    (hk : knobs_unset opts) (node_list : List prrte_node_t) (s0 : Locals)
    (hN : 0 < node_list.length) (hN24 : node_list.length < 16777216)
    (hroom : ∀ n ∈ node_list,
      (app.num_procs + node_list.length - 1) / node_list.length ≤ room n)
    (hnp : ∀ n ∈ node_list, n.num_procs ≤ n.slots_inuse)
    (hs0 : s0.nnodes = node_list.length) (hm0 : s0.nprocs_mapped = 0)
    (hmem : app.num_procs ≤ s0.mem) :
    (foreachNode (bynode_round_body opts app false (bynode_balance app s0).1)
        { (bynode_balance app s0).2 with nnodes := 0 } node_list).1.isRet = false
    ∧ (foreachNode (bynode_round_body opts app false (bynode_balance app s0).1)
        { (bynode_balance app s0).2 with nnodes := 0 } node_list).2.map (fun n => n.num_procs)
      = share_law (app.num_procs / node_list.length) (app.num_procs % node_list.length) 0
          (node_list.map (fun n => n.num_procs))
    ∧ (foreachNode (bynode_round_body opts app false (bynode_balance app s0).1)
        { (bynode_balance app s0).2 with nnodes := 0 } node_list).1.st.nprocs_mapped
      = app.num_procs
    ∧ (foreachNode (bynode_round_body opts app false (bynode_balance app s0).1)
        { (bynode_balance app s0).2 with nnodes := 0 } node_list).2.map
          (fun n => n.oversubscribed) = node_list.map (fun n => n.oversubscribed)
    ∧ (foreachNode (bynode_round_body opts app false (bynode_balance app s0).1)
        { (bynode_balance app s0).2 with nnodes := 0 } node_list).1.st.jdata.oversubscribed
      = s0.jdata.oversubscribed := by
  obtain ⟨b, k, hstate, hmapped, hmm, hjd, hcases⟩ := bynode_balance_nodes app s0
    (by omega) (by omega) (by omega)
  rw [hs0, hm0] at hcases
  simp only [Nat.sub_zero] at hcases
  have hm1 : ({ (bynode_balance app s0).2 with nnodes := 0 } : Locals).nprocs_mapped = 0 := by
    show (bynode_balance app s0).2.nprocs_mapped = 0
    rw [hmapped, hm0]
  have hmem1 : ({ (bynode_balance app s0).2 with nnodes := 0 } : Locals).mem = s0.mem := hmm
  have hjd1 : ({ (bynode_balance app s0).2 with nnodes := 0 } : Locals).jdata.oversubscribed
      = s0.jdata.oversubscribed := by
    show (bynode_balance app s0).2.jdata.oversubscribed = s0.jdata.oversubscribed
    rw [hjd]
  have hdm := Nat.div_add_mod app.num_procs node_list.length
  have hml : app.num_procs % node_list.length < node_list.length := Nat.mod_lt _ hN
  by_cases hP0 : app.num_procs = 0
  · obtain ⟨i0, i1, i2, i3, i4⟩ := bynode_round_idle opts app hk (bynode_balance app s0).1
      node_list { (bynode_balance app s0).2 with nnodes := 0 } (by rw [hm1, hP0])
      (fun n hn h => by have := hnp n hn; omega)
    refine ⟨i0, ?_, ?_, i3, i4.trans hjd1⟩
    · rw [i1, hP0, Nat.zero_div, Nat.zero_mod, share_law_zero]
    · rw [i2, hm1, hP0]
  · have hceil : 1 ≤ (app.num_procs + node_list.length - 1) / node_list.length := by
      rw [Nat.le_div_iff_mul_le hN]
      omega
    have hshare : b + (if 0 < k then 1 else 0)
        ≤ (app.num_procs + node_list.length - 1) / node_list.length := by
      rcases hcases with ⟨h1, h2, h3⟩ | ⟨h1, h2, h3, h4⟩ | ⟨h1, h2, h3⟩
      · rw [Nat.le_div_iff_mul_le hN, h2, h3]
        have e1 : (app.num_procs / node_list.length
            + (if 0 < app.num_procs % node_list.length then 1 else 0)) * node_list.length
            = node_list.length * (app.num_procs / node_list.length)
              + (if 0 < app.num_procs % node_list.length then 1 else 0) * node_list.length := by
          rw [Nat.add_mul, Nat.mul_comm]
        rw [e1]
        split_ifs <;> omega
      · subst h3; subst h4; simpa using hceil
      · omega
    have hrooms : ∀ n ∈ node_list, n.slots_inuse < n.slots
        ∧ b + (if 0 < k then 1 else 0) ≤ room n ∧ n.num_procs ≤ n.slots_inuse := by
      intro n hn
      have h1 := hroom n hn
      refine ⟨?_, by omega, hnp n hn⟩
      unfold room at h1
      omega
    obtain ⟨r0, r1, r2, r3, r4⟩ := bynode_round_run opts app hk (bynode_balance app s0).1 b
      node_list { (bynode_balance app s0).2 with nnodes := 0 } k hstate hrooms
      (by rw [hm1, hmem1]; omega)
    rw [hm1] at r1 r2
    refine ⟨r0, ?_, ?_, r3, r4.trans hjd1⟩
    · rw [r1]
      rcases hcases with ⟨h1, h2, h3⟩ | ⟨h1, h2, h3, h4⟩ | ⟨h1, h2, h3⟩
      · have hex : 0 + b * node_list.length + min k node_list.length ≤ app.num_procs := by
          rw [h2, h3, Nat.mul_comm]
          omega
        obtain ⟨x1, -⟩ := rr_counts_full app.num_procs b node_list.length k 0 hex
        rw [x1, ← h2, ← h3, ← share_law_zipWith, List.length_map]
        simp only [Nat.zero_add]
      · subst h3; subst h4
        obtain ⟨x1, -⟩ := rr_counts_ones app.num_procs node_list.length 0
        rw [x1, Nat.div_eq_of_lt h2, Nat.mod_eq_of_lt h2, ← share_law_zipWith, List.length_map]
        simp only [Nat.zero_add, Nat.sub_zero]
      · omega
    · rw [r2]
      rcases hcases with ⟨h1, h2, h3⟩ | ⟨h1, h2, h3, h4⟩ | ⟨h1, h2, h3⟩
      · have hex : 0 + b * node_list.length + min k node_list.length ≤ app.num_procs := by
          rw [h2, h3, Nat.mul_comm]
          omega
        obtain ⟨-, x2⟩ := rr_counts_full app.num_procs b node_list.length k 0 hex
        rw [x2, h2, h3, Nat.mul_comm]
        omega
      · subst h3; subst h4
        obtain ⟨-, x2⟩ := rr_counts_ones app.num_procs node_list.length 0
        rw [x2]
        omega
      · omega

end Prrte

namespace Prrte

/-- Claim C12, as stated: by-node mapping with no density knob set of four procs
on one node of four slots, none in use, that already counts one proc (free room
four, the ceiling of the average) returns `PRRTE_SUCCESS` and gives the node
four procs, and the node is flagged oversubscribed: the flag compares
`num_procs`, not `slots_inuse`, with the slots. -/
theorem bynode_room_but_node_flagged :
    room { ex_node 0 4 false with num_procs := 1 } = 4
    ∧ (prrte_rmaps_rr_bynode 1 no_knobs (ex_job false false false) { idx := 0, num_procs := 4 }
        [{ ex_node 0 4 false with num_procs := 1 }] 4 100).map
      (fun o => (o.rc, o.nodes.map (fun n => (n.num_procs, n.oversubscribed))))
      = some (.PRRTE_SUCCESS, [(5, true)]) := by
  decide

/-- Claim C12, amended.  By-node mapping with no density knob set, at least one
and fewer than `2 ^ 24` nodes, `app->num_procs` at most `num_slots`, free room of
at least the ceiling of `P / N` on every node, no node counting more procs than
slots in use, and memory for every proc: the call ends after a single round with
`PRRTE_SUCCESS`, node `i` has received `P / N` procs, plus one if `i < P % N`,
and the oversubscribed flags of the nodes and of the job are unchanged. -/
theorem bynode_single_round_shares (opts : rmaps_base_t) (jdata : prrte_job_t)
    (app : prrte_app_context_t) (node_list : List prrte_node_t) (num_slots : Int) (mem : Nat)
    (hk : knobs_unset opts)
    (hN : 0 < node_list.length) (hN24 : node_list.length < 16777216)
    (hP : (app.num_procs : Int) ≤ num_slots)
    (hroom : ∀ n ∈ node_list,
      (app.num_procs + node_list.length - 1) / node_list.length ≤ room n)
    (hnp : ∀ n ∈ node_list, n.num_procs ≤ n.slots_inuse)
    (hmem : app.num_procs ≤ mem) :
    ∃ out, prrte_rmaps_rr_bynode 1 opts jdata app node_list num_slots mem = some out
      ∧ out.rc = .PRRTE_SUCCESS
      ∧ out.nodes.map (fun n => n.num_procs)
          = share_law (app.num_procs / node_list.length) (app.num_procs % node_list.length) 0
              (node_list.map (fun n => n.num_procs))
      ∧ out.nodes.map (fun n => n.oversubscribed) = node_list.map (fun n => n.oversubscribed)
      ∧ out.st.jdata.oversubscribed = jdata.oversubscribed := by
  have hlt : ¬ (num_slots < (app.num_procs : Int)) := by omega
  have hg : gate jdata app num_slots = false := by simp [gate, hlt]
  obtain ⟨k0, k1, k2, k3, k4⟩ := bynode_first_round_shares opts app hk node_list
    { init_locals jdata mem with nnodes := node_list.length } hN hN24 hroom hnp rfl rfl hmem
  have hnil : ¬ node_list.length = 0 := by omega
  unfold prrte_rmaps_rr_bynode
  simp only [hg, Bool.false_eq_true, if_false, hlt, decide_False]
  unfold bynode_rounds
  simp only [hnil, if_false]
  rcases hr : foreachNode
    (bynode_round_body opts app false
      (bynode_balance app { init_locals jdata mem with nnodes := node_list.length }).1)
    { (bynode_balance app { init_locals jdata mem with nnodes := node_list.length }).2 with
        nnodes := 0 } node_list with ⟨c, nodes1⟩
  rw [hr] at k0 k1 k2 k3 k4
  simp only at k0 k1 k2 k3 k4
  have hnlt : ¬ c.st.nprocs_mapped < app.num_procs := by omega
  cases c with
  | ret rc s1 => simp [Ctl.isRet] at k0
  | next s1 =>
    simp only [Ctl.st] at k2 k4 hnlt ⊢
    simp only [hnlt, false_and, if_false, bynode_fill_done app 1 s1 nodes1 hnlt]
    exact ⟨_, rfl, rfl, k1, k3, k4⟩
  | brk s1 =>
    simp only [Ctl.st] at k2 k4 hnlt ⊢
    simp only [hnlt, false_and, if_false, bynode_fill_done app 1 s1 nodes1 hnlt]
    exact ⟨_, rfl, rfl, k1, k3, k4⟩

/-- Claim C12, amended, at the scenario of the spec: four empty nodes of eight
slots and ten procs give 3, 3, 2 and 2 procs and no flag. -/
theorem bynode_single_round_shares_witness :
    (prrte_rmaps_rr_bynode 1 no_knobs (ex_job false false false) { idx := 0, num_procs := 10 }
        [ex_node 0 8 false, ex_node 1 8 false, ex_node 2 8 false, ex_node 3 8 false] 32 100).map
      (fun o => o.nodes.map (fun n => n.num_procs)) = some [3, 3, 2, 2]
    ∧ ∃ out, prrte_rmaps_rr_bynode 1 no_knobs (ex_job false false false)
        { idx := 0, num_procs := 10 }
        [ex_node 0 8 false, ex_node 1 8 false, ex_node 2 8 false, ex_node 3 8 false] 32 100
        = some out
      ∧ out.rc = .PRRTE_SUCCESS
      ∧ out.nodes.map (fun n => n.num_procs)
          = share_law (10 / [ex_node 0 8 false, ex_node 1 8 false, ex_node 2 8 false,
                              ex_node 3 8 false].length)
              (10 % [ex_node 0 8 false, ex_node 1 8 false, ex_node 2 8 false,
                      ex_node 3 8 false].length) 0
              ([ex_node 0 8 false, ex_node 1 8 false, ex_node 2 8 false,
                ex_node 3 8 false].map (fun n => n.num_procs))
      ∧ out.nodes.map (fun n => n.oversubscribed)
          = [ex_node 0 8 false, ex_node 1 8 false, ex_node 2 8 false,
             ex_node 3 8 false].map (fun n => n.oversubscribed)
      ∧ out.st.jdata.oversubscribed = (ex_job false false false).oversubscribed :=
  ⟨by decide,
   bynode_single_round_shares no_knobs (ex_job false false false) { idx := 0, num_procs := 10 }
    [ex_node 0 8 false, ex_node 1 8 false, ex_node 2 8 false, ex_node 3 8 false] 32 100
    (by simp [knobs_unset, no_knobs]) (by decide) (by decide) (by decide)
    (by intro n hn; simp at hn; rcases hn with rfl | rfl | rfl | rfl <;> decide)
    (by intro n hn; simp at hn; rcases hn with rfl | rfl | rfl | rfl <;> decide)
    (by decide)⟩

end Prrte

namespace Prrte

/-! ## By-slot: the second pass -/

lemma add_to_map_mapping (jdata : prrte_job_t) (node : prrte_node_t) :
    (add_to_map jdata node).1.mapping = jdata.mapping := by
  unfold add_to_map; split <;> rfl

lemma root_obj_of_eta (s : Locals) (node : prrte_node_t) :
    (root_obj_of s node).jdata = s.jdata ∧ (root_obj_of s node).nprocs_mapped = s.nprocs_mapped
    ∧ (root_obj_of s node).mem = s.mem ∧ (root_obj_of s node).add_one = s.add_one
    ∧ (root_obj_of s node).nxtra_nodes = s.nxtra_nodes
    ∧ (root_obj_of s node).extra_procs_to_assign = s.extra_procs_to_assign := by
  unfold root_obj_of; split <;> simp

/-- The first pass of by-slot with no density knob set, when the free room of
the nodes is within the procs left to map and within the memory: it never
breaks or returns and fills every node to its room. -/
lemma byslot_pass1_run (opts : rmaps_base_t) (app : prrte_app_context_t)
    (hk : knobs_unset opts) :
    ∀ (nodes : List prrte_node_t) (s : Locals),
      (nodes.map room).sum ≤ app.num_procs - s.nprocs_mapped →
      (nodes.map room).sum ≤ s.mem →
      ∃ s1, (foreachNode (byslot_pass1_body opts app) s nodes).1 = .next s1
        ∧ s1.nprocs_mapped = s.nprocs_mapped + (nodes.map room).sum
        ∧ s1.mem = s.mem - (nodes.map room).sum
        ∧ s1.jdata.mapping = s.jdata.mapping
        ∧ s1.add_one = s.add_one
        ∧ s1.nxtra_nodes = s.nxtra_nodes
        ∧ s1.extra_procs_to_assign = s.extra_procs_to_assign
        ∧ (foreachNode (byslot_pass1_body opts app) s nodes).2.map (fun n => n.num_procs)
            = nodes.map (fun n => n.num_procs + room n)
        ∧ (foreachNode (byslot_pass1_body opts app) s nodes).2.map (fun n => n.slots_given)
            = nodes.map (fun n => n.slots_given)
        ∧ (∀ n ∈ (foreachNode (byslot_pass1_body opts app) s nodes).2,
            n.slots ≤ n.slots_inuse) := by
  intro nodes
  induction nodes with
  | nil =>
    intro s _ _
    exact ⟨s, by simp [foreachNode]⟩
  | cons node rest ih =>
    intro s hroom hmem
    simp only [List.map_cons, List.sum_cons] at hroom hmem
    obtain ⟨g1, g2, g3, g4, g5, g6⟩ := root_obj_of_eta s node
    rw [foreachNode, byslot_pass1_body_unset opts app hk]
    by_cases hfull : node.slots ≤ node.slots_inuse
    · have hr : room node = 0 := by unfold room; omega
      obtain ⟨s1, e1, e2, e3, e4, e5, e6, e7, e8, e9, e10⟩ := ih (root_obj_of s node)
        (by rw [g2]; omega) (by rw [g3]; omega)
      simp only [hfull, if_true]
      rw [g2] at e2
      rw [g3] at e3
      rw [g1] at e4
      rw [g4] at e5
      rw [g5] at e6
      rw [g6] at e7
      refine ⟨s1, e1, ?_, ?_, e4, e5, e6, e7, ?_, ?_, ?_⟩
      · simp only [List.map_cons, List.sum_cons, hr]; omega
      · simp only [List.map_cons, List.sum_cons, hr]; omega
      · simp only [List.map_cons, e8, hr, Nat.add_zero]
      · simp only [List.map_cons, e9]
      · intro n hn
        rcases List.mem_cons.mp hn with h | h
        · subst h; exact hfull
        · exact e10 n h
    · simp only [hfull, if_false]
      have hmin : min (room node) (app.num_procs - (root_obj_of s node).nprocs_mapped)
          = room node := by
        rw [g2]; omega
      have hj : min (room node) (app.num_procs - (root_obj_of s node).nprocs_mapped)
          ≤ (root_obj_of s node).mem := by
        rw [hmin, g3]; omega
      rw [(place_loop_spec app true (room node) (root_obj_of s node) node).1 hj, hmin]
      obtain ⟨a1, a2, a3, a4, a5, a6, a7, a8⟩ := add_to_map_node_fields
        (root_obj_of s node).jdata node
      have am := add_to_map_mapping (root_obj_of s node).jdata node
      have hpos : 0 < room node := by unfold room; omega
      have n1 : (place_n app true (room node) (root_obj_of s node) node).2.num_procs
          = node.num_procs + room node := by
        simp [place_n, hpos, a1]
      have n2 : (place_n app true (room node) (root_obj_of s node) node).2.slots
          = node.slots := by
        simp [place_n, hpos, a2]
      have n3 : (place_n app true (room node) (root_obj_of s node) node).2.slots_inuse
          = node.slots_inuse + room node := by
        simp [place_n, hpos, a3]
      have n4 : (place_n app true (room node) (root_obj_of s node) node).2.slots_given
          = node.slots_given := by
        simp [place_n, hpos, a5]
      have m1 : (place_n app true (room node) (root_obj_of s node) node).1.nprocs_mapped
          = s.nprocs_mapped + room node := by
        simp [place_n, g2]
      have m2 : (place_n app true (room node) (root_obj_of s node) node).1.mem
          = s.mem - room node := by
        simp [place_n, g3]
      have m3 : (place_n app true (room node) (root_obj_of s node) node).1.jdata.mapping
          = s.jdata.mapping := by
        simp only [place_n, hpos, and_true, if_true]
        rw [am, g1]
      have m4 : (place_n app true (room node) (root_obj_of s node) node).1.add_one
          = s.add_one := by
        simp [place_n, g4]
      have m5 : (place_n app true (room node) (root_obj_of s node) node).1.nxtra_nodes
          = s.nxtra_nodes := by
        simp [place_n, g5]
      have m6 : (place_n app true (room node) (root_obj_of s node) node).1.extra_procs_to_assign
          = s.extra_procs_to_assign := by
        simp [place_n, g6]
      obtain ⟨s1, e1, e2, e3, e4, e5, e6, e7, e8, e9, e10⟩ := ih
        (place_n app true (room node) (root_obj_of s node) node).1
        (by rw [m1]; omega) (by rw [m2]; omega)
      rw [m1] at e2
      rw [m2] at e3
      rw [m3] at e4
      rw [m4] at e5
      rw [m5] at e6
      rw [m6] at e7
      refine ⟨s1, e1, ?_, ?_, e4, e5, e6, e7, ?_, ?_, ?_⟩
      · simp only [List.map_cons, List.sum_cons]; omega
      · simp only [List.map_cons, List.sum_cons]; omega
      · simp only [List.map_cons, e8, n1]
      · simp only [List.map_cons, e9, n4]
      · intro n hn
        rcases List.mem_cons.mp hn with h | h
        · subst h
          rw [n2, n3]
          unfold room
          omega
        · exact e10 n h

end Prrte

namespace Prrte

/-- One node of the second pass of by-slot on a node without free room, on
which oversubscription is allowed, with enough memory: the body places the
share of the node, capped by the procs still to map. -/
lemma byslot_pass2_body_run (app : prrte_app_context_t) (b k : Nat) (s : Locals)
    (node : prrte_node_t)
    (hfull : node.slots ≤ node.slots_inuse)
    (hg : round_state 0 b k s)
    (hperm : node.slots_given = false
      ∨ (s.jdata.mapping.subscribe_given = true ∧ s.jdata.mapping.no_oversubscribe = false))
    (hmem : app.num_procs - s.nprocs_mapped ≤ s.mem) :
    ∃ s1 node1,
      byslot_pass2_body app s node
        = (if s.nprocs_mapped
                + min (b + (if 0 < k then 1 else 0)) (app.num_procs - s.nprocs_mapped)
              = app.num_procs
           then .brk s1 else .next s1, node1)
      ∧ s1.nprocs_mapped
          = s.nprocs_mapped + min (b + (if 0 < k then 1 else 0)) (app.num_procs - s.nprocs_mapped)
      ∧ round_state 0 b (k - 1) s1
      ∧ node1.num_procs
          = node.num_procs + min (b + (if 0 < k then 1 else 0)) (app.num_procs - s.nprocs_mapped)
      ∧ s1.jdata.mapping = s.jdata.mapping
      ∧ app.num_procs - s1.nprocs_mapped ≤ s1.mem := by
  obtain ⟨g1, g2, g3, g4, g5, g6⟩ := root_obj_of_eta s node
  obtain ⟨a1, a2, a3, a4, a5, -⟩ := add_to_map_node_fields (root_obj_of s node).jdata node
  have am := add_to_map_mapping (root_obj_of s node).jdata node
  have hg2 : round_state 0 b k
      { root_obj_of s node with jdata := (add_to_map (root_obj_of s node).jdata node).1 } := by
    unfold round_state at hg ⊢
    simp only [g4, g5, g6]
    exact hg
  obtain ⟨t1, t2⟩ := take_extra_round_state 0 b k _ hg2
  obtain ⟨f1, f2, f3, f4, f5⟩ := take_extra_fields
    { root_obj_of s node with jdata := (add_to_map (root_obj_of s node).jdata node).1 }
  have f1 : (take_extra { root_obj_of s node with
      jdata := (add_to_map (root_obj_of s node).jdata node).1 }).nprocs_mapped
        = s.nprocs_mapped := by
    rw [f1]; exact g2
  have f2 : (take_extra { root_obj_of s node with
      jdata := (add_to_map (root_obj_of s node).jdata node).1 }).mem = s.mem := by
    rw [f2]; exact g3
  have f4 : (take_extra { root_obj_of s node with
      jdata := (add_to_map (root_obj_of s node).jdata node).1 }).jdata.mapping
        = s.jdata.mapping := by
    rw [f4]
    show (add_to_map (root_obj_of s node).jdata node).1.mapping = s.jdata.mapping
    rw [am, g1]
  have hf : (add_to_map (root_obj_of s node).jdata node).2.slots
      ≤ (add_to_map (root_obj_of s node).jdata node).2.slots_inuse := by
    rw [a2, a3]; exact hfull
  unfold byslot_pass2_body
  simp only [hf, if_true]
  generalize take_extra { root_obj_of s node with
      jdata := (add_to_map (root_obj_of s node).jdata node).1 } = T at t1 t2 f1 f2 f4 ⊢
  have hn : T.extra_procs_to_assign = ((b + (if 0 < k then 1 else 0) : Nat) : Int) := by
    rw [← t1]; simp
  rw [hn]
  obtain ⟨s1, node1, e, p1, p2, p3, p4, p5, p6, p7, p8, p9, p10, p11, p12⟩ :=
    place_and_check_run app ((b + (if 0 < k then 1 else 0) : Nat) : Int) T
      (add_to_map (root_obj_of s node).jdata node).2
      (by simp only [Int.toNat_ofNat, f1, f2]; omega)
      (Or.inr (by rw [a5, f4]; exact hperm))
  simp only [Int.toNat_ofNat, f1, f2] at p1 p2 p8 e
  refine ⟨s1, node1, e, p1, ?_, ?_, ?_, ?_⟩
  · unfold round_state at t2 ⊢
    rw [p3, p4, p5]
    exact t2
  · rw [p8, a1]
  · rw [p7, f4]
  · rw [p1, p2]; omega

/-- The second pass of by-slot over nodes without free room on which
oversubscription is allowed, with enough memory: the loop does not return and
node `i` gets the `i`-th round-robin share. -/
lemma byslot_pass2_run (app : prrte_app_context_t) (b : Nat) :
    ∀ (nodes : List prrte_node_t) (s : Locals) (k : Nat),
      round_state 0 b k s →
      (∀ n ∈ nodes, n.slots ≤ n.slots_inuse) →
      ((s.jdata.mapping.subscribe_given = true ∧ s.jdata.mapping.no_oversubscribe = false)
        ∨ ∀ n ∈ nodes, n.slots_given = false) →
      app.num_procs - s.nprocs_mapped ≤ s.mem →
      (foreachNode (byslot_pass2_body app) s nodes).1.isRet = false
      ∧ (foreachNode (byslot_pass2_body app) s nodes).2.map (fun n => n.num_procs)
          = List.zipWith (· + ·) (nodes.map (fun n => n.num_procs))
              (rr_counts app.num_procs b k s.nprocs_mapped nodes.length) := by
  intro nodes
  induction nodes with
  | nil =>
    intro s k _ _ _ _
    simp [foreachNode, rr_counts, Ctl.isRet]
  | cons node rest ih =>
    intro s k hg hfull hperm hmem
    have hp : node.slots_given = false
        ∨ (s.jdata.mapping.subscribe_given = true ∧ s.jdata.mapping.no_oversubscribe = false) := by
      rcases hperm with h | h
      · exact Or.inr h
      · exact Or.inl (h node (by simp))
    obtain ⟨s1, node1, e, p1, p2, p3, p4, p5⟩ :=
      byslot_pass2_body_run app b k s node (hfull node (by simp)) hg hp hmem
    by_cases hdone : s.nprocs_mapped
        + min (b + (if 0 < k then 1 else 0)) (app.num_procs - s.nprocs_mapped) = app.num_procs
    · rw [if_pos hdone] at e
      have hz := rr_counts_done app.num_procs b rest.length (k - 1)
        (s.nprocs_mapped + min (b + (if 0 < k then 1 else 0)) (app.num_procs - s.nprocs_mapped))
        (by omega)
      unfold foreachNode
      rw [e]
      simp only [List.map_cons, List.length_cons, rr_counts, List.zipWith_cons_cons, hz, p3,
        Ctl.isRet]
      refine ⟨trivial, ?_⟩
      have := zipWith_add_replicate_zero (rest.map (fun n => n.num_procs))
      simp only [List.length_map] at this
      rw [this]
    · rw [if_neg hdone] at e
      have hperm1 : (s1.jdata.mapping.subscribe_given = true
            ∧ s1.jdata.mapping.no_oversubscribe = false)
          ∨ ∀ n ∈ rest, n.slots_given = false := by
        rw [p4]
        rcases hperm with h | h
        · exact Or.inl h
        · exact Or.inr (fun n hn => h n (by simp [hn]))
      obtain ⟨i0, i1⟩ := ih s1 (k - 1) p2 (fun n hn => hfull n (by simp [hn])) hperm1 p5
      unfold foreachNode
      rw [e]
      simp only [List.map_cons, List.length_cons, rr_counts, List.zipWith_cons_cons, i0, i1,
        p1, p3]
      exact ⟨trivial, trivial⟩

end Prrte

namespace Prrte

/-! ## The binary32 quotient of two counts below `2 ^ 24` -/

lemma ilog2Aux_spec : ∀ (f n : Nat), 0 < n → n < 2 ^ f →
    2 ^ ilog2Aux f n ≤ n ∧ n < 2 ^ (ilog2Aux f n + 1) := by
  intro f
  induction f with
  | zero => intro n h0 h; simp at h; omega
  | succ f ih =>
    intro n h0 h
    by_cases h2 : n < 2
    · have : n = 1 := by omega
      subst this
      simp [ilog2Aux]
    · have hh : n / 2 < 2 ^ f := by
        rw [pow_succ] at h
        omega
      obtain ⟨i1, i2⟩ := ih (n / 2) (by omega) hh
      simp only [ilog2Aux, h2, if_false]
      rw [pow_succ, pow_succ]
      rw [pow_succ] at i2
      omega

lemma ilog2_lt (n : Nat) (h0 : 0 < n) (h : n < 16777216) :
    n < 2 ^ (ilog2 n + 1) ∧ ilog2 n ≤ 23 := by
  have hb : n < 2 ^ 128 := by
    have : (16777216 : Nat) ≤ 2 ^ 128 := by norm_num
    omega
  obtain ⟨s1, s2⟩ := ilog2Aux_spec 128 n h0 hb
  refine ⟨s2, ?_⟩
  have hm := ilog2_mono n 16777215 (by omega)
  have : ilog2 16777215 = 23 := by decide
  omega

/-- Rounding `D * X / N` to the nearest integer, for `D = q * N + r` with
`r < N < 2 * X`: the result lies in `[q * X, (q + 1) * X)` and exceeds `q * X`
exactly when `r` is not zero. -/
lemma rne_quotient (N X q r : Nat) (hN : 0 < N) (hX : N < 2 * X) (hr : r < N) :
    rne ((q * N + r) * X / N) ((q * N + r) * X % N) N / X = q
    ∧ (q * X < rne ((q * N + r) * X / N) ((q * N + r) * X % N) N ↔ r ≠ 0) := by
  have hXpos : 0 < X := by omega
  have e0 : (q * N + r) * X = r * X + q * X * N := by ring
  have hdiv : (q * N + r) * X / N = q * X + r * X / N := by
    rw [e0, Nat.add_mul_div_right _ _ hN, Nat.add_comm]
  have hmod : (q * N + r) * X % N = r * X % N := by
    rw [e0, Nat.add_mul_mod_self_right]
  rw [hdiv, hmod]
  have hdm := Nat.div_add_mod (r * X) N
  have hc : r * X % N < N := Nat.mod_lt _ hN
  obtain ⟨a, ha⟩ : ∃ a, r * X / N = a := ⟨_, rfl⟩
  obtain ⟨c, hcd⟩ : ∃ c, r * X % N = c := ⟨_, rfl⟩
  rw [ha, hcd] at hdm
  rw [hcd] at hc
  rw [ha, hcd]
  have h1 : r * X + X ≤ N * X := by
    have : (r + 1) * X ≤ N * X := Nat.mul_le_mul_right X (by omega)
    rw [Nat.add_mul, Nat.one_mul] at this
    exact this
  have haX : a < X := by
    by_contra hcon
    have : N * X ≤ N * a := Nat.mul_le_mul_left N (by omega)
    omega
  have hbound : q * X ≤ rne (q * X + a) c N ∧ rne (q * X + a) c N < (q + 1) * X
      ∧ (q * X < rne (q * X + a) c N ↔ r ≠ 0) := by
    have hq1 : (q + 1) * X = q * X + X := by ring
    unfold rne
    by_cases hup : N < 2 * c ∨ (2 * c = N ∧ (q * X + a) % 2 = 1)
    · simp only [hup, if_true]
      have hc2 : N ≤ 2 * c := by
        rcases hup with h | h
        · omega
        · omega
      have har : a + 1 < X := by
        by_contra hcon
        have haeq : a + 1 = X := by omega
        have : N * (a + 1) = N * X := by rw [haeq]
        rw [Nat.mul_add, Nat.mul_one] at this
        omega
      refine ⟨by omega, by omega, ?_⟩
      constructor
      · intro _ h0
        subst h0
        simp only [Nat.zero_mul] at hdm
        have hc0 : c = 0 := by
          have : c ≤ N * a + c := Nat.le_add_left _ _
          omega
        omega
      · intro _; omega
    · simp only [hup, if_false]
      have hc2 : 2 * c ≤ N := by
        by_contra hcon
        exact hup (Or.inl (by omega))
      refine ⟨by omega, by omega, ?_⟩
      constructor
      · intro h h0
        subst h0
        simp only [Nat.zero_mul] at hdm
        have ha0 : a = 0 := by
          by_contra hne
          have : N * 1 ≤ N * a := Nat.mul_le_mul_left N (by omega)
          omega
        omega
      · intro hr0
        by_contra hcon
        have ha0 : a = 0 := by omega
        subst ha0
        simp only [Nat.mul_zero, Nat.zero_add] at hdm
        have : 1 * X ≤ r * X := Nat.mul_le_mul_right X (by omega)
        omega
  obtain ⟨b1, b2, b3⟩ := hbound
  exact ⟨Nat.div_eq_of_lt_le b1 b2, b3⟩

end Prrte

namespace Prrte

/-- The rounding of a non-zero quotient, with the exponent it settles on. -/
lemma f32_round_eq (num den : Nat) (h : num ≠ 0) :
    ∃ ex : Int, ex ≤ (ilog2 num : Int) - (ilog2 den : Int)
      ∧ f32_round num den
          = (rne ((if 0 ≤ ex - 23 then num else num * 2 ^ (-(ex - 23)).toNat)
                    / (if 0 ≤ ex - 23 then den * 2 ^ (ex - 23).toNat else den))
                 ((if 0 ≤ ex - 23 then num else num * 2 ^ (-(ex - 23)).toNat)
                    % (if 0 ≤ ex - 23 then den * 2 ^ (ex - 23).toNat else den))
                 (if 0 ≤ ex - 23 then den * 2 ^ (ex - 23).toNat else den), ex - 23) := by
  unfold f32_round
  simp only [h, if_false]
  by_cases hge : (if (0 : Int) ≤ (ilog2 num : Int) - (ilog2 den : Int)
      then decide (den * 2 ^ ((ilog2 num : Int) - (ilog2 den : Int)).toNat ≤ num)
      else decide (den ≤ num * 2 ^ (-((ilog2 num : Int) - (ilog2 den : Int))).toNat)) = true
  · refine ⟨(ilog2 num : Int) - (ilog2 den : Int), le_refl _, ?_⟩
    simp only [hge, if_true]
  · refine ⟨(ilog2 num : Int) - (ilog2 den : Int) - 1, by omega, ?_⟩
    simp only [hge, if_false, Bool.false_eq_true]

/-- The rounded quotient of two positive counts below `2 ^ 24` is the nearest
multiple of `2 ^ (-K)` for a `K` with `N < 2 ^ (K + 1)`. -/
lemma f32_round_scaled (D N : Nat) (hD0 : 0 < D) (hD : D < 16777216)
    (hN0 : 0 < N) (hN : N < 16777216) :
    ∃ K : Nat, f32_round D N = (rne (D * 2 ^ K / N) (D * 2 ^ K % N) N, -(K : Int))
      ∧ N < 2 * 2 ^ K := by
  obtain ⟨ex, hex, e⟩ := f32_round_eq D N (by omega)
  obtain ⟨x1, x2⟩ := ilog2_lt D hD0 hD
  obtain ⟨y1, y2⟩ := ilog2_lt N hN0 hN
  have hpow : 2 ^ (ilog2 N + 1) ≤ 2 * 2 ^ (23 - ex).toNat := by
    have h1 : ilog2 N + 1 ≤ (23 - ex).toNat + 1 := by omega
    have := Nat.pow_le_pow_right (by norm_num : 0 < 2) h1
    rw [pow_succ _ (23 - ex).toNat] at this
    omega
  refine ⟨(23 - ex).toNat, ?_, by omega⟩
  rw [e]
  by_cases ht : (0 : Int) ≤ ex - 23
  · have hz : ex - 23 = 0 := by omega
    have hk : (23 - ex).toNat = 0 := by omega
    simp only [hz, hk, le_refl, if_true, Int.toNat_zero, pow_zero, Nat.mul_one]
    simp
  · have hk : (-(ex - 23)).toNat = (23 - ex).toNat := by congr 1; omega
    simp only [ht, if_false, hk]
    congr 1
    omega

/-- The binary32 quotient of two counts below `2 ^ 24` is exact as far as the
mappers read it. -/
lemma quotient_exact_of_lt (D N : Nat) (hD : D < 16777216) (hN0 : 0 < N) (hN : N < 16777216) :
    quotient_exact D N := by
  have hq : D / N < 16777216 := lt_of_le_of_lt (Nat.div_le_self D N) hD
  have hNm : N ≠ 0 := by omega
  unfold quotient_exact
  rw [f32_ofInt_nat D hD, f32_ofInt_nat N hN, f32_ofInt_nat (D / N) hq]
  by_cases hD0 : D = 0
  · subst hD0
    simp [F32.div, hNm, f32_round, F32.toInt, F32.sub_pos, F32.lt, F32.scaled]
  · obtain ⟨K, e, hK⟩ := f32_round_scaled D N (by omega) hD hN0 hN
    have hdm := Nat.div_add_mod D N
    have hml : D % N < N := Nat.mod_lt _ hN0
    have hDe : D = D / N * N + D % N := by rw [Nat.mul_comm]; omega
    obtain ⟨r1, r2⟩ := rne_quotient N (2 ^ K) (D / N) (D % N) hN0 hK hml
    rw [← hDe] at r1 r2
    have hdiv : F32.div { neg := false, m := D, e := 0 } { neg := false, m := N, e := 0 }
        = { neg := false, m := rne (D * 2 ^ K / N) (D * 2 ^ K % N) N, e := -(K : Int) } := by
      simp [F32.div, hNm, e]
    rw [hdiv]
    constructor
    · by_cases hK0 : K = 0
      · subst hK0
        simp only [pow_zero, Nat.div_one, Nat.mul_one] at r1
        simp only [F32.toInt, CharP.cast_eq_zero, neg_zero, le_refl, if_true, Int.toNat_zero,
          pow_zero, Nat.mul_one, Bool.false_eq_true, if_false, r1]
      · have hneg : ¬ (0 : Int) ≤ -(K : Int) := by omega
        simp only [F32.toInt, hneg, if_false, neg_neg, Int.toNat_ofNat, Bool.false_eq_true, r1]
    · have hmax : max (-(0 : Int)) (- -(K : Int)) = (K : Int) := by
        rw [neg_neg, neg_zero]; exact max_eq_right (by omega)
      simp only [F32.sub_pos, F32.lt, F32.scaled, hmax, Bool.false_eq_true, if_false,
        zero_add, Int.toNat_ofNat, neg_add_cancel, Int.toNat_zero, pow_zero, Nat.mul_one,
        decide_eq_true_eq]
      rw [← r2]
      norm_cast

end Prrte

namespace Prrte

/-- The balance computed before the second pass of by-slot, when the binary32
quotient is exact: the base share is the integer quotient of the procs left by
the number of nodes, and the remainder is handed out one proc at a time. -/
lemma byslot_balance_spec (app : prrte_app_context_t) (nnodes : Nat) (s : Locals)
    (hm : s.nprocs_mapped ≤ app.num_procs)
    (hx : quotient_exact (app.num_procs - s.nprocs_mapped) nnodes)
    (ha : s.add_one = false) :
    round_state 0 ((app.num_procs - s.nprocs_mapped) / nnodes)
        ((app.num_procs - s.nprocs_mapped) % nnodes) (byslot_balance app nnodes s)
    ∧ (byslot_balance app nnodes s).nprocs_mapped = s.nprocs_mapped
    ∧ (byslot_balance app nnodes s).mem = s.mem
    ∧ (byslot_balance app nnodes s).jdata = s.jdata := by
  obtain ⟨D, hD⟩ : ∃ D : Nat, D = app.num_procs - s.nprocs_mapped := ⟨_, rfl⟩
  have hDi : (app.num_procs : Int) - (s.nprocs_mapped : Int) = (D : Int) := by omega
  rw [← hD] at hx ⊢
  obtain ⟨x1, x2⟩ := hx
  unfold byslot_balance
  simp only [hDi, x1]
  by_cases hr : D % nnodes = 0
  · have hf : ¬ (F32.sub_pos (F32.div (F32.ofInt (D : Int)) (F32.ofInt (nnodes : Int)))
        (F32.ofInt ((D / nnodes : Nat) : Int)) = true) := by
      rw [x2]; simp [hr]
    simp only [hf, if_false]
    refine ⟨Or.inr ⟨ha, hr, by simp⟩, ?_, ?_, ?_⟩ <;> trivial
  · have hf : F32.sub_pos (F32.div (F32.ofInt (D : Int)) (F32.ofInt (nnodes : Int)))
        (F32.ofInt ((D / nnodes : Nat) : Int)) = true := by
      rw [x2]; exact hr
    simp only [hf, if_true]
    refine ⟨Or.inl ⟨rfl, ?_, by simp⟩, ?_, ?_, ?_⟩
    rotate_left
    · trivial
    · trivial
    · trivial
    have hdm := Nat.div_add_mod D nnodes
    have : ((nnodes * (D / nnodes) + D % nnodes : Nat) : Int) = (D : Int) := by rw [hdm]
    simp only [Nat.cast_add, Nat.cast_mul] at this
    show (D : Int) - ((D / nnodes : Nat) : Int) * (nnodes : Int) = ((D % nnodes : Nat) : Int)
    linear_combination (-1 : Int) * this

/-- Claim C11.  By-slot mapping with no density knob set, more procs than the
total free room `R` of the nodes, oversubscription allowed (`NO_OVERSUBSCRIBE`
clear, and `SUBSCRIBE_GIVEN` set or no node with `SLOTS_GIVEN`), an exact
binary32 quotient of `D = P - R` by the number `N` of nodes, and memory for
every proc: the call returns `PRRTE_SUCCESS` and node `i` has received its room
plus `D / N` procs, plus one if `i < D % N`.  The quotient is exact whenever `D`
and `N` are below `2 ^ 24` (`quotient_exact_of_lt`). -/
theorem byslot_second_pass_shares (opts : rmaps_base_t) (jdata : prrte_job_t)
    (app : prrte_app_context_t) (node_list : List prrte_node_t) (num_slots : Int) (mem : Nat)
    (hk : knobs_unset opts)
    (hR : (node_list.map room).sum < app.num_procs)
    (hno : jdata.mapping.no_oversubscribe = false)
    (hperm : jdata.mapping.subscribe_given = true ∨ ∀ n ∈ node_list, n.slots_given = false)
    (hx : quotient_exact (app.num_procs - (node_list.map room).sum) node_list.length)
    (hmem : app.num_procs ≤ mem) :
    (prrte_rmaps_rr_byslot opts jdata app node_list num_slots mem).rc = .PRRTE_SUCCESS
    ∧ (prrte_rmaps_rr_byslot opts jdata app node_list num_slots mem).nodes.map
          (fun n => n.num_procs)
        = share_law ((app.num_procs - (node_list.map room).sum) / node_list.length)
            ((app.num_procs - (node_list.map room).sum) % node_list.length) 0
            (node_list.map (fun n => n.num_procs + room n)) := by
  have hg : gate jdata app num_slots = false := by simp [gate, hno]
  obtain ⟨s1, e1, e2, e3, e4, e5, e6, e7, e8, e9, e10⟩ :=
    byslot_pass1_run opts app hk node_list (init_locals jdata mem)
      (by simp only [init_locals]; omega) (by simp only [init_locals]; omega)
  simp only [init_locals, Nat.zero_add] at e2 e3 e4 e5
  unfold prrte_rmaps_rr_byslot
  simp only [hg, Bool.false_eq_true, if_false]
  rcases hr : foreachNode (byslot_pass1_body opts app) (init_locals jdata mem) node_list
    with ⟨c, nodes1⟩
  rw [hr] at e1 e8 e9 e10
  simp only at e1 e8 e9 e10
  subst e1
  have hne : ¬ s1.nprocs_mapped = app.num_procs := by omega
  simp only [Ctl.st, hne, if_false]
  obtain ⟨b1, b2, b3, b4⟩ := byslot_balance_spec app node_list.length s1 (by omega)
    (by rw [e2]; exact hx) e5
  rw [e2] at b1
  have hlen : nodes1.length = node_list.length := by
    have := congrArg List.length e8
    simpa using this
  have hperm1 : ((byslot_balance app node_list.length s1).jdata.mapping.subscribe_given = true
        ∧ (byslot_balance app node_list.length s1).jdata.mapping.no_oversubscribe = false)
      ∨ ∀ n ∈ nodes1, n.slots_given = false := by
    rw [b4, e4]
    rcases hperm with h | h
    · exact Or.inl ⟨h, hno⟩
    · right
      intro n hn
      have h1 : n.slots_given ∈ nodes1.map (fun n => n.slots_given) :=
        List.mem_map.mpr ⟨n, hn, rfl⟩
      rw [e9] at h1
      obtain ⟨n0, hn0, h2⟩ := List.mem_map.mp h1
      rw [← h2]
      exact h n0 hn0
  obtain ⟨r0, r1⟩ := byslot_pass2_run app
    ((app.num_procs - (node_list.map room).sum) / node_list.length) nodes1
    (byslot_balance app node_list.length s1)
    ((app.num_procs - (node_list.map room).sum) % node_list.length) b1 e10 hperm1
    (by rw [b2, b3, e2, e3]; omega)
  rw [b2, e2, hlen] at r1
  have hdm := Nat.div_add_mod (app.num_procs - (node_list.map room).sum) node_list.length
  have hex : (node_list.map room).sum
      + (app.num_procs - (node_list.map room).sum) / node_list.length * node_list.length
      + min ((app.num_procs - (node_list.map room).sum) % node_list.length) node_list.length
      ≤ app.num_procs := by
    rw [Nat.mul_comm]
    have := Nat.min_le_left ((app.num_procs - (node_list.map room).sum) % node_list.length)
      node_list.length
    omega
  obtain ⟨x1, -⟩ := rr_counts_full app.num_procs
    ((app.num_procs - (node_list.map room).sum) / node_list.length) node_list.length
    ((app.num_procs - (node_list.map room).sum) % node_list.length)
    (node_list.map room).sum hex
  rw [x1, e8] at r1
  have hsl := share_law_zipWith
    ((app.num_procs - (node_list.map room).sum) / node_list.length)
    ((app.num_procs - (node_list.map room).sum) % node_list.length)
    (node_list.map (fun n => n.num_procs + room n)) 0
  simp only [List.length_map, Nat.zero_add] at hsl
  rw [hsl] at r1
  rcases hr2 : foreachNode (byslot_pass2_body app) (byslot_balance app node_list.length s1)
    nodes1 with ⟨c2, nodes2⟩
  rw [hr2] at r0 r1
  simp only at r0 r1
  cases c2 with
  | ret rc s2 => simp [Ctl.isRet] at r0
  | next s2 => exact ⟨rfl, r1⟩
  | brk s2 => exact ⟨rfl, r1⟩

/-- Claim C11 at three empty nodes of four slots and seventeen procs, with
oversubscription allowed: the nodes receive 6, 6 and 5 procs. -/
theorem byslot_second_pass_shares_witness :
    (prrte_rmaps_rr_byslot no_knobs (ex_job false false false) { idx := 0, num_procs := 17 }
        [ex_node 0 4 false, ex_node 1 4 false, ex_node 2 4 false] 12 100).nodes.map
      (fun n => n.num_procs) = [6, 6, 5]
    ∧ (prrte_rmaps_rr_byslot no_knobs (ex_job false false false) { idx := 0, num_procs := 17 }
        [ex_node 0 4 false, ex_node 1 4 false, ex_node 2 4 false] 12 100).rc = .PRRTE_SUCCESS
    ∧ (prrte_rmaps_rr_byslot no_knobs (ex_job false false false) { idx := 0, num_procs := 17 }
        [ex_node 0 4 false, ex_node 1 4 false, ex_node 2 4 false] 12 100).nodes.map
          (fun n => n.num_procs)
        = share_law
            ((17 - ([ex_node 0 4 false, ex_node 1 4 false, ex_node 2 4 false].map room).sum)
              / [ex_node 0 4 false, ex_node 1 4 false, ex_node 2 4 false].length)
            ((17 - ([ex_node 0 4 false, ex_node 1 4 false, ex_node 2 4 false].map room).sum)
              % [ex_node 0 4 false, ex_node 1 4 false, ex_node 2 4 false].length) 0
            ([ex_node 0 4 false, ex_node 1 4 false, ex_node 2 4 false].map
              (fun n => n.num_procs + room n)) :=
  ⟨by decide,
   byslot_second_pass_shares no_knobs (ex_job false false false) { idx := 0, num_procs := 17 }
     [ex_node 0 4 false, ex_node 1 4 false, ex_node 2 4 false] 12 100
     (by simp [knobs_unset, no_knobs]) (by decide) rfl
     (Or.inr (by intro n hn; simp at hn; rcases hn with rfl | rfl | rfl <;> rfl))
     (quotient_exact_of_lt _ _ (by decide) (by decide) (by decide)) (by decide)⟩

end Prrte

namespace Prrte

/-! ## The handshake callback -/

/-- Claim C22.  On a peer in `CONNECT_ACK` whose handshake succeeds,
`prte_oob_tcp_recv_handler` reads nothing and logs nothing, and when it returns
the state is `CONNECTED`, the receive event is active, the timer event is
inactive, the on-deck request is the one the peer had if it had one and
otherwise the head of the send queue, which is taken off the queue, and the send
event is active whenever there is an on-deck request.  "The peer had" refers to
the peer as `prte_oob_tcp_peer_recv_connect_ack` leaves it; when that routine
keeps the on-deck request and the send queue, it is the peer before the
callback. -/
theorem recv_handler_connect_ack_success (lay : HdrLayout) (my_name : ProcId)
    (connect_ack : prte_oob_tcp_peer_t → Status × prte_oob_tcp_peer_t) (new_ok : Bool)
    (w : World) (stream : List Byte) (sock : List ReadRes)
    (hst : w.peer.state = .MCA_OOB_TCP_CONNECT_ACK)
    (hok : (connect_ack w.peer).1 = .PRRTE_SUCCESS) :
    ∃ out, prte_oob_tcp_recv_handler lay my_name connect_ack new_ok w stream sock = some out
      ∧ out.2 = (stream, sock) ∧ out.1.log = w.log
      ∧ out.1.peer.state = .MCA_OOB_TCP_CONNECTED
      ∧ out.1.peer.recv_ev_active = true
      ∧ out.1.peer.timer_ev_active = false
      ∧ (∀ m, (connect_ack w.peer).2.send_msg = some m →
          out.1.peer.send_msg = some m
          ∧ out.1.peer.send_queue = (connect_ack w.peer).2.send_queue)
      ∧ ((connect_ack w.peer).2.send_msg = none →
          out.1.peer.send_msg = (connect_ack w.peer).2.send_queue.head?
          ∧ out.1.peer.send_queue = (connect_ack w.peer).2.send_queue.tail)
      ∧ (out.1.peer.send_msg ≠ none → out.1.peer.send_ev_active = true)
      ∧ ((connect_ack w.peer).2.send_msg = w.peer.send_msg →
          (connect_ack w.peer).2.send_queue = w.peer.send_queue →
          (∀ m, w.peer.send_msg = some m →
            out.1.peer.send_msg = some m ∧ out.1.peer.send_queue = w.peer.send_queue)
          ∧ (w.peer.send_msg = none →
            out.1.peer.send_msg = w.peer.send_queue.head?
            ∧ out.1.peer.send_queue = w.peer.send_queue.tail)) := by
  obtain ⟨p, hp⟩ : ∃ p, (connect_ack w.peer).2 = p := ⟨_, rfl⟩
  have key : ∃ out, prte_oob_tcp_recv_handler lay my_name connect_ack new_ok w stream sock
        = some out
      ∧ out.2 = (stream, sock) ∧ out.1.log = w.log
      ∧ out.1.peer.state = .MCA_OOB_TCP_CONNECTED
      ∧ out.1.peer.recv_ev_active = true
      ∧ out.1.peer.timer_ev_active = false
      ∧ (∀ m, p.send_msg = some m →
          out.1.peer.send_msg = some m ∧ out.1.peer.send_queue = p.send_queue)
      ∧ (p.send_msg = none →
          out.1.peer.send_msg = p.send_queue.head? ∧ out.1.peer.send_queue = p.send_queue.tail)
      ∧ (out.1.peer.send_msg ≠ none → out.1.peer.send_ev_active = true) := by
    unfold prte_oob_tcp_recv_handler
    simp only [hst, hok, hp, if_true]
    refine ⟨_, rfl, rfl, rfl, rfl, ?_, ?_, ?_, ?_, ?_⟩
    · dsimp only
      cases h1 : p.recv_ev_active <;> cases h2 : p.timer_ev_active <;>
        cases h3 : p.send_msg <;> cases h4 : p.send_queue <;>
        cases h5 : p.send_ev_active <;> simp [promote_next, h1, h2, h3, h4, h5]
    · dsimp only
      cases h1 : p.recv_ev_active <;> cases h2 : p.timer_ev_active <;>
        cases h3 : p.send_msg <;> cases h4 : p.send_queue <;>
        cases h5 : p.send_ev_active <;> simp [promote_next, h1, h2, h3, h4, h5]
    · intro m hm
      dsimp only
      cases h1 : p.recv_ev_active <;> cases h2 : p.timer_ev_active <;>
        cases h5 : p.send_ev_active <;> simp [promote_next, h1, h2, hm, h5]
    · intro hm
      dsimp only
      cases h1 : p.recv_ev_active <;> cases h2 : p.timer_ev_active <;>
        cases h4 : p.send_queue <;>
        cases h5 : p.send_ev_active <;> simp [promote_next, h1, h2, hm, h4, h5]
    · dsimp only
      cases h1 : p.recv_ev_active <;> cases h2 : p.timer_ev_active <;>
        cases h3 : p.send_msg <;> cases h4 : p.send_queue <;>
        cases h5 : p.send_ev_active <;> simp [promote_next, h1, h2, h3, h4, h5]
  obtain ⟨out, e, k1, k2, k3, k4, k5, k6, k7, k8⟩ := key
  subst hp
  refine ⟨out, e, k1, k2, k3, k4, k5, k6, k7, k8, ?_⟩
  intro e1 e2
  rw [← e1, ← e2]
  exact ⟨k6, k7⟩

/-- Claim C22 on a peer that waits for the handshake with nothing on deck and
one request queued: the request is promoted and the send event is activated. -/
theorem recv_handler_connect_ack_success_witness :
    ∃ out, prte_oob_tcp_recv_handler ex_lay ⟨0, 7⟩ ex_ack true
        { peer := { ex_peer_ack with send_queue := [ex_snd 2 [5, 6] [7]], timer_ev_active := true,
                                     timer_event := true }, log := [] } [] [] = some out
      ∧ out.1.peer.send_msg = some (ex_snd 2 [5, 6] [7])
      ∧ out.1.peer.send_queue = []
      ∧ out.1.peer.send_ev_active = true
      ∧ out.1.peer.state = .MCA_OOB_TCP_CONNECTED
      ∧ out.1.peer.timer_ev_active = false := by
  obtain ⟨out, e, -, -, k3, -, k5, -, k7, k8, -⟩ :=
    recv_handler_connect_ack_success ex_lay ⟨0, 7⟩ ex_ack true
      { peer := { ex_peer_ack with send_queue := [ex_snd 2 [5, 6] [7]], timer_ev_active := true,
                                   timer_event := true }, log := [] } [] [] rfl rfl
  obtain ⟨a1, a2⟩ := k7 rfl
  refine ⟨out, e, a1, a2, k8 (by rw [a1]; simp [ex_ack]), k3, k5⟩

/-- Claim C23.  On a peer in `CONNECT_ACK` whose handshake fails,
`prte_oob_tcp_recv_handler` raises `COMM_FAILED` exactly when the status is not
`PRRTE_ERR_UNREACH`.  With `PRRTE_ERR_UNREACH` it leaves the peer as the
handshake routine left it and logs nothing: when that routine leaves the peer
alone, the state is still `CONNECT_ACK` and the on-deck request, the send queue
and the three event flags are unchanged.  With another status it deletes the
receive event and changes nothing else. -/
theorem recv_handler_connect_ack_failure (lay : HdrLayout) (my_name : ProcId)
    (connect_ack : prte_oob_tcp_peer_t → Status × prte_oob_tcp_peer_t) (new_ok : Bool)
    (w : World) (stream : List Byte) (sock : List ReadRes)
    (hst : w.peer.state = .MCA_OOB_TCP_CONNECT_ACK)
    (hfail : (connect_ack w.peer).1 ≠ .PRRTE_SUCCESS) :
    ∃ out, prte_oob_tcp_recv_handler lay my_name connect_ack new_ok w stream sock = some out
      ∧ out.2 = (stream, sock)
      ∧ out.1.log = w.log
          ++ (if (connect_ack w.peer).1 = .PRRTE_ERR_UNREACH then [] else [.comm_failed])
      ∧ (Event.comm_failed ∈ out.1.log.drop w.log.length
          ↔ (connect_ack w.peer).1 ≠ .PRRTE_ERR_UNREACH)
      ∧ ((connect_ack w.peer).1 = .PRRTE_ERR_UNREACH →
          out.1.peer = (connect_ack w.peer).2
          ∧ ((connect_ack w.peer).2 = w.peer →
              out.1.peer.state = .MCA_OOB_TCP_CONNECT_ACK
              ∧ out.1.peer.send_msg = w.peer.send_msg
              ∧ out.1.peer.send_queue = w.peer.send_queue
              ∧ out.1.peer.send_ev_active = w.peer.send_ev_active
              ∧ out.1.peer.recv_ev_active = w.peer.recv_ev_active
              ∧ out.1.peer.timer_ev_active = w.peer.timer_ev_active))
      ∧ ((connect_ack w.peer).1 ≠ .PRRTE_ERR_UNREACH →
          out.1.peer = { (connect_ack w.peer).2 with recv_event := false }) := by
  by_cases hu : (connect_ack w.peer).1 = .PRRTE_ERR_UNREACH
  · have e : prte_oob_tcp_recv_handler lay my_name connect_ack new_ok w stream sock
        = some ({ peer := (connect_ack w.peer).2, log := w.log }, stream, sock) := by
      unfold prte_oob_tcp_recv_handler
      simp [hst, hfail, hu]
    refine ⟨_, e, rfl, ?_, ?_, ?_, ?_⟩
    · simp [hu]
    · simp [hu]
    · intro _
      refine ⟨rfl, ?_⟩
      intro e1
      dsimp only
      rw [e1]
      exact ⟨hst, rfl, rfl, rfl, rfl, rfl⟩
    · intro h; exact absurd hu h
  · have e : prte_oob_tcp_recv_handler lay my_name connect_ack new_ok w stream sock
        = some ({ peer := { (connect_ack w.peer).2 with recv_event := false },
                  log := w.log ++ [.comm_failed] }, stream, sock) := by
      unfold prte_oob_tcp_recv_handler
      simp [hst, hfail, hu]
    refine ⟨_, e, rfl, ?_, ?_, ?_, ?_⟩
    · simp [hu]
    · simp [hu]
    · intro h; exact absurd h hu
    · intro _; rfl

/-- Claim C23 on a handshake that is refused (`PRRTE_ERR_UNREACH`): nothing is
raised and the peer still waits for the handshake. -/
theorem recv_handler_connect_ack_failure_witness :
    ∃ out, prte_oob_tcp_recv_handler ex_lay ⟨0, 7⟩ (ex_ack_fail .PRRTE_ERR_UNREACH) true
        { peer := ex_peer_ack, log := [] } [] [] = some out
      ∧ out.1.log = []
      ∧ out.1.peer = ex_peer_ack := by
  obtain ⟨out, e, -, k2, -, k4, -⟩ :=
    recv_handler_connect_ack_failure ex_lay ⟨0, 7⟩ (ex_ack_fail .PRRTE_ERR_UNREACH) true
      { peer := ex_peer_ack, log := [] } [] [] rfl (by decide)
  exact ⟨out, e, k2, (k4 rfl).1⟩

end Prrte

namespace Prrte

/-! ## `send_msg`: failed and short writes -/

/-- A `send_msg` call that ends with `PRRTE_ERR_WOULD_BLOCK` or
`PRRTE_ERR_UNREACH` leaves the request as it found it and writes nothing. -/
lemma send_msg_retry_unchanged (msg : prte_oob_tcp_send_t) :
    ∀ (sock : List WriteRes) (retries : Nat) (r : SendRes),
      send_msg_retry msg retries sock = some r →
      r.rc = .PRRTE_ERR_WOULD_BLOCK ∨ r.rc = .PRRTE_ERR_UNREACH →
      r.msg = msg ∧ r.written = [] := by
  intro sock
  induction sock with
  | nil => intro retries r hr; simp [send_msg_retry] at hr
  | cons ev rest ih =>
    intro retries r hr hrc
    cases ev with
    | accept k =>
      simp only [send_msg_retry] at hr
      split at hr
      · cases hr; simp at hrc
      · split at hr
        · cases hr; simp at hrc
        · split at hr
          · cases hr; simp at hrc
          · cases hr; simp at hrc
    | error n =>
      simp only [send_msg_retry] at hr
      split at hr
      · exact ih _ r hr hrc
      · split at hr
        · split at hr
          · exact ih _ r hr hrc
          · cases hr; exact ⟨rfl, rfl⟩
        · split at hr
          · split at hr
            · exact ih _ r hr hrc
            · cases hr; exact ⟨rfl, rfl⟩
          · cases hr
            exact ⟨rfl, rfl⟩

/-- A `send_msg` call all of whose `writev` attempts fail leaves the request as
it found it and writes nothing. -/
lemma send_msg_retry_all_fail (msg : prte_oob_tcp_send_t) :
    ∀ (sock : List WriteRes) (retries : Nat) (r : SendRes),
      send_msg_retry msg retries sock = some r →
      (∀ ev ∈ sock, ∀ k, ev ≠ .accept k) →
      r.msg = msg ∧ r.written = []
      ∧ (r.rc = .PRRTE_ERR_RESOURCE_BUSY ∨ r.rc = .PRRTE_ERR_WOULD_BLOCK
          ∨ r.rc = .PRRTE_ERR_UNREACH) := by
  intro sock
  induction sock with
  | nil => intro retries r hr; simp [send_msg_retry] at hr
  | cons ev rest ih =>
    intro retries r hr hall
    have hrest : ∀ ev ∈ rest, ∀ k, ev ≠ .accept k := fun e he => hall e (by simp [he])
    cases ev with
    | accept k => exact absurd rfl (hall (.accept k) (by simp) k)
    | error n =>
      simp only [send_msg_retry] at hr
      split at hr
      · exact ih _ r hr hrest
      · split at hr
        · split at hr
          · exact ih _ r hr hrest
          · cases hr; exact ⟨rfl, rfl, Or.inl rfl⟩
        · split at hr
          · split at hr
            · exact ih _ r hr hrest
            · cases hr; exact ⟨rfl, rfl, Or.inr (Or.inl rfl)⟩
          · cases hr
            exact ⟨rfl, rfl, Or.inr (Or.inr rfl)⟩

/-- The invariant "a request whose header is sent has at most the payload left"
is kept by every `send_msg` call. -/
lemma send_msg_retry_hdr_sent (msg : prte_oob_tcp_send_t)
    (hinv : msg.hdr_sent = true → msg.sdbytes ≤ msg.hdr_nbytes) :
    ∀ (sock : List WriteRes) (retries : Nat) (r : SendRes),
      send_msg_retry msg retries sock = some r →
      r.msg.hdr_nbytes = msg.hdr_nbytes
      ∧ (r.msg.hdr_sent = true → r.msg.sdbytes ≤ r.msg.hdr_nbytes) := by
  intro sock
  induction sock with
  | nil => intro retries r hr; simp [send_msg_retry] at hr
  | cons ev rest ih =>
    intro retries r hr
    cases ev with
    | accept k =>
      simp only [send_msg_retry] at hr
      split at hr
      · cases hr; exact ⟨rfl, fun _ => Nat.zero_le _⟩
      · split at hr
        · cases hr
          refine ⟨rfl, fun h => ?_⟩
          have := hinv h
          show msg.sdbytes - min k (iov_remain msg) ≤ msg.hdr_nbytes
          omega
        · split at hr
          · rename_i hs
            cases hr
            exact ⟨rfl, fun _ => hinv hs⟩
          · cases hr
            refine ⟨rfl, fun _ => ?_⟩
            show msg.hdr_nbytes - (min k (iov_remain msg) - msg.sdbytes) ≤ msg.hdr_nbytes
            omega
    | error n =>
      simp only [send_msg_retry] at hr
      split at hr
      · exact ih _ r hr
      · split at hr
        · split at hr
          · exact ih _ r hr
          · cases hr; exact ⟨rfl, hinv⟩
        · split at hr
          · split at hr
            · exact ih _ r hr
            · cases hr; exact ⟨rfl, hinv⟩
          · cases hr
            exact ⟨rfl, hinv⟩

/-- What a `send_msg` call writes is a prefix of the bytes of the request it was
called on. -/
lemma send_msg_retry_written (msg : prte_oob_tcp_send_t) :
    ∀ (sock : List WriteRes) (retries : Nat) (r : SendRes),
      send_msg_retry msg retries sock = some r →
      ∃ n, r.written = (iov_bytes msg).take n := by
  intro sock
  induction sock with
  | nil => intro retries r hr; simp [send_msg_retry] at hr
  | cons ev rest ih =>
    intro retries r hr
    cases ev with
    | accept k =>
      simp only [send_msg_retry] at hr
      split at hr
      · cases hr; exact ⟨_, rfl⟩
      · split at hr
        · cases hr; exact ⟨_, rfl⟩
        · split at hr
          · cases hr; exact ⟨_, rfl⟩
          · cases hr; exact ⟨_, rfl⟩
    | error n =>
      simp only [send_msg_retry] at hr
      split at hr
      · exact ih _ r hr
      · split at hr
        · split at hr
          · exact ih _ r hr
          · cases hr; exact ⟨0, by simp⟩
        · split at hr
          · split at hr
            · exact ih _ r hr
            · cases hr; exact ⟨0, by simp⟩
          · cases hr
            exact ⟨0, by simp⟩

/-- Since `EWOULDBLOCK` is `EAGAIN`, the test for `EAGAIN` takes every such
failure and no `send_msg` call returns `PRRTE_ERR_WOULD_BLOCK`. -/
lemma send_msg_retry_not_would_block (msg : prte_oob_tcp_send_t) :
    ∀ (sock : List WriteRes) (retries : Nat) (r : SendRes),
      send_msg_retry msg retries sock = some r → r.rc ≠ .PRRTE_ERR_WOULD_BLOCK := by
  intro sock
  induction sock with
  | nil => intro retries r hr; simp [send_msg_retry] at hr
  | cons ev rest ih =>
    intro retries r hr
    cases ev with
    | accept k =>
      simp only [send_msg_retry] at hr
      split at hr
      · cases hr; simp
      · split at hr
        · cases hr; simp
        · split at hr
          · cases hr; simp
          · cases hr; simp
    | error n =>
      simp only [send_msg_retry] at hr
      split at hr
      · exact ih _ r hr
      · split at hr
        · split at hr
          · exact ih _ r hr
          · cases hr; simp
        · split at hr
          · rename_i h1 h2
            exact absurd h2 h1
          · cases hr; simp

/-- A whole call of `send_msg` keeps the invariant "a request whose header is
sent has at most the payload left". -/
lemma send_msg_hdr_sent (msg : prte_oob_tcp_send_t)
    (hinv : msg.hdr_sent = true → msg.sdbytes ≤ msg.hdr_nbytes)
    (sock : List WriteRes) (r : SendRes) (hr : send_msg msg sock = some r) :
    r.msg.hdr_nbytes = msg.hdr_nbytes
      ∧ (r.msg.hdr_sent = true → r.msg.sdbytes ≤ r.msg.hdr_nbytes) := by
  rcases send_msg_cases msg sock with ⟨-, -, e⟩ | ⟨-, e⟩
  · rw [e] at hr
    cases hr
    exact ⟨rfl, hinv⟩
  · rw [e] at hr
    exact send_msg_retry_hdr_sent msg hinv sock 0 r hr

/-- A whole call of `send_msg` all of whose `writev` attempts fail. -/
lemma send_msg_all_fail (msg : prte_oob_tcp_send_t) (sock : List WriteRes) (r : SendRes)
    (hr : send_msg msg sock = some r) (hall : ∀ ev ∈ sock, ∀ k, ev ≠ .accept k) :
    r.msg = msg ∧ r.written = []
      ∧ (r.rc = .PRRTE_ERR_RESOURCE_BUSY ∨ r.rc = .PRRTE_ERR_UNREACH ∨ r.rc = .FAULT) := by
  rcases send_msg_cases msg sock with ⟨-, -, e⟩ | ⟨-, e⟩
  · rw [e] at hr
    cases hr
    exact ⟨rfl, rfl, Or.inr (Or.inr rfl)⟩
  · rw [e] at hr
    obtain ⟨a, b, c⟩ := send_msg_retry_all_fail msg sock 0 r hr hall
    refine ⟨a, b, ?_⟩
    rcases c with c | c | c
    · exact Or.inl c
    · exact absurd c (send_msg_retry_not_would_block msg sock 0 r hr)
    · exact Or.inr (Or.inl c)

/-- A whole call of `send_msg` that ends with `PRRTE_ERR_WOULD_BLOCK` or
`PRRTE_ERR_UNREACH` leaves the request as it found it and writes nothing. -/
lemma send_msg_unchanged (msg : prte_oob_tcp_send_t) (sock : List WriteRes) (r : SendRes)
    (hr : send_msg msg sock = some r)
    (hrc : r.rc = .PRRTE_ERR_WOULD_BLOCK ∨ r.rc = .PRRTE_ERR_UNREACH) :
    r.msg = msg ∧ r.written = [] := by
  rcases send_msg_cases msg sock with ⟨-, -, e⟩ | ⟨-, e⟩
  · rw [e] at hr
    cases hr
    exact ⟨rfl, rfl⟩
  · rw [e] at hr
    exact send_msg_retry_unchanged msg sock 0 r hr hrc

/-- What a whole call of `send_msg` writes is a prefix of the bytes of the
request it was called on. -/
lemma send_msg_written (msg : prte_oob_tcp_send_t) (sock : List WriteRes) (r : SendRes)
    (hr : send_msg msg sock = some r) : ∃ n, r.written = (iov_bytes msg).take n := by
  rcases send_msg_cases msg sock with ⟨-, -, e⟩ | ⟨-, e⟩
  · rw [e] at hr
    cases hr
    exact ⟨0, by simp⟩
  · rw [e] at hr
    exact send_msg_retry_written msg sock 0 r hr

end Prrte

namespace Prrte

/-- Claim C25.  A short write on a request whose header is not yet sent, with
`h = sdbytes` header bytes and `L = ntohl (hdr.nbytes)` payload bytes to go and
a `writev` that takes `k < h + L` bytes.  A request that has relay data or an
RML message gets to `writev`, and `send_msg` returns `PRRTE_ERR_RESOURCE_BUSY`
(also when the `writev` is a retry inside the call); if `k < h` the cursor moves
`k` bytes on inside the header and `hdr_sent` stays clear, otherwise `hdr_sent`
is set and the cursor stands at offset `k - h` of the payload with `L - (k - h)`
bytes to go.  In both cases the bytes still to send go down by exactly `k`.  A
request with neither relay data nor an RML message never gets a short write:
`send_msg` faults on `msg->msg->dbuf` before the `writev` and consumes no result
of the socket.  And every `send_msg` call, on any request, keeps the invariant
that a request with `hdr_sent` set has at most `L` bytes to go. -/
theorem send_msg_short_write (msg : prte_oob_tcp_send_t) (k : Nat) (rest : List WriteRes)
    (hs : msg.hdr_sent = false) (hk : k < iov_remain msg) :
    (sendable msg →
      ∃ r, send_msg msg (.accept k :: rest) = some r
        ∧ (∀ retries, send_msg_retry msg retries (.accept k :: rest) = some r)
        ∧ r.rc = .PRRTE_ERR_RESOURCE_BUSY ∧ r.rest = rest
        ∧ r.written = (iov_bytes msg).take k
        ∧ (k < msg.sdbytes →
            r.msg = { msg with sdptr := { msg.sdptr with off := msg.sdptr.off + k },
                               sdbytes := msg.sdbytes - k }
            ∧ r.msg.hdr_sent = false)
        ∧ (msg.sdbytes ≤ k →
            r.msg = { msg with hdr_sent := true,
                               sdptr := { region := .data, off := k - msg.sdbytes },
                               sdbytes := msg.hdr_nbytes - (k - msg.sdbytes) })
        ∧ iov_remain r.msg = iov_remain msg - k
        ∧ (r.msg.hdr_sent = true → r.msg.sdbytes ≤ r.msg.hdr_nbytes))
    ∧ (¬ sendable msg →
        send_msg msg (.accept k :: rest)
          = some { rc := .FAULT, msg := msg, written := [], rest := .accept k :: rest })
    ∧ (∀ (m : prte_oob_tcp_send_t) (sock : List WriteRes) (r1 : SendRes),
        (m.hdr_sent = true → m.sdbytes ≤ m.hdr_nbytes) →
        send_msg m sock = some r1 →
        r1.msg.hdr_sent = true → r1.msg.sdbytes ≤ r1.msg.hdr_nbytes) := by
  have hmin : min k (iov_remain msg) = k := Nat.min_eq_left (le_of_lt hk)
  have hne : ¬ k = iov_remain msg := by omega
  have hrem : iov_remain msg = msg.sdbytes + msg.hdr_nbytes := by simp [iov_remain, hs]
  refine ⟨?_, ?_, ?_⟩
  · intro hb
    rw [send_msg_eq msg (Or.inr hb)]
    by_cases hlt : k < msg.sdbytes
    · refine ⟨_, by simp only [send_msg_retry, hmin, hne, hlt, if_true, if_false]; rfl, ?_, rfl,
        rfl, rfl, ?_, ?_, ?_, ?_⟩
      · intro retries
        simp only [send_msg_retry, hmin, hne, hlt, if_true, if_false]
      · intro _; exact ⟨rfl, hs⟩
      · intro h; omega
      · simp only [iov_remain, hs]
        simp
        omega
      · intro h
        rw [hs] at h
        cases h
    · refine ⟨_, by simp only [send_msg_retry, hmin, hne, hlt, hs, if_false]; rfl, ?_, rfl,
        rfl, rfl, ?_, ?_, ?_, ?_⟩
      · intro retries
        simp only [send_msg_retry, hmin, hne, hlt, hs, if_false]
        rfl
      · intro h; exact absurd h hlt
      · intro _; rfl
      · simp only [iov_remain, hs]
        simp
        omega
      · intro _
        show msg.hdr_nbytes - (k - msg.sdbytes) ≤ msg.hdr_nbytes
        omega
  · intro hb
    refine send_msg_null msg hs ((iov1_base_eq_none msg).mpr ?_) _
    unfold sendable at hb
    push_neg at hb
    exact hb
  · intro m sock r1 hinv h1
    exact (send_msg_hdr_sent m hinv sock r1 h1).2

/-- Claim C25 on a request with a header of two bytes and a payload of three: a
`writev` that takes one byte leaves the cursor inside the header, one that takes
four bytes leaves it two bytes into the payload. -/
theorem send_msg_short_write_witness :
    (send_msg (ex_snd 1 [1, 2] [3, 4, 5]) [.accept 4]).map
        (fun r => (r.rc, r.msg.hdr_sent, r.msg.sdptr, r.msg.sdbytes, r.written))
      = some (.PRRTE_ERR_RESOURCE_BUSY, true, { region := .data, off := 2 }, 1, [1, 2, 3, 4])
    ∧ ∃ r, send_msg (ex_snd 1 [1, 2] [3, 4, 5]) [.accept 1] = some r
      ∧ r.rc = .PRRTE_ERR_RESOURCE_BUSY
      ∧ r.msg.sdptr = { region := .hdr, off := 1 } ∧ r.msg.sdbytes = 1
      ∧ r.msg.hdr_sent = false := by
  obtain ⟨r, e, -, k1, -, -, k4, -⟩ :=
    (send_msg_short_write (ex_snd 1 [1, 2] [3, 4, 5]) 1 [] rfl (by decide)).1
      (Or.inr (by decide))
  obtain ⟨a1, a2⟩ := k4 (by decide)
  refine ⟨by decide, r, e, k1, ?_, ?_, a2⟩
  · rw [a1]; rfl
  · rw [a1]; rfl

/-- Claim C26, the claim as stated fails: three `writev` failures with
`EWOULDBLOCK` in a row end the `send_msg` call with `PRRTE_ERR_RESOURCE_BUSY`,
not with `PRRTE_ERR_WOULD_BLOCK`; `EWOULDBLOCK` is the same number as `EAGAIN`,
and the call tests `errno == EAGAIN` first. -/
theorem send_msg_ewouldblock_returns_busy :
    EWOULDBLOCK = EAGAIN
    ∧ send_msg (ex_snd 1 [1, 2] [3])
          [.error EWOULDBLOCK, .error EWOULDBLOCK, .error EWOULDBLOCK]
        = some { rc := .PRRTE_ERR_RESOURCE_BUSY, msg := ex_snd 1 [1, 2] [3], written := [],
                 rest := [] }
    ∧ (send_msg (ex_snd 1 [1, 2] [3])
          [.error EWOULDBLOCK, .error EWOULDBLOCK, .error EWOULDBLOCK]).map (fun r => r.rc)
        ≠ some .PRRTE_ERR_WOULD_BLOCK := by
  decide

/-- Claim C26, amended.  Failed writes in `send_msg`, for a request that gets to
`writev` (its header is sent, or it has relay data or an RML message): three
failures with `EAGAIN`, which is also the value of `EWOULDBLOCK`, end the call
with `PRRTE_ERR_RESOURCE_BUSY` after exactly three attempts (two are not enough
for the call to return, and the results after the third are left to the next
call); no call returns `PRRTE_ERR_WOULD_BLOCK`; a failure with `EINTR` is retried
without being counted; and a call that returns after failed writes only returns
`PRRTE_ERR_RESOURCE_BUSY` or `PRRTE_ERR_UNREACH` and leaves the request, and so
its cursor and `hdr_sent`, as it found it and writes nothing.  A request with
its header unsent and neither relay data nor an RML message makes no attempt:
the call faults before the first `writev`, with the request as it was. -/
theorem send_msg_failed_writes (msg : prte_oob_tcp_send_t) :
    (msg.hdr_sent = true ∨ sendable msg →
      (∀ rest : List WriteRes,
        send_msg msg (.error EAGAIN :: .error EAGAIN :: .error EAGAIN :: rest)
          = some { rc := .PRRTE_ERR_RESOURCE_BUSY, msg := msg, written := [], rest := rest })
      ∧ send_msg msg [.error EAGAIN, .error EAGAIN] = none
      ∧ (∀ rest : List WriteRes,
        send_msg msg (.error EWOULDBLOCK :: .error EWOULDBLOCK :: .error EWOULDBLOCK :: rest)
          = some { rc := .PRRTE_ERR_RESOURCE_BUSY, msg := msg, written := [], rest := rest })
      ∧ send_msg msg [.error EWOULDBLOCK, .error EAGAIN] = none
      ∧ (∀ sock : List WriteRes, send_msg msg (.error EINTR :: sock) = send_msg msg sock))
    ∧ (∀ (n : Nat) (sock : List WriteRes),
        send_msg_retry msg n (.error EINTR :: sock) = send_msg_retry msg n sock)
    ∧ (∀ (sock : List WriteRes) (r : SendRes),
        send_msg msg sock = some r → r.rc ≠ .PRRTE_ERR_WOULD_BLOCK)
    ∧ (∀ (sock : List WriteRes) (r : SendRes),
        send_msg msg sock = some r → (∀ ev ∈ sock, ∀ k, ev ≠ .accept k) →
        r.msg = msg ∧ r.written = []
        ∧ (r.rc = .PRRTE_ERR_RESOURCE_BUSY ∨ r.rc = .PRRTE_ERR_UNREACH ∨ r.rc = .FAULT))
    ∧ (∀ (sock : List WriteRes) (r : SendRes),
        send_msg msg sock = some r → r.rc = .PRRTE_ERR_UNREACH →
        r.msg = msg ∧ r.written = [])
    ∧ (msg.hdr_sent = false → ¬ sendable msg → ∀ sock : List WriteRes,
        send_msg msg sock = some { rc := .FAULT, msg := msg, written := [], rest := sock }) := by
  refine ⟨?_, ?_, ?_, ?_, ?_, ?_⟩
  · intro hb
    refine ⟨?_, ?_, ?_, ?_, ?_⟩
    · intro rest
      rw [send_msg_eq msg hb]
      simp [send_msg_retry, OOB_SEND_MAX_RETRIES, EAGAIN, EINTR]
    · rw [send_msg_eq msg hb]
      simp [send_msg_retry, OOB_SEND_MAX_RETRIES, EAGAIN, EINTR]
    · intro rest
      rw [send_msg_eq msg hb]
      simp [send_msg_retry, OOB_SEND_MAX_RETRIES, EWOULDBLOCK, EAGAIN, EINTR]
    · rw [send_msg_eq msg hb]
      simp [send_msg_retry, OOB_SEND_MAX_RETRIES, EWOULDBLOCK, EAGAIN, EINTR]
    · intro sock
      rw [send_msg_eq msg hb, send_msg_eq msg hb]
      simp only [send_msg_retry, if_true]
  · intro n sock
    simp only [send_msg_retry, if_true]
  · intro sock r hr
    rcases send_msg_cases msg sock with ⟨-, -, e⟩ | ⟨-, e⟩
    · rw [e] at hr
      cases hr
      simp
    · rw [e] at hr
      exact send_msg_retry_not_would_block msg sock 0 r hr
  · intro sock r hr hall
    exact send_msg_all_fail msg sock r hr hall
  · intro sock r hr hrc
    rcases send_msg_cases msg sock with ⟨-, -, e⟩ | ⟨-, e⟩
    · rw [e] at hr
      cases hr
      exact ⟨rfl, rfl⟩
    · rw [e] at hr
      exact send_msg_retry_unchanged msg sock 0 r hr (Or.inr hrc)
  · intro hs hb sock
    refine send_msg_null msg hs ((iov1_base_eq_none msg).mpr ?_) sock
    unfold sendable at hb
    push_neg at hb
    exact hb

/-- Claim C26, amended, on a call interrupted twice between three `EAGAIN`: the
call ends on the third `EAGAIN` with the request untouched; and a call whose
only attempt fails with `EPIPE` after an interrupt returns `PRRTE_ERR_UNREACH`
with the request untouched. -/
theorem send_msg_failed_writes_witness :
    send_msg (ex_snd 1 [1, 2] [3])
        [.error EAGAIN, .error EINTR, .error EAGAIN, .error EINTR, .error EAGAIN, .accept 3]
      = some { rc := .PRRTE_ERR_RESOURCE_BUSY, msg := ex_snd 1 [1, 2] [3], written := [],
               rest := [.accept 3] }
    ∧ send_msg (ex_snd 1 [1, 2] [3]) (.error EAGAIN :: .error EAGAIN :: .error EAGAIN :: [])
      = some { rc := .PRRTE_ERR_RESOURCE_BUSY, msg := ex_snd 1 [1, 2] [3], written := [],
               rest := [] }
    ∧ ∃ r, send_msg (ex_snd 1 [1, 2] [3]) [.error EINTR, .error 32] = some r
      ∧ r.msg = ex_snd 1 [1, 2] [3] ∧ r.written = [] ∧ r.rc = .PRRTE_ERR_UNREACH :=
  ⟨by decide,
    ((send_msg_failed_writes (ex_snd 1 [1, 2] [3])).1 (Or.inr (Or.inr (by decide)))).1 [],
    _, rfl,
    ((send_msg_failed_writes (ex_snd 1 [1, 2] [3])).2.2.2.2.1 [.error EINTR, .error 32] _ rfl
      rfl).1,
    rfl, rfl⟩

end Prrte

namespace Prrte

/-! ## Fatal peer errors -/

/-- The send handler leaves the state of the peer alone, except through
`prte_oob_tcp_peer_complete_connect`. -/
lemma send_handler_state (cc : prte_oob_tcp_peer_t → prte_oob_tcp_peer_t) (w : World)
    (sock : List WriteRes) (out : World × List WriteRes)
    (h : prte_oob_tcp_send_handler cc w sock = some out) :
    out.1.peer.state = w.peer.state ∨ out.1.peer.state = (cc w.peer).state := by
  unfold prte_oob_tcp_send_handler at h
  dsimp only at h
  split at h
  · cases h
    right
    dsimp only
    split <;> rfl
  · cases h
    right
    dsimp only
    split <;> rfl
  · split at h
    · cases h
      left
      simp only [send_idle_check]
      split <;> rfl
    · split at h
      · cases h
      · split at h
        · cases h
          left
          simp only [send_idle_check, promote_next]
          split <;> rfl
        · split at h
          · cases h; left; rfl
          · split at h
            · cases h; left; rfl
            · split at h
              · cases h; left; rfl
              · cases h; left; rfl
  · cases h
    left
    dsimp only
    split <;> rfl

/-- The receive handler sets the state of the peer to `CONNECTED` or `CLOSED`, or
leaves it as it is or as the handshake left it. -/
lemma recv_handler_state (lay : HdrLayout) (my_name : ProcId)
    (connect_ack : prte_oob_tcp_peer_t → Status × prte_oob_tcp_peer_t) (new_ok : Bool)
    (w : World) (stream : List Byte) (sock : List ReadRes)
    (out : World × List Byte × List ReadRes)
    (h : prte_oob_tcp_recv_handler lay my_name connect_ack new_ok w stream sock = some out) :
    out.1.peer.state = w.peer.state ∨ out.1.peer.state = (connect_ack w.peer).2.state
      ∨ out.1.peer.state = .MCA_OOB_TCP_CONNECTED ∨ out.1.peer.state = .MCA_OOB_TCP_CLOSED := by
  by_cases hc : w.peer.state = .MCA_OOB_TCP_CONNECTED
  · rcases recv_handler_connected_side lay my_name connect_ack new_ok w stream sock out hc h
      with ⟨a, -⟩ | ⟨a, -⟩
    · exact Or.inl a
    · exact Or.inr (Or.inr (Or.inr a))
  · unfold prte_oob_tcp_recv_handler at h
    dsimp only at h
    split at h
    · split at h
      · cases h
        exact Or.inr (Or.inr (Or.inl rfl))
      · split at h
        · cases h; exact Or.inr (Or.inl rfl)
        · cases h; exact Or.inr (Or.inl rfl)
    · rename_i hs
      exact absurd hs hc
    · cases h
      exact Or.inl rfl

/-- Claim C21, the claim as stated fails: after a fatal write error in the send
handler on a `CONNECTED` peer, and after a handshake failure other than
`PRRTE_ERR_UNREACH` in the receive handler on a `CONNECT_ACK` peer,
`PRTE_JOB_STATE_COMM_FAILED` is activated but the state of the peer is still
`CONNECTED`, respectively `CONNECT_ACK`, and not `FAILED`. -/
theorem fatal_error_state_not_failed :
    (prte_oob_tcp_send_handler ex_cc { peer := ex_peer_sending, log := [] } [.error 32]).map
        (fun out => (out.1.peer.state, decide (Event.comm_failed ∈ out.1.log)))
      = some (.MCA_OOB_TCP_CONNECTED, true)
    ∧ (prte_oob_tcp_recv_handler ex_lay ⟨0, 8⟩ (ex_ack_fail .PRRTE_ERR_COMM_FAILURE) true
          { peer := ex_peer_ack, log := [] } [] []).map
        (fun out => (out.1.peer.state, decide (Event.comm_failed ∈ out.1.log)))
      = some (.MCA_OOB_TCP_CONNECT_ACK, true) := by
  constructor <;> decide

/-- Claim C21, amended: a fatal peer error activates
`PRTE_JOB_STATE_COMM_FAILED` and leaves the state of the peer to others.  When
`send_msg` returns `PRRTE_ERR_UNREACH` for the on-deck request of a `CONNECTED`
peer (a request of the RML), the send handler reports the request with that
status, releases it, deletes the send event, activates `COMM_FAILED` and returns
with the peer still `CONNECTED`.  When the handshake of a `CONNECT_ACK` peer
fails with a status other than `PRRTE_ERR_UNREACH`, the receive handler deletes
the receive event, activates `COMM_FAILED` and returns with the state the
handshake left.  No callback of the file sets the state `FAILED`: a peer that is
`FAILED` when `queue_msg`, the send handler or the receive handler returns was
`FAILED` before, or was made so by `prte_oob_tcp_peer_complete_connect` or
`prte_oob_tcp_peer_recv_connect_ack`. -/
theorem fatal_error_raises_comm_failed (cc : prte_oob_tcp_peer_t → prte_oob_tcp_peer_t)
    (lay : HdrLayout) (my_name : ProcId)
    (connect_ack : prte_oob_tcp_peer_t → Status × prte_oob_tcp_peer_t) (new_ok : Bool)
    (w : World) :
    (∀ (sock : List WriteRes) (msg : prte_oob_tcp_send_t) (m : Nat) (r : SendRes),
      w.peer.state = .MCA_OOB_TCP_CONNECTED → w.peer.send_msg = some msg →
      msg.msg = some m → send_msg msg sock = some r → r.rc = .PRRTE_ERR_UNREACH →
      prte_oob_tcp_send_handler cc w sock
        = some ({ peer := { w.peer with send_msg := none, send_event := false },
                  log := w.log ++ [.send_complete m .PRRTE_ERR_UNREACH, .release_snd msg,
                                   .comm_failed] }, r.rest))
    ∧ (∀ (stream : List Byte) (sock : List ReadRes),
      w.peer.state = .MCA_OOB_TCP_CONNECT_ACK →
      (connect_ack w.peer).1 ≠ .PRRTE_SUCCESS → (connect_ack w.peer).1 ≠ .PRRTE_ERR_UNREACH →
      prte_oob_tcp_recv_handler lay my_name connect_ack new_ok w stream sock
        = some ({ peer := { (connect_ack w.peer).2 with recv_event := false },
                  log := w.log ++ [.comm_failed] }, stream, sock))
    ∧ (∀ snd : prte_oob_tcp_send_t,
      (prte_oob_tcp_queue_msg w snd).peer.state = .MCA_OOB_TCP_FAILED →
      w.peer.state = .MCA_OOB_TCP_FAILED)
    ∧ (∀ (sock : List WriteRes) (out : World × List WriteRes),
      prte_oob_tcp_send_handler cc w sock = some out →
      out.1.peer.state = .MCA_OOB_TCP_FAILED →
      w.peer.state = .MCA_OOB_TCP_FAILED ∨ (cc w.peer).state = .MCA_OOB_TCP_FAILED)
    ∧ (∀ (stream : List Byte) (sock : List ReadRes) (out : World × List Byte × List ReadRes),
      prte_oob_tcp_recv_handler lay my_name connect_ack new_ok w stream sock = some out →
      out.1.peer.state = .MCA_OOB_TCP_FAILED →
      w.peer.state = .MCA_OOB_TCP_FAILED
        ∨ (connect_ack w.peer).2.state = .MCA_OOB_TCP_FAILED) := by
  refine ⟨?_, ?_, ?_, ?_, ?_⟩
  · intro sock msg m r hst hm hmsg hr hrc
    obtain ⟨e1, e2⟩ := send_msg_unchanged msg sock r hr (Or.inr hrc)
    have hmsg1 : r.msg.msg = some m := by rw [e1]; exact hmsg
    unfold prte_oob_tcp_send_handler
    simp only [hst, hm, hr, hrc, hmsg1, e2]
    simp [e1]
  · intro stream sock hst h1 h2
    unfold prte_oob_tcp_recv_handler
    simp [hst, h1, h2]
  · intro snd h
    unfold prte_oob_tcp_queue_msg at h
    dsimp only at h
    split at h
    · split at h
      · cases h
      · split at h
        · revert h; split <;> exact id
        · revert h; split <;> exact id
    · revert h; split <;> exact id
  · intro sock out h hf
    rcases send_handler_state cc w sock out h with e | e
    · exact Or.inl (e ▸ hf)
    · exact Or.inr (e ▸ hf)
  · intro stream sock out h hf
    rcases recv_handler_state lay my_name connect_ack new_ok w stream sock out h
      with e | e | e | e
    · exact Or.inl (e ▸ hf)
    · exact Or.inr (e ▸ hf)
    · rw [e] at hf; cases hf
    · rw [e] at hf; cases hf

/-- Claim C21, amended, on a peer whose on-deck request meets `EPIPE`: the
request is reported and released, `COMM_FAILED` is activated and the peer stays
`CONNECTED`. -/
theorem fatal_error_raises_comm_failed_witness :
    prte_oob_tcp_send_handler ex_cc { peer := ex_peer_sending, log := [] } [.error 32]
      = some ({ peer := { ex_peer_sending with send_msg := none, send_event := false },
                log := [.send_complete 1 .PRRTE_ERR_UNREACH, .release_snd (ex_snd 1 [1, 2] [3]),
                        .comm_failed] }, []) :=
  (fatal_error_raises_comm_failed ex_cc ex_lay ⟨0, 8⟩ ex_ack true
      { peer := ex_peer_sending, log := [] }).1
    [.error 32] (ex_snd 1 [1, 2] [3]) 1
    { rc := .PRRTE_ERR_UNREACH, msg := ex_snd 1 [1, 2] [3], written := [], rest := [] }
    rfl rfl rfl (by decide) rfl

end Prrte

namespace Prrte

/-! ## One callback of the send handler -/

/-- The log after the `writev` of one `send_msg` call. -/
lemma log1_append (log : List Event) (b : List Byte) :
    (if b = [] then log else log ++ [.writev b])
      = log ++ (if b = [] then [] else [Event.writev b]) := by
  split <;> simp

/-- What the `writev` of one `send_msg` call adds to the log. -/
lemma log1_counts (b : List Byte) (tl : List Event) :
    wire ((if b = [] then [] else [Event.writev b]) ++ tl) = b ++ wire tl
    ∧ completed ((if b = [] then [] else [Event.writev b]) ++ tl) = completed tl
    ∧ released ((if b = [] then [] else [Event.writev b]) ++ tl) = released tl
    ∧ (((if b = [] then [] else [Event.writev b]) ++ tl).filter is_writev).length
        ≤ 1 + (tl.filter is_writev).length := by
  by_cases hb : b = []
  · simp [hb]
  · simp [hb, wire, completed, released, is_writev, List.filter]
    omega

/-- Claim C27.  One callback of the send handler calls `send_msg` at most once
and completes at most one request: the callback adds at most one `writev`, one
`PRTE_RML_SEND_COMPLETE` and one release to the log.  On a `CONNECTED` peer
with an on-deck request the socket results used and the bytes written are those
of one `send_msg` call on that request, a prefix of what it still has to send;
when the call returns success the head of the queue, if there is one, becomes
the on-deck request as it was queued, none of its bytes being written, and the
send event stays as it was, and if the queue is empty the send event is
deactivated.  In every other case `send_msg` is not called and nothing is
written, completed or released. -/
theorem send_handler_one_request (cc : prte_oob_tcp_peer_t → prte_oob_tcp_peer_t) (w : World)
    (sock : List WriteRes) (out : World × List WriteRes)
    (h : prte_oob_tcp_send_handler cc w sock = some out) :
    ∃ evs, out.1.log = w.log ++ evs
      ∧ (evs.filter is_writev).length ≤ 1
      ∧ (completed evs).length ≤ 1 ∧ (released evs).length ≤ 1
      ∧ ((∃ msg r, w.peer.state = .MCA_OOB_TCP_CONNECTED ∧ w.peer.send_msg = some msg
            ∧ send_msg msg sock = some r ∧ out.2 = r.rest
            ∧ wire evs = r.written ∧ (∃ n, r.written = (iov_bytes msg).take n)
            ∧ (r.rc = .PRRTE_SUCCESS →
                released evs = [r.msg]
                ∧ out.1.peer.send_msg = w.peer.send_queue.head?
                ∧ out.1.peer.send_queue = w.peer.send_queue.tail
                ∧ (w.peer.send_queue ≠ [] →
                    out.1.peer.send_ev_active = w.peer.send_ev_active
                    ∧ out.1.peer.send_event = w.peer.send_event)
                ∧ (w.peer.send_queue = [] →
                    out.1.peer.send_msg = none ∧ out.1.peer.send_ev_active = false
                    ∧ (w.peer.send_ev_active = true → out.1.peer.send_event = false)))
            ∧ (r.rc ≠ .PRRTE_SUCCESS → out.1.peer.send_queue = w.peer.send_queue))
          ∨ ((w.peer.state ≠ .MCA_OOB_TCP_CONNECTED ∨ w.peer.send_msg = none)
              ∧ out.2 = sock ∧ wire evs = [] ∧ completed evs = [] ∧ released evs = [])) := by
  have hq : (send_idle_check (promote_next { w.peer with send_msg := none })).send_msg
        = w.peer.send_queue.head?
      ∧ (send_idle_check (promote_next { w.peer with send_msg := none })).send_queue
        = w.peer.send_queue.tail
      ∧ (w.peer.send_queue ≠ [] →
          (send_idle_check (promote_next { w.peer with send_msg := none })).send_ev_active
            = w.peer.send_ev_active
          ∧ (send_idle_check (promote_next { w.peer with send_msg := none })).send_event
            = w.peer.send_event)
      ∧ (w.peer.send_queue = [] →
          (send_idle_check (promote_next { w.peer with send_msg := none })).send_msg = none
          ∧ (send_idle_check
              (promote_next { w.peer with send_msg := none })).send_ev_active = false
          ∧ (w.peer.send_ev_active = true →
              (send_idle_check
                (promote_next { w.peer with send_msg := none })).send_event = false)) := by
    cases hqq : w.peer.send_queue with
    | nil =>
      cases ha : w.peer.send_ev_active <;>
        simp [send_idle_check, promote_next, hqq, ha]
    | cons q qs => simp [send_idle_check, promote_next, hqq]
  have fin : ∀ (r : SendRes) (P : prte_oob_tcp_peer_t) (tl : List Event),
      (tl.filter is_writev).length = 0 → (completed tl).length ≤ 1 →
      (released tl).length ≤ 1 → wire tl = [] →
      some (({ peer := P,
               log := (w.log ++ (if r.written = [] then [] else [Event.writev r.written]))
                        ++ tl } : World), r.rest) = some out →
      ∃ evs, out.1.log = w.log ++ evs
        ∧ (evs.filter is_writev).length ≤ 1
        ∧ (completed evs).length ≤ 1 ∧ (released evs).length ≤ 1
        ∧ wire evs = r.written ∧ released evs = released tl
        ∧ out.2 = r.rest ∧ out.1.peer = P := by
    intro r P tl t1 t2 t3 t4 ho
    cases ho
    obtain ⟨c1, c2, c3, c4⟩ := log1_counts r.written tl
    refine ⟨(if r.written = [] then [] else [Event.writev r.written]) ++ tl,
      by simp, ?_, ?_, ?_, ?_, c3, rfl, rfl⟩
    · omega
    · rw [c2]; exact t2
    · rw [c3]; exact t3
    · rw [c1, t4]; simp
  unfold prte_oob_tcp_send_handler at h
  dsimp only at h
  split at h
  · cases h
    exact ⟨[.complete_connect], rfl, by simp [is_writev, List.filter], by simp [completed],
      by simp [released], Or.inr ⟨Or.inl (by simp [*]), rfl, rfl, rfl, rfl⟩⟩
  · cases h
    exact ⟨[.complete_connect], rfl, by simp [is_writev, List.filter], by simp [completed],
      by simp [released], Or.inr ⟨Or.inl (by simp [*]), rfl, rfl, rfl, rfl⟩⟩
  · rename_i hst
    split at h
    · rename_i hm
      cases h
      exact ⟨[], by simp, by simp, by simp [completed], by simp [released],
        Or.inr ⟨Or.inr hm, rfl, rfl, rfl, rfl⟩⟩
    · rename_i msg hm
      split at h
      · cases h
      · rename_i r hr
        obtain ⟨n, hn⟩ := send_msg_written msg sock r hr
        simp only [log1_append] at h
        split at h
        · rename_i hrc
          have hfin : ∃ evs, out.1.log = w.log ++ evs
                ∧ (evs.filter is_writev).length ≤ 1
                ∧ (completed evs).length ≤ 1 ∧ (released evs).length ≤ 1
                ∧ wire evs = r.written ∧ released evs = [r.msg]
                ∧ out.2 = r.rest
                ∧ out.1.peer
                    = send_idle_check (promote_next { w.peer with send_msg := none }) := by
            split at h
            · exact fin r _ [.release_snd r.msg] rfl (by simp [completed])
                (by simp [released]) rfl h
            · split at h
              · rename_i m _
                exact fin r _ [.send_complete m .PRRTE_SUCCESS, .release_snd r.msg] rfl
                  (by simp [completed]) (by simp [released]) rfl h
              · exact fin r _ [.release_snd r.msg] rfl (by simp [completed])
                  (by simp [released]) rfl h
          obtain ⟨evs, f1, f2, f3, f4, f5, f6, f7, f8⟩ := hfin
          refine ⟨evs, f1, f2, f3, f4, Or.inl ⟨msg, r, hst, hm, hr, f7, f5, ⟨n, hn⟩, ?_, ?_⟩⟩
          · intro _
            rw [f8]
            exact ⟨f6, hq⟩
          · intro hne
            exact absurd hrc hne
        · rename_i hrc
          have hfin : ∃ evs, out.1.log = w.log ++ evs
                ∧ (evs.filter is_writev).length ≤ 1
                ∧ (completed evs).length ≤ 1 ∧ (released evs).length ≤ 1
                ∧ wire evs = r.written
                ∧ out.2 = r.rest ∧ out.1.peer.send_queue = w.peer.send_queue := by
            split at h
            · rw [← List.append_nil
                (w.log ++ (if r.written = [] then [] else [Event.writev r.written]))] at h
              obtain ⟨evs, f1, f2, f3, f4, f5, -, f7, f8⟩ :=
                fin r _ [] rfl (by simp [completed]) (by simp [released]) rfl h
              exact ⟨evs, f1, f2, f3, f4, f5, f7, by rw [f8]⟩
            · split at h
              · obtain ⟨evs, f1, f2, f3, f4, f5, -, f7, f8⟩ :=
                  fin r _ [.fault] rfl (by simp [completed]) (by simp [released]) rfl h
                exact ⟨evs, f1, f2, f3, f4, f5, f7, by rw [f8]⟩
              · split at h
                · obtain ⟨evs, f1, f2, f3, f4, f5, -, f7, f8⟩ :=
                    fin r _ [.fault] rfl (by simp [completed]) (by simp [released]) rfl h
                  exact ⟨evs, f1, f2, f3, f4, f5, f7, by rw [f8]⟩
                · rename_i m _
                  obtain ⟨evs, f1, f2, f3, f4, f5, -, f7, f8⟩ :=
                    fin r _ [.send_complete m r.rc, .release_snd r.msg, .comm_failed] rfl
                      (by simp [completed]) (by simp [released]) rfl h
                  exact ⟨evs, f1, f2, f3, f4, f5, f7, by rw [f8]⟩
          obtain ⟨evs, f1, f2, f3, f4, f5, f7, f8⟩ := hfin
          refine ⟨evs, f1, f2, f3, f4, Or.inl ⟨msg, r, hst, hm, hr, f7, f5, ⟨n, hn⟩, ?_, ?_⟩⟩
          · intro hh
            exact absurd hh hrc
          · intro _
            exact f8
  · rename_i hn1 hn2 hn3
    cases h
    exact ⟨[], by simp, by simp, by simp [completed], by simp [released],
      Or.inr ⟨Or.inl hn3, rfl, rfl, rfl, rfl⟩⟩

/-- Claim C27 on a peer with one request on deck and one in the queue: the
callback writes the three bytes of the first, completes and releases it, and
puts the second on deck untouched with the send event still active; the second
`writev` result is left for the next callback. -/
theorem send_handler_one_request_witness :
    ∃ out, prte_oob_tcp_send_handler ex_cc { peer := ex_peer_sending, log := [] }
        [.accept 3, .accept 3] = some out
      ∧ out.2 = [.accept 3]
      ∧ out.1.peer.send_msg = some (ex_snd 2 [5, 6] [7]) ∧ out.1.peer.send_queue = []
      ∧ out.1.peer.send_ev_active = true
      ∧ wire out.1.log = [1, 2, 3] ∧ completed out.1.log = [1]
      ∧ ∃ evs, out.1.log = [] ++ evs
          ∧ (evs.filter is_writev).length ≤ 1
          ∧ (completed evs).length ≤ 1 ∧ (released evs).length ≤ 1 :=
  ⟨_, rfl, by decide, by decide, by decide, by decide, by decide, by decide,
    (send_handler_one_request ex_cc { peer := ex_peer_sending, log := [] }
      [.accept 3, .accept 3] _ rfl).imp (fun _ h => ⟨h.1, h.2.1, h.2.2.1, h.2.2.2.1⟩)⟩

end Prrte

namespace Prrte

/-! ## A read that returns zero -/

/-- Closing a peer does not look at its receive buffer. -/
lemma peer_close_recv_msg (p : prte_oob_tcp_peer_t) (x : Option prte_oob_tcp_recv_t) :
    prte_oob_tcp_peer_close { p with recv_msg := x } = prte_oob_tcp_peer_close p := rfl

/-- A call of `read_bytes` that returns success has only stored what it read. -/
lemma read_bytes_success_trace : ∀ (sock : List ReadRes) (w : World) (stream : List Byte)
    (r : ReadOut), read_bytes sock w stream = some r → r.rc = .PRRTE_SUCCESS →
    r.w.peer = { w.peer with recv_msg := r.w.peer.recv_msg }
      ∧ ∃ reads : List (List Byte), r.w.log = w.log ++ reads.map Event.read := by
  intro sock
  induction sock with
  | nil =>
    intro w stream r hr hrc
    cases hrm : w.peer.recv_msg with
    | none =>
      simp only [read_bytes, hrm, Option.some.injEq] at hr
      subst hr
      cases hrc
    | some rm =>
      simp only [read_bytes, hrm] at hr
      split at hr
      · cases hr
        exact ⟨rfl, [], by simp⟩
      · cases hr
  | cons ev rest ih =>
    intro w stream r hr hrc
    cases hrm : w.peer.recv_msg with
    | none =>
      simp only [read_bytes, hrm, Option.some.injEq] at hr
      subst hr
      cases hrc
    | some rm =>
      simp only [read_bytes, hrm] at hr
      split at hr
      · cases hr
        exact ⟨rfl, [], by simp⟩
      · cases ev with
        | error n =>
          dsimp only at hr
          split at hr
          · exact ih w stream r hr hrc
          · split at hr
            · cases hr; cases hrc
            · split at hr
              · cases hr; cases hrc
              · cases hr; cases hrc
        | chunk k =>
          dsimp only at hr
          split at hr
          · cases hr; cases hrc
          · obtain ⟨h1, reads, h2⟩ := ih _ _ r hr hrc
            refine ⟨?_, (stream.take (min k (min rm.rdbytes stream.length))) :: reads, ?_⟩
            · rw [h1]
            · rw [h2]
              simp

/-- A call of `read_bytes` whose loop comes to a `read` that returns zero:
the call returns `PRRTE_ERR_WOULD_BLOCK` after it released the receive buffer and
closed the peer. -/
lemma read_bytes_closed : ∀ (sock : List ReadRes) (w : World) (stream : List Byte)
    (rm : prte_oob_tcp_recv_t), w.peer.recv_msg = some rm →
    zero_read_at sock rm.rdbytes stream.length = true →
    ∃ (r : ReadOut) (reads : List (List Byte)),
      read_bytes sock w stream = some r ∧ r.rc = .PRRTE_ERR_WOULD_BLOCK
      ∧ r.w.peer = prte_oob_tcp_peer_close w.peer
      ∧ r.w.log = w.log ++ reads.map Event.read ++ [.release_recv, .peer_close] := by
  intro sock
  induction sock with
  | nil =>
    intro w stream rm _ hz
    simp [zero_read_at] at hz
  | cons ev rest ih =>
    intro w stream rm hrm hz
    simp only [zero_read_at] at hz
    split at hz
    · cases hz
    · rename_i hne
      cases ev with
      | error n =>
        dsimp only at hz
        split at hz
        · rename_i hn
          obtain ⟨r, reads, h1, h2, h3, h4⟩ := ih w stream rm hrm hz
          refine ⟨r, reads, ?_, h2, h3, h4⟩
          simp only [read_bytes, hrm, hne, if_false, hn, if_true]
          exact h1
        · cases hz
      | chunk k =>
        dsimp only at hz
        split at hz
        · rename_i h0
          refine ⟨_, [], by simp only [read_bytes, hrm, hne, if_false, h0, if_true]; rfl, rfl,
            rfl, ?_⟩
          simp [read_closed, hrm]
        · rename_i h0
          have hlen : (stream.take (min k (min rm.rdbytes stream.length))).length
              = min k (min rm.rdbytes stream.length) := by
            rw [List.length_take]; omega
          obtain ⟨r, reads, h1, h2, h3, h4⟩ :=
            ih { peer := { w.peer with
                    recv_msg := some (recv_store rm
                      (stream.take (min k (min rm.rdbytes stream.length)))) },
                 log := w.log ++ [.read (stream.take (min k (min rm.rdbytes stream.length)))] }
               (stream.drop (min k (min rm.rdbytes stream.length)))
               (recv_store rm (stream.take (min k (min rm.rdbytes stream.length)))) rfl
               (by rw [(recv_store_fields rm _).2.1, hlen, List.length_drop]; exact hz)
          refine ⟨r, (stream.take (min k (min rm.rdbytes stream.length))) :: reads, ?_, h2,
            ?_, ?_⟩
          · simp only [read_bytes, hrm, hne, if_false, h0]
            exact h1
          · rw [h3]; rfl
          · rw [h4]; simp

/-- The events of a closing read: none hands a message on and none is
`COMM_FAILED`. -/
lemma closed_events_quiet (reads : List (List Byte)) :
    ∀ e ∈ reads.map Event.read ++ [Event.release_recv, Event.peer_close],
      is_dispatch e = false ∧ e ≠ Event.comm_failed := by
  intro e he
  rcases List.mem_append.mp he with h | h
  · obtain ⟨b, -, rfl⟩ := List.mem_map.mp h
    exact ⟨rfl, by intro h; cases h⟩
  · simp only [List.mem_cons, List.mem_singleton, List.not_mem_nil, or_false] at h
    rcases h with rfl | rfl
    · exact ⟨rfl, by intro h; cases h⟩
    · exact ⟨rfl, by intro h; cases h⟩

/-- The payload part of the handler when its read returns zero. -/
lemma recv_payload_closed (my_name : ProcId) (w : World) (stream : List Byte)
    (sock : List ReadRes) (rm : prte_oob_tcp_recv_t) (hrm : w.peer.recv_msg = some rm)
    (hz : zero_read_at sock rm.rdbytes stream.length = true) :
    ∃ (out : World × List Byte × List ReadRes) (reads : List (List Byte)),
      recv_payload my_name w stream sock = some out
      ∧ out.1.peer = prte_oob_tcp_peer_close w.peer
      ∧ out.1.log = w.log ++ reads.map Event.read ++ [.release_recv, .peer_close] := by
  obtain ⟨r, reads, h1, h2, h3, h4⟩ := read_bytes_closed sock w stream rm hrm hz
  refine ⟨(r.w, r.stream, r.rest), reads, ?_, h3, h4⟩
  simp [recv_payload, h1, h2]

end Prrte

namespace Prrte

/-- Claim C28.  A `read` that returns zero on a `CONNECTED` peer with a receive
in progress: `read_bytes` returns `PRRTE_ERR_WOULD_BLOCK`, and whether the zero
comes in the read of the payload, in the read of the header, or in the read of
the payload that follows the completion of the header in the same callback, the
receive handler returns with the peer closed: the three event flags are clear
and no event is registered, `recv_msg` is `NULL`, the state is `CLOSED`, and
the events of the callback are reads, the release of the receive buffer and the
close of the peer, so that no message was handed on and `COMM_FAILED` was not
activated. -/
theorem recv_zero_read_closes_peer (lay : HdrLayout) (my_name : ProcId)
    (connect_ack : prte_oob_tcp_peer_t → Status × prte_oob_tcp_peer_t) (new_ok : Bool)
    (w : World) (stream : List Byte) (sock : List ReadRes) (rm0 : prte_oob_tcp_recv_t)
    (hst : w.peer.state = .MCA_OOB_TCP_CONNECTED) (hrm : w.peer.recv_msg = some rm0) :
    (zero_read_at sock rm0.rdbytes stream.length = true →
      ∃ r, read_bytes sock w stream = some r ∧ r.rc = .PRRTE_ERR_WOULD_BLOCK
        ∧ r.w.peer = prte_oob_tcp_peer_close w.peer)
    ∧ (zero_read_at sock rm0.rdbytes stream.length = true
        ∨ (rm0.hdr_recvd = false
            ∧ ∃ r rm, read_bytes sock w stream = some r ∧ r.rc = .PRRTE_SUCCESS
                ∧ r.w.peer.recv_msg = some rm
                ∧ zero_read_at r.rest (hdr_done lay rm).rdbytes r.stream.length = true) →
      ∃ out, prte_oob_tcp_recv_handler lay my_name connect_ack new_ok w stream sock = some out
        ∧ out.1.peer.recv_ev_active = false ∧ out.1.peer.send_ev_active = false
        ∧ out.1.peer.timer_ev_active = false
        ∧ out.1.peer.recv_event = false ∧ out.1.peer.send_event = false
        ∧ out.1.peer.timer_event = false
        ∧ out.1.peer.recv_msg = none
        ∧ out.1.peer.state = .MCA_OOB_TCP_CLOSED
        ∧ out.1.peer = prte_oob_tcp_peer_close w.peer
        ∧ ∃ evs, out.1.log = w.log ++ evs ∧ Event.peer_close ∈ evs
            ∧ ∀ e ∈ evs, is_dispatch e = false ∧ e ≠ Event.comm_failed) := by
  constructor
  · intro hz
    obtain ⟨r, reads, h1, h2, h3, -⟩ := read_bytes_closed sock w stream rm0 hrm hz
    exact ⟨r, h1, h2, h3⟩
  · intro hz
    have key : ∃ (out : World × List Byte × List ReadRes) (reads : List (List Byte)),
        prte_oob_tcp_recv_handler lay my_name connect_ack true w stream sock = some out
        ∧ out.1.peer = prte_oob_tcp_peer_close w.peer
        ∧ out.1.log = w.log ++ reads.map Event.read ++ [.release_recv, .peer_close] := by
      rcases hz with hz | ⟨hh, r, rm, hr, hrc, hrm1, hz⟩
      · cases hh : rm0.hdr_recvd with
        | true =>
          rw [recv_handler_pay lay my_name connect_ack w stream sock rm0 hst hrm hh]
          exact recv_payload_closed my_name w stream sock rm0 hrm hz
        | false =>
          obtain ⟨r, reads, h1, h2, h3, h4⟩ := read_bytes_closed sock w stream rm0 hrm hz
          refine ⟨(r.w, r.stream, r.rest), reads, ?_, h3, h4⟩
          rw [recv_handler_hdr lay my_name connect_ack w stream sock rm0 hst hrm hh]
          simp [h1, h2]
      · obtain ⟨hp, reads1, hl⟩ := read_bytes_success_trace sock w stream r hr hrc
        obtain ⟨out, reads2, e1, e2, e3⟩ := recv_payload_closed my_name
          { r.w with peer := { r.w.peer with recv_msg := some (hdr_done lay rm) } }
          r.stream r.rest (hdr_done lay rm) rfl hz
        refine ⟨out, reads1 ++ reads2, ?_, ?_, ?_⟩
        · rw [recv_handler_hdr lay my_name connect_ack w stream sock rm0 hst hrm hh]
          simp only [hr, hrc, if_true, hrm1]
          exact e1
        · rw [e2, peer_close_recv_msg, hp, peer_close_recv_msg]
        · rw [e3]
          dsimp only
          rw [hl]
          simp
    obtain ⟨out, reads, e1, e2, e3⟩ := key
    refine ⟨out, ?_, ?_, ?_, ?_, ?_, ?_, ?_, ?_, ?_, e2,
      reads.map Event.read ++ [.release_recv, .peer_close], ?_, ?_, closed_events_quiet reads⟩
    · rw [recv_handler_new_ok lay my_name connect_ack new_ok w stream sock rm0 hrm]
      exact e1
    all_goals first
      | (rw [e2]; rfl)
      | (rw [e3]; simp)
      | simp

/-- Claim C28 on a peer that waits for the two bytes of a payload: one byte
arrives and the next `read` returns zero. -/
theorem recv_zero_read_closes_peer_witness :
    ∃ out, prte_oob_tcp_recv_handler ex_lay ⟨0, 8⟩ ex_ack true
        { peer := ex_peer_recv, log := [] } [7] [.chunk 4, .chunk 4] = some out
      ∧ out.1.peer = prte_oob_tcp_peer_close ex_peer_recv
      ∧ out.1.peer.recv_ev_active = false ∧ out.1.peer.send_ev_active = false
      ∧ out.1.peer.timer_ev_active = false ∧ out.1.peer.recv_msg = none
      ∧ out.1.log = [.read [7], .release_recv, .peer_close] := by
  obtain ⟨out, e, k1, k2, k3, -, -, -, k7, -, k9, -⟩ :=
    (recv_zero_read_closes_peer ex_lay ⟨0, 8⟩ ex_ack true { peer := ex_peer_recv, log := [] }
      [7] [.chunk 4, .chunk 4] _ rfl rfl).2 (Or.inl (by decide))
  refine ⟨out, e, k9, k1, k2, k3, k7, ?_⟩
  have e2 : prte_oob_tcp_recv_handler ex_lay ⟨0, 8⟩ ex_ack true
      { peer := ex_peer_recv, log := [] } [7] [.chunk 4, .chunk 4]
      = some ({ peer := prte_oob_tcp_peer_close ex_peer_recv,
                log := [.read [7], .release_recv, .peer_close] }, [], []) := by decide
  rw [e2] at e
  cases e
  rfl

end Prrte

namespace Prrte

/-! ## The first pass of by-slot, the average of by-node and the topology check of by-object -/

/-- Claim C24: by-slot mapping with `n_pernode = 3` of six procs on two nodes of
two and four slots, both with `SLOTS_GIVEN`, `num_slots = 6` and a mapping
directive with `NO_OVERSUBSCRIBE` (and `SUBSCRIBE_GIVEN`) returns
`PRRTE_SUCCESS` and leaves three procs on the node of two slots, with no
oversubscribed flag; by-node mapping of the same input returns
`PRRTE_ERR_SILENT`. -/
theorem byslot_first_pass_ignores_permission :
    (let o := prrte_rmaps_rr_byslot { no_knobs with n_pernode := 3 } (ex_job true true false)
                { idx := 0, num_procs := 6 }
                [{ ex_node 0 2 false with slots_given := true },
                 { ex_node 1 4 false with slots_given := true }] 6 100
     (o.rc, o.nodes.map (fun n => (n.slots, n.num_procs, n.slots_given, n.oversubscribed)),
      o.st.jdata.mapping.no_oversubscribe))
      = (.PRRTE_SUCCESS, [(2, 3, true, false), (4, 3, true, false)], true)
    ∧ (prrte_rmaps_rr_bynode 10 { no_knobs with n_pernode := 3 } (ex_job true true false)
                { idx := 0, num_procs := 6 }
                [{ ex_node 0 2 false with slots_given := true },
                 { ex_node 1 4 false with slots_given := true }] 6 100).map (fun o => o.rc)
      = some .PRRTE_ERR_SILENT := by
  constructor <;> decide

/-- The average of a by-node round does not depend on the branch taken for the
extra procs. -/
lemma bynode_balance_navg (app : prrte_app_context_t) (s : Locals) :
    (bynode_balance app s).1
      = if Int.tdiv ((app.num_procs : Int) - (s.nprocs_mapped : Int)) (s.nnodes : Int) = 0 then 1
        else Int.tdiv ((app.num_procs : Int) - (s.nprocs_mapped : Int)) (s.nnodes : Int) := by
  unfold bynode_balance
  dsimp only
  split <;> (split <;> rfl)

/-- Claim C29, the claim as stated fails: with ten procs to place and four nodes
the average of the round is `2`, whereas the ceiling of `10 / 4` is `3`. -/
theorem bynode_navg_is_not_ceiling :
    (bynode_balance { idx := 0, num_procs := 10 }
        { init_locals (ex_job false false false) 100 with nnodes := 4 }).1 = 2
    ∧ (10 + 4 - 1) / 4 = 3 := by
  constructor
  · rw [bynode_balance_navg]
    decide
  · decide

/-- Claim C29, amended: in a round of by-node mapping with `remaining =
app->num_procs - nprocs_mapped` procs still to place and `nnodes > 0` nodes, the
average computed for the round is the floor of `remaining / nnodes`, raised to
one when that is zero: `navg = max 1 (remaining / nnodes)`.  So `navg >= 1`,
`navg` is at most the ceiling when something remains, and it is the ceiling
exactly when `nnodes` divides `remaining` or `remaining < nnodes`. -/
theorem bynode_navg_floor (app : prrte_app_context_t) (s : Locals)
    (hm : s.nprocs_mapped ≤ app.num_procs) (hn : 0 < s.nnodes) :
    (bynode_balance app s).1
        = ((max 1 ((app.num_procs - s.nprocs_mapped) / s.nnodes) : Nat) : Int)
    ∧ 1 ≤ (bynode_balance app s).1
    ∧ (0 < app.num_procs - s.nprocs_mapped →
        (bynode_balance app s).1
          ≤ (((app.num_procs - s.nprocs_mapped + s.nnodes - 1) / s.nnodes : Nat) : Int)
        ∧ ((bynode_balance app s).1
            = (((app.num_procs - s.nprocs_mapped + s.nnodes - 1) / s.nnodes : Nat) : Int)
          ↔ (s.nnodes ∣ app.num_procs - s.nprocs_mapped
              ∨ app.num_procs - s.nprocs_mapped < s.nnodes))) := by
  obtain ⟨R, hR⟩ : ∃ R, app.num_procs - s.nprocs_mapped = R := ⟨_, rfl⟩
  obtain ⟨n, hnn⟩ : ∃ n, s.nnodes = n := ⟨_, rfl⟩
  have hrem : (app.num_procs : Int) - (s.nprocs_mapped : Int) = (R : Int) := by omega
  have e : (bynode_balance app s).1 = ((max 1 (R / n) : Nat) : Int) := by
    rw [bynode_balance_navg, hrem, hnn, ← Int.ofNat_tdiv]
    by_cases h0 : R / n = 0
    · simp [h0]
    · have h1 : 1 ≤ R / n := Nat.one_le_iff_ne_zero.mpr h0
      have h2 : ¬ ((R / n : Nat) : Int) = 0 := by exact_mod_cast h0
      rw [if_neg h2, max_eq_right h1]
  rw [hnn] at hn
  rw [hR, hnn, e]
  have hdm := Nat.div_add_mod R n
  have hml := Nat.mod_lt R hn
  refine ⟨rfl, by exact_mod_cast le_max_left 1 (R / n), ?_⟩
  intro hpos
  by_cases hd : R % n = 0
  · have hRn : R = n * (R / n) := by omega
    have hq : 1 ≤ R / n := by
      rcases Nat.eq_zero_or_pos (R / n) with h | h
      · rw [h] at hRn; omega
      · exact h
    have hc : (R + n - 1) / n = R / n := by
      apply Nat.div_eq_of_lt_le
      · calc R / n * n = n * (R / n) := Nat.mul_comm _ _
          _ ≤ R + n - 1 := by omega
      · calc R + n - 1 < n * (R / n) + n := by omega
          _ = (R / n + 1) * n := by ring
    rw [hc, max_eq_right hq]
    exact ⟨le_rfl, fun _ => Or.inl (Nat.dvd_of_mod_eq_zero hd), fun _ => rfl⟩
  · have hc : (R + n - 1) / n = R / n + 1 := by
      apply Nat.div_eq_of_lt_le
      · calc (R / n + 1) * n = n * (R / n) + n := by ring
          _ ≤ R + n - 1 := by omega
      · calc R + n - 1 < n * (R / n) + n + n := by omega
          _ = (R / n + 1 + 1) * n := by ring
    rw [hc]
    by_cases hq : R / n = 0
    · have hlt : R < n := by
        rw [hq] at hdm
        omega
      rw [hq]
      exact ⟨by simp, fun _ => Or.inr hlt, fun _ => by simp⟩
    · have hq1 : 1 ≤ R / n := Nat.one_le_iff_ne_zero.mpr hq
      rw [max_eq_right hq1]
      refine ⟨by push_cast; omega, fun h => ?_, fun h => ?_⟩
      · exfalso
        have : (R / n : Nat) = R / n + 1 := by exact_mod_cast h
        omega
      · exfalso
        rcases h with h | h
        · exact hd (Nat.mod_eq_zero_of_dvd h)
        · exact hq (Nat.div_eq_of_lt h)

/-- Claim C29, amended, on ten procs and four nodes (floor two, ceiling three)
of which none is mapped yet. -/
theorem bynode_navg_floor_witness :
    (bynode_balance { idx := 0, num_procs := 10 }
        { init_locals (ex_job false false false) 100 with nnodes := 4 }).1
      = ((max 1 ((10 - 0) / 4) : Nat) : Int) :=
  (bynode_navg_floor { idx := 0, num_procs := 10 }
    { init_locals (ex_job false false false) 100 with nnodes := 4 }
    (by decide) (by decide)).1

/-- A node that by-object mapping passes over in its first pass. -/
lemma byobj_body_skips (fuel : Nat) (opts : rmaps_base_t) (app : prrte_app_context_t)
    (target : hwloc_obj_type_t) (cache_level : Nat) (s : Locals) (node : prrte_node_t)
    (h : byobj_skips opts target cache_level node) :
    byobj_body fuel opts app target cache_level false s node = some (.next s, node) := by
  obtain ⟨t, ht, hc⟩ := h
  unfold byobj_body
  simp only [ht]
  by_cases h0 : t.get_nbobjs_by_type target cache_level = 0
  · simp [h0]
  · rcases hc with hc | hc
    · exact absurd hc h0
    · simp [h0, hc]

/-- The node loop of the first pass of by-object mapping when it comes to a node
without topology after nodes it passes over. -/
lemma byobj_loop_missing_topology (fuel : Nat) (opts : rmaps_base_t)
    (app : prrte_app_context_t) (target : hwloc_obj_type_t) (cache_level : Nat)
    (node : prrte_node_t) (post : List prrte_node_t) (htopo : node.topology = none) :
    ∀ (pre : List prrte_node_t) (s : Locals),
      (∀ n ∈ pre, byobj_skips opts target cache_level n) →
      foreachNodeF (byobj_body fuel opts app target cache_level false) s (pre ++ node :: post)
        = some (.ret .PRRTE_ERR_SILENT s, pre ++ node :: post) := by
  intro pre
  induction pre with
  | nil =>
    intro s _
    have e : byobj_body fuel opts app target cache_level false s node
        = some (.ret .PRRTE_ERR_SILENT s, node) := by
      unfold byobj_body
      simp only [htopo]
    simp only [List.nil_append, foreachNodeF, e]
  | cons p pre ih =>
    intro s hpre
    have e := byobj_body_skips fuel opts app target cache_level s p
      (hpre p (List.mem_cons_self _ _))
    have e2 := ih s (fun n hn => hpre n (List.mem_cons_of_mem _ hn))
    rw [List.cons_append]
    simp only [foreachNodeF, e]
    rw [e2]

/-- Claim C30, the claim as stated fails: by-object no-span mapping of two procs
on a node with a topology and eight slots followed by a node without topology
returns `PRRTE_SUCCESS`; the loop ends at the first node, and the second is
never looked at. -/
theorem byobj_missing_topology_not_reached :
    (prrte_rmaps_rr_byobj 10 no_knobs (ex_job false false false) { idx := 0, num_procs := 2 }
        [ex_node 0 8 true, ex_node 1 8 false] 16 .HWLOC_OBJ_PACKAGE 0 100).map
      (fun o => (o.rc, o.nodes.map (fun n => (n.num_procs, n.topology.isSome))))
      = some (.PRRTE_SUCCESS, [(2, true), (0, false)]) := by
  decide

end Prrte

namespace Prrte

/-! ## The assertion of `send_msg` and the relay request that fails -/

/-- Claim C34.  The assertion `2 == iov_count` of `send_msg` never fails.  The
assertion stands in the part of the function from the label `retry` on: for
every request, whatever its cursor, and every sequence of `writev` results,
this part does not fault when it returns; and a `writev` that takes `rc` bytes,
fewer than requested and at least `sdbytes`, so that the branch "header was
fully written, but only a part of the msg data was written" is taken, happens
only on a request whose `hdr_sent` was clear, for which the call offered both
segments.  A whole call of `send_msg` faults in one case only, which is not the
assertion: the request has its header unsent and neither relay data nor an RML
message, and the call reads `msg->msg->dbuf` before any `writev`; it has then
written nothing and consumed no result of the socket.  A call on any other
request does not fault. -/
theorem send_msg_assert_holds (msg : prte_oob_tcp_send_t) :
    (∀ (sock : List WriteRes) (retries : Nat) (r : SendRes),
      send_msg_retry msg retries sock = some r → r.rc ≠ .FAULT)
    ∧ (∀ k : Nat, min k (iov_remain msg) ≠ iov_remain msg →
        ¬ min k (iov_remain msg) < msg.sdbytes → msg.hdr_sent = false)
    ∧ (∀ (sock : List WriteRes) (r : SendRes), send_msg msg sock = some r → r.rc = .FAULT →
        msg.hdr_sent = false ∧ msg.data = none ∧ msg.msg = none
        ∧ r.msg = msg ∧ r.written = [] ∧ r.rest = sock)
    ∧ (msg.hdr_sent = true ∨ sendable msg →
        ∀ (sock : List WriteRes) (r : SendRes), send_msg msg sock = some r → r.rc ≠ .FAULT) := by
  have hbr : ∀ k : Nat, min k (iov_remain msg) ≠ iov_remain msg →
      ¬ min k (iov_remain msg) < msg.sdbytes → msg.hdr_sent = false := by
    intro k h1 h2
    cases hs : msg.hdr_sent with
    | false => rfl
    | true =>
      exfalso
      simp only [iov_remain, hs, if_true, Nat.add_zero] at h1 h2
      omega
  have hall : ∀ (sock : List WriteRes) (retries : Nat) (r : SendRes),
      send_msg_retry msg retries sock = some r → r.rc ≠ .FAULT := by
    intro sock
    induction sock with
    | nil => intro retries r hr; simp [send_msg_retry] at hr
    | cons ev rest ih =>
      intro retries r hr
      cases ev with
      | accept k =>
        simp only [send_msg_retry] at hr
        split at hr
        · cases hr; intro h; cases h
        · rename_i h1
          split at hr
          · cases hr; intro h; cases h
          · rename_i h2
            have hs := hbr k h1 h2
            simp only [hs] at hr
            cases hr
            intro h; cases h
      | error n =>
        simp only [send_msg_retry] at hr
        split at hr
        · exact ih _ r hr
        · split at hr
          · split at hr
            · exact ih _ r hr
            · cases hr; intro h; cases h
          · split at hr
            · split at hr
              · exact ih _ r hr
              · cases hr; intro h; cases h
            · cases hr
              intro h; cases h
  refine ⟨hall, hbr, ?_, ?_⟩
  · intro sock r hr hrc
    rcases send_msg_cases msg sock with ⟨h1, h2, e⟩ | ⟨-, e⟩
    · rw [e] at hr
      cases hr
      obtain ⟨h3, h4⟩ := (iov1_base_eq_none msg).mp h2
      exact ⟨h1, h3, h4, rfl, rfl, rfl⟩
    · rw [e] at hr
      exact absurd hrc (hall sock 0 r hr)
  · intro hb sock r hr
    rw [send_msg_eq msg hb] at hr
    exact hall sock 0 r hr

/-- Claim C34 on a request whose header is sent and whose payload has three
bytes to go: a `writev` that takes two of them returns busy, not a fault. -/
theorem send_msg_assert_holds_witness :
    (send_msg
        { ex_snd 1 [1, 2] [3, 4, 5] with
          hdr_sent := true, sdptr := { region := .data, off := 0 }, sdbytes := 3 }
        [.accept 2]).map (fun r => r.rc) = some .PRRTE_ERR_RESOURCE_BUSY
    ∧ ∀ r, send_msg
        { ex_snd 1 [1, 2] [3, 4, 5] with
          hdr_sent := true, sdptr := { region := .data, off := 0 }, sdbytes := 3 }
        [.accept 2] = some r → r.rc ≠ .FAULT :=
  ⟨by decide,
   fun r hr => (send_msg_assert_holds _).2.2.2 (Or.inl rfl) [.accept 2] r hr⟩

/-- Claim C39: on a `CONNECTED` peer whose on-deck request is a relay (it owns
its data and `msg->msg` is `NULL`) a `writev` that fails with `EPIPE` makes the
send handler dereference `msg->msg`: the run faults after the send event is
deleted, the request is neither released nor taken off the peer, and
`COMM_FAILED` is not activated. -/
theorem send_handler_relay_fatal_faults :
    (prte_oob_tcp_send_handler ex_cc
        { peer :=
            { ex_peer with
              send_msg := some (ex_relay [1, 2] [3]), send_ev_active := true,
              send_event := true },
          log := [] } [.error 32]).map
      (fun out => (out.1.log, out.1.peer.send_msg, out.1.peer.send_event))
      = some ([.fault], some (ex_relay [1, 2] [3]), false) := by
  decide

end Prrte

namespace Prrte

/-! ## A by-node run that makes no progress -/

/-- With `n_persocket = 1` and a node without packages the first by-node round
assigns no proc and counts the node as available. -/
lemma bynode_first_round_stuck :
    foreachNode
        (bynode_round_body { no_knobs with n_persocket := 1 } { idx := 0, num_procs := 1 } false
          (bynode_balance { idx := 0, num_procs := 1 }
            { init_locals (ex_job false false false) 100 with nnodes := 1 }).1)
        { (bynode_balance { idx := 0, num_procs := 1 }
            { init_locals (ex_job false false false) 100 with nnodes := 1 }).2 with nnodes := 0 }
        [{ ex_node 0 4 false with topology := some ex_topo_cores }]
      = (.next ex_stuck_state, ex_stuck_nodes) := by
  rfl

/-- Every later round ends in the state it started from. -/
lemma bynode_round_stuck :
    foreachNode
        (bynode_round_body { no_knobs with n_persocket := 1 } { idx := 0, num_procs := 1 } false
          (bynode_balance { idx := 0, num_procs := 1 } ex_stuck_state).1)
        { (bynode_balance { idx := 0, num_procs := 1 } ex_stuck_state).2 with nnodes := 0 }
        ex_stuck_nodes
      = (.next ex_stuck_state, ex_stuck_nodes) := by
  rfl

/-- The rounds of by-node never end from that state. -/
lemma bynode_rounds_stuck : ∀ fuel : Nat,
    bynode_rounds { no_knobs with n_persocket := 1 } { idx := 0, num_procs := 1 } false fuel
      ex_stuck_state ex_stuck_nodes = none := by
  intro fuel
  induction fuel with
  | zero => rfl
  | succ f ih =>
    have h0 : ¬ ex_stuck_state.nnodes = 0 := by decide
    have h1 : ex_stuck_state.nprocs_mapped < 1 ∧ 0 < ex_stuck_state.nnodes := by decide
    simp only [bynode_rounds, h0, if_false, bynode_round_stuck, Ctl.st, h1, and_self, if_true]
    exact ih

/-- Claim C35: by-node mapping of one proc with `n_persocket = 1` on a list of
one node of four slots whose topology has no package does not terminate: every
round assigns `n_persocket * 0 = 0` procs to the node and still counts it in
`nnodes`, so the loop `do ... while (nprocs_mapped < app->num_procs && 0 < nnodes)`
goes on for ever; whatever the number of rounds allowed, the call has no
result. -/
theorem bynode_npersocket_no_package_never_returns :
    ∀ fuel : Nat,
      (prrte_rmaps_rr_bynode fuel { no_knobs with n_persocket := 1 } (ex_job false false false)
        { idx := 0, num_procs := 1 } [{ ex_node 0 4 false with topology := some ex_topo_cores }]
        4 100).isNone = true := by
  intro fuel
  have hg : gate (ex_job false false false) { idx := 0, num_procs := 1 } 4 = false := by decide
  cases fuel with
  | zero =>
    simp only [prrte_rmaps_rr_bynode, hg, bynode_rounds]
    rfl
  | succ f =>
    have h0 : ¬ ({ init_locals (ex_job false false false) 100 with nnodes := 1 } : Locals).nnodes
        = 0 := by decide
    have h1 : ex_stuck_state.nprocs_mapped < 1 ∧ 0 < ex_stuck_state.nnodes := by decide
    have hd : decide ((4 : Int) < ((1 : Nat) : Int)) = false := by decide
    have e : bynode_rounds { no_knobs with n_persocket := 1 } { idx := 0, num_procs := 1 } false
        (f + 1) { init_locals (ex_job false false false) 100 with nnodes := 1 }
        [{ ex_node 0 4 false with topology := some ex_topo_cores }] = none := by
      simp only [bynode_rounds, h0, if_false, bynode_first_round_stuck, Ctl.st, h1, and_self,
        if_true]
      exact bynode_rounds_stuck f
    simp only [prrte_rmaps_rr_bynode, hg, List.length_singleton, hd]
    rw [e]
    rfl

end Prrte

namespace Prrte

/-! ## One visit of a node: the primitive steps -/

lemma node_step_refl (P : Nat) (G : Option hwloc_topology_t → prrte_proc_t → Prop)
    (j : prrte_job_t) (m : Nat) (node : prrte_node_t) : node_step P G j m node j m node where
  name_eq := rfl
  topo_eq := rfl
  slots_eq := rfl
  given_eq := rfl
  mono := le_rfl
  bounded := id
  placed := ⟨[], by simp, by simp, by simp⟩
  num_procs_eq := rfl
  inuse_eq := rfl
  placed_mapped := fun h => absurd h (lt_irrefl _)
  map_once := Or.inl ⟨rfl, rfl, rfl⟩

lemma node_step_trans {P : Nat} {G : Option hwloc_topology_t → prrte_proc_t → Prop}
    {j j1 j2 : prrte_job_t} {m m1 m2 : Nat} {n n1 n2 : prrte_node_t}
    (h1 : node_step P G j m n j1 m1 n1) (h2 : node_step P G j1 m1 n1 j2 m2 n2) :
    node_step P G j m n j2 m2 n2 where
  name_eq := h2.name_eq.trans h1.name_eq
  topo_eq := h2.topo_eq.trans h1.topo_eq
  slots_eq := h2.slots_eq.trans h1.slots_eq
  given_eq := h2.given_eq.trans h1.given_eq
  mono := le_trans h1.mono h2.mono
  bounded := fun h => h2.bounded (h1.bounded h)
  placed := by
    obtain ⟨a, ha1, ha2, ha3⟩ := h1.placed
    obtain ⟨b, hb1, hb2, hb3⟩ := h2.placed
    refine ⟨a ++ b, by rw [hb1, ha1, List.append_assoc], by simp; omega, ?_⟩
    intro p hp
    rcases List.mem_append.mp hp with hp | hp
    · exact ha3 p hp
    · have := hb3 p hp
      rw [h1.topo_eq] at this
      exact this
  num_procs_eq := by have := h1.num_procs_eq; have := h2.num_procs_eq; omega
  inuse_eq := by have := h1.inuse_eq; have := h2.inuse_eq; omega
  placed_mapped := by
    intro h
    by_cases hc : m1 < m2
    · exact h2.placed_mapped hc
    · have hm : m < m1 := by have := h2.mono; omega
      have hn1 := h1.placed_mapped hm
      rcases h2.map_once with ⟨-, -, e⟩ | ⟨-, e, -⟩
      · rw [e]; exact hn1
      · exact e
  map_once := by
    rcases h1.map_once with ⟨a1, a2, a3⟩ | ⟨a1, a2, a3, a4⟩
    · rcases h2.map_once with ⟨b1, b2, b3⟩ | ⟨b1, b2, b3, b4⟩
      · exact Or.inl ⟨b1.trans a1, b2.trans a2, b3.trans a3⟩
      · refine Or.inr ⟨by rw [← a3]; exact b1, b2, ?_, ?_⟩
        · rw [b3, a1, h1.name_eq]
        · rw [b4, a2]
    · rcases h2.map_once with ⟨b1, b2, b3⟩ | ⟨b1, b2, b3, b4⟩
      · exact Or.inr ⟨a1, by rw [b3]; exact a2, by rw [b1, a3], by rw [b2, a4]⟩
      · rw [a2] at b1
        cases b1

/-- A step keeps its meaning when the condition on the procs is weakened. -/
lemma node_step_weaken {P : Nat} {G H : Option hwloc_topology_t → prrte_proc_t → Prop}
    (hGH : ∀ t p, G t p → H t p)
    {j j1 : prrte_job_t} {m m1 : Nat} {n n1 : prrte_node_t}
    (h : node_step P G j m n j1 m1 n1) : node_step P H j m n j1 m1 n1 where
  name_eq := h.name_eq
  topo_eq := h.topo_eq
  slots_eq := h.slots_eq
  given_eq := h.given_eq
  mono := h.mono
  bounded := h.bounded
  placed := by
    obtain ⟨a, ha1, ha2, ha3⟩ := h.placed
    exact ⟨a, ha1, ha2, fun p hp => hGH _ p (ha3 p hp)⟩
  num_procs_eq := h.num_procs_eq
  inuse_eq := h.inuse_eq
  placed_mapped := h.placed_mapped
  map_once := h.map_once

/-- The block "add this node to the map". -/
lemma add_to_map_step (P : Nat) (G : Option hwloc_topology_t → prrte_proc_t → Prop)
    (j : prrte_job_t) (m : Nat) (node : prrte_node_t) :
    node_step P G j m node (add_to_map j node).1 m (add_to_map j node).2 := by
  unfold add_to_map
  cases hm : node.mapped with
  | true =>
    simp only [if_true]
    exact node_step_refl P G j m node
  | false =>
    simp only [Bool.false_eq_true, if_false]
    exact {
      name_eq := rfl
      topo_eq := rfl
      slots_eq := rfl
      given_eq := rfl
      mono := le_rfl
      bounded := id
      placed := ⟨[], by simp, by simp, by simp⟩
      num_procs_eq := rfl
      inuse_eq := rfl
      placed_mapped := fun _ => rfl
      map_once := Or.inr ⟨hm, rfl, rfl, rfl⟩ }

/-- The oversubscription block changes flags only. -/
lemma oversub_check_step (P : Nat) (G : Option hwloc_topology_t → prrte_proc_t → Prop)
    (perm : Bool) (s : Locals) (node : prrte_node_t) :
    node_step P G s.jdata s.nprocs_mapped node (oversub_check perm s node).2.1.jdata
      (oversub_check perm s node).2.1.nprocs_mapped (oversub_check perm s node).2.2 := by
  have key : ∀ (j1 : prrte_job_t) (n1 : prrte_node_t),
      j1.nodes = s.jdata.nodes → j1.num_nodes = s.jdata.num_nodes →
      n1.name = node.name → n1.topology = node.topology → n1.slots = node.slots →
      n1.slots_given = node.slots_given → n1.procs = node.procs →
      n1.num_procs = node.num_procs → n1.slots_inuse = node.slots_inuse →
      n1.mapped = node.mapped →
      node_step P G s.jdata s.nprocs_mapped node j1 s.nprocs_mapped n1 := by
    intro j1 n1 e1 e2 e3 e4 e5 e6 e7 e8 e9 e10
    exact {
      name_eq := e3
      topo_eq := e4
      slots_eq := e5
      given_eq := e6
      mono := le_rfl
      bounded := id
      placed := ⟨[], by simp [e7], by simp, by simp⟩
      num_procs_eq := by rw [e8]
      inuse_eq := by rw [e9]
      placed_mapped := fun h => absurd h (lt_irrefl _)
      map_once := Or.inl ⟨e1, e2, e10⟩ }
  unfold oversub_check
  split
  · dsimp only
    split
    · split
      · exact key _ _ rfl rfl rfl rfl rfl rfl rfl rfl rfl rfl
      · split <;> exact key _ _ rfl rfl rfl rfl rfl rfl rfl rfl rfl rfl
    · exact key _ _ rfl rfl rfl rfl rfl rfl rfl rfl rfl rfl
  · exact node_step_refl P G _ _ _

/-- One proc created on a node that is in the map. -/
lemma setup_proc_step (P : Nat) (G : Option hwloc_topology_t → prrte_proc_t → Prop)
    (j : prrte_job_t) (m mem mem1 idx : Nat) (node node1 : prrte_node_t) (proc : prrte_proc_t)
    (obj : Option hwloc_obj_t)
    (hmap : node.mapped = true) (hm : m < P)
    (hG : G node.topology { app_idx := idx, locale := obj })
    (h : prrte_rmaps_base_setup_proc mem node idx = some (mem1, node1, proc)) :
    node_step P G j m node j (m + 1) (store_proc node1 (prrte_set_attribute proc obj))
    ∧ mem = mem1 + 1 := by
  cases mem with
  | zero => simp [prrte_rmaps_base_setup_proc] at h
  | succ k =>
    simp only [prrte_rmaps_base_setup_proc, Option.some.injEq, Prod.mk.injEq] at h
    obtain ⟨rfl, rfl, rfl⟩ := h
    refine ⟨?_, rfl⟩
    exact {
      name_eq := rfl
      topo_eq := rfl
      slots_eq := rfl
      given_eq := rfl
      mono := Nat.le_succ m
      bounded := fun _ => hm
      placed := ⟨[{ app_idx := idx, locale := obj }], rfl, by simp; omega, by
        intro p hp
        rw [List.mem_singleton] at hp
        subst hp
        exact hG⟩
      num_procs_eq := by simp only [store_proc]; omega
      inuse_eq := by simp only [store_proc]; omega
      placed_mapped := fun _ => hmap
      map_once := Or.inl ⟨rfl, rfl, rfl⟩ }

/-- The proc loop `place_loop`, whatever it returns. -/
lemma place_loop_step (P : Nat) (G : Option hwloc_topology_t → prrte_proc_t → Prop)
    (app : prrte_app_context_t) (hP : app.num_procs = P) (inmap : Bool) :
    ∀ (k : Nat) (s : Locals) (node : prrte_node_t),
      (inmap = false → node.mapped = true) →
      G node.topology { app_idx := app.idx, locale := s.obj } →
      node_step P G s.jdata s.nprocs_mapped node
        (place_loop app inmap k s node).1.st.jdata
        (place_loop app inmap k s node).1.st.nprocs_mapped (place_loop app inmap k s node).2
      ∧ (place_loop app inmap k s node).1.st.obj = s.obj
      ∧ (place_loop app inmap k s node).1.st.mem + (place_loop app inmap k s node).1.st.nprocs_mapped
          = s.mem + s.nprocs_mapped := by
  intro k
  induction k with
  | zero =>
    intro s node _ _
    exact ⟨node_step_refl P G _ _ _, rfl, rfl⟩
  | succ k ih =>
    intro s node hmap hG
    simp only [place_loop]
    split
    · rename_i hlt
      obtain ⟨jn, hjn⟩ : ∃ jn, (if inmap then add_to_map s.jdata node else (s.jdata, node)) = jn :=
        ⟨_, rfl⟩
      have hstep1 : node_step P G s.jdata s.nprocs_mapped node jn.1 s.nprocs_mapped jn.2 := by
        rw [← hjn]
        split
        · exact add_to_map_step P G _ _ _
        · exact node_step_refl P G _ _ _
      have hm2 : jn.2.mapped = true := by
        rw [← hjn]
        cases inmap with
        | true => simp only [if_true]; exact add_to_map_mapped _ _
        | false => simp only [Bool.false_eq_true, if_false]; exact hmap rfl
      simp only [hjn]
      cases hsp : prrte_rmaps_base_setup_proc s.mem jn.2 app.idx with
      | none => exact ⟨hstep1, rfl, rfl⟩
      | some r =>
        obtain ⟨mem1, node1, proc⟩ := r
        have hG2 : G jn.2.topology { app_idx := app.idx, locale := s.obj } := by
          rw [hstep1.topo_eq]; exact hG
        obtain ⟨hstep2, hmem⟩ := setup_proc_step P G jn.1 s.nprocs_mapped s.mem mem1 app.idx jn.2
          node1 proc s.obj hm2 (by rw [← hP]; exact hlt) hG2 hsp
        have hn3 : (store_proc node1 (prrte_set_attribute proc s.obj)).mapped = true :=
          hstep2.placed_mapped (Nat.lt_succ_self _)
        have hG3 : G (store_proc node1 (prrte_set_attribute proc s.obj)).topology
            { app_idx := app.idx, locale := s.obj } := by
          rw [hstep2.topo_eq]; exact hG2
        obtain ⟨i1, i2, i3⟩ := ih
          { s with jdata := jn.1, mem := mem1, nprocs_mapped := s.nprocs_mapped + 1 }
          (store_proc node1 (prrte_set_attribute proc s.obj)) (fun _ => hn3) hG3
        refine ⟨node_step_trans hstep1 (node_step_trans hstep2 i1), i2, ?_⟩
        rw [i3]
        show mem1 + (s.nprocs_mapped + 1) = s.mem + s.nprocs_mapped
        omega
    · exact ⟨node_step_refl P G _ _ _, rfl, rfl⟩

end Prrte

namespace Prrte

/-! ## One visit of a node in by-slot and by-node -/

/-- The tail of a body: the oversubscription block and the test that ends the
node loop. -/
lemma check_tail_step (P : Nat) (G : Option hwloc_topology_t → prrte_proc_t → Prop)
    (app : prrte_app_context_t) (perm : Bool) (j : prrte_job_t) (m : Nat) (node : prrte_node_t)
    (s1 : Locals) (node1 : prrte_node_t)
    (h : node_step P G j m node s1.jdata s1.nprocs_mapped node1) :
    node_step P G j m node
      (match oversub_check perm s1 node1 with
        | (some rc, s2, node2) => (Ctl.ret rc s2, node2)
        | (none, s2, node2) =>
          if s2.nprocs_mapped = app.num_procs then (Ctl.brk s2, node2)
          else (Ctl.next s2, node2)).1.st.jdata
      (match oversub_check perm s1 node1 with
        | (some rc, s2, node2) => (Ctl.ret rc s2, node2)
        | (none, s2, node2) =>
          if s2.nprocs_mapped = app.num_procs then (Ctl.brk s2, node2)
          else (Ctl.next s2, node2)).1.st.nprocs_mapped
      (match oversub_check perm s1 node1 with
        | (some rc, s2, node2) => (Ctl.ret rc s2, node2)
        | (none, s2, node2) =>
          if s2.nprocs_mapped = app.num_procs then (Ctl.brk s2, node2)
          else (Ctl.next s2, node2)).2 := by
  have h2 := node_step_trans h (oversub_check_step P G perm s1 node1)
  rcases ho : oversub_check perm s1 node1 with ⟨orc, s2, n2⟩
  rw [ho] at h2
  cases orc with
  | some rc => exact h2
  | none =>
    dsimp only
    split <;> exact h2

/-- The function `place_and_check` on a node that is in the map. -/
lemma place_and_check_step (P : Nat) (app : prrte_app_context_t) (hP : app.num_procs = P)
    (n : Int) (s : Locals) (node : prrte_node_t) (hmap : node.mapped = true) :
    node_step P any_proc s.jdata s.nprocs_mapped node
      (place_and_check app n s node).1.st.jdata
      (place_and_check app n s node).1.st.nprocs_mapped (place_and_check app n s node).2 := by
  have hpl := (place_loop_step P any_proc app hP false n.toNat s node (fun _ => hmap) trivial).1
  unfold place_and_check
  rcases hr : place_loop app false n.toNat s node with ⟨c, n1⟩
  rw [hr] at hpl
  cases c with
  | ret rc s1 => exact hpl
  | next s1 => exact check_tail_step P any_proc app true _ _ _ s1 n1 hpl
  | brk s1 => exact check_tail_step P any_proc app true _ _ _ s1 n1 hpl

/-- What `place_and_check` tells by the way it ends. -/
lemma place_and_check_ctl (app : prrte_app_context_t) (n : Int) (s : Locals)
    (node : prrte_node_t) :
    (∀ s1, (place_and_check app n s node).1 = .brk s1 → s1.nprocs_mapped = app.num_procs)
    ∧ (∀ s1, (place_and_check app n s node).1 = .next s1 → s1.nprocs_mapped ≠ app.num_procs) := by
  unfold place_and_check
  rcases place_loop app false n.toNat s node with ⟨c, n1⟩
  have key : ∀ s0 : Locals,
      (∀ s1, (match oversub_check true s0 n1 with
        | (some rc, s2, node2) => (Ctl.ret rc s2, node2)
        | (none, s2, node2) =>
          if s2.nprocs_mapped = app.num_procs then (Ctl.brk s2, node2)
          else (Ctl.next s2, node2)).1 = .brk s1 → s1.nprocs_mapped = app.num_procs)
      ∧ (∀ s1, (match oversub_check true s0 n1 with
        | (some rc, s2, node2) => (Ctl.ret rc s2, node2)
        | (none, s2, node2) =>
          if s2.nprocs_mapped = app.num_procs then (Ctl.brk s2, node2)
          else (Ctl.next s2, node2)).1 = .next s1 → s1.nprocs_mapped ≠ app.num_procs) := by
    intro s0
    rcases oversub_check true s0 n1 with ⟨orc, s2, n2⟩
    cases orc with
    | some rc => exact ⟨fun s1 h => (by cases h), fun s1 h => (by cases h)⟩
    | none =>
      dsimp only
      split
      · rename_i he
        exact ⟨fun s1 h => (by cases h; exact he), fun s1 h => (by cases h)⟩
      · rename_i he
        exact ⟨fun s1 h => (by cases h), fun s1 h => (by cases h; exact he)⟩
  cases c with
  | ret rc s1 => exact ⟨fun s1 h => (by cases h), fun s1 h => (by cases h)⟩
  | next s0 => exact key s0
  | brk s0 => exact key s0

/-- The body of the first pass of by-slot. -/
lemma byslot_pass1_body_step (P : Nat) (opts : rmaps_base_t) (app : prrte_app_context_t)
    (hP : app.num_procs = P) (s : Locals) (node : prrte_node_t) :
    node_step P any_proc s.jdata s.nprocs_mapped node
      (byslot_pass1_body opts app s node).1.st.jdata
      (byslot_pass1_body opts app s node).1.st.nprocs_mapped
      (byslot_pass1_body opts app s node).2 := by
  have h0 : node_step P any_proc s.jdata s.nprocs_mapped node (root_obj_of s node).jdata
      (root_obj_of s node).nprocs_mapped node := by
    rw [root_obj_of_jdata, root_obj_of_nprocs_mapped]
    exact node_step_refl _ _ _ _ _
  unfold byslot_pass1_body
  dsimp only
  split
  · exact h0
  · split
    · exact h0
    · rename_i n _
      have h1 := (place_loop_step P any_proc app hP true n.toNat (root_obj_of s node) node
        (fun h => by cases h) trivial).1
      rw [root_obj_of_jdata, root_obj_of_nprocs_mapped] at h1
      exact h1

/-- The body of the second pass of by-slot. -/
lemma byslot_pass2_body_step (P : Nat) (app : prrte_app_context_t)
    (hP : app.num_procs = P) (s : Locals) (node : prrte_node_t) :
    node_step P any_proc s.jdata s.nprocs_mapped node
      (byslot_pass2_body app s node).1.st.jdata
      (byslot_pass2_body app s node).1.st.nprocs_mapped
      (byslot_pass2_body app s node).2
    ∧ (byslot_pass2_body app s node).2.mapped = true := by
  have h1 := add_to_map_step P any_proc s.jdata s.nprocs_mapped node
  have hm := add_to_map_mapped s.jdata node
  obtain ⟨S2, hS2⟩ : ∃ S2, S2 = take_extra
      { root_obj_of s node with jdata := (add_to_map (root_obj_of s node).jdata node).1 } :=
    ⟨_, rfl⟩
  have hj : S2.jdata = (add_to_map s.jdata node).1 := by
    rw [hS2, (take_extra_fields _).2.2.2.1]
    simp
  have hmp : S2.nprocs_mapped = s.nprocs_mapped := by
    rw [hS2, (take_extra_fields _).1]
    simp
  have e : ∃ N : Int, byslot_pass2_body app s node
      = place_and_check app N S2 (add_to_map (root_obj_of s node).jdata node).2 := by
    subst hS2
    exact ⟨_, rfl⟩
  rw [root_obj_of_jdata] at e
  obtain ⟨N, hN⟩ := e
  rw [hN]
  have h2 := place_and_check_step P app hP N S2 (add_to_map s.jdata node).2 hm
  rw [hj, hmp] at h2
  refine ⟨node_step_trans h1 h2, ?_⟩
  rcases h2.map_once with ⟨-, -, e⟩ | ⟨-, e, -⟩
  · rw [e]; exact hm
  · exact e

end Prrte

namespace Prrte

/-! ## One visit of a node in by-node -/

/-- The shape of a by-node round body: after the node is added to the map the
body either leaves it alone or runs `place_and_check` on it. -/
lemma bynode_round_body_shape (opts : rmaps_base_t) (app : prrte_app_context_t)
    (oversubscribed : Bool) (navg : Int) (s : Locals) (node : prrte_node_t) :
    (∃ c, bynode_round_body opts app oversubscribed navg s node = (c, (add_to_map s.jdata node).2)
        ∧ c.st.jdata = (add_to_map s.jdata node).1 ∧ c.st.nprocs_mapped = s.nprocs_mapped
        ∧ c.st.mem = s.mem
        ∧ (∀ s1, c ≠ .brk s1))
    ∨ (∃ n S, bynode_round_body opts app oversubscribed navg s node
          = place_and_check app n S (add_to_map s.jdata node).2
        ∧ S.jdata = (add_to_map s.jdata node).1 ∧ S.nprocs_mapped = s.nprocs_mapped
        ∧ S.mem = s.mem) := by
  obtain ⟨JN, hJN⟩ : ∃ JN, JN = add_to_map (root_obj_of s node).jdata node := ⟨_, rfl⟩
  obtain ⟨S2, hS2⟩ : ∃ S2 : Locals, S2 = { root_obj_of s node with jdata := JN.1 } :=
    ⟨_, rfl⟩
  have e : bynode_round_body opts app oversubscribed navg s node
      = (if opts.pernode then bynode_assign app 1 S2 JN.2
         else if 0 < opts.n_pernode then
           bynode_assign app opts.n_pernode S2 JN.2
         else if 0 < opts.n_persocket then
           match JN.2.topology with
           | none => (.ret .FAULT S2, JN.2)
           | some t =>
             bynode_assign app
               (persocket_procs opts.n_persocket (t.get_nbobjs_by_type .HWLOC_OBJ_PACKAGE 0)) S2
               JN.2
         else if oversubscribed then
           bynode_assign app (navg + (take_extra S2).extra_procs_to_assign) (take_extra S2)
             JN.2
         else if JN.2.slots ≤ JN.2.slots_inuse then
           (.next S2, JN.2)
         else
           if (JN.2.slots : Int)
                - (JN.2.slots_inuse : Int)
              < navg + (take_extra S2).extra_procs_to_assign then
             if (JN.2.slots : Int)
                - (JN.2.slots_inuse : Int) = 0
             then (.next (take_extra S2), JN.2)
             else bynode_assign app
               ((JN.2.slots : Int)
                 - (JN.2.slots_inuse : Int))
               (take_extra S2) JN.2
           else bynode_assign app (navg + (take_extra S2).extra_procs_to_assign) (take_extra S2)
             JN.2) := by
    subst hS2 hJN
    rfl
  have hJN2 : JN = add_to_map s.jdata node := by rw [hJN, root_obj_of_jdata]
  subst hJN2
  have a1 : S2.jdata = (add_to_map s.jdata node).1 := by rw [hS2]
  have a2 : S2.nprocs_mapped = s.nprocs_mapped := by rw [hS2]; simp
  have a3 : S2.mem = s.mem := by rw [hS2]; simp
  obtain ⟨t1, t2, -, t4, -⟩ := take_extra_fields S2
  have asg : ∀ (n : Int) (S : Locals), S.jdata = (add_to_map s.jdata node).1 →
      S.nprocs_mapped = s.nprocs_mapped → S.mem = s.mem →
      ∃ n1 S1, bynode_assign app n S (add_to_map s.jdata node).2
          = place_and_check app n1 S1 (add_to_map s.jdata node).2
        ∧ S1.jdata = (add_to_map s.jdata node).1 ∧ S1.nprocs_mapped = s.nprocs_mapped
        ∧ S1.mem = s.mem :=
    fun n S h1 h2 h3 => ⟨n, { S with nnodes := S.nnodes + 1 }, rfl, h1, h2, h3⟩
  rw [e]
  split
  · exact Or.inr (asg _ _ a1 a2 a3)
  · split
    · exact Or.inr (asg _ _ a1 a2 a3)
    · split
      · split
        · exact Or.inl ⟨_, rfl, a1, a2, a3, fun s1 h => by cases h⟩
        · exact Or.inr (asg _ _ a1 a2 a3)
      · split
        · exact Or.inr (asg _ _ (t4.trans a1) (t1.trans a2) (t2.trans a3))
        · split
          · exact Or.inl ⟨_, rfl, a1, a2, a3, fun s1 h => by cases h⟩
          · split
            · split
              · exact Or.inl ⟨_, rfl, t4.trans a1, t1.trans a2, t2.trans a3,
                  fun s1 h => by cases h⟩
              · exact Or.inr (asg _ _ (t4.trans a1) (t1.trans a2) (t2.trans a3))
            · exact Or.inr (asg _ _ (t4.trans a1) (t1.trans a2) (t2.trans a3))

/-- The body of a by-node round: the node is in the map afterwards, and a
`break` means that every proc is mapped. -/
lemma bynode_round_body_step (P : Nat) (opts : rmaps_base_t) (app : prrte_app_context_t)
    (hP : app.num_procs = P) (oversubscribed : Bool) (navg : Int) (s : Locals)
    (node : prrte_node_t) :
    node_step P any_proc s.jdata s.nprocs_mapped node
      (bynode_round_body opts app oversubscribed navg s node).1.st.jdata
      (bynode_round_body opts app oversubscribed navg s node).1.st.nprocs_mapped
      (bynode_round_body opts app oversubscribed navg s node).2
    ∧ (bynode_round_body opts app oversubscribed navg s node).2.mapped = true
    ∧ (∀ s1, (bynode_round_body opts app oversubscribed navg s node).1 = .brk s1 →
        s1.nprocs_mapped = P) := by
  have h1 := add_to_map_step P any_proc s.jdata s.nprocs_mapped node
  have hm := add_to_map_mapped s.jdata node
  rcases bynode_round_body_shape opts app oversubscribed navg s node with
    ⟨c, e, c1, c2, -, c4⟩ | ⟨n, S, e, c1, c2, -⟩
  · rw [e]
    dsimp only
    rw [c1, c2]
    exact ⟨h1, hm, fun s1 h => absurd h (c4 s1)⟩
  · rw [e]
    have h2 := place_and_check_step P app hP n S (add_to_map s.jdata node).2 hm
    rw [c1, c2] at h2
    refine ⟨node_step_trans h1 h2, ?_, ?_⟩
    · rcases h2.map_once with ⟨-, -, e⟩ | ⟨-, e, -⟩
      · rw [e]; exact hm
      · exact e
    · intro s1 hs1
      rw [← hP]
      exact (place_and_check_ctl app n S _).1 s1 hs1

/-- The body of the final fill of by-node, on a node that is in the map and
with a proc still to place. -/
lemma bynode_fill_body_step (P : Nat) (app : prrte_app_context_t) (hP : app.num_procs = P)
    (s : Locals) (node : prrte_node_t) (hmap : node.mapped = true) (hlt : s.nprocs_mapped < P) :
    node_step P any_proc s.jdata s.nprocs_mapped node
      (bynode_fill_body app s node).1.st.jdata
      (bynode_fill_body app s node).1.st.nprocs_mapped
      (bynode_fill_body app s node).2
    ∧ (∀ s1, (bynode_fill_body app s node).1 = .next s1 → s1.nprocs_mapped < P)
    ∧ (∀ s1, (bynode_fill_body app s node).1 = .brk s1 → s1.nprocs_mapped = P) := by
  obtain ⟨S1, hS1⟩ : ∃ S1, S1 = root_obj_of s node := ⟨_, rfl⟩
  have b1 : S1.jdata = s.jdata := by rw [hS1]; simp
  have b2 : S1.nprocs_mapped = s.nprocs_mapped := by rw [hS1]; simp
  have e : bynode_fill_body app s node
      = (match prrte_rmaps_base_setup_proc S1.mem node app.idx with
         | none => (.ret .PRRTE_ERR_OUT_OF_RESOURCE S1, node)
         | some (mem1, node1, proc) =>
           if (oversub_check false
                 { S1 with mem := mem1, nprocs_mapped := S1.nprocs_mapped + 1 }
                 (store_proc node1 (prrte_set_attribute proc S1.obj))).2.1.nprocs_mapped
               = app.num_procs
           then (.brk (oversub_check false
                 { S1 with mem := mem1, nprocs_mapped := S1.nprocs_mapped + 1 }
                 (store_proc node1 (prrte_set_attribute proc S1.obj))).2.1,
                 (oversub_check false
                 { S1 with mem := mem1, nprocs_mapped := S1.nprocs_mapped + 1 }
                 (store_proc node1 (prrte_set_attribute proc S1.obj))).2.2)
           else (.next (oversub_check false
                 { S1 with mem := mem1, nprocs_mapped := S1.nprocs_mapped + 1 }
                 (store_proc node1 (prrte_set_attribute proc S1.obj))).2.1,
                 (oversub_check false
                 { S1 with mem := mem1, nprocs_mapped := S1.nprocs_mapped + 1 }
                 (store_proc node1 (prrte_set_attribute proc S1.obj))).2.2)) := by
    subst hS1
    rfl
  rw [e, ← b1, ← b2]
  rw [← b2] at hlt
  clear e hS1 b1 b2
  cases hsp : prrte_rmaps_base_setup_proc S1.mem node app.idx with
  | none =>
    exact ⟨node_step_refl _ _ _ _ _, fun s1 h => (by cases h), fun s1 h => (by cases h)⟩
  | some r =>
    obtain ⟨mem1, node1, proc⟩ := r
    dsimp only
    obtain ⟨hs, -⟩ := setup_proc_step P any_proc S1.jdata S1.nprocs_mapped S1.mem
      mem1 app.idx node node1 proc S1.obj hmap hlt trivial hsp
    have ho := oversub_check_step P any_proc false
      { S1 with mem := mem1, nprocs_mapped := S1.nprocs_mapped + 1 }
      (store_proc node1 (prrte_set_attribute proc S1.obj))
    have h2 := node_step_trans hs ho
    split
    · rename_i he
      refine ⟨h2, fun s1 h => (by cases h), fun s1 h => ?_⟩
      cases h
      rw [← hP]
      exact he
    · rename_i he
      refine ⟨h2, fun s1 h => ?_, fun s1 h => (by cases h)⟩
      cases h
      rw [hP] at he
      have hle : _ ≤ P := h2.bounded (le_of_lt hlt)
      exact lt_of_le_of_ne hle he

end Prrte

namespace Prrte

/-! ## One visit of a node in the by-object mappers -/

/-- The object loop of by-object no-span, whatever it returns: every proc it
creates has a target object of the node, wide enough, as its locale. -/
lemma byobj_for_step (P : Nat) (opts : rmaps_base_t) (app : prrte_app_context_t)
    (hP : app.num_procs = P) (t : hwloc_topology_t) (target : hwloc_obj_type_t)
    (cache_level nobjs start : Nat) (nprocs : Int) :
    ∀ (k i nmapped : Nat) (s : Locals) (node : prrte_node_t),
      node.mapped = true → node.topology = some t →
      node_step P (locale_ok opts target cache_level) s.jdata s.nprocs_mapped node
        (byobj_for opts app t target cache_level nobjs start nprocs k i nmapped s node).1.st.jdata
        (byobj_for opts app t target cache_level nobjs start nprocs k i nmapped s
          node).1.st.nprocs_mapped
        (byobj_for opts app t target cache_level nobjs start nprocs k i nmapped s node).2.1 := by
  intro k
  induction k with
  | zero =>
    intro i nmapped s node _ _
    exact node_step_refl _ _ _ _ _
  | succ k ih =>
    intro i nmapped s node hmap htopo
    simp only [byobj_for]
    split
    · rename_i hg
      cases hobj : t.get_obj_by_type target cache_level ((i + start) % nobjs) with
      | none => exact node_step_refl _ _ _ _ _
      | some o =>
        dsimp only
        split
        · exact node_step_refl _ _ _ _ _
        · rename_i hw
          cases hsp : prrte_rmaps_base_setup_proc s.mem node app.idx with
          | none => exact node_step_refl _ _ _ _ _
          | some r =>
            obtain ⟨mem1, node1, proc⟩ := r
            dsimp only
            have hG : locale_ok opts target cache_level node.topology
                { app_idx := app.idx, locale := some o } :=
              ⟨t, o, (i + start) % nobjs, htopo, rfl, hobj, by omega⟩
            obtain ⟨hs, -⟩ := setup_proc_step P (locale_ok opts target cache_level) s.jdata
              s.nprocs_mapped s.mem mem1 app.idx node node1 proc (some o) hmap
              (by rw [← hP]; exact hg.2) hG hsp
            have hm3 := hs.placed_mapped (Nat.lt_succ_self _)
            have ht3 := hs.topo_eq.trans htopo
            exact node_step_trans hs
              (ih (i + 1) (nmapped + 1)
                { s with obj := some o, mem := mem1, nprocs_mapped := s.nprocs_mapped + 1 }
                _ hm3 ht3)
    · exact node_step_refl _ _ _ _ _

/-- The `do ... while` loop around the object loop. -/
lemma byobj_dowhile_step (P : Nat) (opts : rmaps_base_t) (app : prrte_app_context_t)
    (hP : app.num_procs = P) (t : hwloc_topology_t) (target : hwloc_obj_type_t)
    (cache_level nobjs start : Nat) (nprocs : Int) :
    ∀ (fuel nmapped : Nat) (s : Locals) (node : prrte_node_t) (r : Ctl × prrte_node_t),
      byobj_dowhile opts app t target cache_level nobjs start nprocs fuel nmapped s node = some r →
      node.mapped = true → node.topology = some t →
      node_step P (locale_ok opts target cache_level) s.jdata s.nprocs_mapped node
        r.1.st.jdata r.1.st.nprocs_mapped r.2 := by
  intro fuel
  induction fuel with
  | zero =>
    intro nmapped s node r h
    simp [byobj_dowhile] at h
  | succ fuel ih =>
    intro nmapped s node r h hmap htopo
    have hf := byobj_for_step P opts app hP t target cache_level nobjs start nprocs nobjs 0
      nmapped s node hmap htopo
    simp only [byobj_dowhile] at h
    rcases hr : byobj_for opts app t target cache_level nobjs start nprocs nobjs 0 nmapped s node
      with ⟨c, node1, nm1⟩
    rw [hr] at h hf
    have hm1 : node1.mapped = true := by
      rcases hf.map_once with ⟨-, -, e⟩ | ⟨-, e, -⟩
      · exact e.trans hmap
      · exact e
    have ht1 : node1.topology = some t := hf.topo_eq.trans htopo
    cases c with
    | ret rc s1 =>
      cases h
      exact hf
    | next s1 =>
      dsimp only at h
      split at h
      · exact node_step_trans hf (ih nm1 s1 node1 r h hm1 ht1)
      · cases h
        exact hf
    | brk s1 =>
      dsimp only at h
      split at h
      · exact node_step_trans hf (ih nm1 s1 node1 r h hm1 ht1)
      · cases h
        exact hf

/-- The oversubscription block followed by the test that ends the node loop, in
the form it has in the bodies that do not check the permission. -/
lemma check_tail_step2 (P : Nat) (G : Option hwloc_topology_t → prrte_proc_t → Prop)
    (app : prrte_app_context_t) (perm : Bool) (j : prrte_job_t) (m : Nat) (node : prrte_node_t)
    (s1 : Locals) (node1 : prrte_node_t)
    (h : node_step P G j m node s1.jdata s1.nprocs_mapped node1) :
    node_step P G j m node
      (if (oversub_check perm s1 node1).2.1.nprocs_mapped = app.num_procs
        then (Ctl.brk (oversub_check perm s1 node1).2.1, (oversub_check perm s1 node1).2.2)
        else (Ctl.next (oversub_check perm s1 node1).2.1,
              (oversub_check perm s1 node1).2.2)).1.st.jdata
      (if (oversub_check perm s1 node1).2.1.nprocs_mapped = app.num_procs
        then (Ctl.brk (oversub_check perm s1 node1).2.1, (oversub_check perm s1 node1).2.2)
        else (Ctl.next (oversub_check perm s1 node1).2.1,
              (oversub_check perm s1 node1).2.2)).1.st.nprocs_mapped
      (if (oversub_check perm s1 node1).2.1.nprocs_mapped = app.num_procs
        then (Ctl.brk (oversub_check perm s1 node1).2.1, (oversub_check perm s1 node1).2.2)
        else (Ctl.next (oversub_check perm s1 node1).2.1,
              (oversub_check perm s1 node1).2.2)).2 := by
  have h2 := node_step_trans h (oversub_check_step P G perm s1 node1)
  split <;> exact h2

/-- The body of the node loop of by-object no-span. -/
lemma byobj_body_step (P : Nat) (fuel : Nat) (opts : rmaps_base_t) (app : prrte_app_context_t)
    (hP : app.num_procs = P) (target : hwloc_obj_type_t) (cache_level : Nat)
    (second_pass : Bool) (s : Locals) (node : prrte_node_t) (r : Ctl × prrte_node_t)
    (h : byobj_body fuel opts app target cache_level second_pass s node = some r) :
    node_step P (locale_ok opts target cache_level) s.jdata s.nprocs_mapped node
      r.1.st.jdata r.1.st.nprocs_mapped r.2 := by
  unfold byobj_body at h
  cases htopo : node.topology with
  | none =>
    simp only [htopo] at h
    cases h
    exact node_step_refl _ _ _ _ _
  | some t =>
    simp only [htopo] at h
    split at h
    · cases h
      exact node_step_refl _ _ _ _ _
    · split at h
      · cases h
        exact node_step_refl _ _ _ _ _
      · have h1 := add_to_map_step P (locale_ok opts target cache_level) s.jdata
          s.nprocs_mapped node
        have hm := add_to_map_mapped s.jdata node
        have ht : (add_to_map s.jdata node).2.topology = some t := h1.topo_eq.trans htopo
        split at h
        · cases h
        · rename_i rc s1 node1 hd
          cases h
          exact node_step_trans h1
            (byobj_dowhile_step P opts app hP t target cache_level _ _ _ _ _ _ _ _ hd hm ht)
        · rename_i c node1 hnr hd
          have h2 := node_step_trans h1
            (byobj_dowhile_step P opts app hP t target cache_level _ _ _ _ _ _ _ _ hd hm ht)
          dsimp only at h2
          have h3 := node_step_trans h2
            (oversub_check_step P (locale_ok opts target cache_level) true
              { c.st with add_one := true } node1)
          split at h
          · rename_i rc s2 node2 ho
            cases h
            rw [ho] at h3
            exact h3
          · rename_i s2 node2 ho
            rw [ho] at h3
            split at h <;> (cases h; exact h3)

end Prrte

namespace Prrte

/-- A change of the job that leaves its map alone. -/
lemma node_step_job (P : Nat) (G : Option hwloc_topology_t → prrte_proc_t → Prop)
    (j j1 : prrte_job_t) (m : Nat) (node : prrte_node_t)
    (h1 : j1.nodes = j.nodes) (h2 : j1.num_nodes = j.num_nodes) :
    node_step P G j m node j1 m node where
  name_eq := rfl
  topo_eq := rfl
  slots_eq := rfl
  given_eq := rfl
  mono := le_rfl
  bounded := id
  placed := ⟨[], by simp, by simp, by simp⟩
  num_procs_eq := rfl
  inuse_eq := rfl
  placed_mapped := fun h => absurd h (lt_irrefl _)
  map_once := Or.inl ⟨h1, h2, rfl⟩

/-- The object loop of by-object span, whatever it returns. -/
lemma span_for_step (P : Nat) (opts : rmaps_base_t) (app : prrte_app_context_t)
    (hP : app.num_procs = P) (t : hwloc_topology_t) (target : hwloc_obj_type_t)
    (cache_level nobjs : Nat) (navg : Int) :
    ∀ (k i : Nat) (s : Locals) (node : prrte_node_t),
      node.mapped = true → node.topology = some t →
      node_step P (locale_ok opts target cache_level) s.jdata s.nprocs_mapped node
        (span_for opts app t target cache_level nobjs navg k i s node).1.st.jdata
        (span_for opts app t target cache_level nobjs navg k i s node).1.st.nprocs_mapped
        (span_for opts app t target cache_level nobjs navg k i s node).2 := by
  intro k
  induction k with
  | zero =>
    intro i s node _ _
    exact node_step_refl _ _ _ _ _
  | succ k ih =>
    intro i s node hmap htopo
    simp only [span_for]
    split
    · cases hobj : t.get_obj_by_type target cache_level i with
      | none => exact node_step_refl _ _ _ _ _
      | some o =>
        dsimp only
        split
        · exact node_step_refl _ _ _ _ _
        · rename_i hw
          obtain ⟨S2, hS2⟩ : ∃ S2 : Locals, S2
              = (if 0 < s.nxtra_nodes
                 then { ({ s with obj := some o } : Locals) with nxtra_nodes := s.nxtra_nodes - 1 }
                 else { s with obj := some o }) := ⟨_, rfl⟩
          have b1 : S2.jdata = s.jdata := by rw [hS2]; split <;> rfl
          have b2 : S2.nprocs_mapped = s.nprocs_mapped := by rw [hS2]; split <;> rfl
          have b3 : S2.obj = some o := by rw [hS2]; split <;> rfl
          rw [← hS2]
          obtain ⟨N, hN⟩ : ∃ N : Nat, N
              = (if 0 < s.nxtra_nodes then byobj_nprocs opts t target nobjs navg + 1
                 else byobj_nprocs opts t target nobjs navg).toNat := ⟨_, rfl⟩
          rw [← hN]
          have hG : locale_ok opts target cache_level node.topology
              { app_idx := app.idx, locale := S2.obj } := by
            rw [b3]
            exact ⟨t, o, i, htopo, rfl, hobj, by omega⟩
          have hpl := (place_loop_step P (locale_ok opts target cache_level) app hP false N S2
            node (fun _ => hmap) hG).1
          rw [b1, b2] at hpl
          rcases hr : place_loop app false N S2 node with ⟨c, node3⟩
          rw [hr] at hpl
          have hm3 : node3.mapped = true := by
            rcases hpl.map_once with ⟨-, -, e⟩ | ⟨-, e, -⟩
            · exact e.trans hmap
            · exact e
          have ht3 : node3.topology = some t := hpl.topo_eq.trans htopo
          cases c with
          | ret rc s3 => exact hpl
          | next s3 =>
            exact node_step_trans hpl
              (node_step_trans
                (node_step_job P _ s3.jdata { s3.jdata with bookmark := some node3.name }
                  s3.nprocs_mapped node3 rfl rfl)
                (ih (i + 1) { s3 with jdata := { s3.jdata with bookmark := some node3.name } }
                  node3 hm3 ht3))
          | brk s3 =>
            exact node_step_trans hpl
              (node_step_trans
                (node_step_job P _ s3.jdata { s3.jdata with bookmark := some node3.name }
                  s3.nprocs_mapped node3 rfl rfl)
                (ih (i + 1) { s3 with jdata := { s3.jdata with bookmark := some node3.name } }
                  node3 hm3 ht3))
    · exact node_step_refl _ _ _ _ _

/-- The body of the second node loop of by-object span: the node is in the map
afterwards, and a `break` means that every proc is mapped. -/
lemma span_body_step (P : Nat) (opts : rmaps_base_t) (app : prrte_app_context_t)
    (hP : app.num_procs = P) (target : hwloc_obj_type_t) (cache_level : Nat) (navg : Int)
    (s : Locals) (node : prrte_node_t) :
    node_step P (locale_ok opts target cache_level) s.jdata s.nprocs_mapped node
      (span_body opts app target cache_level navg s node).1.st.jdata
      (span_body opts app target cache_level navg s node).1.st.nprocs_mapped
      (span_body opts app target cache_level navg s node).2 := by
  have h1 := add_to_map_step P (locale_ok opts target cache_level) s.jdata s.nprocs_mapped node
  have hm := add_to_map_mapped s.jdata node
  unfold span_body
  dsimp only
  cases htopo : (add_to_map s.jdata node).2.topology with
  | none => exact h1
  | some t =>
    dsimp only
    have h2 := node_step_trans h1
      (span_for_step P opts app hP t target cache_level (t.get_nbobjs_by_type target cache_level)
        navg (t.get_nbobjs_by_type target cache_level) 0
        { s with jdata := (add_to_map s.jdata node).1 } (add_to_map s.jdata node).2 hm htopo)
    rcases hr : span_for opts app t target cache_level (t.get_nbobjs_by_type target cache_level)
      navg (t.get_nbobjs_by_type target cache_level) 0
      { s with jdata := (add_to_map s.jdata node).1 } (add_to_map s.jdata node).2 with ⟨c, node2⟩
    rw [hr] at h2
    cases c with
    | ret rc s2 => exact h2
    | next s2 => exact check_tail_step2 P _ app false _ _ _ s2 node2 h2
    | brk s2 => exact check_tail_step2 P _ app false _ _ _ s2 node2 h2

end Prrte

namespace Prrte

/-! ## Properties kept by every visit are kept by the mappers -/

/-- The node loop keeps what every visit keeps. -/
lemma foreachNode_kept (P : Nat) (G : Option hwloc_topology_t → prrte_proc_t → Prop)
    (Inv : prrte_job_t → Nat → List prrte_node_t → Prop) (hk : kept_by_steps P G Inv)
    (body : Locals → prrte_node_t → Ctl × prrte_node_t)
    (hb : ∀ s node, node_step P G s.jdata s.nprocs_mapped node (body s node).1.st.jdata
      (body s node).1.st.nprocs_mapped (body s node).2) :
    ∀ (nodes pre : List prrte_node_t) (s : Locals),
      Inv s.jdata s.nprocs_mapped (pre ++ nodes) →
      Inv (foreachNode body s nodes).1.st.jdata (foreachNode body s nodes).1.st.nprocs_mapped
        (pre ++ (foreachNode body s nodes).2) := by
  intro nodes
  induction nodes with
  | nil => intro pre s h; exact h
  | cons node rest ih =>
    intro pre s h
    have hs := hb s node
    have h1 := hk pre rest node _ _ _ _ _ hs h
    simp only [foreachNode]
    rcases hr : body s node with ⟨c, node1⟩
    rw [hr] at h1
    cases c with
    | next s1 =>
      dsimp only
      have h2 := ih (pre ++ [node1]) s1 (by rw [List.append_assoc]; exact h1)
      rw [List.append_assoc] at h2
      exact h2
    | brk s1 => exact h1
    | ret rc s1 => exact h1

/-- The node loop with a body that may run out of fuel. -/
lemma foreachNodeF_kept (P : Nat) (G : Option hwloc_topology_t → prrte_proc_t → Prop)
    (Inv : prrte_job_t → Nat → List prrte_node_t → Prop) (hk : kept_by_steps P G Inv)
    (body : Locals → prrte_node_t → Option (Ctl × prrte_node_t))
    (hb : ∀ s node r, body s node = some r →
      node_step P G s.jdata s.nprocs_mapped node r.1.st.jdata r.1.st.nprocs_mapped r.2) :
    ∀ (nodes pre : List prrte_node_t) (s : Locals) (r : Ctl × List prrte_node_t),
      foreachNodeF body s nodes = some r →
      Inv s.jdata s.nprocs_mapped (pre ++ nodes) →
      Inv r.1.st.jdata r.1.st.nprocs_mapped (pre ++ r.2) := by
  intro nodes
  induction nodes with
  | nil =>
    intro pre s r hr h
    simp only [foreachNodeF, Option.some.injEq] at hr
    subst hr
    exact h
  | cons node rest ih =>
    intro pre s r hr h
    simp only [foreachNodeF] at hr
    cases hbn : body s node with
    | none => simp [hbn] at hr
    | some x =>
      obtain ⟨c, node1⟩ := x
      have hs := hb s node _ hbn
      have h1 := hk pre rest node _ _ _ _ _ hs h
      rw [hbn] at hr
      dsimp only at h1
      cases c with
      | next s1 =>
        dsimp only at hr
        cases hrec : foreachNodeF body s1 rest with
        | none => simp [hrec] at hr
        | some r1 =>
          rw [hrec] at hr
          simp only [Option.some.injEq] at hr
          subst hr
          have h2 := ih (pre ++ [node1]) s1 r1 hrec (by rw [List.append_assoc]; exact h1)
          rw [List.append_assoc] at h2
          exact h2
      | brk s1 =>
        simp only [Option.some.injEq] at hr
        subst hr
        exact h1
      | ret rc s1 =>
        simp only [Option.some.injEq] at hr
        subst hr
        exact h1

lemma byslot_balance_kept (app : prrte_app_context_t) (n : Nat) (s : Locals) :
    (byslot_balance app n s).jdata = s.jdata
    ∧ (byslot_balance app n s).nprocs_mapped = s.nprocs_mapped
    ∧ (byslot_balance app n s).mem = s.mem := by
  unfold byslot_balance
  dsimp only
  split <;> exact ⟨rfl, rfl, rfl⟩

lemma bynode_balance_kept (app : prrte_app_context_t) (s : Locals) :
    (bynode_balance app s).2.jdata = s.jdata
    ∧ (bynode_balance app s).2.nprocs_mapped = s.nprocs_mapped
    ∧ (bynode_balance app s).2.mem = s.mem := by
  unfold bynode_balance
  dsimp only
  split <;> (split <;> exact ⟨rfl, rfl, rfl⟩)

/-- By-slot keeps what every visit keeps. -/
lemma byslot_call_kept (P : Nat) (Inv : prrte_job_t → Nat → List prrte_node_t → Prop)
    (hk : kept_by_steps P any_proc Inv) (opts : rmaps_base_t) (jdata : prrte_job_t)
    (app : prrte_app_context_t) (hP : app.num_procs = P) (node_list : List prrte_node_t)
    (num_slots : Int) (mem : Nat) (h0 : Inv jdata 0 node_list) :
    Inv (prrte_rmaps_rr_byslot opts jdata app node_list num_slots mem).st.jdata
      (prrte_rmaps_rr_byslot opts jdata app node_list num_slots mem).st.nprocs_mapped
      (prrte_rmaps_rr_byslot opts jdata app node_list num_slots mem).nodes := by
  unfold prrte_rmaps_rr_byslot
  split
  · exact h0
  · have h1 := foreachNode_kept P any_proc Inv hk (byslot_pass1_body opts app)
      (byslot_pass1_body_step P opts app hP) node_list [] (init_locals jdata mem) h0
    simp only [List.nil_append] at h1
    rcases hr : foreachNode (byslot_pass1_body opts app) (init_locals jdata mem) node_list
      with ⟨c, nodes⟩
    rw [hr] at h1
    have key : ∀ c : Ctl, Inv c.st.jdata c.st.nprocs_mapped nodes →
        Inv (if c.st.nprocs_mapped = app.num_procs then
              ({ rc := .PRRTE_SUCCESS, st := c.st, nodes := nodes } : Outcome)
            else
              match foreachNode (byslot_pass2_body app)
                      (byslot_balance app node_list.length c.st) nodes with
              | (.ret rc s, nodes2) => { rc := rc, st := s, nodes := nodes2 }
              | (c2, nodes2) => { rc := .PRRTE_SUCCESS, st := c2.st, nodes := nodes2 }).st.jdata
          (if c.st.nprocs_mapped = app.num_procs then
              ({ rc := .PRRTE_SUCCESS, st := c.st, nodes := nodes } : Outcome)
            else
              match foreachNode (byslot_pass2_body app)
                      (byslot_balance app node_list.length c.st) nodes with
              | (.ret rc s, nodes2) => { rc := rc, st := s, nodes := nodes2 }
              | (c2, nodes2) =>
                { rc := .PRRTE_SUCCESS, st := c2.st, nodes := nodes2 }).st.nprocs_mapped
          (if c.st.nprocs_mapped = app.num_procs then
              ({ rc := .PRRTE_SUCCESS, st := c.st, nodes := nodes } : Outcome)
            else
              match foreachNode (byslot_pass2_body app)
                      (byslot_balance app node_list.length c.st) nodes with
              | (.ret rc s, nodes2) => { rc := rc, st := s, nodes := nodes2 }
              | (c2, nodes2) => { rc := .PRRTE_SUCCESS, st := c2.st, nodes := nodes2 }).nodes := by
      intro c hc
      split
      · exact hc
      · obtain ⟨e1, e2, -⟩ := byslot_balance_kept app node_list.length c.st
        have h2 := foreachNode_kept P any_proc Inv hk (byslot_pass2_body app)
          (fun s node => (byslot_pass2_body_step P app hP s node).1) nodes []
          (byslot_balance app node_list.length c.st) (by rw [e1, e2]; exact hc)
        simp only [List.nil_append] at h2
        rcases hr2 : foreachNode (byslot_pass2_body app)
          (byslot_balance app node_list.length c.st) nodes with ⟨c2, nodes2⟩
        rw [hr2] at h2
        cases c2 <;> exact h2
    cases c with
    | ret rc s => exact h1
    | next s => exact key (.next s) h1
    | brk s => exact key (.brk s) h1

end Prrte

namespace Prrte

/-- A by-node round that is not left by a `break` has put every node in the
map; a `break` means that every proc is mapped. -/
lemma bynode_round_loop_ctl (P : Nat) (opts : rmaps_base_t) (app : prrte_app_context_t)
    (hP : app.num_procs = P) (oversubscribed : Bool) (navg : Int) :
    ∀ (nodes : List prrte_node_t) (s : Locals),
      (∀ s1, (foreachNode (bynode_round_body opts app oversubscribed navg) s nodes).1 = .next s1 →
        ∀ n ∈ (foreachNode (bynode_round_body opts app oversubscribed navg) s nodes).2,
          n.mapped = true)
      ∧ (∀ s1, (foreachNode (bynode_round_body opts app oversubscribed navg) s nodes).1 = .brk s1 →
          s1.nprocs_mapped = P) := by
  intro nodes
  induction nodes with
  | nil =>
    intro s
    exact ⟨fun s1 _ n hn => by simp [foreachNode] at hn, fun s1 h => by simp [foreachNode] at h⟩
  | cons node rest ih =>
    intro s
    obtain ⟨-, hm, hb⟩ := bynode_round_body_step P opts app hP oversubscribed navg s node
    simp only [foreachNode]
    rcases hr : bynode_round_body opts app oversubscribed navg s node with ⟨c, node1⟩
    rw [hr] at hm hb
    cases c with
    | next s1 =>
      dsimp only
      obtain ⟨i1, i2⟩ := ih s1
      refine ⟨fun s2 h n hn => ?_, fun s2 h => i2 s2 h⟩
      rcases List.mem_cons.mp hn with rfl | hn
      · exact hm
      · exact i1 s2 h n hn
    | brk s1 =>
      exact ⟨fun s2 h => (by cases h), fun s2 h => (by cases h; exact hb s1 rfl)⟩
    | ret rc s1 =>
      exact ⟨fun s2 h => (by cases h), fun s2 h => (by cases h)⟩

/-- The rounds of by-node keep what every visit keeps, and end with every proc
mapped or every node in the map. -/
lemma bynode_rounds_kept (P : Nat) (Inv : prrte_job_t → Nat → List prrte_node_t → Prop)
    (hk : kept_by_steps P any_proc Inv) (opts : rmaps_base_t) (app : prrte_app_context_t)
    (hP : app.num_procs = P) (oversubscribed : Bool) :
    ∀ (fuel : Nat) (s : Locals) (nodes : List prrte_node_t) (r : Ctl × List prrte_node_t),
      bynode_rounds opts app oversubscribed fuel s nodes = some r →
      Inv s.jdata s.nprocs_mapped nodes →
      Inv r.1.st.jdata r.1.st.nprocs_mapped r.2
      ∧ (r.1.isRet = false → r.1.st.nprocs_mapped = P ∨ ∀ n ∈ r.2, n.mapped = true) := by
  intro fuel
  induction fuel with
  | zero => intro s nodes r h; simp [bynode_rounds] at h
  | succ fuel ih =>
    intro s nodes r h h0
    simp only [bynode_rounds] at h
    split at h
    · cases h
      exact ⟨h0, fun h => by simp [Ctl.isRet] at h⟩
    · obtain ⟨e1, e2, -⟩ := bynode_balance_kept app s
      have h1 := foreachNode_kept P any_proc Inv hk
        (bynode_round_body opts app oversubscribed (bynode_balance app s).1)
        (fun s node => (bynode_round_body_step P opts app hP oversubscribed _ s node).1) nodes []
        { (bynode_balance app s).2 with nnodes := 0 }
        (by
          show Inv (bynode_balance app s).2.jdata (bynode_balance app s).2.nprocs_mapped _
          rw [e1, e2]
          exact h0)
      simp only [List.nil_append] at h1
      obtain ⟨c1, c2⟩ := bynode_round_loop_ctl P opts app hP oversubscribed
        (bynode_balance app s).1 nodes { (bynode_balance app s).2 with nnodes := 0 }
      rcases hr : foreachNode (bynode_round_body opts app oversubscribed (bynode_balance app s).1)
        { (bynode_balance app s).2 with nnodes := 0 } nodes with ⟨c, nodes1⟩
      rw [hr] at h h1 c1 c2
      cases c with
      | ret rc s1 =>
        cases h
        exact ⟨h1, fun h => by simp [Ctl.isRet] at h⟩
      | next s1 =>
        dsimp only at h
        split at h
        · exact ih s1 nodes1 r h h1
        · cases h
          exact ⟨h1, fun _ => Or.inr (c1 s1 rfl)⟩
      | brk s1 =>
        dsimp only at h
        split at h
        · exact ih s1 nodes1 r h h1
        · cases h
          exact ⟨h1, fun _ => Or.inl (c2 s1 rfl)⟩

/-- One pass of the final fill of by-node over nodes that are all in the map. -/
lemma bynode_fill_loop_kept (P : Nat) (Inv : prrte_job_t → Nat → List prrte_node_t → Prop)
    (hk : kept_by_steps P any_proc Inv) (app : prrte_app_context_t) (hP : app.num_procs = P) :
    ∀ (nodes pre : List prrte_node_t) (s : Locals),
      (∀ n ∈ nodes, n.mapped = true) → s.nprocs_mapped < P →
      Inv s.jdata s.nprocs_mapped (pre ++ nodes) →
      Inv (foreachNode (bynode_fill_body app) s nodes).1.st.jdata
        (foreachNode (bynode_fill_body app) s nodes).1.st.nprocs_mapped
        (pre ++ (foreachNode (bynode_fill_body app) s nodes).2)
      ∧ ∀ n ∈ (foreachNode (bynode_fill_body app) s nodes).2, n.mapped = true := by
  intro nodes
  induction nodes with
  | nil => intro pre s hm _ h; exact ⟨h, hm⟩
  | cons node rest ih =>
    intro pre s hm hlt h
    obtain ⟨hs, hn, -⟩ := bynode_fill_body_step P app hP s node
      (hm node (List.mem_cons_self _ _)) hlt
    have h1 := hk pre rest node _ _ _ _ _ hs h
    have hm1 : (bynode_fill_body app s node).2.mapped = true := by
      rcases hs.map_once with ⟨-, -, e⟩ | ⟨-, e, -⟩
      · exact e.trans (hm node (List.mem_cons_self _ _))
      · exact e
    have hmr : ∀ n ∈ rest, n.mapped = true := fun n hn => hm n (List.mem_cons_of_mem _ hn)
    simp only [foreachNode]
    rcases hr : bynode_fill_body app s node with ⟨c, node1⟩
    rw [hr] at h1 hm1 hn
    have hall : ∀ n ∈ node1 :: rest, n.mapped = true := by
      intro n hn
      rcases List.mem_cons.mp hn with rfl | hn
      · exact hm1
      · exact hmr n hn
    cases c with
    | next s1 =>
      dsimp only
      obtain ⟨i1, i2⟩ := ih (pre ++ [node1]) s1 hmr (hn s1 rfl)
        (by rw [List.append_assoc]; exact h1)
      rw [List.append_assoc] at i1
      refine ⟨i1, ?_⟩
      intro n hn
      rcases List.mem_cons.mp hn with rfl | hn
      · exact hm1
      · exact i2 n hn
    | brk s1 => exact ⟨h1, hall⟩
    | ret rc s1 => exact ⟨h1, hall⟩

/-- The final fill of by-node keeps what every visit keeps. -/
lemma bynode_fill_kept (P : Nat) (Inv : prrte_job_t → Nat → List prrte_node_t → Prop)
    (hk : kept_by_steps P any_proc Inv) (app : prrte_app_context_t) (hP : app.num_procs = P) :
    ∀ (fuel : Nat) (s : Locals) (nodes : List prrte_node_t) (r : Ctl × List prrte_node_t),
      bynode_fill app fuel s nodes = some r →
      (s.nprocs_mapped < P → ∀ n ∈ nodes, n.mapped = true) →
      Inv s.jdata s.nprocs_mapped nodes →
      Inv r.1.st.jdata r.1.st.nprocs_mapped r.2 := by
  intro fuel
  induction fuel with
  | zero =>
    intro s nodes r h _ h0
    simp only [bynode_fill] at h
    split at h
    · cases h
    · cases h
      exact h0
  | succ fuel ih =>
    intro s nodes r h hm h0
    simp only [bynode_fill] at h
    split at h
    · rename_i hlt
      rw [hP] at hlt
      obtain ⟨h1, h2⟩ := bynode_fill_loop_kept P Inv hk app hP nodes [] s (hm hlt) hlt h0
      simp only [List.nil_append] at h1
      rcases hr : foreachNode (bynode_fill_body app) s nodes with ⟨c, nodes1⟩
      rw [hr] at h h1 h2
      cases c with
      | ret rc s1 =>
        cases h
        exact h1
      | next s1 => exact ih s1 nodes1 r h (fun _ => h2) h1
      | brk s1 => exact ih s1 nodes1 r h (fun _ => h2) h1
    · cases h
      exact h0

/-- By-node keeps what every visit keeps. -/
lemma bynode_call_kept (P : Nat) (Inv : prrte_job_t → Nat → List prrte_node_t → Prop)
    (hk : kept_by_steps P any_proc Inv) (fuel : Nat) (opts : rmaps_base_t) (jdata : prrte_job_t)
    (app : prrte_app_context_t) (hP : app.num_procs = P) (node_list : List prrte_node_t)
    (num_slots : Int) (mem : Nat) (out : Outcome)
    (h : prrte_rmaps_rr_bynode fuel opts jdata app node_list num_slots mem = some out)
    (h0 : Inv jdata 0 node_list) :
    Inv out.st.jdata out.st.nprocs_mapped out.nodes := by
  unfold prrte_rmaps_rr_bynode at h
  split at h
  · cases h
    exact h0
  · dsimp only at h
    split at h
    · cases h
    · rename_i rc s nodes hr
      cases h
      exact (bynode_rounds_kept P Inv hk opts app hP _ fuel _ node_list _ hr h0).1
    · rename_i c nodes hnr hr
      obtain ⟨h1, h2⟩ := bynode_rounds_kept P Inv hk opts app hP _ fuel _ node_list _ hr h0
      have hc : c.isRet = false := by
        cases c with
        | ret rc s => exact absurd rfl (hnr rc s)
        | next s => rfl
        | brk s => rfl
      have hm : c.st.nprocs_mapped < P → ∀ n ∈ nodes, n.mapped = true := by
        intro hlt
        rcases h2 hc with e | e
        · dsimp only at e
          omega
        · exact e
      split at h
      · cases h
      · rename_i rc s nodes1 hf
        cases h
        exact bynode_fill_kept P Inv hk app hP fuel c.st nodes _ hf hm h1
      · rename_i c1 nodes1 hnr1 hf
        cases h
        exact bynode_fill_kept P Inv hk app hP fuel c.st nodes _ hf hm h1

end Prrte

namespace Prrte

/-- The passes of by-object no-span keep what every visit keeps. -/
lemma byobj_passes_kept (P : Nat) (Inv : prrte_job_t → Nat → List prrte_node_t → Prop)
    (opts : rmaps_base_t) (target : hwloc_obj_type_t) (cache_level : Nat)
    (hk : kept_by_steps P (locale_ok opts target cache_level) Inv)
    (app : prrte_app_context_t) (hP : app.num_procs = P) (fuel0 : Nat) :
    ∀ (fuel : Nat) (second_pass : Bool) (s : Locals) (nodes : List prrte_node_t)
      (r : Ctl × List prrte_node_t),
      byobj_passes opts app target cache_level fuel0 fuel second_pass s nodes = some r →
      Inv s.jdata s.nprocs_mapped nodes →
      Inv r.1.st.jdata r.1.st.nprocs_mapped r.2 := by
  intro fuel
  induction fuel with
  | zero => intro sp s nodes r h; simp [byobj_passes] at h
  | succ fuel ih =>
    intro sp s nodes r h h0
    simp only [byobj_passes] at h
    cases hl : foreachNodeF (byobj_body fuel0 opts app target cache_level sp)
        { s with add_one := false } nodes with
    | none => simp [hl] at h
    | some x =>
      obtain ⟨c, nodes1⟩ := x
      have h1 := foreachNodeF_kept P _ Inv hk (byobj_body fuel0 opts app target cache_level sp)
        (fun s node r hr => byobj_body_step P fuel0 opts app hP target cache_level sp s node r hr)
        nodes [] { s with add_one := false } _ hl h0
      simp only [List.nil_append] at h1
      rw [hl] at h
      cases c with
      | ret rc s1 =>
        cases h
        exact h1
      | next s1 =>
        dsimp only at h
        split at h
        · exact ih true s1 nodes1 r h h1
        · cases h
          exact h1
      | brk s1 =>
        dsimp only at h
        split at h
        · exact ih true s1 nodes1 r h h1
        · cases h
          exact h1

/-- By-object span keeps what every visit keeps. -/
lemma byobj_span_kept (P : Nat) (Inv : prrte_job_t → Nat → List prrte_node_t → Prop)
    (opts : rmaps_base_t) (target : hwloc_obj_type_t) (cache_level : Nat)
    (hk : kept_by_steps P (locale_ok opts target cache_level) Inv)
    (jdata : prrte_job_t) (app : prrte_app_context_t) (hP : app.num_procs = P)
    (node_list : List prrte_node_t) (num_slots : Int) (mem : Nat)
    (h0 : Inv jdata 0 node_list) :
    Inv (byobj_span opts jdata app node_list num_slots target cache_level mem).st.jdata
      (byobj_span opts jdata app node_list num_slots target cache_level mem).st.nprocs_mapped
      (byobj_span opts jdata app node_list num_slots target cache_level mem).nodes := by
  unfold byobj_span
  split
  · exact h0
  · split
    · exact h0
    · split
      · exact h0
      · rename_i nobjs _ _
        dsimp only
        have h1 := foreachNode_kept P _ Inv hk
          (span_body opts app target cache_level
            ((if app.num_procs / nobjs = 0 then 1 else app.num_procs / nobjs : Nat) : Int))
          (span_body_step P opts app hP target cache_level _) node_list []
          { init_locals jdata mem with
            nxtra_nodes :=
              if (app.num_procs : Int)
                  - ((if app.num_procs / nobjs = 0 then 1 else app.num_procs / nobjs : Nat) : Int)
                    * (nobjs : Int) < 0
              then 0
              else (app.num_procs : Int)
                  - ((if app.num_procs / nobjs = 0 then 1 else app.num_procs / nobjs : Nat) : Int)
                    * (nobjs : Int) } h0
        simp only [List.nil_append] at h1
        rcases hr : foreachNode (span_body opts app target cache_level
            ((if app.num_procs / nobjs = 0 then 1 else app.num_procs / nobjs : Nat) : Int))
          { init_locals jdata mem with
            nxtra_nodes :=
              if (app.num_procs : Int)
                  - ((if app.num_procs / nobjs = 0 then 1 else app.num_procs / nobjs : Nat) : Int)
                    * (nobjs : Int) < 0
              then 0
              else (app.num_procs : Int)
                  - ((if app.num_procs / nobjs = 0 then 1 else app.num_procs / nobjs : Nat) : Int)
                    * (nobjs : Int) } node_list with ⟨c, nodes⟩
        rw [hr] at h1
        cases c <;> exact h1

/-- By-object mapping, span or not, keeps what every visit keeps. -/
lemma byobj_call_kept (P : Nat) (Inv : prrte_job_t → Nat → List prrte_node_t → Prop)
    (opts : rmaps_base_t) (target : hwloc_obj_type_t) (cache_level : Nat)
    (hk : kept_by_steps P (locale_ok opts target cache_level) Inv)
    (fuel : Nat) (jdata : prrte_job_t) (app : prrte_app_context_t) (hP : app.num_procs = P)
    (node_list : List prrte_node_t) (num_slots : Int) (mem : Nat) (out : Outcome)
    (h : prrte_rmaps_rr_byobj fuel opts jdata app node_list num_slots target cache_level mem
      = some out)
    (h0 : Inv jdata 0 node_list) :
    Inv out.st.jdata out.st.nprocs_mapped out.nodes := by
  unfold prrte_rmaps_rr_byobj at h
  split at h
  · cases h
    exact byobj_span_kept P Inv opts target cache_level hk jdata app hP node_list num_slots mem h0
  · split at h
    · cases h
      exact h0
    · split at h
      · cases h
      · rename_i rc s nodes hr
        cases h
        exact byobj_passes_kept P Inv opts target cache_level hk app hP fuel fuel false _
          node_list _ hr h0
      · rename_i c nodes hnr hr
        have h1 := byobj_passes_kept P Inv opts target cache_level hk app hP fuel fuel false _
          node_list _ hr h0
        split at h <;> (cases h; exact h1)

end Prrte

namespace Prrte

/-! ## Three properties kept by every visit -/

/-- Replacing one element on the right of a pointwise relation. -/
lemma forall₂_replace {α β : Type} (R : α → β → Prop) (x y : β)
    (hxy : ∀ a, R a x → R a y) :
    ∀ (pre : List β) (l0 : List α) (post : List β),
      List.Forall₂ R l0 (pre ++ x :: post) → List.Forall₂ R l0 (pre ++ y :: post) := by
  intro pre
  induction pre with
  | nil =>
    intro l0 post h
    cases h with
    | cons h1 h2 => exact List.Forall₂.cons (hxy _ h1) h2
  | cons p pre ih =>
    intro l0 post h
    cases h with
    | cons h1 h2 => exact List.Forall₂.cons h1 (ih _ _ h2)

lemma forall₂_refl_of {α : Type} (R : α → α → Prop) (h : ∀ a, R a a) :
    ∀ l : List α, List.Forall₂ R l l := by
  intro l
  induction l with
  | nil => exact List.Forall₂.nil
  | cons a l ih => exact List.Forall₂.cons (h a) ih

lemma placed_inv_kept (P c0 : Nat) (G : Option hwloc_topology_t → prrte_proc_t → Prop) :
    kept_by_steps P G (placed_inv P c0) := by
  intro pre post node node1 j j1 m m1 hs h
  obtain ⟨h1, h2⟩ := h
  obtain ⟨new, e1, e2, -⟩ := hs.placed
  refine ⟨hs.bounded h1, ?_⟩
  simp only [List.map_append, List.map_cons, List.sum_append, List.sum_cons] at h2 ⊢
  rw [e1, List.length_append]
  omega

lemma locale_inv_kept (P : Nat) (opts : rmaps_base_t) (target : hwloc_obj_type_t)
    (cache_level : Nat) (nodes0 : List prrte_node_t) :
    kept_by_steps P (locale_ok opts target cache_level)
      (locale_inv opts target cache_level nodes0) := by
  intro pre post node node1 j j1 m m1 hs h
  refine forall₂_replace _ node node1 ?_ pre nodes0 post h
  intro a ha
  obtain ⟨t1, new1, p1, q1⟩ := ha
  obtain ⟨new, e1, -, e3⟩ := hs.placed
  refine ⟨hs.topo_eq.trans t1, new1 ++ new, by rw [e1, p1, List.append_assoc], ?_⟩
  intro p hp
  rcases List.mem_append.mp hp with hp | hp
  · exact q1 p hp
  · rw [← t1]
    exact e3 p hp

lemma map_count_inv_kept (P : Nat) (G : Option hwloc_topology_t → prrte_proc_t → Prop)
    (jdata0 : prrte_job_t) (nodes0 : List prrte_node_t) :
    kept_by_steps P G (map_count_inv jdata0 nodes0) := by
  intro pre post node node1 j j1 m m1 hs h
  obtain ⟨⟨i1, i2, i3⟩, ⟨added, a1, a2⟩, hf⟩ := h
  have hnames : (pre ++ node1 :: post).map (fun n => n.name)
      = (pre ++ node :: post).map (fun n => n.name) := by
    simp only [List.map_append, List.map_cons, hs.name_eq]
  have hnode : node.mapped = true ↔ node.name ∈ j.nodes :=
    i3 node (List.mem_append_right _ (List.mem_cons_self _ _))
  have hother : ∀ n, n ∈ pre ∨ n ∈ post → n.name ≠ node.name := by
    intro n hn
    simp only [List.map_append, List.map_cons] at i2
    rw [List.nodup_append] at i2
    obtain ⟨_, d2, d3⟩ := i2
    rw [List.nodup_cons] at d2
    rcases hn with hn | hn
    · intro e
      exact d3 (List.mem_map.mpr ⟨n, hn, rfl⟩) (by rw [e]; exact List.mem_cons_self _ _)
    · intro e
      exact d2.1 (by rw [← e]; exact List.mem_map.mpr ⟨n, hn, rfl⟩)
  have hold : ∀ n, n ∈ pre ∨ n ∈ post → (n.mapped = true ↔ n.name ∈ j.nodes) := by
    intro n hn
    apply i3
    rcases hn with hn | hn
    · exact List.mem_append_left _ hn
    · exact List.mem_append_right _ (List.mem_cons_of_mem _ hn)
  have hmono : node.mapped = true → node1.mapped = true := by
    intro hm
    rcases hs.map_once with ⟨-, -, e⟩ | ⟨-, e, -⟩
    · rw [e]; exact hm
    · exact e
  refine ⟨⟨?_, by rw [hnames]; exact i2, ?_⟩, ?_, ?_⟩
  · rcases hs.map_once with ⟨b1, -, -⟩ | ⟨b1, -, b3, -⟩
    · rw [b1]; exact i1
    · rw [b3]
      refine List.Nodup.append i1 (List.nodup_singleton _) ?_
      intro x hx hx2
      rw [List.mem_singleton] at hx2
      subst hx2
      have := hnode.mpr hx
      rw [b1] at this
      cases this
  · intro n hn
    have hcases : n ∈ pre ∨ n ∈ post ∨ n = node1 := by
      rcases List.mem_append.mp hn with h | h
      · exact Or.inl h
      · rcases List.mem_cons.mp h with h | h
        · exact Or.inr (Or.inr h)
        · exact Or.inr (Or.inl h)
    rcases hs.map_once with ⟨b1, -, b3⟩ | ⟨b1, b2, b3, -⟩
    · rw [b1]
      rcases hcases with h | h | h
      · exact hold n (Or.inl h)
      · exact hold n (Or.inr h)
      · subst h
        rw [b3, hs.name_eq]
        exact hnode
    · rw [b3]
      rcases hcases with h | h | h
      · rw [hold n (Or.inl h)]
        simp [hother n (Or.inl h)]
      · rw [hold n (Or.inr h)]
        simp [hother n (Or.inr h)]
      · subst h
        simp [b2, hs.name_eq]
  · rcases hs.map_once with ⟨b1, b2, -⟩ | ⟨-, -, b3, b4⟩
    · exact ⟨added, by rw [b1, a1], by rw [b2, a2]⟩
    · exact ⟨added ++ [node.name], by rw [b3, a1, List.append_assoc],
        by rw [b4, a2, List.length_append]; simp; omega⟩
  · refine forall₂_replace _ node node1 ?_ pre nodes0 post hf
    intro a ha
    obtain ⟨r1, r2, r3⟩ := ha
    obtain ⟨new, e1, e2, -⟩ := hs.placed
    refine ⟨hs.name_eq.trans r1, by rw [e1, List.length_append]; omega, ?_⟩
    intro hlt
    by_cases hc : a.procs.length < node.procs.length
    · exact hmono (r3 hc)
    · apply hs.placed_mapped
      rw [e1, List.length_append] at hlt
      omega

end Prrte

namespace Prrte

/-- Claim C36.  Whatever a mapper returns, it has placed at most
`app->num_procs` procs: for by-slot, by-node, by-object (no-span, or span
through the `SPAN` directive) and `byobj_span`, and every input, the count of
procs mapped when the call returns is at most `app->num_procs`, and it is the
number of procs the call added to the proc arrays of the nodes. -/
theorem placed_at_most_num_procs (fuel : Nat) (opts : rmaps_base_t) (jdata : prrte_job_t)
    (app : prrte_app_context_t) (node_list : List prrte_node_t) (num_slots : Int)
    (target : hwloc_obj_type_t) (cache_level mem : Nat) :
    placed_ok app node_list (prrte_rmaps_rr_byslot opts jdata app node_list num_slots mem)
    ∧ (∀ out, prrte_rmaps_rr_bynode fuel opts jdata app node_list num_slots mem = some out →
        placed_ok app node_list out)
    ∧ (∀ out, prrte_rmaps_rr_byobj fuel opts jdata app node_list num_slots target cache_level mem
          = some out → placed_ok app node_list out)
    ∧ placed_ok app node_list
        (byobj_span opts jdata app node_list num_slots target cache_level mem) := by
  have h0 : placed_inv app.num_procs (node_list.map (fun n => n.procs.length)).sum jdata 0
      node_list := ⟨Nat.zero_le _, rfl⟩
  refine ⟨?_, ?_, ?_, ?_⟩
  · exact byslot_call_kept app.num_procs _ (placed_inv_kept _ _ _) opts jdata app rfl node_list
      num_slots mem h0
  · intro out h
    exact bynode_call_kept app.num_procs _ (placed_inv_kept _ _ _) fuel opts jdata app rfl
      node_list num_slots mem out h h0
  · intro out h
    exact byobj_call_kept app.num_procs _ opts target cache_level (placed_inv_kept _ _ _) fuel
      jdata app rfl node_list num_slots mem out h h0
  · exact byobj_span_kept app.num_procs _ opts target cache_level (placed_inv_kept _ _ _) jdata
      app rfl node_list num_slots mem h0

/-- Claim C36 on the by-node run of ten procs over four nodes of eight slots. -/
theorem placed_at_most_num_procs_witness :
    placed_ok { idx := 0, num_procs := 10 }
      [ex_node 0 8 false, ex_node 1 8 false, ex_node 2 8 false, ex_node 3 8 false]
      ex_bynode_out :=
  (placed_at_most_num_procs 10 no_knobs (ex_job false false false) { idx := 0, num_procs := 10 }
    [ex_node 0 8 false, ex_node 1 8 false, ex_node 2 8 false, ex_node 3 8 false] 32
    .HWLOC_OBJ_PACKAGE 0 100).2.1 ex_bynode_out (by rfl)

/-- From the property kept by the visits to the form of the claim. -/
lemma map_ok_of_inv (jdata : prrte_job_t) (node_list : List prrte_node_t) (out : Outcome)
    (h : map_count_inv jdata node_list out.st.jdata out.st.nprocs_mapped out.nodes) :
    map_ok jdata node_list out := by
  obtain ⟨h1, h2, h3⟩ := h
  refine ⟨h1, h2, ?_⟩
  have hmem : ∀ n ∈ out.nodes, n.mapped = true → n.name ∈ out.st.jdata.nodes :=
    fun n hn hm => (h1.2.2 n hn).mp hm
  revert hmem
  generalize out.nodes = l at h3
  intro hmem
  induction h3 with
  | nil => exact List.Forall₂.nil
  | @cons a b l1 l2 hab _ ih =>
    refine List.Forall₂.cons ⟨hab.1, fun hlt => ?_⟩
      (ih (fun n hn hm => hmem n (List.mem_cons_of_mem _ hn) hm))
    exact ⟨hab.2.2 hlt, hmem b (List.mem_cons_self _ _) (hab.2.2 hlt)⟩

/-- Claim C33.  The job map and the `MAPPED` flags stay in step.  Start any
mapper from a job and a list of distinct nodes in which a node is flagged
`MAPPED` exactly when it is in `map->nodes`, and no node is in the map twice.
When the call returns, whatever it returns, the same holds; the map is the
former map with nodes appended, and `num_nodes` has grown by the number of nodes
appended; and every node that received a proc is flagged and in the map. -/
theorem map_and_flags_agree (fuel : Nat) (opts : rmaps_base_t) (jdata : prrte_job_t)
    (app : prrte_app_context_t) (node_list : List prrte_node_t) (num_slots : Int)
    (target : hwloc_obj_type_t) (cache_level mem : Nat)
    (hinv : map_inv jdata node_list) :
    map_ok jdata node_list (prrte_rmaps_rr_byslot opts jdata app node_list num_slots mem)
    ∧ (∀ out, prrte_rmaps_rr_bynode fuel opts jdata app node_list num_slots mem = some out →
        map_ok jdata node_list out)
    ∧ (∀ out, prrte_rmaps_rr_byobj fuel opts jdata app node_list num_slots target cache_level mem
          = some out → map_ok jdata node_list out)
    ∧ map_ok jdata node_list
        (byobj_span opts jdata app node_list num_slots target cache_level mem) := by
  have h0 : map_count_inv jdata node_list jdata 0 node_list :=
    ⟨hinv, ⟨[], by simp, by simp⟩,
      forall₂_refl_of _ (fun a => ⟨rfl, le_rfl, fun h => absurd h (lt_irrefl _)⟩) node_list⟩
  refine ⟨?_, ?_, ?_, ?_⟩
  · exact map_ok_of_inv _ _ _
      (byslot_call_kept app.num_procs _ (map_count_inv_kept _ _ _ _) opts jdata app rfl node_list
        num_slots mem h0)
  · intro out h
    exact map_ok_of_inv _ _ _
      (bynode_call_kept app.num_procs _ (map_count_inv_kept _ _ _ _) fuel opts jdata app rfl
        node_list num_slots mem out h h0)
  · intro out h
    exact map_ok_of_inv _ _ _
      (byobj_call_kept app.num_procs _ opts target cache_level (map_count_inv_kept _ _ _ _) fuel
        jdata app rfl node_list num_slots mem out h h0)
  · exact map_ok_of_inv _ _ _
      (byobj_span_kept app.num_procs _ opts target cache_level (map_count_inv_kept _ _ _ _) jdata
        app rfl node_list num_slots mem h0)

/-- Claim C33 on the by-node run of ten procs over four nodes of eight slots,
none of them in the map at the start. -/
theorem map_and_flags_agree_witness :
    map_inv (ex_job false false false)
      [ex_node 0 8 false, ex_node 1 8 false, ex_node 2 8 false, ex_node 3 8 false]
    ∧ map_ok (ex_job false false false)
        [ex_node 0 8 false, ex_node 1 8 false, ex_node 2 8 false, ex_node 3 8 false]
        ex_bynode_out :=
  have h : map_inv (ex_job false false false)
      [ex_node 0 8 false, ex_node 1 8 false, ex_node 2 8 false, ex_node 3 8 false] :=
    ⟨by decide, by decide, by
      intro n hn
      simp only [List.mem_cons, List.mem_singleton, List.not_mem_nil, or_false] at hn
      rcases hn with rfl | rfl | rfl | rfl <;> simp [ex_node, ex_job]⟩
  ⟨h, (map_and_flags_agree 10 no_knobs (ex_job false false false) { idx := 0, num_procs := 10 }
      [ex_node 0 8 false, ex_node 1 8 false, ex_node 2 8 false, ex_node 3 8 false] 32
      .HWLOC_OBJ_PACKAGE 0 100 h).2.1 ex_bynode_out (by rfl)⟩

end Prrte

namespace Prrte

/-- Claim C31.  The locale of the procs placed by the by-object mappers.  For
by-object mapping (no-span, or span through the `SPAN` directive) and for
`byobj_span`, and every input: when the call returns, every node has the
topology it had, and every proc the call added to a node has as locale a target
object of that node with `cpus_per_rank <= npus`.  In the object loop of either
mapper, when a proc is due and the object next in line has fewer processing
units than `cpus_per_rank`, the loop returns `PRRTE_ERR_SILENT` without creating
a proc: the node and the count of procs are as they were. -/
theorem byobj_locale_wide_enough (fuel : Nat) (opts : rmaps_base_t) (jdata : prrte_job_t)
    (app : prrte_app_context_t) (node_list : List prrte_node_t) (num_slots : Int)
    (target : hwloc_obj_type_t) (cache_level mem : Nat) :
    (∀ out, prrte_rmaps_rr_byobj fuel opts jdata app node_list num_slots target cache_level mem
        = some out →
      List.Forall₂
        (fun n0 n => n.topology = n0.topology
          ∧ ∃ new, n.procs = n0.procs ++ new
              ∧ ∀ p ∈ new, locale_ok opts target cache_level n0.topology p)
        node_list out.nodes)
    ∧ List.Forall₂
        (fun n0 n => n.topology = n0.topology
          ∧ ∃ new, n.procs = n0.procs ++ new
              ∧ ∀ p ∈ new, locale_ok opts target cache_level n0.topology p)
        node_list (byobj_span opts jdata app node_list num_slots target cache_level mem).nodes
    ∧ (∀ (t : hwloc_topology_t) (nobjs start : Nat) (nprocs : Int) (k i nmapped : Nat)
        (s : Locals) (node : prrte_node_t) (o : hwloc_obj_t),
        (nmapped : Int) < nprocs → s.nprocs_mapped < app.num_procs →
        t.get_obj_by_type target cache_level ((i + start) % nobjs) = some o →
        (t.get_npus o : Int) < opts.cpus_per_rank →
        byobj_for opts app t target cache_level nobjs start nprocs (k + 1) i nmapped s node
          = (.ret .PRRTE_ERR_SILENT { s with obj := some o }, node, nmapped))
    ∧ (∀ (t : hwloc_topology_t) (nobjs : Nat) (navg : Int) (k i : Nat)
        (s : Locals) (node : prrte_node_t) (o : hwloc_obj_t),
        s.nprocs_mapped < app.num_procs →
        t.get_obj_by_type target cache_level i = some o →
        (t.get_npus o : Int) < opts.cpus_per_rank →
        span_for opts app t target cache_level nobjs navg (k + 1) i s node
          = (.ret .PRRTE_ERR_SILENT { s with obj := some o }, node)) := by
  have h0 : locale_inv opts target cache_level node_list jdata 0 node_list :=
    forall₂_refl_of _ (fun a => ⟨rfl, [], by simp, by simp⟩) node_list
  refine ⟨?_, ?_, ?_, ?_⟩
  · intro out h
    exact byobj_call_kept app.num_procs _ opts target cache_level (locale_inv_kept _ _ _ _ _)
      fuel jdata app rfl node_list num_slots mem out h h0
  · exact byobj_span_kept app.num_procs _ opts target cache_level (locale_inv_kept _ _ _ _ _)
      jdata app rfl node_list num_slots mem h0
  · intro t nobjs start nprocs k i nmapped s node o h1 h2 h3 h4
    have hw : opts.cpus_per_rank > (t.get_npus o : Int) := h4
    simp only [byobj_for, h1, h2, and_self, if_true, h3, hw]
  · intro t nobjs navg k i s node o h2 h3 h4
    have hw : opts.cpus_per_rank > (t.get_npus o : Int) := h4
    simp only [span_for, h2, if_true, h3, hw]

/-- Claim C31 on a node of four slots with a package of four processing units
and a package of one, for two procs of two cpus each: the first proc goes on
the wide package, the narrow package is next in line and the call returns
`PRRTE_ERR_SILENT` with that one proc placed. -/
theorem byobj_locale_wide_enough_witness :
    (prrte_rmaps_rr_byobj 10 { no_knobs with cpus_per_rank := 2 } (ex_job false false false)
        { idx := 0, num_procs := 2 } [{ ex_node 0 4 false with topology := some ex_topo_uneven }]
        4 .HWLOC_OBJ_PACKAGE 0 100).map
      (fun out => (out.rc, out.nodes.map (fun n => n.procs)))
      = some (.PRRTE_ERR_SILENT, [[{ app_idx := 0, locale := some 10 }]])
    ∧ ∀ out, prrte_rmaps_rr_byobj 10 { no_knobs with cpus_per_rank := 2 }
        (ex_job false false false) { idx := 0, num_procs := 2 }
        [{ ex_node 0 4 false with topology := some ex_topo_uneven }]
        4 .HWLOC_OBJ_PACKAGE 0 100 = some out →
      List.Forall₂
        (fun n0 n => n.topology = n0.topology
          ∧ ∃ new, n.procs = n0.procs ++ new
              ∧ ∀ p ∈ new, locale_ok { no_knobs with cpus_per_rank := 2 } .HWLOC_OBJ_PACKAGE 0
                  n0.topology p)
        [{ ex_node 0 4 false with topology := some ex_topo_uneven }] out.nodes :=
  ⟨by decide,
   (byobj_locale_wide_enough 10 { no_knobs with cpus_per_rank := 2 } (ex_job false false false)
      { idx := 0, num_procs := 2 } [{ ex_node 0 4 false with topology := some ex_topo_uneven }]
      4 .HWLOC_OBJ_PACKAGE 0 100).1⟩

end Prrte

namespace Prrte

/-! ## Nodes appended to the map and the procs they receive -/

/-- One more visit of a node that adds it to the map only together with a proc. -/
lemma appended_with_proc_step {P : Nat} {G : Option hwloc_topology_t → prrte_proc_t → Prop}
    {j j1 : prrte_job_t} {m m1 : Nat} {node node1 : prrte_node_t}
    (hs : node_step P G j m node j1 m1 node1)
    (hnew : node.mapped = false → node1.mapped = true → node.procs.length < node1.procs.length)
    (a : prrte_node_t) (ha : appended_with_proc a node) : appended_with_proc a node1 := by
  obtain ⟨new, e1, -, -⟩ := hs.placed
  have hle : node.procs.length ≤ node1.procs.length := by rw [e1, List.length_append]; omega
  refine ⟨fun h1 h2 => ?_, le_trans ha.2 hle⟩
  cases hm : node.mapped with
  | true => exact lt_of_lt_of_le (ha.1 h1 hm) hle
  | false => exact lt_of_le_of_lt ha.2 (hnew hm h2)

/-- The proc loop of the first pass of by-slot adds the node to the map only
when it places a proc on it, unless the allocation of that proc fails. -/
lemma place_loop_appended (app : prrte_app_context_t) :
    ∀ (k : Nat) (s : Locals) (node : prrte_node_t),
      (place_loop app true k s node).1.isRet = false →
      node.mapped = false → (place_loop app true k s node).2.mapped = true →
      node.procs.length < (place_loop app true k s node).2.procs.length := by
  intro k s node hnr hm hm1
  cases k with
  | zero =>
    simp only [place_loop] at hm1
    rw [hm] at hm1
    cases hm1
  | succ k =>
    by_cases hlt : s.nprocs_mapped < app.num_procs
    · simp only [place_loop, hlt, if_true] at hnr hm1 ⊢
      cases hsp : prrte_rmaps_base_setup_proc s.mem (add_to_map s.jdata node).2 app.idx with
      | none =>
        rw [hsp] at hnr
        simp [Ctl.isRet] at hnr
      | some r =>
        obtain ⟨mem1, node1, proc⟩ := r
        simp only [hsp]
        have hm2 : (add_to_map s.jdata node).2.mapped = true := add_to_map_mapped _ _
        obtain ⟨hs, -⟩ := setup_proc_step app.num_procs any_proc (add_to_map s.jdata node).1
          s.nprocs_mapped s.mem mem1 app.idx _ node1 proc s.obj hm2 hlt trivial hsp
        have hs0 := add_to_map_step app.num_procs any_proc s.jdata s.nprocs_mapped node
        have h3 := (place_loop_step app.num_procs any_proc app rfl true k
          { s with jdata := (add_to_map s.jdata node).1, mem := mem1,
                   nprocs_mapped := s.nprocs_mapped + 1 }
          (store_proc node1 (prrte_set_attribute proc s.obj))
          (fun h => by cases h) trivial).1
        obtain ⟨n0, e0, f0, -⟩ := hs0.placed
        obtain ⟨n1, e1, f1, -⟩ := hs.placed
        obtain ⟨n2, e2, -, -⟩ := h3.placed
        rw [e2, e1, e0]
        simp only [List.length_append]
        omega
    · simp only [place_loop, hlt, if_false] at hm1
      rw [hm] at hm1
      cases hm1

/-- The body of the first pass of by-slot. -/
lemma byslot_pass1_body_appended (opts : rmaps_base_t) (app : prrte_app_context_t) (s : Locals)
    (node : prrte_node_t) (hnr : (byslot_pass1_body opts app s node).1.isRet = false) :
    node.mapped = false → (byslot_pass1_body opts app s node).2.mapped = true →
    node.procs.length < (byslot_pass1_body opts app s node).2.procs.length := by
  intro hm hm1
  unfold byslot_pass1_body at hnr hm1 ⊢
  dsimp only at hnr hm1 ⊢
  split at hnr
  · rename_i hfull
    simp only [hfull, if_true] at hm1
    rw [hm] at hm1
    cases hm1
  · rename_i hfull
    simp only [hfull, if_false] at hm1 ⊢
    split at hnr
    · simp [Ctl.isRet] at hnr
    · rename_i n hn
      simp only [hn] at hm1 ⊢
      exact place_loop_appended app n.toNat (root_obj_of s node) node hnr hm hm1

/-- The first pass of by-slot, when it does not return. -/
lemma byslot_pass1_appended (opts : rmaps_base_t) (app : prrte_app_context_t)
    (nodes0 : List prrte_node_t) :
    ∀ (nodes pre : List prrte_node_t) (s : Locals),
      (foreachNode (byslot_pass1_body opts app) s nodes).1.isRet = false →
      List.Forall₂ appended_with_proc nodes0 (pre ++ nodes) →
      List.Forall₂ appended_with_proc nodes0
        (pre ++ (foreachNode (byslot_pass1_body opts app) s nodes).2) := by
  intro nodes
  induction nodes with
  | nil => intro pre s _ h; exact h
  | cons node rest ih =>
    intro pre s hnr h
    have hs := byslot_pass1_body_step app.num_procs opts app rfl s node
    have hb := byslot_pass1_body_appended opts app s node
    simp only [foreachNode] at hnr ⊢
    rcases hr : byslot_pass1_body opts app s node with ⟨c, node1⟩
    rw [hr] at hnr hs hb
    cases c with
    | next s1 =>
      dsimp only at hnr ⊢
      have h1 := forall₂_replace appended_with_proc node node1
        (appended_with_proc_step hs (hb rfl)) pre nodes0 rest h
      have h2 := ih (pre ++ [node1]) s1 hnr (by rw [List.append_assoc]; exact h1)
      rw [List.append_assoc] at h2
      exact h2
    | brk s1 =>
      exact forall₂_replace appended_with_proc node node1
        (appended_with_proc_step hs (hb rfl)) pre nodes0 rest h
    | ret rc s1 => simp [Ctl.isRet] at hnr

end Prrte

namespace Prrte

/-- The object loop of by-object no-span places a proc in its first iteration
when a proc is due, unless it returns. -/
lemma byobj_for_first (opts : rmaps_base_t) (app : prrte_app_context_t)
    (t : hwloc_topology_t) (target : hwloc_obj_type_t) (cache_level nobjs start : Nat)
    (nprocs : Int) (k i nmapped : Nat) (s : Locals) (node : prrte_node_t)
    (hmap : node.mapped = true) (htopo : node.topology = some t)
    (hg : (nmapped : Int) < nprocs ∧ s.nprocs_mapped < app.num_procs)
    (hnr : (byobj_for opts app t target cache_level nobjs start nprocs (k + 1) i nmapped s
      node).1.isRet = false) :
    node.procs.length
      < (byobj_for opts app t target cache_level nobjs start nprocs (k + 1) i nmapped s
          node).2.1.procs.length := by
  simp only [byobj_for, hg, and_self, if_true] at hnr ⊢
  cases hobj : t.get_obj_by_type target cache_level ((i + start) % nobjs) with
  | none => simp [hobj, Ctl.isRet] at hnr
  | some o =>
    simp only [hobj] at hnr ⊢
    split at hnr
    · simp [Ctl.isRet] at hnr
    · rename_i hw
      simp only [hw, if_false]
      cases hsp : prrte_rmaps_base_setup_proc s.mem node app.idx with
      | none => simp [hsp, Ctl.isRet] at hnr
      | some r =>
        obtain ⟨mem1, node1, proc⟩ := r
        simp only [hsp]
        obtain ⟨hs, -⟩ := setup_proc_step app.num_procs any_proc s.jdata
          s.nprocs_mapped s.mem mem1 app.idx node node1 proc (some o) hmap hg.2 trivial hsp
        have h3 := byobj_for_step app.num_procs opts app rfl t target cache_level nobjs start
          nprocs k (i + 1) (nmapped + 1)
          { s with obj := some o, mem := mem1, nprocs_mapped := s.nprocs_mapped + 1 }
          (store_proc node1 (prrte_set_attribute proc (some o)))
          (hs.placed_mapped (Nat.lt_succ_self _)) (hs.topo_eq.trans htopo)
        obtain ⟨n1, e1, f1, -⟩ := hs.placed
        obtain ⟨n2, e2, -, -⟩ := h3.placed
        rw [e2, e1]
        simp only [List.length_append]
        omega

/-- The `do ... while` loop of by-object no-span places a proc when a proc is
due, unless it returns. -/
lemma byobj_dowhile_first (opts : rmaps_base_t) (app : prrte_app_context_t)
    (t : hwloc_topology_t) (target : hwloc_obj_type_t) (cache_level nobjs start : Nat)
    (nprocs : Int) (fuel nmapped : Nat) (s : Locals) (node : prrte_node_t)
    (r : Ctl × prrte_node_t)
    (h : byobj_dowhile opts app t target cache_level nobjs start nprocs fuel nmapped s node
      = some r)
    (hn : nobjs ≠ 0) (hmap : node.mapped = true) (htopo : node.topology = some t)
    (hg : (nmapped : Int) < nprocs ∧ s.nprocs_mapped < app.num_procs)
    (hnr : r.1.isRet = false) :
    node.procs.length < r.2.procs.length := by
  cases fuel with
  | zero => simp [byobj_dowhile] at h
  | succ fuel =>
    obtain ⟨k, rfl⟩ : ∃ k, nobjs = k + 1 := ⟨nobjs - 1, by omega⟩
    simp only [byobj_dowhile] at h
    have hf := byobj_for_step app.num_procs opts app rfl t target cache_level (k + 1) start
      nprocs (k + 1) 0 nmapped s node hmap htopo
    have h1 := byobj_for_first opts app t target cache_level (k + 1) start nprocs k 0 nmapped s
      node hmap htopo hg
    rcases hr : byobj_for opts app t target cache_level (k + 1) start nprocs (k + 1) 0 nmapped s
      node with ⟨c, node1, nm1⟩
    rw [hr] at h hf h1
    have hm1 : node1.mapped = true := by
      rcases hf.map_once with ⟨-, -, e⟩ | ⟨-, e, -⟩
      · exact e.trans hmap
      · exact e
    have ht1 : node1.topology = some t := hf.topo_eq.trans htopo
    have rec : ∀ s1 : Locals,
        byobj_dowhile opts app t target cache_level (k + 1) start nprocs fuel nm1 s1 node1
          = some r → node1.procs.length ≤ r.2.procs.length := by
      intro s1 hrec
      have h2 := byobj_dowhile_step app.num_procs opts app rfl t target cache_level (k + 1) start
        nprocs fuel nm1 s1 node1 r hrec hm1 ht1
      obtain ⟨n2, e2, -, -⟩ := h2.placed
      rw [e2, List.length_append]
      omega
    cases c with
    | ret rc s1 =>
      cases h
      simp [Ctl.isRet] at hnr
    | next s1 =>
      have h1 := h1 rfl
      dsimp only at h h1
      split at h
      · exact lt_of_lt_of_le h1 (rec s1 h)
      · cases h
        exact h1
    | brk s1 =>
      have h1 := h1 rfl
      dsimp only at h h1
      split at h
      · exact lt_of_lt_of_le h1 (rec s1 h)
      · cases h
        exact h1

end Prrte

namespace Prrte

/-- The body of the node loop of by-object no-span, entered with a proc still to
place: unless it returns, it adds the node to the map only together with a
proc, and it goes on to the next node only with a proc still to place. -/
lemma byobj_body_appended (fuel : Nat) (opts : rmaps_base_t) (app : prrte_app_context_t)
    (target : hwloc_obj_type_t) (cache_level : Nat) (second_pass : Bool) (s : Locals)
    (node : prrte_node_t) (r : Ctl × prrte_node_t)
    (h : byobj_body fuel opts app target cache_level second_pass s node = some r)
    (hlt : s.nprocs_mapped < app.num_procs) (hnr : r.1.isRet = false) :
    (node.mapped = false → r.2.mapped = true → node.procs.length < r.2.procs.length)
    ∧ (∀ s1, r.1 = .next s1 → s1.nprocs_mapped < app.num_procs) := by
  have hstep := byobj_body_step app.num_procs fuel opts app rfl target cache_level second_pass
    s node r h
  have hle : r.1.st.nprocs_mapped ≤ app.num_procs := hstep.bounded (le_of_lt hlt)
  have same : r = (.next s, node) →
      (node.mapped = false → r.2.mapped = true → node.procs.length < r.2.procs.length)
      ∧ (∀ s1, r.1 = .next s1 → s1.nprocs_mapped < app.num_procs) := by
    intro e
    subst e
    refine ⟨fun hm hm1 => ?_, fun s1 h1 => ?_⟩
    · rw [hm] at hm1
      cases hm1
    · cases h1
      exact hlt
  unfold byobj_body at h
  cases htopo : node.topology with
  | none =>
    simp only [htopo] at h
    cases h
    simp [Ctl.isRet] at hnr
  | some t =>
    simp only [htopo] at h
    split at h
    · cases h
      exact same rfl
    · rename_i hn0
      split at h
      · cases h
        exact same rfl
      · have h1 := add_to_map_step app.num_procs any_proc s.jdata s.nprocs_mapped node
        have hm := add_to_map_mapped s.jdata node
        have ht : (add_to_map s.jdata node).2.topology = some t := h1.topo_eq.trans htopo
        obtain ⟨n0, e0, f0, -⟩ := h1.placed
        have hlen0 : (add_to_map s.jdata node).2.procs.length = node.procs.length := by
          rw [e0, List.length_append]
          omega
        have hg : ((0 : Nat) : Int)
              < (if byobj_nprocs opts t target (t.get_nbobjs_by_type target cache_level)
                      ((node.slots : Int) - (node.slots_inuse : Int)) < 1 then 1
                 else byobj_nprocs opts t target (t.get_nbobjs_by_type target cache_level)
                      ((node.slots : Int) - (node.slots_inuse : Int)))
            ∧ ({ s with jdata := (add_to_map s.jdata node).1 } : Locals).nprocs_mapped
                < app.num_procs := by
          refine ⟨?_, hlt⟩
          split <;> omega
        split at h
        · cases h
        · cases h
          simp [Ctl.isRet] at hnr
        · rename_i c node1 hnret hd
          have hc : c.isRet = false := by
            cases c with
            | ret rc s1 => exact absurd rfl (hnret rc s1)
            | next s1 => rfl
            | brk s1 => rfl
          have hgrow := byobj_dowhile_first opts app t target cache_level _ _ _ fuel 0 _ _ _ hd
            hn0 hm ht hg hc
          dsimp only at hgrow
          rw [hlen0] at hgrow
          have hp := oversub_check_procs true { c.st with add_one := true } node1
          split at h
          · cases h
            simp [Ctl.isRet] at hnr
          · rename_i s2 node2 ho
            rw [ho] at hp
            dsimp only at hp
            split at h
            · cases h
              refine ⟨fun _ _ => ?_, fun s1 h1 => by cases h1⟩
              dsimp only
              rw [hp]
              exact hgrow
            · rename_i hne
              cases h
              refine ⟨fun _ _ => ?_, fun s1 h1 => ?_⟩
              · dsimp only
                rw [hp]
                exact hgrow
              · cases h1
                exact lt_of_le_of_ne hle hne

/-- A pass of by-object no-span entered with a proc still to place, when it does
not return. -/
lemma byobj_loop_appended (fuel : Nat) (opts : rmaps_base_t) (app : prrte_app_context_t)
    (target : hwloc_obj_type_t) (cache_level : Nat) (second_pass : Bool)
    (nodes0 : List prrte_node_t) :
    ∀ (nodes pre : List prrte_node_t) (s : Locals) (r : Ctl × List prrte_node_t),
      foreachNodeF (byobj_body fuel opts app target cache_level second_pass) s nodes = some r →
      s.nprocs_mapped < app.num_procs → r.1.isRet = false →
      List.Forall₂ appended_with_proc nodes0 (pre ++ nodes) →
      List.Forall₂ appended_with_proc nodes0 (pre ++ r.2) := by
  intro nodes
  induction nodes with
  | nil =>
    intro pre s r hr _ _ h
    simp only [foreachNodeF, Option.some.injEq] at hr
    subst hr
    exact h
  | cons node rest ih =>
    intro pre s r hr hlt hnr h
    simp only [foreachNodeF] at hr
    cases hbn : byobj_body fuel opts app target cache_level second_pass s node with
    | none => simp [hbn] at hr
    | some x =>
      obtain ⟨c, node1⟩ := x
      have hs := byobj_body_step app.num_procs fuel opts app rfl target cache_level second_pass
        s node _ hbn
      rw [hbn] at hr
      cases c with
      | next s1 =>
        obtain ⟨b1, b2⟩ := byobj_body_appended fuel opts app target cache_level second_pass s
          node _ hbn hlt rfl
        dsimp only at hr
        cases hrec : foreachNodeF (byobj_body fuel opts app target cache_level second_pass) s1
            rest with
        | none => simp [hrec] at hr
        | some r1 =>
          rw [hrec] at hr
          simp only [Option.some.injEq] at hr
          subst hr
          have h1 := forall₂_replace appended_with_proc node node1
            (appended_with_proc_step hs b1) pre nodes0 rest h
          have h2 := ih (pre ++ [node1]) s1 r1 hrec (b2 s1 rfl) hnr
            (by rw [List.append_assoc]; exact h1)
          rw [List.append_assoc] at h2
          exact h2
      | brk s1 =>
        obtain ⟨b1, -⟩ := byobj_body_appended fuel opts app target cache_level second_pass s
          node _ hbn hlt rfl
        simp only [Option.some.injEq] at hr
        subst hr
        exact forall₂_replace appended_with_proc node node1
          (appended_with_proc_step hs b1) pre nodes0 rest h
      | ret rc s1 =>
        simp only [Option.some.injEq] at hr
        subst hr
        simp [Ctl.isRet] at hnr

/-- The passes of by-object no-span, entered with a proc still to place, when
they do not return. -/
lemma byobj_passes_appended (opts : rmaps_base_t) (app : prrte_app_context_t)
    (target : hwloc_obj_type_t) (cache_level : Nat) (fuel0 : Nat)
    (nodes0 : List prrte_node_t) :
    ∀ (fuel : Nat) (second_pass : Bool) (s : Locals) (nodes : List prrte_node_t)
      (r : Ctl × List prrte_node_t),
      byobj_passes opts app target cache_level fuel0 fuel second_pass s nodes = some r →
      s.nprocs_mapped < app.num_procs → r.1.isRet = false →
      List.Forall₂ appended_with_proc nodes0 nodes →
      List.Forall₂ appended_with_proc nodes0 r.2 := by
  intro fuel
  induction fuel with
  | zero => intro sp s nodes r h; simp [byobj_passes] at h
  | succ fuel ih =>
    intro sp s nodes r h hlt hnr h0
    simp only [byobj_passes] at h
    cases hl : foreachNodeF (byobj_body fuel0 opts app target cache_level sp)
        { s with add_one := false } nodes with
    | none => simp [hl] at h
    | some x =>
      obtain ⟨c, nodes1⟩ := x
      have h1 := byobj_loop_appended fuel0 opts app target cache_level sp nodes0 nodes []
        { s with add_one := false } _ hl hlt
      simp only [List.nil_append] at h1
      rw [hl] at h
      cases c with
      | ret rc s1 =>
        cases h
        simp [Ctl.isRet] at hnr
      | next s1 =>
        dsimp only at h
        split at h
        · rename_i hc
          exact ih true s1 nodes1 r h hc.2 hnr (h1 rfl h0)
        · cases h
          exact h1 rfl h0
      | brk s1 =>
        dsimp only at h
        split at h
        · rename_i hc
          exact ih true s1 nodes1 r h hc.2 hnr (h1 rfl h0)
        · cases h
          exact h1 rfl h0

end Prrte

namespace Prrte

/-- A `return` inside by-object no-span never carries `PRRTE_SUCCESS`. -/
lemma byobj_for_ret (opts : rmaps_base_t) (app : prrte_app_context_t)
    (t : hwloc_topology_t) (target : hwloc_obj_type_t) (cache_level nobjs start : Nat)
    (nprocs : Int) :
    ∀ (k i nmapped : Nat) (s : Locals) (node : prrte_node_t) (rc : Status) (s1 : Locals)
      (x : prrte_node_t × Nat),
      byobj_for opts app t target cache_level nobjs start nprocs k i nmapped s node
        = (.ret rc s1, x) → rc ≠ .PRRTE_SUCCESS := by
  intro k
  induction k with
  | zero => intro i nmapped s node rc s1 x h; simp [byobj_for] at h
  | succ k ih =>
    intro i nmapped s node rc s1 x h
    simp only [byobj_for] at h
    split at h
    · split at h
      · cases h; intro e; cases e
      · split at h
        · cases h; intro e; cases e
        · split at h
          · cases h; intro e; cases e
          · exact ih _ _ _ _ _ _ _ h
    · cases h

lemma byobj_dowhile_ret (opts : rmaps_base_t) (app : prrte_app_context_t)
    (t : hwloc_topology_t) (target : hwloc_obj_type_t) (cache_level nobjs start : Nat)
    (nprocs : Int) :
    ∀ (fuel nmapped : Nat) (s : Locals) (node : prrte_node_t) (rc : Status) (s1 : Locals)
      (node1 : prrte_node_t),
      byobj_dowhile opts app t target cache_level nobjs start nprocs fuel nmapped s node
        = some (.ret rc s1, node1) → rc ≠ .PRRTE_SUCCESS := by
  intro fuel
  induction fuel with
  | zero => intro nmapped s node rc s1 node1 h; simp [byobj_dowhile] at h
  | succ fuel ih =>
    intro nmapped s node rc s1 node1 h
    simp only [byobj_dowhile] at h
    split at h
    · rename_i rc2 s2 node2 nm2 hf
      cases h
      exact byobj_for_ret opts app t target cache_level nobjs start nprocs _ _ _ _ _ _ _ _ hf
    · split at h
      · exact ih _ _ _ _ _ _ h
      · cases h

lemma byobj_body_ret (fuel : Nat) (opts : rmaps_base_t) (app : prrte_app_context_t)
    (target : hwloc_obj_type_t) (cache_level : Nat) (second_pass : Bool) (s : Locals)
    (node : prrte_node_t) (rc : Status) (s1 : Locals) (node1 : prrte_node_t)
    (h : byobj_body fuel opts app target cache_level second_pass s node
      = some (.ret rc s1, node1)) : rc ≠ .PRRTE_SUCCESS := by
  unfold byobj_body at h
  split at h
  · cases h; intro e; cases e
  · dsimp only at h
    split at h
    · cases h
    · split at h
      · cases h
      · split at h
        · cases h
        · rename_i rc2 s2 node2 hd
          cases h
          exact byobj_dowhile_ret opts app _ target cache_level _ _ _ _ _ _ _ _ _ _ hd
        · split at h
          · rename_i rc2 s2 node2 ho
            cases h
            have := oversub_check_rc true _ _ rc (by rw [ho])
            rw [this]
            intro e; cases e
          · split at h <;> cases h

lemma byobj_loop_ret (fuel : Nat) (opts : rmaps_base_t) (app : prrte_app_context_t)
    (target : hwloc_obj_type_t) (cache_level : Nat) (second_pass : Bool) :
    ∀ (nodes : List prrte_node_t) (s : Locals) (rc : Status) (s1 : Locals)
      (nodes1 : List prrte_node_t),
      foreachNodeF (byobj_body fuel opts app target cache_level second_pass) s nodes
        = some (.ret rc s1, nodes1) → rc ≠ .PRRTE_SUCCESS := by
  intro nodes
  induction nodes with
  | nil => intro s rc s1 nodes1 h; simp [foreachNodeF] at h
  | cons node rest ih =>
    intro s rc s1 nodes1 h
    simp only [foreachNodeF] at h
    split at h
    · cases h
    · split at h
      · cases h
      · rename_i r hrec
        simp only [Option.some.injEq, Prod.mk.injEq] at h
        obtain ⟨r1, r2⟩ := r
        dsimp only at h
        obtain ⟨h1, -⟩ := h
        subst h1
        exact ih _ _ _ _ hrec
    · cases h
    · rename_i rc2 s2 node2 hb
      cases h
      exact byobj_body_ret fuel opts app target cache_level second_pass _ _ _ _ _ hb

lemma byobj_passes_ret (opts : rmaps_base_t) (app : prrte_app_context_t)
    (target : hwloc_obj_type_t) (cache_level : Nat) (fuel0 : Nat) :
    ∀ (fuel : Nat) (second_pass : Bool) (s : Locals) (nodes : List prrte_node_t) (rc : Status)
      (s1 : Locals) (nodes1 : List prrte_node_t),
      byobj_passes opts app target cache_level fuel0 fuel second_pass s nodes
        = some (.ret rc s1, nodes1) → rc ≠ .PRRTE_SUCCESS := by
  intro fuel
  induction fuel with
  | zero => intro sp s nodes rc s1 nodes1 h; simp [byobj_passes] at h
  | succ fuel ih =>
    intro sp s nodes rc s1 nodes1 h
    simp only [byobj_passes] at h
    split at h
    · cases h
    · rename_i rc2 s2 nodes2 hl
      cases h
      exact byobj_loop_ret fuel0 opts app target cache_level sp _ _ _ _ _ hl
    · split at h
      · exact ih _ _ _ _ _ _ h
      · cases h

end Prrte

namespace Prrte

/-- Claim C40, the claim as stated fails: by-node mapping of two procs on a
node without free slots followed by a node of eight slots returns
`PRRTE_SUCCESS` with both nodes appended to the map, the first of them without a
proc.  The body of a by-node round adds the node to the map before it decides
to skip it. -/
theorem bynode_appends_skipped_node :
    (prrte_rmaps_rr_bynode 10 no_knobs (ex_job false false false) { idx := 0, num_procs := 2 }
        [ex_node 0 0 false, ex_node 1 8 false] 8 100).map
      (fun o => (o.rc, o.st.jdata.nodes,
        o.nodes.map (fun n => (n.name, n.mapped, n.procs.length))))
      = some (.PRRTE_SUCCESS, [0, 1], [(0, true, 0), (1, true, 2)]) := by
  decide

end Prrte

namespace Prrte

/-! ## The closed form of one visit of by-object no-span -/

/-- The object loop of by-object no-span when every object is there and wide
enough and the procs can be allocated: from the loop index `i` it places
`c = min (k, nprocs - nmapped, app->num_procs - nprocs_mapped)` procs, on the
objects of index `(i + start) % nobjs`, `(i + 1 + start) % nobjs`, ... -/
lemma byobj_for_run (opts : rmaps_base_t) (app : prrte_app_context_t)
    (t : hwloc_topology_t) (target : hwloc_obj_type_t) (cache_level nobjs start : Nat)
    (nprocs : Int) (hn : 0 < nobjs)
    (hw : ∀ i, i < nobjs → ∃ o, t.get_obj_by_type target cache_level i = some o
      ∧ opts.cpus_per_rank ≤ (t.get_npus o : Int)) :
    ∀ (k i nmapped : Nat) (s : Locals) (node : prrte_node_t),
      min k (min (nprocs.toNat - nmapped) (app.num_procs - s.nprocs_mapped)) ≤ s.mem →
      ∃ ob, byobj_for opts app t target cache_level nobjs start nprocs k i nmapped s node
        = (.next { s with
                   obj := ob,
                   mem := s.mem
                     - min k (min (nprocs.toNat - nmapped) (app.num_procs - s.nprocs_mapped)),
                   nprocs_mapped := s.nprocs_mapped
                     + min k (min (nprocs.toNat - nmapped) (app.num_procs - s.nprocs_mapped)) },
           { node with
             num_procs := node.num_procs
               + min k (min (nprocs.toNat - nmapped) (app.num_procs - s.nprocs_mapped)),
             slots_inuse := node.slots_inuse
               + min k (min (nprocs.toNat - nmapped) (app.num_procs - s.nprocs_mapped)),
             procs := node.procs
               ++ (List.range' i
                    (min k (min (nprocs.toNat - nmapped)
                        (app.num_procs - s.nprocs_mapped)))).map
                  (fun i1 => { app_idx := app.idx,
                               locale := t.get_obj_by_type target cache_level
                                 ((i1 + start) % nobjs) }) },
           nmapped + min k (min (nprocs.toNat - nmapped) (app.num_procs - s.nprocs_mapped))) := by
  intro k
  induction k with
  | zero =>
    intro i nmapped s node _
    refine ⟨s.obj, ?_⟩
    simp [byobj_for]
  | succ k ih =>
    intro i nmapped s node hmem
    by_cases hg : (nmapped : Int) < nprocs ∧ s.nprocs_mapped < app.num_procs
    · have hg1 : nmapped < nprocs.toNat := by
        have := hg.1
        omega
      have hmin : min (k + 1) (min (nprocs.toNat - nmapped) (app.num_procs - s.nprocs_mapped))
          = min k (min (nprocs.toNat - (nmapped + 1)) (app.num_procs - (s.nprocs_mapped + 1)))
            + 1 := by
        have := hg.2
        omega
      obtain ⟨o, ho, hwide⟩ := hw ((i + start) % nobjs) (Nat.mod_lt _ hn)
      have hnw : ¬ opts.cpus_per_rank > (t.get_npus o : Int) := by omega
      cases hm : s.mem with
      | zero => rw [hmin, hm] at hmem; omega
      | succ m =>
        obtain ⟨ob, e⟩ := ih (i + 1) (nmapped + 1)
          { s with obj := some o, mem := m, nprocs_mapped := s.nprocs_mapped + 1 }
          (store_proc
            { node with num_procs := node.num_procs + 1, slots_inuse := node.slots_inuse + 1 }
            (prrte_set_attribute { app_idx := app.idx, locale := none } (some o)))
          (by
            show min k (min (nprocs.toNat - (nmapped + 1))
              (app.num_procs - (s.nprocs_mapped + 1))) ≤ m
            rw [hmin, hm] at hmem
            exact Nat.le_of_succ_le_succ hmem)
        refine ⟨ob, ?_⟩
        simp only [byobj_for, hg, and_self, if_true, ho, hnw, if_false,
          prrte_rmaps_base_setup_proc, hm]
        rw [e, hmin]
        simp [store_proc, prrte_set_attribute, List.range'_succ]
        refine ⟨by omega, ⟨by omega, by omega, ho.symm⟩, by omega⟩
    · have hmin : min (k + 1) (min (nprocs.toNat - nmapped) (app.num_procs - s.nprocs_mapped))
          = 0 := by
        rcases not_and_or.mp hg with h | h
        · have : nprocs.toNat - nmapped = 0 := by omega
          omega
        · omega
      refine ⟨s.obj, ?_⟩
      simp only [byobj_for, hg, if_false, hmin]
      simp

end Prrte

namespace Prrte

/-- Inside one pass over the objects the index `(i + start) % nobjs` is the slot
of the proc number `nmapped + i` when `nmapped` is a multiple of `nobjs`. -/
lemma byobj_pass_procs (idx : Nat) (t : hwloc_topology_t) (target : hwloc_obj_type_t)
    (cache_level nobjs start nmapped c : Nat) (hd : nobjs ∣ nmapped) (hc : c ≤ nobjs) :
    (List.range' 0 c).map
        (fun i1 => ({ app_idx := idx,
                      locale := t.get_obj_by_type target cache_level
                        ((i1 + start) % nobjs) } : prrte_proc_t))
      = byobj_visit_procs idx t target cache_level nobjs start nmapped c := by
  unfold byobj_visit_procs
  have e : List.range' nmapped c = (List.range' 0 c).map (fun x => nmapped + x) := by
    rw [List.map_add_range']; rfl
  rw [e, List.map_map]
  apply List.map_congr_left
  intro i1 hi
  have hi1 : i1 < c := by
    have := (List.mem_range'_1.mp hi).2
    omega
  obtain ⟨q, rfl⟩ := hd
  simp only [Function.comp, byobj_slot]
  rw [Nat.mul_add_mod, Nat.mod_eq_of_lt (by omega : i1 < nobjs)]

/-- Two consecutive stretches of a visit make one. -/
lemma byobj_visit_procs_append (idx : Nat) (t : hwloc_topology_t) (target : hwloc_obj_type_t)
    (cache_level nobjs start first a b : Nat) :
    byobj_visit_procs idx t target cache_level nobjs start first a
      ++ byobj_visit_procs idx t target cache_level nobjs start (first + a) b
      = byobj_visit_procs idx t target cache_level nobjs start first (a + b) := by
  unfold byobj_visit_procs
  rw [← List.map_append]
  congr 1
  have := List.range'_append first a b 1
  rw [Nat.one_mul] at this
  rw [this, Nat.add_comm]

end Prrte

namespace Prrte

/-- The loop around the object loop of by-object no-span when every object is
there and wide enough and the procs can be allocated: started with `nmapped` a
multiple of `nobjs`, it places `r = min (nprocs - nmapped, app->num_procs -
nprocs_mapped)` procs, the proc number `j` of the visit on the object of index
`byobj_slot nobjs start j`, and ends. -/
lemma byobj_dowhile_run (opts : rmaps_base_t) (app : prrte_app_context_t)
    (t : hwloc_topology_t) (target : hwloc_obj_type_t) (cache_level nobjs start : Nat)
    (nprocs : Int) (hn : 0 < nobjs)
    (hw : ∀ i, i < nobjs → ∃ o, t.get_obj_by_type target cache_level i = some o
      ∧ opts.cpus_per_rank ≤ (t.get_npus o : Int)) :
    ∀ (fuel r nmapped : Nat) (s : Locals) (node : prrte_node_t),
      nobjs ∣ nmapped →
      r = min (nprocs.toNat - nmapped) (app.num_procs - s.nprocs_mapped) →
      r ≤ s.mem → r / nobjs < fuel →
      ∃ ob, byobj_dowhile opts app t target cache_level nobjs start nprocs fuel nmapped s node
        = some (.next { s with obj := ob, mem := s.mem - r,
                               nprocs_mapped := s.nprocs_mapped + r },
                { node with
                  num_procs := node.num_procs + r,
                  slots_inuse := node.slots_inuse + r,
                  procs := node.procs
                    ++ byobj_visit_procs app.idx t target cache_level nobjs start nmapped r }) := by
  intro fuel
  induction fuel with
  | zero => intro r nmapped s node _ _ _ h; exact absurd h (Nat.not_lt_zero _)
  | succ fuel ih =>
    intro r nmapped s node hd hr hmem hfuel
    obtain ⟨c, hc⟩ : ∃ c, c = min nobjs (min (nprocs.toNat - nmapped)
        (app.num_procs - s.nprocs_mapped)) := ⟨_, rfl⟩
    have hcr : c = min nobjs r := by rw [hc, hr]
    obtain ⟨ob, e⟩ := byobj_for_run opts app t target cache_level nobjs start nprocs hn hw
      nobjs 0 nmapped s node (by rw [← hc]; omega)
    rw [← hc, byobj_pass_procs app.idx t target cache_level nobjs start nmapped c hd
      (by omega)] at e
    unfold byobj_dowhile
    rw [e]
    dsimp only [Ctl.st]
    by_cases hcont : ((nmapped + c : Nat) : Int) < nprocs ∧ s.nprocs_mapped + c < app.num_procs
    · have hcn : c = nobjs := by
        by_contra hne
        have : c = r := by omega
        omega
      have hrn : nobjs ≤ r := by omega
      obtain ⟨ob2, e2⟩ := ih (r - c) (nmapped + c)
        { s with obj := ob, mem := s.mem - c, nprocs_mapped := s.nprocs_mapped + c }
        { node with
          num_procs := node.num_procs + c,
          slots_inuse := node.slots_inuse + c,
          procs := node.procs
            ++ byobj_visit_procs app.idx t target cache_level nobjs start nmapped c }
        (by rw [hcn]; exact Dvd.dvd.add hd (dvd_refl _))
        (by show r - c = min (nprocs.toNat - (nmapped + c))
              (app.num_procs - (s.nprocs_mapped + c))
            omega)
        (by show r - c ≤ s.mem - c
            omega)
        (by
          rw [hcn]
          have h1 : r / nobjs = (r - nobjs) / nobjs + 1 := Nat.div_eq_sub_div hn hrn
          rw [h1] at hfuel
          exact Nat.lt_of_succ_lt_succ hfuel)
      refine ⟨ob2, ?_⟩
      rw [if_pos hcont, e2]
      have hp := byobj_visit_procs_append app.idx t target cache_level nobjs start nmapped c (r - c)
      have hcr2 : c + (r - c) = r := by omega
      rw [hcr2] at hp
      simp only [List.append_assoc, hp]
      have a1 : s.mem - c - (r - c) = s.mem - r := by omega
      have a2 : s.nprocs_mapped + c + (r - c) = s.nprocs_mapped + r := by omega
      have a3 : node.num_procs + c + (r - c) = node.num_procs + r := by omega
      have a4 : node.slots_inuse + c + (r - c) = node.slots_inuse + r := by omega
      rw [a1, a2, a3, a4]
    · have hcr3 : c = r := by
        rcases not_and_or.mp hcont with h | h <;> omega
      refine ⟨ob, ?_⟩
      rw [if_neg hcont, hcr3]

end Prrte

namespace Prrte

/-- The proc number `j` of a visit goes to the object `(start + k) % nobjs`
exactly when `j` is `k` modulo `nobjs`. -/
lemma byobj_slot_eq_iff (nobjs start j k : Nat) :
    byobj_slot nobjs start j = (start + k) % nobjs ↔ j ≡ k [MOD nobjs] := by
  unfold byobj_slot
  show (j % nobjs + start) ≡ (start + k) [MOD nobjs] ↔ _
  rw [Nat.add_comm start k]
  constructor
  · intro h
    exact (Nat.mod_modEq j nobjs).symm.trans (Nat.ModEq.add_right_cancel' start h)
  · intro h
    exact Nat.ModEq.add_right start ((Nat.mod_modEq j nobjs).trans h)

/-- The share of the object `(start + k) % nobjs` among the first `n` procs of a
visit. -/
lemma byobj_visit_slots_count (nobjs start n k : Nat) (hn : 0 < nobjs) (hk : k < nobjs) :
    (byobj_visit_slots nobjs start n).count ((start + k) % nobjs)
      = n / nobjs + if k < n % nobjs then 1 else 0 := by
  have h := Nat.count_modEq_card n hn k
  rw [Nat.mod_eq_of_lt hk] at h
  rw [← h]
  unfold byobj_visit_slots Nat.count
  rw [List.count_eq_countP, List.countP_map]
  apply List.countP_congr
  intro j _
  simp only [Function.comp, beq_iff_eq, decide_eq_true_eq]
  exact byobj_slot_eq_iff nobjs start j k

/-- The procs of a visit, object index by object index. -/
lemma byobj_visit_procs_slots (idx : Nat) (t : hwloc_topology_t) (target : hwloc_obj_type_t)
    (cache_level nobjs start n : Nat) :
    byobj_visit_procs idx t target cache_level nobjs start 0 n
      = (byobj_visit_slots nobjs start n).map
          (fun i => { app_idx := idx, locale := t.get_obj_by_type target cache_level i }) := by
  unfold byobj_visit_procs byobj_visit_slots
  rw [List.map_map, List.range_eq_range']
  rfl

end Prrte

namespace Prrte

/-- The value of `start` computed by a visit of by-object no-span. -/
lemma byobj_start_eq (jdata : prrte_job_t) (node : prrte_node_t) (nobjs : Nat) (nprocs0 : Int) :
    (if nprocs0 < 1 then node.num_procs % nobjs
      else if jdata.originator_valid then (jdata.bkmark_obj + 1) % nobjs else 0)
      = byobj_start jdata node nobjs (decide (nprocs0 < 1)) := by
  unfold byobj_start
  by_cases h : nprocs0 < 1 <;> simp [h]

/-- One visit of by-object no-span that is not skipped, on a node whose target
objects are all there and wide enough, with enough allocations and fuel: the
visit places `r = min (nprocs, app->num_procs - nprocs_mapped)` procs round
robin from the object `start`, and then runs the oversubscription block. -/
lemma byobj_body_run (fuel : Nat) (opts : rmaps_base_t) (app : prrte_app_context_t)
    (target : hwloc_obj_type_t) (cache_level : Nat) (second_pass : Bool)
    (s : Locals) (node : prrte_node_t) (t : hwloc_topology_t) (nobjs r : Nat) (nprocs0 : Int)
    (ht : node.topology = some t)
    (hnobjs : nobjs = t.get_nbobjs_by_type target cache_level) (hpos : 0 < nobjs)
    (hw : objs_wide opts t target cache_level)
    (hn0 : nprocs0
      = byobj_nprocs opts t target nobjs ((node.slots : Int) - (node.slots_inuse : Int)))
    (hvisit : ¬ (nprocs0 < 1 ∧ second_pass = false))
    (hr : r = min (if nprocs0 < 1 then 1 else nprocs0).toNat (app.num_procs - s.nprocs_mapped))
    (hmem : r ≤ s.mem) (hfuel : r / nobjs < fuel) :
    ∃ ob, byobj_body fuel opts app target cache_level second_pass s node
      = some
          (match oversub_check true
              { s with jdata := (add_to_map s.jdata node).1, obj := ob, mem := s.mem - r,
                       nprocs_mapped := s.nprocs_mapped + r, add_one := true }
              { (add_to_map s.jdata node).2 with
                num_procs := node.num_procs + r,
                slots_inuse := node.slots_inuse + r,
                procs := node.procs
                  ++ byobj_visit_procs app.idx t target cache_level nobjs
                      (byobj_start s.jdata node nobjs (decide (nprocs0 < 1))) 0 r } with
            | (some rc, s2, node2) => (.ret rc s2, node2)
            | (none, s2, node2) =>
              if s2.nprocs_mapped = app.num_procs then (.brk s2, node2) else (.next s2, node2)) := by
  obtain ⟨f1, f2, f3, f4, f5, f6, f7, f8⟩ := add_to_map_node_fields s.jdata node
  obtain ⟨ob, e⟩ := byobj_dowhile_run opts app t target cache_level nobjs
    (byobj_start s.jdata node nobjs (decide (nprocs0 < 1)))
    (if nprocs0 < 1 then 1 else nprocs0) hpos (by rw [hnobjs]; exact hw) fuel r 0
    { s with jdata := (add_to_map s.jdata node).1 } (add_to_map s.jdata node).2
    (dvd_zero _) (by simpa using hr) hmem hfuel
  refine ⟨ob, ?_⟩
  have hv : ¬ (nprocs0 < 1 ∧ (!second_pass) = true) := by
    intro h
    exact hvisit ⟨h.1, by simpa using h.2⟩
  unfold byobj_body
  rw [ht]
  dsimp only
  rw [← hnobjs, if_neg (Nat.pos_iff_ne_zero.mp hpos), ← hn0, if_neg hv, byobj_start_eq, e]
  simp only [Ctl.st, f1, f2, f3, f6]
  rcases oversub_check true _ _ with ⟨_ | rc, s2, node2⟩
  · dsimp only
    split <;> rfl
  · rfl

end Prrte

namespace Prrte

/-- The two packages of `ex_topo` are there and hold one cpu per rank. -/
lemma ex_topo_wide : objs_wide no_knobs ex_topo .HWLOC_OBJ_PACKAGE 0 := by
  intro i hi
  have hi2 : i < 2 := hi
  interval_cases i
  · exact ⟨10, rfl, by decide⟩
  · exact ⟨11, rfl, by decide⟩

/-- Claim C32 fails as stated for a node that is forced to take a proc in a
spawned job.  Three procs of a spawned job whose parent left off at the object
`0` go on a node of two slots and two packages: the first pass starts at the
object `(bkmark_obj + 1) % 2 = 1`, the second pass forces one more proc on the
full node and puts it on the object `num_procs % 2 = 0` (object `10`), not on
the object `(bkmark_obj + 1) % 2 = 1` (object `11`). -/
theorem byobj_forced_start_overrides_spawn :
    (prrte_rmaps_rr_byobj 5 no_knobs ex_spawn_job { idx := 0, num_procs := 3 }
        [ex_node 0 2 true] 2 .HWLOC_OBJ_PACKAGE 0 100).map
      (fun out => (out.rc, out.nodes.map (fun n => n.procs.map (fun p => p.locale))))
      = some (.PRRTE_SUCCESS, [[some 11, some 10, some 10]])
    ∧ ex_topo.get_obj_by_type .HWLOC_OBJ_PACKAGE 0 ((ex_spawn_job.bkmark_obj + 1) % 2) = some 11
    ∧ ex_topo.get_obj_by_type .HWLOC_OBJ_PACKAGE 0 (2 % 2) = some 10 := by
  decide

/-- Claim C32, amended: in one visit of by-object no-span that is not skipped,
on a node with `nobjs > 0` target objects that are all there and wide enough,
with `n = min (nprocs, app->num_procs - nprocs_mapped)` procs that can be
allocated and enough fuel, the visit returns a result with `n` more procs
mapped, the new procs of the node are on the objects of index
`byobj_visit_slots nobjs start n`, the object of index `(start + k) % nobjs`
receives `n / nobjs + (1 if k < n % nobjs else 0)` of them, and two objects
differ by at most one proc.  Here `start` is `num_procs % nobjs` when the node
is forced to take a proc (`nprocs0 < 1`, on a second pass), and only otherwise
`(bkmark_obj + 1) % nobjs` for a spawned job and `0` for any other job. -/
theorem byobj_visit_round_robin (fuel : Nat) (opts : rmaps_base_t) (app : prrte_app_context_t)
    (target : hwloc_obj_type_t) (cache_level : Nat) (second_pass : Bool)
    (s : Locals) (node : prrte_node_t) (t : hwloc_topology_t) (nobjs n : Nat) (nprocs0 : Int)
    (ht : node.topology = some t)
    (hnobjs : nobjs = t.get_nbobjs_by_type target cache_level) (hpos : 0 < nobjs)
    (hw : objs_wide opts t target cache_level)
    (hn0 : nprocs0
      = byobj_nprocs opts t target nobjs ((node.slots : Int) - (node.slots_inuse : Int)))
    (hvisit : ¬ (nprocs0 < 1 ∧ second_pass = false))
    (hn : n = min (if nprocs0 < 1 then 1 else nprocs0).toNat (app.num_procs - s.nprocs_mapped))
    (hmem : n ≤ s.mem) (hfuel : n / nobjs < fuel) :
    (∃ c node1, byobj_body fuel opts app target cache_level second_pass s node = some (c, node1)
        ∧ c.st.nprocs_mapped = s.nprocs_mapped + n
        ∧ node1.procs = node.procs
            ++ (byobj_visit_slots nobjs
                  (byobj_start s.jdata node nobjs (decide (nprocs0 < 1))) n).map
                (fun i => { app_idx := app.idx,
                            locale := t.get_obj_by_type target cache_level i }))
    ∧ (∀ k, k < nobjs →
        (byobj_visit_slots nobjs (byobj_start s.jdata node nobjs (decide (nprocs0 < 1))) n).count
            ((byobj_start s.jdata node nobjs (decide (nprocs0 < 1)) + k) % nobjs)
          = n / nobjs + if k < n % nobjs then 1 else 0)
    ∧ (∀ k1 k2, k1 < nobjs → k2 < nobjs →
        (byobj_visit_slots nobjs (byobj_start s.jdata node nobjs (decide (nprocs0 < 1))) n).count
            ((byobj_start s.jdata node nobjs (decide (nprocs0 < 1)) + k1) % nobjs)
          ≤ (byobj_visit_slots nobjs
                (byobj_start s.jdata node nobjs (decide (nprocs0 < 1))) n).count
              ((byobj_start s.jdata node nobjs (decide (nprocs0 < 1)) + k2) % nobjs) + 1) := by
  refine ⟨?_, ?_, ?_⟩
  · obtain ⟨ob, e⟩ := byobj_body_run fuel opts app target cache_level second_pass s node t
      nobjs n nprocs0 ht hnobjs hpos hw hn0 hvisit hn hmem hfuel
    obtain ⟨S, hS⟩ : ∃ S : Locals, S =
        { s with
          jdata := (add_to_map s.jdata node).1, obj := ob,
          mem := s.mem - n, nprocs_mapped := s.nprocs_mapped + n, add_one := true } := ⟨_, rfl⟩
    obtain ⟨N, hN⟩ : ∃ N : prrte_node_t, N =
        { (add_to_map s.jdata node).2 with
          num_procs := node.num_procs + n,
          slots_inuse := node.slots_inuse + n,
          procs := node.procs
            ++ byobj_visit_procs app.idx t target cache_level nobjs
                (byobj_start s.jdata node nobjs (decide (nprocs0 < 1))) 0 n } := ⟨_, rfl⟩
    rw [← hS, ← hN] at e
    have g1 := (oversub_check_fields true S N).1
    have g2 := oversub_check_procs true S N
    have hSm : S.nprocs_mapped = s.nprocs_mapped + n := by rw [hS]
    have hNp : N.procs = node.procs
        ++ (byobj_visit_slots nobjs
              (byobj_start s.jdata node nobjs (decide (nprocs0 < 1))) n).map
            (fun i => { app_idx := app.idx,
                        locale := t.get_obj_by_type target cache_level i }) := by
      rw [hN, ← byobj_visit_procs_slots]
    rw [hSm] at g1
    rw [hNp] at g2
    rcases hoc : oversub_check true S N with ⟨orc, s2, node2⟩
    rw [hoc] at e g1 g2
    cases orc with
    | some rc => exact ⟨_, _, e, g1, g2⟩
    | none =>
      dsimp only at e
      by_cases hP : s2.nprocs_mapped = app.num_procs
      · rw [if_pos hP] at e
        exact ⟨_, _, e, g1, g2⟩
      · rw [if_neg hP] at e
        exact ⟨_, _, e, g1, g2⟩
  · intro k hk
    exact byobj_visit_slots_count nobjs _ n k hpos hk
  · intro k1 k2 hk1 hk2
    rw [byobj_visit_slots_count nobjs _ n k1 hpos hk1,
      byobj_visit_slots_count nobjs _ n k2 hpos hk2]
    split <;> split <;> omega

/-- Claim C32, amended, on the second pass of a spawned job over a full node of
two packages that holds two procs: the node is forced to take one proc, which
goes on the object of index `num_procs % 2 = 0`. -/
theorem byobj_visit_round_robin_witness :
    (∃ c node1, byobj_body 5 no_knobs { idx := 0, num_procs := 3 } .HWLOC_OBJ_PACKAGE 0 true
          ex_forced_state ex_forced_node = some (c, node1)
        ∧ c.st.nprocs_mapped = ex_forced_state.nprocs_mapped + 1
        ∧ node1.procs = ex_forced_node.procs
            ++ (byobj_visit_slots 2
                  (byobj_start ex_forced_state.jdata ex_forced_node 2 (decide ((0 : Int) < 1)))
                  1).map
                (fun i => { app_idx := 0,
                            locale := ex_topo.get_obj_by_type .HWLOC_OBJ_PACKAGE 0 i }))
    ∧ byobj_visit_slots 2
        (byobj_start ex_forced_state.jdata ex_forced_node 2 (decide ((0 : Int) < 1))) 1 = [0] :=
  ⟨(byobj_visit_round_robin 5 no_knobs { idx := 0, num_procs := 3 } .HWLOC_OBJ_PACKAGE 0 true
      ex_forced_state ex_forced_node ex_topo 2 1 0 rfl rfl (by decide) ex_topo_wide
      (by decide) (by decide) (by decide) (by decide) (by decide)).1,
   by decide⟩

end Prrte

namespace Prrte

/-! ## By-object no-span and by-slot fill the nodes alike -/

/-- The oversubscription block does nothing on a node that holds no more procs
than slots. -/
lemma oversub_check_within (perm : Bool) (s : Locals) (node : prrte_node_t)
    (h : node.num_procs ≤ node.slots) : oversub_check perm s node = (none, s, node) := by
  unfold oversub_check
  rw [if_neg (by omega)]

/-- Once every proc is mapped the fill gives nothing more. -/
lemma fill_counts_done (P : Nat) : ∀ (rooms : List Nat) (m : Nat), P ≤ m →
    fill_counts P m rooms = List.replicate rooms.length 0 := by
  intro rooms
  induction rooms with
  | nil => intro m _; rfl
  | cons r rest ih =>
    intro m h
    have h0 : P - m = 0 := by omega
    simp only [fill_counts, h0, Nat.min_zero, Nat.add_zero, List.length_cons,
      List.replicate_succ]
    rw [ih m h]

/-- Adding the shares of a finished fill changes nothing. -/
lemma zipWith_add_fill_done (P : Nat) (l rooms : List Nat) (m : Nat) (h : P ≤ m)
    (hlen : l.length = rooms.length) :
    List.zipWith (· + ·) l (fill_counts P m rooms) = l := by
  rw [fill_counts_done P rooms m h, ← hlen]
  exact zipWith_add_replicate_zero l

/-- The first pass of by-slot, with no density knob set and enough allocations
left: node by node, the number of procs in the proc array grows by the share of
the node in a fill in list order. -/
lemma byslot_pass1_lengths (opts : rmaps_base_t) (app : prrte_app_context_t)
    (hk : knobs_unset opts) :
    ∀ (nodes : List prrte_node_t) (s : Locals),
      app.num_procs - s.nprocs_mapped ≤ s.mem →
      (foreachNode (byslot_pass1_body opts app) s nodes).2.map (fun n => n.procs.length)
        = List.zipWith (· + ·) (nodes.map (fun n => n.procs.length))
            (fill_counts app.num_procs s.nprocs_mapped (nodes.map room)) := by
  intro nodes
  induction nodes with
  | nil => intro s _; simp [foreachNode, fill_counts]
  | cons node rest ih =>
    intro s hmem
    rw [foreachNode, byslot_pass1_body_unset opts app hk]
    by_cases hfull : node.slots ≤ node.slots_inuse
    · have hr : room node = 0 := by unfold room; omega
      have e := ih (root_obj_of s node) (by simpa using hmem)
      simp only [hfull, if_true]
      simpa [fill_counts, hr] using e
    · simp only [hfull, if_false]
      have hj : min (room node) (app.num_procs - (root_obj_of s node).nprocs_mapped)
          ≤ (root_obj_of s node).mem := by
        simp only [root_obj_of_nprocs_mapped, root_obj_of_mem]; omega
      rw [(place_loop_spec app true (room node) (root_obj_of s node) node).1 hj]
      obtain ⟨f1, f2, f3, f4, f5⟩ := place_n_fields app true
        (min (room node) (app.num_procs - (root_obj_of s node).nprocs_mapped))
        (root_obj_of s node) node
      simp only [root_obj_of_nprocs_mapped, root_obj_of_mem, root_obj_of_jdata] at f1 f2 f3 f4 f5
      have hp : (place_n app true
          (min (room node) (app.num_procs - (root_obj_of s node).nprocs_mapped))
          (root_obj_of s node) node).2.procs.length
          = node.procs.length + min (room node) (app.num_procs - s.nprocs_mapped) := by
        unfold place_n
        dsimp only
        split
        · simp [(add_to_map_node_fields (root_obj_of s node).jdata node).2.2.2.2.2.1]
        · simp
      have e := ih
        (place_n app true (min (room node) (app.num_procs - (root_obj_of s node).nprocs_mapped))
          (root_obj_of s node) node).1
        (by simp only [root_obj_of_nprocs_mapped] at f1 f2 ⊢; rw [f1, f2]; omega)
      simp only [root_obj_of_nprocs_mapped] at e hp f1 ⊢
      rw [f1] at e
      simp only [List.map_cons, fill_counts, List.zipWith_cons_cons, e, hp]

end Prrte

namespace Prrte

/-- A first-pass visit of by-object no-span with no density knob set, on a node
whose target objects are all there and wide enough and which holds no more
procs than slots in use: a full node is left as it is, any other node receives
`r = min (room, app->num_procs - nprocs_mapped)` procs and the loop goes on, or
is left if every proc is mapped. -/
lemma byobj_pass1_body_run (fuel : Nat) (opts : rmaps_base_t) (app : prrte_app_context_t)
    (hk : knobs_unset opts) (target : hwloc_obj_type_t) (cache_level : Nat)
    (s : Locals) (node : prrte_node_t)
    (htopo : ∃ t, node.topology = some t ∧ 0 < t.get_nbobjs_by_type target cache_level
      ∧ objs_wide opts t target cache_level)
    (hcnt : node.num_procs ≤ node.slots_inuse)
    (hmem : app.num_procs - s.nprocs_mapped ≤ s.mem)
    (hfuel : app.num_procs - s.nprocs_mapped < fuel) :
    ∃ c node1, byobj_body fuel opts app target cache_level false s node = some (c, node1)
      ∧ c.isRet = false
      ∧ (c = .next c.st ∨ (c = .brk c.st ∧ c.st.nprocs_mapped = app.num_procs))
      ∧ c.st.nprocs_mapped
          = s.nprocs_mapped + min (room node) (app.num_procs - s.nprocs_mapped)
      ∧ c.st.mem = s.mem - min (room node) (app.num_procs - s.nprocs_mapped)
      ∧ node1.procs.length
          = node.procs.length + min (room node) (app.num_procs - s.nprocs_mapped)
      ∧ node1.num_procs
          = node.num_procs + min (room node) (app.num_procs - s.nprocs_mapped) := by
  obtain ⟨t, ht, hpos, hw⟩ := htopo
  have hn0 := byobj_nprocs_unset opts hk t target (t.get_nbobjs_by_type target cache_level)
    ((node.slots : Int) - (node.slots_inuse : Int))
  by_cases hfull : node.slots ≤ node.slots_inuse
  · have hr : room node = 0 := by unfold room; omega
    have hlt : (node.slots : Int) - (node.slots_inuse : Int) < 1 := by omega
    refine ⟨.next s, node, ?_, rfl, Or.inl rfl, ?_, ?_, ?_, ?_⟩
    · unfold byobj_body
      rw [ht]
      dsimp only
      rw [if_neg (Nat.pos_iff_ne_zero.mp hpos), hn0, if_pos ⟨hlt, rfl⟩]
    · simp [Ctl.st, hr]
    · simp [Ctl.st, hr]
    · simp [hr]
    · simp [hr]
  · have hge : ¬ ((node.slots : Int) - (node.slots_inuse : Int) < 1) := by omega
    obtain ⟨r, hr⟩ : ∃ r, r = min (room node) (app.num_procs - s.nprocs_mapped) := ⟨_, rfl⟩
    have hroom : ((node.slots : Int) - (node.slots_inuse : Int)).toNat = room node := by
      unfold room; omega
    have hle : r / t.get_nbobjs_by_type target cache_level ≤ r := Nat.div_le_self _ _
    obtain ⟨ob, e⟩ := byobj_body_run fuel opts app target cache_level false s node t
      (t.get_nbobjs_by_type target cache_level) r
      ((node.slots : Int) - (node.slots_inuse : Int)) ht rfl hpos hw hn0.symm
      (fun h => hge h.1) (by rw [if_neg hge, hroom]; exact hr) (by omega) (by omega)
    obtain ⟨f1, f2, f3, f4, f5, f6, f7, f8⟩ := add_to_map_node_fields s.jdata node
    rw [oversub_check_within true _ _
      (by show node.num_procs + r ≤ (add_to_map s.jdata node).2.slots
          rw [f2]; unfold room at hr; omega)] at e
    dsimp only at e
    rw [← hr]
    by_cases hP : s.nprocs_mapped + r = app.num_procs
    · rw [if_pos hP] at e
      refine ⟨_, _, e, rfl, Or.inr ⟨rfl, hP⟩, rfl, rfl, ?_, rfl⟩
      simp [byobj_visit_procs]
    · rw [if_neg hP] at e
      refine ⟨_, _, e, rfl, Or.inl rfl, rfl, rfl, ?_, rfl⟩
      simp [byobj_visit_procs]

/-- The first pass of by-object no-span with no density knob set, over nodes
whose target objects are all there and wide enough and which hold no more procs
than slots in use: it does not return, and node by node the proc array and
`num_procs` grow by the share of the node in a fill in list order. -/
lemma byobj_pass1_counts (fuel : Nat) (opts : rmaps_base_t) (app : prrte_app_context_t)
    (hk : knobs_unset opts) (target : hwloc_obj_type_t) (cache_level : Nat) :
    ∀ (nodes : List prrte_node_t) (s : Locals),
      (∀ node ∈ nodes, ∃ t, node.topology = some t
        ∧ 0 < t.get_nbobjs_by_type target cache_level ∧ objs_wide opts t target cache_level) →
      (∀ node ∈ nodes, node.num_procs ≤ node.slots_inuse) →
      app.num_procs - s.nprocs_mapped ≤ s.mem →
      app.num_procs - s.nprocs_mapped < fuel →
      ∃ c nodes1,
        foreachNodeF (byobj_body fuel opts app target cache_level false) s nodes
          = some (c, nodes1)
        ∧ c.isRet = false
        ∧ c.st.nprocs_mapped
            = s.nprocs_mapped + (fill_counts app.num_procs s.nprocs_mapped (nodes.map room)).sum
        ∧ nodes1.map (fun n => n.procs.length)
            = List.zipWith (· + ·) (nodes.map (fun n => n.procs.length))
                (fill_counts app.num_procs s.nprocs_mapped (nodes.map room))
        ∧ nodes1.map (fun n => n.num_procs)
            = List.zipWith (· + ·) (nodes.map (fun n => n.num_procs))
                (fill_counts app.num_procs s.nprocs_mapped (nodes.map room)) := by
  intro nodes
  induction nodes with
  | nil =>
    intro s _ _ _ _
    exact ⟨.next s, [], rfl, rfl, by simp [fill_counts, Ctl.st], by simp [fill_counts],
      by simp [fill_counts]⟩
  | cons node rest ih =>
    intro s htopo hcnt hmem hfuel
    obtain ⟨c, node1, e, hnr, hc, g1, g2, g3, g4⟩ := byobj_pass1_body_run fuel opts app hk target
      cache_level s node (htopo node (by simp)) (hcnt node (by simp)) hmem hfuel
    rcases hc with hc | ⟨hc, hP⟩
    · obtain ⟨c2, nodes2, e2, h1, h2, h3, h4⟩ := ih c.st
        (fun n hn => htopo n (by simp [hn])) (fun n hn => hcnt n (by simp [hn]))
        (by rw [g1, g2]; omega) (by rw [g1]; omega)
      rw [hc] at e
      refine ⟨c2, node1 :: nodes2, ?_, h1, ?_, ?_, ?_⟩
      · simp only [foreachNodeF, e, e2]
      · rw [h2, g1]
        simp only [List.map_cons, fill_counts, List.sum_cons]
        omega
      · rw [g1] at h3
        simp only [List.map_cons, fill_counts, List.zipWith_cons_cons, h3, g3]
      · rw [g1] at h4
        simp only [List.map_cons, fill_counts, List.zipWith_cons_cons, h4, g4]
    · rw [hc] at e
      have hd : app.num_procs
          ≤ s.nprocs_mapped + min (room node) (app.num_procs - s.nprocs_mapped) := by
        rw [← g1, hP]
      refine ⟨.brk c.st, node1 :: rest, ?_, rfl, ?_, ?_, ?_⟩
      · simp only [foreachNodeF, e]
      · show c.st.nprocs_mapped = _
        rw [g1]
        simp only [List.map_cons, fill_counts, List.sum_cons,
          fill_counts_done app.num_procs _ _ hd]
        simp
      · simp only [List.map_cons, fill_counts, List.zipWith_cons_cons, g3]
        rw [zipWith_add_fill_done app.num_procs _ _ _ hd (by simp)]
      · simp only [List.map_cons, fill_counts, List.zipWith_cons_cons, g4]
        rw [zipWith_add_fill_done app.num_procs _ _ _ hd (by simp)]

end Prrte

namespace Prrte

/-- By-slot mapping with no density knob set, the gate open, room for every proc
and enough allocations ends after its first pass with `PRRTE_SUCCESS`. -/
lemma byslot_call_pass1 (opts : rmaps_base_t) (jdata : prrte_job_t)
    (app : prrte_app_context_t) (node_list : List prrte_node_t) (num_slots : Int) (mem : Nat)
    (hk : knobs_unset opts) (hg : gate jdata app num_slots = false)
    (hroom : app.num_procs ≤ (node_list.map room).sum)
    (hmem : app.num_procs ≤ mem) :
    ∃ s1, prrte_rmaps_rr_byslot opts jdata app node_list num_slots mem
      = { rc := .PRRTE_SUCCESS, st := s1,
          nodes := (foreachNode (byslot_pass1_body opts app) (init_locals jdata mem)
                      node_list).2 } := by
  obtain ⟨s1, e1, e2, _, _, _⟩ := byslot_pass1_spec opts app hk node_list
    (init_locals jdata mem) (by simp [init_locals]; omega)
  have hdone : s1.nprocs_mapped = app.num_procs := by
    rw [e2, fill_counts_sum]
    simp [init_locals]
    omega
  refine ⟨s1, ?_⟩
  unfold prrte_rmaps_rr_byslot
  rw [hg]
  simp only [Bool.false_eq_true, if_false]
  generalize hr : foreachNode (byslot_pass1_body opts app) (init_locals jdata mem) node_list = r
    at e1
  obtain ⟨c, nodes1⟩ := r
  simp only at e1
  subst e1
  simp [Ctl.st, hdone]

/-- By-object no-span mapping with no density knob set, the gate open, room for
every proc, enough allocations and fuel, over nodes whose target objects are all
there and wide enough and which hold no more procs than slots in use, ends after
its first pass with `PRRTE_SUCCESS`; the nodes are filled in list order. -/
lemma byobj_call_pass1 (fuel : Nat) (opts : rmaps_base_t) (jdata : prrte_job_t)
    (app : prrte_app_context_t) (node_list : List prrte_node_t) (num_slots : Int)
    (target : hwloc_obj_type_t) (cache_level : Nat) (mem : Nat)
    (hk : knobs_unset opts) (hspan : jdata.mapping.span = false)
    (hg : gate jdata app num_slots = false)
    (htopo : ∀ node ∈ node_list, ∃ t, node.topology = some t
      ∧ 0 < t.get_nbobjs_by_type target cache_level ∧ objs_wide opts t target cache_level)
    (hcnt : ∀ node ∈ node_list, node.num_procs ≤ node.slots_inuse)
    (hroom : app.num_procs ≤ (node_list.map room).sum)
    (hmem : app.num_procs ≤ mem) (hfuel : app.num_procs < fuel) :
    ∃ out, prrte_rmaps_rr_byobj fuel opts jdata app node_list num_slots target cache_level mem
        = some out
      ∧ out.rc = .PRRTE_SUCCESS
      ∧ out.st.nprocs_mapped = app.num_procs
      ∧ out.nodes.map (fun n => n.procs.length)
          = List.zipWith (· + ·) (node_list.map (fun n => n.procs.length))
              (fill_counts app.num_procs 0 (node_list.map room))
      ∧ out.nodes.map (fun n => n.num_procs)
          = List.zipWith (· + ·) (node_list.map (fun n => n.num_procs))
              (fill_counts app.num_procs 0 (node_list.map room)) := by
  obtain ⟨c, nodes1, e, hnr, h1, h2, h3⟩ := byobj_pass1_counts fuel opts app hk target
    cache_level node_list { init_locals jdata mem with add_one := false } htopo hcnt
    (by simp [init_locals]; omega) (by simp [init_locals]; omega)
  have hdone : c.st.nprocs_mapped = app.num_procs := by
    rw [h1, fill_counts_sum]
    simp [init_locals]
    omega
  have hz : ({ init_locals jdata mem with add_one := false } : Locals).nprocs_mapped = 0 := rfl
  rw [hz] at h2 h3
  obtain ⟨f, hf⟩ : ∃ f, fuel = f + 1 := ⟨fuel - 1, by omega⟩
  have hpass : byobj_passes opts app target cache_level fuel fuel false
      (init_locals jdata mem) node_list = some (.next c.st, nodes1) := by
    rw [hf, byobj_passes, ← hf, e]
    cases c with
    | ret rc s1 => simp [Ctl.isRet] at hnr
    | next s1 =>
      simp only [Ctl.st] at hdone ⊢
      rw [if_neg (by rw [hdone]; exact fun h => absurd h.2 (Nat.lt_irrefl _))]
    | brk s1 =>
      simp only [Ctl.st] at hdone ⊢
      rw [if_neg (by rw [hdone]; exact fun h => absurd h.2 (Nat.lt_irrefl _))]
  refine ⟨{ rc := .PRRTE_SUCCESS, st := c.st, nodes := nodes1 }, ?_, rfl, hdone, h2, h3⟩
  unfold prrte_rmaps_rr_byobj
  rw [hspan, hg, hpass]
  simp only [Bool.false_eq_true, if_false]
  rw [if_neg (by show ¬ c.st.nprocs_mapped < _; rw [hdone]; exact Nat.lt_irrefl _)]
  rfl

end Prrte

namespace Prrte

/-- Two empty nodes of two slots with the topology `ex_topo`: their packages are
all there and wide enough for one cpu per rank. -/
lemma ex_two_nodes_wide :
    ∀ node ∈ [ex_node 0 2 true, ex_node 1 2 true], ∃ t, node.topology = some t
      ∧ 0 < t.get_nbobjs_by_type .HWLOC_OBJ_PACKAGE 0
      ∧ objs_wide no_knobs t .HWLOC_OBJ_PACKAGE 0 := by
  intro node hn
  simp only [List.mem_cons, List.mem_singleton, List.not_mem_nil, or_false] at hn
  rcases hn with rfl | rfl <;> exact ⟨ex_topo, rfl, by decide, ex_topo_wide⟩

/-- Claim C37 fails as stated when one target object is wide enough and another
is not.  A node of four free slots has a package of four processing units and a
package of one; two procs of two cpus each are mapped with no density knob set:
by-slot returns `PRRTE_SUCCESS` with both procs on the node, by-object no-span
returns `PRRTE_ERR_SILENT` because the second proc is due on the narrow
package. -/
theorem byobj_narrow_object_unlike_byslot :
    (∃ o, ex_topo_uneven.get_obj_by_type .HWLOC_OBJ_PACKAGE 0 0 = some o
        ∧ (2 : Int) ≤ (ex_topo_uneven.get_npus o : Int))
    ∧ knobs_unset { no_knobs with cpus_per_rank := 2 }
    ∧ 2 ≤ ([{ ex_node 0 4 false with topology := some ex_topo_uneven }].map room).sum
    ∧ (prrte_rmaps_rr_byobj 10 { no_knobs with cpus_per_rank := 2 } (ex_job false false false)
          { idx := 0, num_procs := 2 }
          [{ ex_node 0 4 false with topology := some ex_topo_uneven }]
          4 .HWLOC_OBJ_PACKAGE 0 100).map (fun out => out.rc) = some .PRRTE_ERR_SILENT
    ∧ (prrte_rmaps_rr_byslot { no_knobs with cpus_per_rank := 2 } (ex_job false false false)
          { idx := 0, num_procs := 2 }
          [{ ex_node 0 4 false with topology := some ex_topo_uneven }] 4 100).rc
        = .PRRTE_SUCCESS
    ∧ (prrte_rmaps_rr_byslot { no_knobs with cpus_per_rank := 2 } (ex_job false false false)
          { idx := 0, num_procs := 2 }
          [{ ex_node 0 4 false with topology := some ex_topo_uneven }] 4 100).nodes.map
        (fun n => n.procs.length) = [2] :=
  ⟨⟨10, rfl, by decide⟩, by simp [knobs_unset, no_knobs], by decide, by decide, by decide,
    by decide⟩

/-- Claim C37, amended: with no density knob set, the oversubscription gate open,
every node of the list with a topology whose target objects (at least one) are
all there and wide enough for `cpus_per_rank`, no node holding more procs than
slots in use, total free room at least `P = app->num_procs`, `P` allocations
available and fuel above `P`: by-object no-span mapping and by-slot mapping both
return `PRRTE_SUCCESS`, and both add to each node its share of a fill in list
order, so they place the same number of procs on every node. -/
theorem byobj_byslot_same_counts (fuel : Nat) (opts : rmaps_base_t) (jdata : prrte_job_t)
    (app : prrte_app_context_t) (node_list : List prrte_node_t) (num_slots : Int)
    (target : hwloc_obj_type_t) (cache_level : Nat) (mem : Nat)
    (hk : knobs_unset opts) (hspan : jdata.mapping.span = false)
    (hg : gate jdata app num_slots = false)
    (htopo : ∀ node ∈ node_list, ∃ t, node.topology = some t
      ∧ 0 < t.get_nbobjs_by_type target cache_level ∧ objs_wide opts t target cache_level)
    (hcnt : ∀ node ∈ node_list, node.num_procs ≤ node.slots_inuse)
    (hroom : app.num_procs ≤ (node_list.map room).sum)
    (hmem : app.num_procs ≤ mem) (hfuel : app.num_procs < fuel) :
    ∃ out, prrte_rmaps_rr_byobj fuel opts jdata app node_list num_slots target cache_level mem
        = some out
      ∧ out.rc = .PRRTE_SUCCESS
      ∧ (prrte_rmaps_rr_byslot opts jdata app node_list num_slots mem).rc = .PRRTE_SUCCESS
      ∧ out.nodes.map (fun n => n.procs.length)
          = List.zipWith (· + ·) (node_list.map (fun n => n.procs.length))
              (fill_counts app.num_procs 0 (node_list.map room))
      ∧ (prrte_rmaps_rr_byslot opts jdata app node_list num_slots mem).nodes.map
            (fun n => n.procs.length)
          = List.zipWith (· + ·) (node_list.map (fun n => n.procs.length))
              (fill_counts app.num_procs 0 (node_list.map room))
      ∧ out.nodes.map (fun n => n.num_procs)
          = (prrte_rmaps_rr_byslot opts jdata app node_list num_slots mem).nodes.map
              (fun n => n.num_procs) := by
  obtain ⟨out, e, hrc, _, hlen, hnum⟩ := byobj_call_pass1 fuel opts jdata app node_list
    num_slots target cache_level mem hk hspan hg htopo hcnt hroom hmem hfuel
  obtain ⟨s1, e1⟩ := byslot_call_pass1 opts jdata app node_list num_slots mem hk hg hroom hmem
  have hl := byslot_pass1_lengths opts app hk node_list (init_locals jdata mem)
    (by simp [init_locals]; omega)
  obtain ⟨_, _, _, _, hn, _⟩ := byslot_pass1_spec opts app hk node_list
    (init_locals jdata mem) (by simp [init_locals]; omega)
  have hz : (init_locals jdata mem).nprocs_mapped = 0 := rfl
  rw [hz] at hl hn
  refine ⟨out, e, hrc, ?_, hlen, ?_, ?_⟩
  · rw [e1]
  · rw [e1]; exact hl
  · rw [e1, hnum]; exact hn.symm

/-- Claim C37, amended, on two empty nodes of two slots and two packages each,
for three procs: both mappers return `PRRTE_SUCCESS` and put two procs on the
first node and one on the second. -/
theorem byobj_byslot_same_counts_witness :
    ∃ out, prrte_rmaps_rr_byobj 10 no_knobs (ex_job false false false)
        { idx := 0, num_procs := 3 } [ex_node 0 2 true, ex_node 1 2 true] 4
        .HWLOC_OBJ_PACKAGE 0 100 = some out
      ∧ out.rc = .PRRTE_SUCCESS
      ∧ (prrte_rmaps_rr_byslot no_knobs (ex_job false false false)
          { idx := 0, num_procs := 3 } [ex_node 0 2 true, ex_node 1 2 true] 4 100).rc
          = .PRRTE_SUCCESS
      ∧ out.nodes.map (fun n => n.procs.length)
          = List.zipWith (· + ·)
              ([ex_node 0 2 true, ex_node 1 2 true].map (fun n => n.procs.length))
              (fill_counts 3 0 ([ex_node 0 2 true, ex_node 1 2 true].map room))
      ∧ (prrte_rmaps_rr_byslot no_knobs (ex_job false false false)
          { idx := 0, num_procs := 3 } [ex_node 0 2 true, ex_node 1 2 true] 4 100).nodes.map
            (fun n => n.procs.length)
          = List.zipWith (· + ·)
              ([ex_node 0 2 true, ex_node 1 2 true].map (fun n => n.procs.length))
              (fill_counts 3 0 ([ex_node 0 2 true, ex_node 1 2 true].map room))
      ∧ out.nodes.map (fun n => n.num_procs)
          = (prrte_rmaps_rr_byslot no_knobs (ex_job false false false)
              { idx := 0, num_procs := 3 } [ex_node 0 2 true, ex_node 1 2 true] 4 100).nodes.map
              (fun n => n.num_procs) :=
  byobj_byslot_same_counts 10 no_knobs (ex_job false false false) { idx := 0, num_procs := 3 }
    [ex_node 0 2 true, ex_node 1 2 true] 4 .HWLOC_OBJ_PACKAGE 0 100
    (by simp [knobs_unset, no_knobs]) rfl (by decide) ex_two_nodes_wide (by decide) (by decide)
    (by decide) (by decide)

end Prrte

namespace Prrte

/-! ## By-node: rounds that stay within the free room of the nodes -/

/-- One node of a by-node round with no density knob set and no
oversubscription, on a node whose procs all occupy slots, with enough memory:
a full node is skipped; a node with free room receives
`j = min (room, share, app->num_procs - nprocs_mapped)` procs, counts as a node
of the round, and the loop is left exactly when every proc is mapped. -/
lemma bynode_round_body_capped (opts : rmaps_base_t) (app : prrte_app_context_t)
    (hk : knobs_unset opts) (navg : Int) (b k : Nat) (s : Locals) (node : prrte_node_t)
    (hg : round_state navg b k s)
    (hnp : node.num_procs ≤ node.slots_inuse)
    (hmem : app.num_procs - s.nprocs_mapped ≤ s.mem) :
    ∃ c node1 j, bynode_round_body opts app false navg s node = (c, node1)
      ∧ (c = .next c.st ∨ (c = .brk c.st ∧ c.st.nprocs_mapped = app.num_procs))
      ∧ j = (if node.slots_inuse < node.slots
              then min (min (room node) (b + (if 0 < k then 1 else 0)))
                    (app.num_procs - s.nprocs_mapped)
              else 0)
      ∧ c.st.nprocs_mapped = s.nprocs_mapped + j
      ∧ c.st.mem = s.mem - j
      ∧ c.st.nnodes = s.nnodes + (if node.slots_inuse < node.slots then 1 else 0)
      ∧ round_state navg b (if node.slots_inuse < node.slots then k - 1 else k) c.st
      ∧ node1.slots = node.slots
      ∧ node1.slots_inuse = node.slots_inuse + j
      ∧ node1.num_procs = node.num_procs + j
      ∧ node1.procs.length = node.procs.length + j := by
  obtain ⟨a1, a2, a3, a4, a5, a6, -⟩ := add_to_map_node_fields s.jdata node
  by_cases hroom : node.slots_inuse < node.slots
  · have hstep := (bynode_round_body_step app.num_procs opts app rfl false navg s node).1
    obtain ⟨new, hnew, hlen, -⟩ := hstep.placed
    rw [bynode_round_body_unset opts app hk navg s node hroom] at hnew hlen ⊢
    have hg2 : round_state navg b k
        { root_obj_of s node with jdata := (add_to_map s.jdata node).1 } := by
      unfold round_state at hg ⊢
      simpa using hg
    obtain ⟨t1, t2⟩ := take_extra_round_state navg b k _ hg2
    obtain ⟨f1, f2, f3, f4, f5⟩ := take_extra_fields
      { root_obj_of s node with jdata := (add_to_map s.jdata node).1 }
    have f1 : (take_extra { root_obj_of s node with
        jdata := (add_to_map s.jdata node).1 }).nprocs_mapped = s.nprocs_mapped := by
      rw [f1]; simp
    have f2 : (take_extra { root_obj_of s node with
        jdata := (add_to_map s.jdata node).1 }).mem = s.mem := by
      rw [f2]; simp
    have f3 : (take_extra { root_obj_of s node with
        jdata := (add_to_map s.jdata node).1 }).nnodes = s.nnodes := by
      rw [f3]; simp
    have hn : (if (room node : Int)
                  < navg + (take_extra { root_obj_of s node with
                              jdata := (add_to_map s.jdata node).1 }).extra_procs_to_assign
             then (room node : Int)
             else navg + (take_extra { root_obj_of s node with
                              jdata := (add_to_map s.jdata node).1 }).extra_procs_to_assign)
        = ((min (room node) (b + (if 0 < k then 1 else 0)) : Nat) : Int) := by
      rw [t1]
      split <;> omega
    rw [hn] at hnew hlen ⊢
    generalize take_extra { root_obj_of s node with jdata := (add_to_map s.jdata node).1 } = T
      at t1 t2 f1 f2 f3 hnew hlen ⊢
    obtain ⟨j, hj⟩ : ∃ j, j = min (min (room node) (b + (if 0 < k then 1 else 0)))
        (app.num_procs - s.nprocs_mapped) := ⟨_, rfl⟩
    have hjr : j ≤ room node := by omega
    obtain ⟨T2, hT2⟩ : ∃ T2 : Locals, T2 = { T with nnodes := T.nnodes + 1 } := ⟨_, rfl⟩
    have g1 : T2.nprocs_mapped = s.nprocs_mapped := by rw [hT2]; exact f1
    have g2 : T2.mem = s.mem := by rw [hT2]; exact f2
    have g3 : T2.nnodes = s.nnodes + 1 := by rw [hT2]; show T.nnodes + 1 = _; rw [f3]
    have g4 : T2.add_one = T.add_one ∧ T2.extra_procs_to_assign = T.extra_procs_to_assign
        ∧ T2.nxtra_nodes = T.nxtra_nodes := by
      rw [hT2]; exact ⟨rfl, rfl, rfl⟩
    rw [← hT2] at hnew hlen ⊢
    have hfit : (add_to_map s.jdata node).2.num_procs
        + min ((min (room node) (b + (if 0 < k then 1 else 0)) : Nat) : Int).toNat
            (app.num_procs - T2.nprocs_mapped)
        ≤ (add_to_map s.jdata node).2.slots := by
      rw [a1, a2, g1]
      simp only [Int.toNat_ofNat]
      rw [← hj]
      unfold room at hjr
      omega
    obtain ⟨s1, node1, e, p1, p2, p3, p4, p5, p6, p7, p8, p9, p10, p11, p12⟩ :=
      place_and_check_run app ((min (room node) (b + (if 0 < k then 1 else 0)) : Nat) : Int)
        T2 (add_to_map s.jdata node).2
        (by simp only [Int.toNat_ofNat, g1, g2]; omega) (Or.inl hfit)
    simp only [Int.toNat_ofNat, g1, g2, g3, ← hj] at p1 p2 p6 p8 p10 e
    rw [g4.1] at p3
    rw [g4.2.1] at p4
    rw [g4.2.2] at p5
    rw [e] at hnew hlen ⊢
    have hst : (if s.nprocs_mapped + j = app.num_procs then Ctl.brk s1 else Ctl.next s1).st
        = s1 := by
      split <;> rfl
    refine ⟨_, node1, j, rfl, ?_, ?_, ?_, ?_, ?_, ?_, ?_, ?_, ?_, ?_⟩
    · by_cases hP : s.nprocs_mapped + j = app.num_procs
      · rw [if_pos hP]
        exact Or.inr ⟨rfl, by show s1.nprocs_mapped = _; rw [p1, hP]⟩
      · rw [if_neg hP]
        exact Or.inl rfl
    · rw [if_pos hroom]; exact hj
    · rw [hst]; exact p1
    · rw [hst]; exact p2
    · rw [hst, if_pos hroom]; exact p6
    · rw [hst, if_pos hroom]
      unfold round_state at t2 ⊢
      rw [p3, p4, p5]
      simpa using t2
    · rw [p9, a2]
    · rw [p10, a3]
    · rw [p8, a1]
    · rw [hst, p1] at hlen
      dsimp only at hnew
      rw [hnew, List.length_append]
      omega
  · obtain ⟨h1, h2, h3⟩ := hk
    have hf : (add_to_map s.jdata node).2.slots ≤ (add_to_map s.jdata node).2.slots_inuse := by
      rw [a2, a3]; omega
    have e : bynode_round_body opts app false navg s node
        = (.next { root_obj_of s node with jdata := (add_to_map s.jdata node).1 },
           (add_to_map s.jdata node).2) := by
      unfold bynode_round_body
      simp only [h1, not_lt.mpr h2, not_lt.mpr h3, root_obj_of_jdata, hf,
        Bool.false_eq_true, if_false, if_true]
    refine ⟨_, _, 0, e, Or.inl rfl, ?_, ?_, ?_, ?_, ?_, a2, ?_, ?_, ?_⟩
    · rw [if_neg hroom]
    · simp [Ctl.st]
    · simp [Ctl.st]
    · simp [Ctl.st, hroom]
    · rw [if_neg hroom]
      unfold round_state at hg ⊢
      simpa [Ctl.st] using hg
    · rw [a3]; rfl
    · rw [a1]; rfl
    · rw [a6]; rfl

end Prrte

namespace Prrte

lemma within_room_refl (n : prrte_node_t) : within_room n n :=
  ⟨rfl, le_refl _, rfl, rfl, rfl⟩

lemma within_room_trans {a b c : prrte_node_t} (h1 : within_room a b) (h2 : within_room b c) :
    within_room a c := by
  obtain ⟨x1, x2, x3, x4, x5⟩ := h1
  obtain ⟨y1, y2, y3, y4, y5⟩ := h2
  exact ⟨by rw [y1, x1], by omega, by omega, by omega, by omega⟩

lemma forall₂_within_room_refl : ∀ (l : List prrte_node_t), List.Forall₂ within_room l l
  | [] => List.Forall₂.nil
  | n :: rest => List.Forall₂.cons (within_room_refl n) (forall₂_within_room_refl rest)

lemma forall₂_within_room_trans : ∀ {l1 l2 l3 : List prrte_node_t},
    List.Forall₂ within_room l1 l2 → List.Forall₂ within_room l2 l3 →
    List.Forall₂ within_room l1 l3 := by
  intro l1 l2 l3 h1
  induction h1 generalizing l3 with
  | nil => intro h2; cases h2; exact List.Forall₂.nil
  | @cons a b l1 l2 hab _ ih =>
    intro h2
    cases h2 with
    | cons hbc hrest => exact List.Forall₂.cons (within_room_trans hab hbc) (ih hrest)

/-- A round of by-node with no density knob set and no oversubscription, over
nodes whose procs all occupy slots, with enough memory: the loop does not
return, every node stays within its free room, the procs mapped are taken from
the free room of the nodes, and a round with a positive share that starts with
procs to map and a node with free room maps at least one proc and counts at
least one node. -/
lemma bynode_round_capped (opts : rmaps_base_t) (app : prrte_app_context_t)
    (hk : knobs_unset opts) (navg : Int) (b : Nat) :
    ∀ (nodes : List prrte_node_t) (s : Locals) (k : Nat),
      round_state navg b k s →
      (∀ n ∈ nodes, n.num_procs ≤ n.slots_inuse) →
      app.num_procs - s.nprocs_mapped ≤ s.mem →
      ∃ c nodes1, foreachNode (bynode_round_body opts app false navg) s nodes = (c, nodes1)
        ∧ c.isRet = false
        ∧ List.Forall₂ within_room nodes nodes1
        ∧ (∀ n ∈ nodes1, n.num_procs ≤ n.slots_inuse)
        ∧ c.st.nprocs_mapped + (nodes1.map room).sum = s.nprocs_mapped + (nodes.map room).sum
        ∧ s.nprocs_mapped ≤ c.st.nprocs_mapped
        ∧ (s.nprocs_mapped ≤ app.num_procs → c.st.nprocs_mapped ≤ app.num_procs)
        ∧ app.num_procs - c.st.nprocs_mapped ≤ c.st.mem
        ∧ s.nnodes ≤ c.st.nnodes
        ∧ c.st.nnodes ≤ s.nnodes + nodes.length
        ∧ (1 ≤ b → s.nprocs_mapped < app.num_procs → (∃ n ∈ nodes, n.slots_inuse < n.slots) →
            s.nprocs_mapped < c.st.nprocs_mapped ∧ s.nnodes < c.st.nnodes) := by
  intro nodes
  induction nodes with
  | nil =>
    intro s k _ _ hmem
    refine ⟨.next s, [], rfl, rfl, List.Forall₂.nil, by simp, rfl, le_refl _, fun h => h, hmem,
      le_refl _, by simp [Ctl.st], ?_⟩
    intro _ _ h
    obtain ⟨n, hn, -⟩ := h
    simp at hn
  | cons node rest ih =>
    intro s k hg hnp hmem
    obtain ⟨c1, node1, j, e, hc, hj, q1, q2, q3, q4, q5, q6, q7, q8⟩ :=
      bynode_round_body_capped opts app hk navg b k s node hg (hnp node (by simp)) hmem
    have hnp0 := hnp node (by simp)
    have hjr : j ≤ room node := by
      rw [hj]; split <;> omega
    have hjP : j ≤ app.num_procs - s.nprocs_mapped := by
      rw [hj]; split <;> omega
    have hj1 : 1 ≤ b → s.nprocs_mapped < app.num_procs → node.slots_inuse < node.slots →
        1 ≤ j := by
      intro h1 h2 h3
      rw [hj, if_pos h3]
      unfold room
      omega
    have hw : within_room node node1 := by
      refine ⟨q5, by omega, ?_, by omega, by omega⟩
      unfold room at hjr ⊢
      rw [q5, q6]
      omega
    have hroom1 : room node1 + j = room node := by
      obtain ⟨-, -, h3, -⟩ := hw
      omega
    have hnp1 : node1.num_procs ≤ node1.slots_inuse := by omega
    rcases hc with hc | ⟨hc, hP⟩
    · rw [hc] at e
      obtain ⟨c2, nodes2, e2, r1, r2, r3, r4, r5, r6, r7, r8, r9, r10⟩ := ih c1.st
        (if node.slots_inuse < node.slots then k - 1 else k) q4
        (fun n hn => hnp n (by simp [hn])) (by rw [q1, q2]; omega)
      refine ⟨c2, node1 :: nodes2, ?_, r1, List.Forall₂.cons hw r2, ?_, ?_, by omega, ?_, r7,
        ?_, ?_, ?_⟩
      · simp only [foreachNode, e, e2]
      · intro n hn
        rcases List.mem_cons.mp hn with rfl | hn
        · exact hnp1
        · exact r3 n hn
      · simp only [List.map_cons, List.sum_cons]
        omega
      · intro h
        exact r6 (by omega)
      · rw [q3] at r8; omega
      · rw [q3] at r9
        simp only [List.length_cons]
        split at r9 <;> omega
      · intro hb hlt hex
        by_cases hroom : node.slots_inuse < node.slots
        · have := hj1 hb hlt hroom
          rw [q3, if_pos hroom] at r8
          constructor <;> omega
        · obtain ⟨n, hn, hn2⟩ := hex
          rcases List.mem_cons.mp hn with rfl | hn
          · exact absurd hn2 hroom
          · have hj0 : j = 0 := by rw [hj, if_neg hroom]
            obtain ⟨i1, i2⟩ := r10 hb (by rw [q1, hj0]; exact hlt) ⟨n, hn, hn2⟩
            rw [q3, if_neg hroom] at i2
            constructor <;> omega
    · rw [hc] at e
      refine ⟨.brk c1.st, node1 :: rest, ?_, rfl,
        List.Forall₂.cons hw (forall₂_within_room_refl rest), ?_, ?_, ?_, ?_, ?_, ?_, ?_, ?_⟩
      · simp only [foreachNode, e]
      · intro n hn
        rcases List.mem_cons.mp hn with rfl | hn
        · exact hnp1
        · exact hnp n (by simp [hn])
      · show c1.st.nprocs_mapped + _ = _
        simp only [List.map_cons, List.sum_cons]
        omega
      · show _ ≤ c1.st.nprocs_mapped
        omega
      · intro _
        show c1.st.nprocs_mapped ≤ _
        omega
      · show _ - c1.st.nprocs_mapped ≤ c1.st.mem
        omega
      · show _ ≤ c1.st.nnodes
        omega
      · show c1.st.nnodes ≤ _
        rw [q3]
        simp only [List.length_cons]
        split <;> omega
      · intro hb hlt hex
        show _ < c1.st.nprocs_mapped ∧ _ < c1.st.nnodes
        have hjpos : 0 < j := by omega
        have hroom : node.slots_inuse < node.slots := by
          by_contra h
          rw [hj, if_neg h] at hjpos
          exact absurd hjpos (Nat.lt_irrefl _)
        rw [q3, if_pos hroom]
        constructor <;> omega

end Prrte

namespace Prrte

/-- A list of nodes with free room in total has a node with free room. -/
lemma exists_room_of_sum_pos : ∀ (nodes : List prrte_node_t), 0 < (nodes.map room).sum →
    ∃ n ∈ nodes, n.slots_inuse < n.slots := by
  intro nodes
  induction nodes with
  | nil => intro h; simp at h
  | cons node rest ih =>
    intro h
    simp only [List.map_cons, List.sum_cons] at h
    by_cases hr : node.slots_inuse < node.slots
    · exact ⟨node, by simp, hr⟩
    · have h0 : room node = 0 := by unfold room; omega
      obtain ⟨n, hn, hn2⟩ := ih (by omega)
      exact ⟨n, by simp [hn], hn2⟩

/-- The rounds of by-node with no density knob set and no oversubscription,
over fewer than `2 ^ 24` nodes whose procs all occupy slots and whose free room
holds the procs still to map, with enough memory and fuel: the loop ends
without a return, every proc is mapped, and every node stays within its free
room. -/
lemma bynode_rounds_capped (opts : rmaps_base_t) (app : prrte_app_context_t)
    (hk : knobs_unset opts) :
    ∀ (fuel : Nat) (s : Locals) (nodes : List prrte_node_t),
      (∀ n ∈ nodes, n.num_procs ≤ n.slots_inuse) →
      s.nprocs_mapped ≤ app.num_procs →
      app.num_procs - s.nprocs_mapped ≤ (nodes.map room).sum →
      app.num_procs - s.nprocs_mapped ≤ s.mem →
      0 < s.nnodes → s.nnodes ≤ nodes.length → nodes.length < 16777216 →
      app.num_procs - s.nprocs_mapped < fuel →
      ∃ s1 nodes1, bynode_rounds opts app false fuel s nodes = some (.next s1, nodes1)
        ∧ s1.nprocs_mapped = app.num_procs
        ∧ List.Forall₂ within_room nodes nodes1 := by
  intro fuel
  induction fuel with
  | zero => intro s nodes _ _ _ _ _ _ _ h; exact absurd h (Nat.not_lt_zero _)
  | succ fuel ih =>
    intro s nodes hnp hm hroom hmem hN hNle hN24 hfuel
    obtain ⟨b, k, hstate, hmapped, hmm, -, hcases⟩ := bynode_balance_nodes app s hN
      (by omega) hm
    have hb : s.nprocs_mapped < app.num_procs → 1 ≤ b := by
      intro hlt
      rcases hcases with ⟨h1, h2, -⟩ | ⟨-, -, h2, -⟩ | ⟨h1, -, -⟩
      · rw [h2]
        exact (Nat.one_le_div_iff hN).mpr h1
      · omega
      · omega
    obtain ⟨c, nodes1, e, r1, r2, r3, r4, r5, r6, r7, r8, r9, r10⟩ :=
      bynode_round_capped opts app hk (bynode_balance app s).1 b nodes
        { (bynode_balance app s).2 with nnodes := 0 } k hstate hnp
        (by show app.num_procs - (bynode_balance app s).2.nprocs_mapped
              ≤ (bynode_balance app s).2.mem
            rw [hmapped, hmm]; exact hmem)
    have hS1 : ({ (bynode_balance app s).2 with nnodes := 0 } : Locals).nprocs_mapped
        = s.nprocs_mapped := hmapped
    have hS2 : ({ (bynode_balance app s).2 with nnodes := 0 } : Locals).nnodes = 0 := rfl
    rw [hS1] at r4 r5 r6 r10
    rw [hS2] at r9 r10
    have hlen : nodes1.length = nodes.length := (List.Forall₂.length_eq r2).symm
    have hprog : c.st.nprocs_mapped < app.num_procs →
        s.nprocs_mapped < c.st.nprocs_mapped ∧ 0 < c.st.nnodes := by
      intro hlt
      have hs : s.nprocs_mapped < app.num_procs := by omega
      exact r10 (hb hs) hs (exists_room_of_sum_pos nodes (by omega))
    have hstep : bynode_rounds opts app false (fuel + 1) s nodes
        = if c.st.nprocs_mapped < app.num_procs ∧ 0 < c.st.nnodes then
            bynode_rounds opts app false fuel c.st nodes1
          else some (.next c.st, nodes1) := by
      have hN0 : ¬ s.nnodes = 0 := by omega
      simp only [bynode_rounds, hN0, if_false, e]
      cases c with
      | ret rc s1 => simp [Ctl.isRet] at r1
      | next s1 => rfl
      | brk s1 => rfl
    rw [hstep]
    by_cases hcont : c.st.nprocs_mapped < app.num_procs ∧ 0 < c.st.nnodes
    · rw [if_pos hcont]
      obtain ⟨p1, -⟩ := hprog hcont.1
      obtain ⟨s2, nodes2, e2, g1, g2⟩ := ih c.st nodes1 r3 (r6 hm) (by omega) r7 hcont.2
        (by omega) (by omega) (by omega)
      exact ⟨s2, nodes2, e2, g1, forall₂_within_room_trans r2 g2⟩
    · rw [if_neg hcont]
      refine ⟨c.st, nodes1, rfl, ?_, r2⟩
      have hle := r6 hm
      by_contra hne
      have hlt : c.st.nprocs_mapped < app.num_procs := by omega
      exact hcont ⟨hlt, (hprog hlt).2⟩

end Prrte

namespace Prrte

/-- Claim C38 fails as stated when a node holds a proc that occupies no slot.
One node of four free slots (`slots = 4`, `slots_inuse = 0`) with `num_procs = 1`
and its slots given, four procs, `num_slots = 4` and no density knob set: the
round assigns the four procs of the free room, the oversubscription block
compares `num_procs = 5` with `slots = 4`, and the call returns
`PRRTE_ERR_SILENT`. -/
theorem bynode_room_counts_slots_not_procs :
    knobs_unset no_knobs
    ∧ ((4 : Int) = (([{ ex_node 0 4 false with num_procs := 1, slots_given := true }].map
          room).sum : Nat))
    ∧ (prrte_rmaps_rr_bynode 10 no_knobs (ex_job false false false) { idx := 0, num_procs := 4 }
          [{ ex_node 0 4 false with num_procs := 1, slots_given := true }] 4 100).map
        (fun out => out.rc) = some .PRRTE_ERR_SILENT :=
  ⟨by simp [knobs_unset, no_knobs], by decide, by decide⟩

/-- Claim C38, amended: by-node mapping with no density knob set, over a
non-empty list of fewer than `2 ^ 24` nodes none of which holds more procs than
slots in use, with `num_slots` equal to the free room of the list and at least
`P = app->num_procs`, `P` allocations available and fuel above `P`: the rounds
end with every proc mapped, the final fill loop leaves the state and the nodes
as they are, the call returns `PRRTE_SUCCESS`, and every node receives at most
`slots - slots_inuse` procs. -/
theorem bynode_stays_within_room (fuel : Nat) (opts : rmaps_base_t) (jdata : prrte_job_t)
    (app : prrte_app_context_t) (node_list : List prrte_node_t) (num_slots : Int) (mem : Nat)
    (hk : knobs_unset opts)
    (hslots : num_slots = ((node_list.map room).sum : Nat))
    (hroom : app.num_procs ≤ (node_list.map room).sum)
    (hne : node_list ≠ []) (hN24 : node_list.length < 16777216)
    (hnp : ∀ n ∈ node_list, n.num_procs ≤ n.slots_inuse)
    (hmem : app.num_procs ≤ mem) (hfuel : app.num_procs < fuel) :
    ∃ s1 nodes1,
      bynode_rounds opts app false fuel
          { init_locals jdata mem with nnodes := node_list.length } node_list
        = some (.next s1, nodes1)
      ∧ s1.nprocs_mapped = app.num_procs
      ∧ bynode_fill app fuel s1 nodes1 = some (.next s1, nodes1)
      ∧ prrte_rmaps_rr_bynode fuel opts jdata app node_list num_slots mem
          = some { rc := .PRRTE_SUCCESS, st := s1, nodes := nodes1 }
      ∧ List.Forall₂
          (fun n0 n => within_room n0 n ∧ n.procs.length ≤ n0.procs.length + room n0)
          node_list nodes1 := by
  have hlen : 0 < node_list.length := List.length_pos.mpr hne
  obtain ⟨s1, nodes1, e, h1, h2⟩ := bynode_rounds_capped opts app hk fuel
    { init_locals jdata mem with nnodes := node_list.length } node_list hnp
    (Nat.zero_le _) (by simp [init_locals]; exact hroom) (by simp [init_locals]; exact hmem)
    hlen (le_refl _) hN24 (by simp [init_locals]; exact hfuel)
  have hfill := bynode_fill_done app fuel s1 nodes1 (by rw [h1]; exact Nat.lt_irrefl _)
  have hlt : ¬ num_slots < (app.num_procs : Int) := by rw [hslots]; omega
  refine ⟨s1, nodes1, e, h1, hfill, ?_, ?_⟩
  · unfold prrte_rmaps_rr_bynode
    simp only [gate, hlt, decide_False, Bool.false_and, Bool.false_eq_true, if_false, e]
    have hst : (Ctl.next s1).st = s1 := rfl
    rw [hst, hfill]
    rfl
  · refine List.Forall₂.imp ?_ h2
    intro n0 n h
    refine ⟨h, ?_⟩
    obtain ⟨-, -, x3, x4, -⟩ := h
    omega

/-- Claim C38, amended, at the scenario of the spec: four empty nodes of eight
slots, ten procs, thirty-two slots. -/
theorem bynode_stays_within_room_witness :
    ∃ s1 nodes1,
      bynode_rounds no_knobs { idx := 0, num_procs := 10 } false 11
          { init_locals (ex_job false false false) 100 with
            nnodes := [ex_node 0 8 false, ex_node 1 8 false, ex_node 2 8 false,
                        ex_node 3 8 false].length }
          [ex_node 0 8 false, ex_node 1 8 false, ex_node 2 8 false, ex_node 3 8 false]
        = some (.next s1, nodes1)
      ∧ s1.nprocs_mapped = 10
      ∧ bynode_fill { idx := 0, num_procs := 10 } 11 s1 nodes1 = some (.next s1, nodes1)
      ∧ prrte_rmaps_rr_bynode 11 no_knobs (ex_job false false false) { idx := 0, num_procs := 10 }
          [ex_node 0 8 false, ex_node 1 8 false, ex_node 2 8 false, ex_node 3 8 false] 32 100
          = some { rc := .PRRTE_SUCCESS, st := s1, nodes := nodes1 }
      ∧ List.Forall₂
          (fun n0 n => within_room n0 n ∧ n.procs.length ≤ n0.procs.length + room n0)
          [ex_node 0 8 false, ex_node 1 8 false, ex_node 2 8 false, ex_node 3 8 false] nodes1 :=
  bynode_stays_within_room 11 no_knobs (ex_job false false false) { idx := 0, num_procs := 10 }
    [ex_node 0 8 false, ex_node 1 8 false, ex_node 2 8 false, ex_node 3 8 false] 32 100
    (by simp [knobs_unset, no_knobs]) (by decide) (by decide) (List.cons_ne_nil _ _)
    (by decide) (by decide) (by decide) (by decide)

end Prrte

namespace Prrte

/-! ## By-object no-span: a node without topology -/

/-- A node loop that gets through a list goes on with the rest. -/
lemma foreachNodeF_append_next (body : Locals → prrte_node_t → Option (Ctl × prrte_node_t))
    (rest : List prrte_node_t) :
    ∀ (pre : List prrte_node_t) (s s1 : Locals) (pre1 : List prrte_node_t),
      foreachNodeF body s pre = some (.next s1, pre1) →
      foreachNodeF body s (pre ++ rest)
        = (foreachNodeF body s1 rest).map (fun r => (r.1, pre1 ++ r.2)) := by
  intro pre
  induction pre with
  | nil =>
    intro s s1 pre1 h
    simp only [foreachNodeF, Option.some.injEq, Prod.mk.injEq, Ctl.next.injEq] at h
    obtain ⟨h1, h2⟩ := h
    subst h1 h2
    rw [List.nil_append]
    cases hq : foreachNodeF body s rest <;> simp
  | cons node pre ih =>
    intro s s1 pre1 h
    rw [List.cons_append]
    simp only [foreachNodeF] at h ⊢
    cases hb : body s node with
    | none => rw [hb] at h; cases h
    | some cn =>
      obtain ⟨c, node1⟩ := cn
      rw [hb] at h
      cases c with
      | next s2 =>
        dsimp only at h ⊢
        cases hp : foreachNodeF body s2 pre with
        | none => rw [hp] at h; cases h
        | some r =>
          obtain ⟨c2, pre2⟩ := r
          rw [hp] at h
          simp only [Option.some.injEq, Prod.mk.injEq] at h
          obtain ⟨h1, h2⟩ := h
          subst h1 h2
          rw [ih s2 s1 pre2 hp]
          cases hq : foreachNodeF body s1 rest <;> simp
      | brk s2 => simp at h
      | ret rc s2 => simp at h

/-- A node loop that is left inside a list does not see the rest. -/
lemma foreachNodeF_append_brk (body : Locals → prrte_node_t → Option (Ctl × prrte_node_t))
    (rest : List prrte_node_t) :
    ∀ (pre : List prrte_node_t) (s s1 : Locals) (pre1 : List prrte_node_t),
      foreachNodeF body s pre = some (.brk s1, pre1) →
      foreachNodeF body s (pre ++ rest) = some (.brk s1, pre1 ++ rest)
        ∧ ∃ s0 n n1, body s0 n = some (.brk s1, n1) := by
  intro pre
  induction pre with
  | nil =>
    intro s s1 pre1 h
    simp [foreachNodeF] at h
  | cons node pre ih =>
    intro s s1 pre1 h
    rw [List.cons_append]
    simp only [foreachNodeF] at h ⊢
    cases hb : body s node with
    | none => rw [hb] at h; cases h
    | some cn =>
      obtain ⟨c, node1⟩ := cn
      rw [hb] at h
      cases c with
      | next s2 =>
        dsimp only at h ⊢
        cases hp : foreachNodeF body s2 pre with
        | none => rw [hp] at h; cases h
        | some r =>
          obtain ⟨c2, pre2⟩ := r
          rw [hp] at h
          simp only [Option.some.injEq, Prod.mk.injEq] at h
          obtain ⟨h1, h2⟩ := h
          subst h1 h2
          obtain ⟨e, w⟩ := ih s2 s1 pre2 hp
          rw [e]
          exact ⟨by simp, w⟩
      | brk s2 =>
        simp only [Option.some.injEq, Prod.mk.injEq, Ctl.brk.injEq] at h
        obtain ⟨h1, h2⟩ := h
        subst h1 h2
        exact ⟨by simp, s, node, node1, hb⟩
      | ret rc s2 => simp at h

/-- A node loop that returns inside a list does not see the rest. -/
lemma foreachNodeF_append_ret (body : Locals → prrte_node_t → Option (Ctl × prrte_node_t))
    (rest : List prrte_node_t) :
    ∀ (pre : List prrte_node_t) (s : Locals) (rc : Status) (s1 : Locals)
      (pre1 : List prrte_node_t),
      foreachNodeF body s pre = some (.ret rc s1, pre1) →
      foreachNodeF body s (pre ++ rest) = some (.ret rc s1, pre1 ++ rest) := by
  intro pre
  induction pre with
  | nil =>
    intro s rc s1 pre1 h
    simp [foreachNodeF] at h
  | cons node pre ih =>
    intro s rc s1 pre1 h
    rw [List.cons_append]
    simp only [foreachNodeF] at h ⊢
    cases hb : body s node with
    | none => rw [hb] at h; cases h
    | some cn =>
      obtain ⟨c, node1⟩ := cn
      rw [hb] at h
      cases c with
      | next s2 =>
        dsimp only at h ⊢
        cases hp : foreachNodeF body s2 pre with
        | none => rw [hp] at h; cases h
        | some r =>
          obtain ⟨c2, pre2⟩ := r
          rw [hp] at h
          simp only [Option.some.injEq, Prod.mk.injEq] at h
          obtain ⟨h1, h2⟩ := h
          subst h1 h2
          rw [ih s2 rc s1 pre2 hp]
          simp
      | brk s2 => simp at h
      | ret rc2 s2 =>
        simp only [Option.some.injEq, Prod.mk.injEq, Ctl.ret.injEq] at h
        obtain ⟨⟨h1, h2⟩, h3⟩ := h
        subst h1 h2 h3
        simp

/-- The node loop of by-object no-span is left only when every proc is mapped. -/
lemma byobj_body_brk (fuel : Nat) (opts : rmaps_base_t) (app : prrte_app_context_t)
    (target : hwloc_obj_type_t) (cache_level : Nat) (second_pass : Bool)
    (s s1 : Locals) (node node1 : prrte_node_t)
    (h : byobj_body fuel opts app target cache_level second_pass s node = some (.brk s1, node1)) :
    s1.nprocs_mapped = app.num_procs := by
  unfold byobj_body at h
  split at h
  · cases h
  · dsimp only at h
    split at h
    · cases h
    · split at h
      · cases h
      · split at h
        · cases h
        · cases h
        · split at h
          · cases h
          · split at h
            · rename_i hP
              simp only [Option.some.injEq, Prod.mk.injEq, Ctl.brk.injEq] at h
              rw [← h.1]
              exact hP
            · cases h

/-- When a fill in list order has room for less than what is left, every room
is filled. -/
lemma fill_counts_all (P : Nat) : ∀ (rooms : List Nat) (m : Nat), m + rooms.sum ≤ P →
    fill_counts P m rooms = rooms := by
  intro rooms
  induction rooms with
  | nil => intro m _; rfl
  | cons r rest ih =>
    intro m h
    simp only [List.sum_cons] at h
    have e : min r (P - m) = r := by omega
    simp only [fill_counts, e]
    rw [ih (m + r) (by omega)]

lemma zipWith_add_map (f g : prrte_node_t → Nat) : ∀ l : List prrte_node_t,
    List.zipWith (· + ·) (l.map f) (l.map g) = l.map (fun n => f n + g n) := by
  intro l
  induction l with
  | nil => rfl
  | cons a l ih => simp only [List.map_cons, List.zipWith_cons_cons, ih]

end Prrte

namespace Prrte

/-- Claim C30, amended: by-object no-span mapping checks the topology of a node
when the node loop comes to it.  For a node without topology at any position of
the list and every proc count: whenever the first pass gets through the nodes
before it, whether they are passed over or receive procs, the call returns
`PRRTE_ERR_SILENT` with the state and the nodes as the earlier visits left them.
This is so when every earlier node is passed over (nothing is mapped then), and,
with no density knob set and the gate open, when the earlier nodes have their
target objects and less free room together than there are procs (they are filled
first).  The node is not reached only when the loop ends at an earlier node:
it is left there because every proc is mapped, and the call returns
`PRRTE_SUCCESS`, or the visit of that node returns an error, and the call
returns that error. -/
theorem byobj_missing_topology_silent (fuel : Nat) (opts : rmaps_base_t) (jdata : prrte_job_t)
    (app : prrte_app_context_t) (pre post : List prrte_node_t) (node : prrte_node_t)
    (num_slots : Int) (target : hwloc_obj_type_t) (cache_level mem : Nat)
    (hspan : jdata.mapping.span = false) (hfuel : 0 < fuel)
    (htopo : node.topology = none) :
    (∀ (s1 : Locals) (pre1 : List prrte_node_t),
      foreachNodeF (byobj_body fuel opts app target cache_level false)
          { init_locals jdata mem with add_one := false } pre = some (.next s1, pre1) →
      ∃ out, prrte_rmaps_rr_byobj fuel opts jdata app (pre ++ node :: post) num_slots target
          cache_level mem = some out
        ∧ out.rc = .PRRTE_ERR_SILENT
        ∧ (gate jdata app num_slots = false →
            out.st = s1 ∧ out.nodes = pre1 ++ node :: post))
    ∧ ((∀ n ∈ pre, byobj_skips opts target cache_level n) →
      ∃ out, prrte_rmaps_rr_byobj fuel opts jdata app (pre ++ node :: post) num_slots target
          cache_level mem = some out
        ∧ out.rc = .PRRTE_ERR_SILENT
        ∧ out.nodes = pre ++ node :: post
        ∧ out.st.nprocs_mapped = 0 ∧ out.st.jdata = jdata)
    ∧ (knobs_unset opts → gate jdata app num_slots = false →
      (∀ n ∈ pre, ∃ t, n.topology = some t
        ∧ 0 < t.get_nbobjs_by_type target cache_level ∧ objs_wide opts t target cache_level) →
      (∀ n ∈ pre, n.num_procs ≤ n.slots_inuse) →
      (pre.map room).sum < app.num_procs → app.num_procs ≤ mem → app.num_procs < fuel →
      ∃ out, prrte_rmaps_rr_byobj fuel opts jdata app (pre ++ node :: post) num_slots target
          cache_level mem = some out
        ∧ out.rc = .PRRTE_ERR_SILENT
        ∧ out.st.nprocs_mapped = (pre.map room).sum
        ∧ out.nodes.map (fun n => n.num_procs)
            = pre.map (fun n => n.num_procs + room n) ++ (node :: post).map (fun n => n.num_procs)
        ∧ out.nodes.map (fun n => n.procs.length)
            = pre.map (fun n => n.procs.length + room n)
                ++ (node :: post).map (fun n => n.procs.length))
    ∧ (∀ (s1 : Locals) (pre1 : List prrte_node_t),
      foreachNodeF (byobj_body fuel opts app target cache_level false)
          { init_locals jdata mem with add_one := false } pre = some (.brk s1, pre1) →
      gate jdata app num_slots = false →
      prrte_rmaps_rr_byobj fuel opts jdata app (pre ++ node :: post) num_slots target
          cache_level mem
        = some { rc := .PRRTE_SUCCESS, st := s1, nodes := pre1 ++ node :: post })
    ∧ (∀ (rc : Status) (s1 : Locals) (pre1 : List prrte_node_t),
      foreachNodeF (byobj_body fuel opts app target cache_level false)
          { init_locals jdata mem with add_one := false } pre = some (.ret rc s1, pre1) →
      gate jdata app num_slots = false →
      prrte_rmaps_rr_byobj fuel opts jdata app (pre ++ node :: post) num_slots target
          cache_level mem
        = some { rc := rc, st := s1, nodes := pre1 ++ node :: post }) := by
  obtain ⟨f, hf⟩ : ∃ f, fuel = f + 1 := ⟨fuel - 1, by omega⟩
  have hnode : ∀ s1 : Locals, byobj_body fuel opts app target cache_level false s1 node
      = some (.ret .PRRTE_ERR_SILENT s1, node) := by
    intro s1
    unfold byobj_body
    simp only [htopo]
  have hreach : ∀ (s1 : Locals) (pre1 : List prrte_node_t),
      foreachNodeF (byobj_body fuel opts app target cache_level false)
          { init_locals jdata mem with add_one := false } pre = some (.next s1, pre1) →
      gate jdata app num_slots = false →
      prrte_rmaps_rr_byobj fuel opts jdata app (pre ++ node :: post) num_slots target
          cache_level mem
        = some { rc := .PRRTE_ERR_SILENT, st := s1, nodes := pre1 ++ node :: post } := by
    intro s1 pre1 hpre hg
    have e := foreachNodeF_append_next (byobj_body fuel opts app target cache_level false)
      (node :: post) pre _ s1 pre1 hpre
    have e2 : foreachNodeF (byobj_body fuel opts app target cache_level false) s1 (node :: post)
        = some (.ret .PRRTE_ERR_SILENT s1, node :: post) := by
      simp only [foreachNodeF, hnode]
    rw [e2] at e
    unfold prrte_rmaps_rr_byobj
    rw [hspan, hg]
    simp only [Bool.false_eq_true, if_false]
    rw [hf, byobj_passes, ← hf, e]
    rfl
  refine ⟨?_, ?_, ?_, ?_, ?_⟩
  · intro s1 pre1 hpre
    by_cases hg : gate jdata app num_slots = true
    · refine ⟨{ rc := .PRRTE_ERR_SILENT, st := init_locals jdata mem,
                nodes := pre ++ node :: post }, ?_, rfl, fun h => ?_⟩
      · unfold prrte_rmaps_rr_byobj
        rw [hspan, hg]
        simp
      · rw [hg] at h
        cases h
    · have hg : gate jdata app num_slots = false := by simpa using hg
      exact ⟨_, hreach s1 pre1 hpre hg, rfl, fun _ => ⟨rfl, rfl⟩⟩
  · intro hskip
    unfold prrte_rmaps_rr_byobj
    simp only [hspan, Bool.false_eq_true, if_false]
    split
    · exact ⟨_, rfl, rfl, rfl, rfl, rfl⟩
    · have e := byobj_loop_missing_topology fuel opts app target cache_level node post htopo pre
        { init_locals jdata mem with add_one := false } hskip
      rw [hf, byobj_passes, ← hf, e]
      exact ⟨_, rfl, rfl, rfl, rfl, rfl⟩
  · intro hk hg hwide hcnt hroom hmem hfuel2
    obtain ⟨c, nodes1, e, hnr, h1, h2, h3⟩ := byobj_pass1_counts fuel opts app hk target
      cache_level pre { init_locals jdata mem with add_one := false } hwide hcnt
      (by simp [init_locals]; omega) (by simp [init_locals]; omega)
    have hz : ({ init_locals jdata mem with add_one := false } : Locals).nprocs_mapped = 0 := rfl
    rw [hz, fill_counts_all app.num_procs _ 0 (by omega)] at h1 h2 h3
    rw [zipWith_add_map] at h2 h3
    rw [Nat.zero_add] at h1
    have hc : c = .next c.st := by
      cases c with
      | next s1 => rfl
      | ret rc s1 => simp [Ctl.isRet] at hnr
      | brk s1 =>
        exfalso
        obtain ⟨-, s0, n, n1, hb⟩ := foreachNodeF_append_brk
          (byobj_body fuel opts app target cache_level false) [] pre _ s1 nodes1 e
        have := byobj_body_brk fuel opts app target cache_level false s0 s1 n n1 hb
        simp only [Ctl.st] at h1
        omega
    rw [hc] at e
    refine ⟨_, hreach c.st nodes1 e hg, rfl, h1, ?_, ?_⟩
    · show (nodes1 ++ node :: post).map (fun n => n.num_procs) = _
      rw [List.map_append, h3]
    · show (nodes1 ++ node :: post).map (fun n => n.procs.length) = _
      rw [List.map_append, h2]
  · intro s1 pre1 hpre hg
    obtain ⟨e, s0, n, n1, hb⟩ := foreachNodeF_append_brk
      (byobj_body fuel opts app target cache_level false) (node :: post) pre _ s1 pre1 hpre
    have hP := byobj_body_brk fuel opts app target cache_level false s0 s1 n n1 hb
    unfold prrte_rmaps_rr_byobj
    rw [hspan, hg]
    simp only [Bool.false_eq_true, if_false]
    rw [hf, byobj_passes, ← hf, e]
    simp [Ctl.st, hP]
  · intro rc s1 pre1 hpre hg
    have e := foreachNodeF_append_ret
      (byobj_body fuel opts app target cache_level false) (node :: post) pre _ rc s1 pre1 hpre
    unfold prrte_rmaps_rr_byobj
    rw [hspan, hg]
    simp only [Bool.false_eq_true, if_false]
    rw [hf, byobj_passes, ← hf, e]

/-- Claim C30, amended, on two procs and a node without topology that follows a
node with one free slot: the first node takes a proc, then the call fails. -/
theorem byobj_missing_topology_silent_witness :
    ∃ out, prrte_rmaps_rr_byobj 10 no_knobs (ex_job false false false)
        { idx := 0, num_procs := 2 } ([ex_node 0 1 true] ++ ex_node 1 8 false :: [ex_node 2 8 true])
        17 .HWLOC_OBJ_PACKAGE 0 100 = some out
      ∧ out.rc = .PRRTE_ERR_SILENT
      ∧ out.st.nprocs_mapped = ([ex_node 0 1 true].map room).sum
      ∧ out.nodes.map (fun n => n.num_procs)
          = [ex_node 0 1 true].map (fun n => n.num_procs + room n)
              ++ (ex_node 1 8 false :: [ex_node 2 8 true]).map (fun n => n.num_procs)
      ∧ out.nodes.map (fun n => n.procs.length)
          = [ex_node 0 1 true].map (fun n => n.procs.length + room n)
              ++ (ex_node 1 8 false :: [ex_node 2 8 true]).map (fun n => n.procs.length) :=
  (byobj_missing_topology_silent 10 no_knobs (ex_job false false false)
    { idx := 0, num_procs := 2 } [ex_node 0 1 true] [ex_node 2 8 true] (ex_node 1 8 false)
    17 .HWLOC_OBJ_PACKAGE 0 100 rfl (by decide) rfl).2.2.1
    ⟨rfl, by decide, by decide⟩ rfl
    (by
      intro n hn
      rw [List.mem_singleton] at hn
      subst hn
      exact ⟨ex_topo, rfl, by decide, ex_topo_wide⟩)
    (by
      intro n hn
      rw [List.mem_singleton] at hn
      subst hn
      exact Nat.le_refl _)
    (by decide) (by decide) (by decide)

end Prrte

namespace Prrte

/-! ## The binary32 quotient of two positive counts is positive -/

lemma ilog2Aux_le : ∀ (f n : Nat), 0 < n → 2 ^ ilog2Aux f n ≤ n := by
  intro f
  induction f with
  | zero => intro n h; simp [ilog2Aux]; omega
  | succ f ih =>
    intro n h
    by_cases h2 : n < 2
    · simp [ilog2Aux, h2]; omega
    · have := ih (n / 2) (by omega)
      simp only [ilog2Aux, h2, if_false]
      rw [pow_succ]
      omega

/-- The quotient of two positive numbers rounds to a positive mantissa. -/
lemma f32_round_pos (num den : Nat) (hn : 0 < num) (hd : 0 < den)
    (hd2 : den < 2 ^ 128) : 0 < (f32_round num den).1 := by
  obtain ⟨ex, hex, e⟩ := f32_round_eq num den (by omega)
  have ha : 2 ^ ilog2 num ≤ num := ilog2Aux_le 128 num hn
  have hb : den < 2 ^ (ilog2 den + 1) := (ilog2Aux_spec 128 den hd hd2).2
  rw [e]
  dsimp only
  refine lt_of_lt_of_le ?_ (rne_bounds _ _ _).1
  by_cases ht : (0 : Int) ≤ ex - 23
  · simp only [ht, if_true]
    have hpos : 0 < den * 2 ^ (ex - 23).toNat := Nat.mul_pos hd (by positivity)
    rw [Nat.lt_iff_add_one_le, Nat.zero_add, Nat.le_div_iff_mul_le hpos, Nat.one_mul]
    have h1 : den * 2 ^ (ex - 23).toNat ≤ 2 ^ (ilog2 den + 1) * 2 ^ (ex - 23).toNat :=
      Nat.mul_le_mul_right _ (le_of_lt hb)
    have h2 : 2 ^ (ilog2 den + 1) * 2 ^ (ex - 23).toNat ≤ 2 ^ ilog2 num := by
      rw [← pow_add]
      exact Nat.pow_le_pow_right (by norm_num) (by omega)
    omega
  · simp only [ht, if_false]
    rw [Nat.lt_iff_add_one_le, Nat.zero_add, Nat.le_div_iff_mul_le hd, Nat.one_mul]
    have h1 : 2 ^ (ilog2 den + 1) ≤ 2 ^ (ilog2 num + (-(ex - 23)).toNat) :=
      Nat.pow_le_pow_right (by norm_num) (by omega)
    have h2 : 2 ^ (ilog2 num + (-(ex - 23)).toNat) ≤ num * 2 ^ (-(ex - 23)).toNat := by
      rw [pow_add]
      exact Nat.mul_le_mul_right _ ha
    omega

/-- The conversion of a count of at least `2 ^ 24` keeps at most its size. -/
lemma f32_round_one_le (n : Nat) (h : 16777216 ≤ n) : (f32_round n 1).1 ≤ n + 1 := by
  have hn0 : n ≠ 0 := by omega
  have h24 : 24 ≤ ilog2 n := by
    have := ilog2_mono 16777216 n h
    have e : ilog2 16777216 = 24 := by decide
    omega
  have h1 : ilog2 1 = 0 := by decide
  have ha : 2 ^ ilog2 n ≤ n := ilog2Aux_le 128 n (by omega)
  unfold f32_round
  simp only [hn0, if_false, h1]
  have hd : (0 : Int) ≤ (ilog2 n : Int) - ((0 : Nat) : Int) := by omega
  have hge : decide (1 * 2 ^ ((ilog2 n : Int) - ((0 : Nat) : Int)).toNat ≤ n) = true := by
    have : ((ilog2 n : Int) - ((0 : Nat) : Int)).toNat = ilog2 n := by omega
    rw [this, Nat.one_mul]
    exact decide_eq_true ha
  simp only [hd, if_true, hge]
  have ht : (0 : Int) ≤ (ilog2 n : Int) - ((0 : Nat) : Int) - 23 := by omega
  simp only [ht, if_true]
  refine le_trans (rne_bounds _ _ _).2 ?_
  have : n / (1 * 2 ^ ((ilog2 n : Int) - ((0 : Nat) : Int) - 23).toNat) ≤ n := Nat.div_le_self _ _
  omega

/-- The conversion `(float) n` of a positive count that fits an `int`. -/
lemma f32_ofInt_pos (n : Nat) (h0 : 0 < n) :
    (F32.ofInt (n : Int)).neg = false ∧ 0 < (F32.ofInt (n : Int)).m
      ∧ (n < 2147483648 → (F32.ofInt (n : Int)).m < 2 ^ 128) := by
  unfold F32.ofInt
  have hneg : decide ((n : Int) < 0) = false := by
    rw [decide_eq_false_iff_not]; omega
  simp only [hneg, Int.natAbs_ofNat]
  by_cases hs : n < 16777216
  · rw [if_pos hs]
    refine ⟨rfl, h0, fun _ => ?_⟩
    have : (16777216 : Nat) ≤ 2 ^ 128 := by norm_num
    show n < 2 ^ 128
    omega
  · rw [if_neg hs]
    refine ⟨rfl, f32_round_pos n 1 h0 (by norm_num) (by norm_num), fun hn => ?_⟩
    have := f32_round_one_le n (by omega)
    have : (2147483649 : Nat) ≤ 2 ^ 128 := by norm_num
    show (f32_round n 1).1 < 2 ^ 128
    omega

/-- The balance of by-slot: the binary32 quotient of a positive count of procs
by a positive count of nodes that fits an `int` is positive, so its truncation
is not negative, and when the truncation is zero the quotient exceeds it. -/
lemma f32_div_pos (R N : Nat) (hR : 0 < R) (hN : 0 < N) (hN2 : N < 2147483648) :
    0 ≤ (F32.div (F32.ofInt (R : Int)) (F32.ofInt (N : Int))).toInt
    ∧ F32.sub_pos (F32.div (F32.ofInt (R : Int)) (F32.ofInt (N : Int))) (F32.ofInt 0) = true := by
  obtain ⟨a1, a2, -⟩ := f32_ofInt_pos R hR
  obtain ⟨b1, b2, b3⟩ := f32_ofInt_pos N hN
  have b3 := b3 hN2
  have hm := f32_round_pos _ _ a2 b2 b3
  have hne : (F32.ofInt (N : Int)).m ≠ 0 := by omega
  obtain ⟨B, hB⟩ : ∃ B, B = F32.div (F32.ofInt (R : Int)) (F32.ofInt (N : Int)) := ⟨_, rfl⟩
  have hBn : B.neg = false := by
    rw [hB]
    unfold F32.div
    simp only [hne, if_false, a1, b1]
    rfl
  have hBm : 0 < B.m := by
    rw [hB]
    unfold F32.div
    simp only [hne, if_false]
    exact hm
  rw [← hB]
  constructor
  · unfold F32.toInt
    simp only [hBn, Bool.false_eq_true, if_false]
    exact Int.ofNat_nonneg _
  · rw [f32_ofInt_zero]
    unfold F32.sub_pos F32.lt F32.scaled
    simp only [hBn, Bool.false_eq_true, if_false, Nat.zero_mul, decide_eq_true_eq]
    have : 0 < B.m * 2 ^ (B.e + max (-(0 : Int)) (-B.e)).toNat := Nat.mul_pos hBm (by positivity)
    exact_mod_cast this

end Prrte

namespace Prrte

/-! ## The second pass of by-slot gives every node it visits a proc -/

/-- Before the second pass of by-slot, with procs left to map and a node list
that is not empty and fits an `int`: the share of a node is at least one, and
while the share is one only because of the extra proc, there are at least as
many extras as procs left. -/
lemma byslot_balance_ok (app : prrte_app_context_t) (N : Nat) (s : Locals)
    (hlt : s.nprocs_mapped < app.num_procs) (hN : 0 < N) (hN2 : N < 2147483648)
    (ha : s.add_one = false) :
    (byslot_balance app N s).nprocs_mapped = s.nprocs_mapped
    ∧ (((byslot_balance app N s).add_one = false
          ∧ 1 ≤ (byslot_balance app N s).extra_procs_to_assign)
      ∨ ((byslot_balance app N s).add_one = true
          ∧ (2 ≤ (byslot_balance app N s).extra_procs_to_assign
            ∨ ((byslot_balance app N s).extra_procs_to_assign = 1
              ∧ (app.num_procs : Int) - (s.nprocs_mapped : Int)
                  ≤ (byslot_balance app N s).nxtra_nodes)))) := by
  have hR : (app.num_procs : Int) - (s.nprocs_mapped : Int)
      = ((app.num_procs - s.nprocs_mapped : Nat) : Int) := by omega
  obtain ⟨p1, p2⟩ := f32_div_pos (app.num_procs - s.nprocs_mapped) N (by omega) hN hN2
  unfold byslot_balance
  dsimp only
  rw [hR]
  obtain ⟨x, hx⟩ : ∃ x, x = (F32.div (F32.ofInt ((app.num_procs - s.nprocs_mapped : Nat) : Int))
      (F32.ofInt (N : Int))).toInt := ⟨_, rfl⟩
  rw [← hx] at p1 ⊢
  by_cases hf : F32.sub_pos (F32.div (F32.ofInt ((app.num_procs - s.nprocs_mapped : Nat) : Int))
      (F32.ofInt (N : Int))) (F32.ofInt x) = true
  · rw [if_pos hf]
    refine ⟨rfl, Or.inr ⟨rfl, ?_⟩⟩
    dsimp only
    by_cases hx0 : x = 0
    · right
      subst hx0
      constructor
      · omega
      · simp
    · left
      omega
  · rw [if_neg hf]
    refine ⟨rfl, Or.inl ⟨?_, ?_⟩⟩
    · exact ha
    · dsimp only
      by_contra hcon
      have hx0 : x = 0 := by omega
      rw [hx0] at hf
      exact hf p2

/-- The proc loop leaves the flag `add_one` alone. -/
lemma place_loop_add_one (app : prrte_app_context_t) (inmap : Bool) :
    ∀ (k : Nat) (s : Locals) (node : prrte_node_t),
      (place_loop app inmap k s node).1.st.add_one = s.add_one := by
  intro k
  induction k with
  | zero => intro s node; rfl
  | succ k ih =>
    intro s node
    simp only [place_loop]
    split
    · split
      · rfl
      · rw [ih]
    · rfl

/-- The first pass of by-slot leaves the flag `add_one` alone. -/
lemma byslot_pass1_add_one (opts : rmaps_base_t) (app : prrte_app_context_t) :
    ∀ (nodes : List prrte_node_t) (s : Locals),
      (foreachNode (byslot_pass1_body opts app) s nodes).1.st.add_one = s.add_one := by
  have hb : ∀ (s : Locals) (node : prrte_node_t),
      (byslot_pass1_body opts app s node).1.st.add_one = s.add_one := by
    intro s node
    unfold byslot_pass1_body
    dsimp only
    split
    · simp [Ctl.st]
    · split
      · simp [Ctl.st]
      · rw [place_loop_add_one]
        simp
  intro nodes
  induction nodes with
  | nil => intro s; rfl
  | cons node rest ih =>
    intro s
    have h1 := hb s node
    simp only [foreachNode]
    rcases hr : byslot_pass1_body opts app s node with ⟨c, node1⟩
    rw [hr] at h1
    cases c with
    | next s1 =>
      dsimp only
      rw [ih s1]
      exact h1
    | brk s1 => exact h1
    | ret rc s1 => exact h1

end Prrte

namespace Prrte

/-- A visit of the second pass of by-slot with procs left to map and a share of
at least one: unless it returns, the node receives a proc, and the next visit
finds procs left to map and a share of at least one again. -/
lemma byslot_pass2_body_ok (app : prrte_app_context_t) (s : Locals) (node : prrte_node_t)
    (hlt : s.nprocs_mapped < app.num_procs)
    (hinv : (s.add_one = false ∧ 1 ≤ s.extra_procs_to_assign)
      ∨ (s.add_one = true
          ∧ (2 ≤ s.extra_procs_to_assign
            ∨ (s.extra_procs_to_assign = 1
              ∧ (app.num_procs : Int) - (s.nprocs_mapped : Int) ≤ s.nxtra_nodes))))
    (hnr : (byslot_pass2_body app s node).1.isRet = false) :
    node.procs.length < (byslot_pass2_body app s node).2.procs.length
    ∧ ∀ s1, (byslot_pass2_body app s node).1 = .next s1 →
        s1.nprocs_mapped < app.num_procs
        ∧ ((s1.add_one = false ∧ 1 ≤ s1.extra_procs_to_assign)
          ∨ (s1.add_one = true
              ∧ (2 ≤ s1.extra_procs_to_assign
                ∨ (s1.extra_procs_to_assign = 1
                  ∧ (app.num_procs : Int) - (s1.nprocs_mapped : Int) ≤ s1.nxtra_nodes)))) := by
  obtain ⟨hstep, -⟩ := byslot_pass2_body_step app.num_procs app rfl s node
  obtain ⟨S0, hS0⟩ : ∃ S0 : Locals, S0
      = { root_obj_of s node with jdata := (add_to_map (root_obj_of s node).jdata node).1 } :=
    ⟨_, rfl⟩
  have a1 : S0.nprocs_mapped = s.nprocs_mapped := by rw [hS0]; simp
  have a2 : S0.add_one = s.add_one := by rw [hS0]; simp
  have a3 : S0.extra_procs_to_assign = s.extra_procs_to_assign := by rw [hS0]; simp
  have a4 : S0.nxtra_nodes = s.nxtra_nodes := by rw [hS0]; simp
  obtain ⟨S2, hS2⟩ : ∃ S2, S2 = take_extra S0 := ⟨_, rfl⟩
  have b1 : S2.nprocs_mapped = s.nprocs_mapped := by
    rw [hS2, (take_extra_fields S0).1, a1]
  have b2 : 1 ≤ S2.extra_procs_to_assign
      ∧ (S2.add_one = false
        ∨ (S2.add_one = true
            ∧ (2 ≤ S2.extra_procs_to_assign
              ∨ (S2.extra_procs_to_assign = 1
                ∧ (app.num_procs : Int) - (s.nprocs_mapped : Int) - 1 ≤ S2.nxtra_nodes)))) := by
    rw [hS2]
    unfold take_extra
    rcases hinv with ⟨i1, i2⟩ | ⟨i1, i2⟩
    · rw [a2, i1]
      simp only [Bool.false_eq_true, if_false]
      exact ⟨by rw [a3]; exact i2, Or.inl (by first | rfl | (rw [a2]; exact i1))⟩
    · rw [a2, i1]
      simp only [if_true]
      by_cases hz : S0.nxtra_nodes = 0
      · rw [if_pos hz]
        dsimp only
        rcases i2 with i2 | ⟨i2, i3⟩
        · exact ⟨by rw [a3]; omega, Or.inl rfl⟩
        · exfalso
          rw [a4] at hz
          omega
      · rw [if_neg hz]
        dsimp only
        rcases i2 with i2 | ⟨i2, i3⟩
        · exact ⟨by rw [a3]; omega, Or.inr ⟨rfl, Or.inl (by rw [a3]; exact i2)⟩⟩
        · exact ⟨by rw [a3]; omega,
            Or.inr ⟨rfl, Or.inr ⟨by rw [a3]; exact i2, by rw [a4]; omega⟩⟩⟩
  obtain ⟨n, hn⟩ : ∃ n : Int, n
      = (if (add_to_map (root_obj_of s node).jdata node).2.slots
            ≤ (add_to_map (root_obj_of s node).jdata node).2.slots_inuse
         then S2.extra_procs_to_assign
         else ((add_to_map (root_obj_of s node).jdata node).2.slots : Int)
            - ((add_to_map (root_obj_of s node).jdata node).2.slots_inuse : Int)
            + S2.extra_procs_to_assign) := ⟨_, rfl⟩
  have hn1 : 1 ≤ n := by
    rw [hn]
    split
    · exact b2.1
    · have := b2.1
      omega
  have e : byslot_pass2_body app s node
      = place_and_check app n S2 (add_to_map (root_obj_of s node).jdata node).2 := by
    rw [hn, hS2, hS0]
    rfl
  rw [e] at hnr hstep ⊢
  obtain ⟨s1, node1, e1, g1, -, g3, g4, g5, -, -, -, -⟩ := place_and_check_spec app n S2 _ hnr
  have hmin : 1 ≤ min n.toNat (app.num_procs - S2.nprocs_mapped) := by
    rw [b1]
    omega
  rw [e1] at hstep ⊢
  have hst : (if S2.nprocs_mapped + min n.toNat (app.num_procs - S2.nprocs_mapped)
      = app.num_procs then Ctl.brk s1 else Ctl.next s1).st = s1 := by
    split <;> rfl
  dsimp only at hstep ⊢
  rw [hst] at hstep
  constructor
  · obtain ⟨new, q1, q2, -⟩ := hstep.placed
    rw [q1, List.length_append]
    rw [b1] at g1
    omega
  · intro s1' hs1
    split at hs1
    · cases hs1
    · rename_i hne
      simp only [Ctl.next.injEq] at hs1
      subst hs1
      rw [b1] at g1 hne hmin
      refine ⟨by omega, ?_⟩
      rw [g3, g4, g5]
      rcases b2.2 with c | ⟨c1, c2⟩
      · exact Or.inl ⟨c, b2.1⟩
      · refine Or.inr ⟨c1, ?_⟩
        rcases c2 with c2 | ⟨c2, c3⟩
        · exact Or.inl c2
        · exact Or.inr ⟨c2, by omega⟩

/-- The second pass of by-slot, begun with procs left to map and a share of at
least one: when it does not return, every node it visits grows. -/
lemma byslot_pass2_appended (app : prrte_app_context_t) (nodes0 : List prrte_node_t) :
    ∀ (nodes pre : List prrte_node_t) (s : Locals),
      s.nprocs_mapped < app.num_procs →
      ((s.add_one = false ∧ 1 ≤ s.extra_procs_to_assign)
        ∨ (s.add_one = true
            ∧ (2 ≤ s.extra_procs_to_assign
              ∨ (s.extra_procs_to_assign = 1
                ∧ (app.num_procs : Int) - (s.nprocs_mapped : Int) ≤ s.nxtra_nodes)))) →
      (foreachNode (byslot_pass2_body app) s nodes).1.isRet = false →
      List.Forall₂ appended_with_proc nodes0 (pre ++ nodes) →
      List.Forall₂ appended_with_proc nodes0
        (pre ++ (foreachNode (byslot_pass2_body app) s nodes).2) := by
  intro nodes
  induction nodes with
  | nil => intro pre s _ _ _ h; exact h
  | cons node rest ih =>
    intro pre s hlt hinv hnr h
    obtain ⟨hs, -⟩ := byslot_pass2_body_step app.num_procs app rfl s node
    have hb := byslot_pass2_body_ok app s node hlt hinv
    simp only [foreachNode] at hnr ⊢
    rcases hr : byslot_pass2_body app s node with ⟨c, node1⟩
    rw [hr] at hnr hs hb
    cases c with
    | next s1 =>
      dsimp only at hnr ⊢
      obtain ⟨hb1, hb2⟩ := hb rfl
      obtain ⟨k1, k2⟩ := hb2 s1 rfl
      have h1 := forall₂_replace appended_with_proc node node1
        (appended_with_proc_step hs (fun _ _ => hb1)) pre nodes0 rest h
      have h2 := ih (pre ++ [node1]) s1 k1 k2 hnr (by rw [List.append_assoc]; exact h1)
      rw [List.append_assoc] at h2
      exact h2
    | brk s1 =>
      obtain ⟨hb1, -⟩ := hb rfl
      exact forall₂_replace appended_with_proc node node1
        (appended_with_proc_step hs (fun _ _ => hb1)) pre nodes0 rest h
    | ret rc s1 => simp [Ctl.isRet] at hnr

end Prrte

namespace Prrte

/-- A `return` of the first pass of by-slot never carries `PRRTE_SUCCESS`. -/
lemma byslot_pass1_body_ret (opts : rmaps_base_t) (app : prrte_app_context_t) (s : Locals)
    (node : prrte_node_t) (rc : Status) (s1 : Locals) (node1 : prrte_node_t)
    (h : byslot_pass1_body opts app s node = (.ret rc s1, node1)) : rc ≠ .PRRTE_SUCCESS := by
  unfold byslot_pass1_body at h
  dsimp only at h
  split at h
  · cases h
  · split at h
    · cases h
      decide
    · have := place_loop_ret app true _ _ _ rc s1 node1 h
      rw [this]
      decide

/-- A `return` of the second pass of by-slot never carries `PRRTE_SUCCESS`. -/
lemma byslot_pass2_body_ret (app : prrte_app_context_t) (s : Locals)
    (node : prrte_node_t) (rc : Status) (s1 : Locals) (node1 : prrte_node_t)
    (h : byslot_pass2_body app s node = (.ret rc s1, node1)) : rc ≠ .PRRTE_SUCCESS := by
  unfold byslot_pass2_body at h
  exact place_and_check_ret app _ _ _ rc s1 node1 h

/-- When by-slot mapping of a node list that fits an `int` returns
`PRRTE_SUCCESS`, every node it added to the map has received a proc, in the
first pass or in the second. -/
lemma byslot_call_appended (opts : rmaps_base_t) (jdata : prrte_job_t)
    (app : prrte_app_context_t) (node_list : List prrte_node_t) (num_slots : Int) (mem : Nat)
    (hN : node_list.length < 2147483648)
    (hrc : (prrte_rmaps_rr_byslot opts jdata app node_list num_slots mem).rc = .PRRTE_SUCCESS) :
    List.Forall₂ appended_with_proc node_list
      (prrte_rmaps_rr_byslot opts jdata app node_list num_slots mem).nodes := by
  have h0 : List.Forall₂ appended_with_proc node_list node_list :=
    forall₂_refl_of _ (fun a => ⟨fun h1 h2 => (by rw [h1] at h2; cases h2), le_rfl⟩) node_list
  have hp1 := byslot_pass1_appended opts app node_list node_list [] (init_locals jdata mem)
  have hle : (foreachNode (byslot_pass1_body opts app) (init_locals jdata mem)
      node_list).1.st.nprocs_mapped ≤ app.num_procs :=
    foreachNode_kept app.num_procs any_proc (fun _ m _ => m ≤ app.num_procs)
      (fun pre post node node1 j j1 m m1 hs h => hs.bounded h)
      (byslot_pass1_body opts app) (byslot_pass1_body_step app.num_procs opts app rfl)
      node_list [] (init_locals jdata mem) (Nat.zero_le _)
  have hao := byslot_pass1_add_one opts app node_list (init_locals jdata mem)
  have hlen := foreachNode_length (byslot_pass1_body opts app) node_list (init_locals jdata mem)
  unfold prrte_rmaps_rr_byslot at hrc ⊢
  split at hrc
  · cases hrc
  · rename_i hg
    simp only [hg, if_false, Bool.false_eq_true]
    rcases hr : foreachNode (byslot_pass1_body opts app) (init_locals jdata mem) node_list
      with ⟨c, nodes⟩
    rw [hr] at hrc hp1 hle hao hlen
    simp only [List.nil_append] at hp1
    cases c with
    | ret rc s =>
      dsimp only at hrc
      exact absurd hrc (foreachNode_ret_ne_success _ (byslot_pass1_body_ret opts app)
        _ _ _ _ _ hr)
    | next s =>
      simp only [Ctl.st] at hrc hle hao ⊢
      have hp1 := hp1 rfl h0
      dsimp only at hlen
      split
      · exact hp1
      · rename_i hne
        rw [if_neg hne] at hrc
        have hlt : s.nprocs_mapped < app.num_procs := by omega
        by_cases hnil : node_list = []
        · subst hnil
          cases nodes with
          | nil => exact List.Forall₂.nil
          | cons a l => simp at hlen
        · have hpos : 0 < node_list.length := List.length_pos.mpr hnil
          obtain ⟨k1, k2⟩ := byslot_balance_ok app node_list.length s hlt hpos hN hao
          have hp2 := byslot_pass2_appended app node_list nodes []
            (byslot_balance app node_list.length s) (by rw [k1]; exact hlt)
            (by rw [k1]; exact k2)
          simp only [List.nil_append] at hp2
          rcases hr2 : foreachNode (byslot_pass2_body app)
            (byslot_balance app node_list.length s) nodes with ⟨c2, nodes2⟩
          rw [hr2] at hrc hp2
          cases c2 with
          | ret rc2 s2 =>
            dsimp only at hrc
            exact absurd hrc (foreachNode_ret_ne_success _ (byslot_pass2_body_ret app)
              _ _ _ _ _ hr2)
          | next s2 => exact hp2 rfl hp1
          | brk s2 => exact hp2 rfl hp1
    | brk s =>
      simp only [Ctl.st] at hrc hle hao ⊢
      have hp1 := hp1 rfl h0
      dsimp only at hlen
      split
      · exact hp1
      · rename_i hne
        rw [if_neg hne] at hrc
        have hlt : s.nprocs_mapped < app.num_procs := by omega
        by_cases hnil : node_list = []
        · subst hnil
          cases nodes with
          | nil => exact List.Forall₂.nil
          | cons a l => simp at hlen
        · have hpos : 0 < node_list.length := List.length_pos.mpr hnil
          obtain ⟨k1, k2⟩ := byslot_balance_ok app node_list.length s hlt hpos hN hao
          have hp2 := byslot_pass2_appended app node_list nodes []
            (byslot_balance app node_list.length s) (by rw [k1]; exact hlt)
            (by rw [k1]; exact k2)
          simp only [List.nil_append] at hp2
          rcases hr2 : foreachNode (byslot_pass2_body app)
            (byslot_balance app node_list.length s) nodes with ⟨c2, nodes2⟩
          rw [hr2] at hrc hp2
          cases c2 with
          | ret rc2 s2 =>
            dsimp only at hrc
            exact absurd hrc (foreachNode_ret_ne_success _ (byslot_pass2_body_ret app)
              _ _ _ _ _ hr2)
          | next s2 => exact hp2 rfl hp1
          | brk s2 => exact hp2 rfl hp1

end Prrte

namespace Prrte

/-- Claim C40, amended: which mappers add a node to the map only with a proc.
By-slot does, in both passes: when a call on a node list that fits an `int`
returns `PRRTE_SUCCESS`, every node it added to the map has received a proc
(the first pass adds a node inside its proc loop, and the second pass visits a
node only while procs are left and gives it a share of at least one); and when
the first pass does not return, every node it added has received a proc, and if
it maps every proc the call returns `PRRTE_SUCCESS` with these nodes.  By-object
no-span mapping (the `SPAN` directive clear) adds a node after it decided not to
skip it: when the call returns `PRRTE_SUCCESS` and `app->num_procs` is positive,
every node it added to the map has received a proc.  By-node and by-object span
add every node their loop visits, before they know whether it receives a proc:
after the visit of a by-node round or of the span loop the node is flagged and,
if it was not yet, it is the last node of the map. -/
theorem appended_nodes_hold_procs (fuel : Nat) (opts : rmaps_base_t) (jdata : prrte_job_t)
    (app : prrte_app_context_t) (node_list : List prrte_node_t) (num_slots : Int)
    (target : hwloc_obj_type_t) (cache_level mem : Nat) :
    (node_list.length < 2147483648 →
      (prrte_rmaps_rr_byslot opts jdata app node_list num_slots mem).rc = .PRRTE_SUCCESS →
      List.Forall₂ appended_with_proc node_list
        (prrte_rmaps_rr_byslot opts jdata app node_list num_slots mem).nodes)
    ∧ ((foreachNode (byslot_pass1_body opts app) (init_locals jdata mem) node_list).1.isRet
          = false →
      List.Forall₂ appended_with_proc node_list
        (foreachNode (byslot_pass1_body opts app) (init_locals jdata mem) node_list).2)
    ∧ (gate jdata app num_slots = false →
        (foreachNode (byslot_pass1_body opts app) (init_locals jdata mem) node_list).1.isRet
          = false →
        (foreachNode (byslot_pass1_body opts app) (init_locals jdata mem)
          node_list).1.st.nprocs_mapped = app.num_procs →
        (prrte_rmaps_rr_byslot opts jdata app node_list num_slots mem).rc = .PRRTE_SUCCESS
        ∧ List.Forall₂ appended_with_proc node_list
            (prrte_rmaps_rr_byslot opts jdata app node_list num_slots mem).nodes)
    ∧ (∀ out, jdata.mapping.span = false → 0 < app.num_procs →
        prrte_rmaps_rr_byobj fuel opts jdata app node_list num_slots target cache_level mem
          = some out →
        out.rc = .PRRTE_SUCCESS →
        List.Forall₂ appended_with_proc node_list out.nodes)
    ∧ (∀ (oversubscribed : Bool) (navg : Int) (s : Locals) (node : prrte_node_t),
        (bynode_round_body opts app oversubscribed navg s node).2.mapped = true
        ∧ (node.mapped = false →
            (bynode_round_body opts app oversubscribed navg s node).1.st.jdata.nodes
              = s.jdata.nodes ++ [node.name]))
    ∧ (∀ (navg : Int) (s : Locals) (node : prrte_node_t),
        (span_body opts app target cache_level navg s node).2.mapped = true
        ∧ (node.mapped = false →
            (span_body opts app target cache_level navg s node).1.st.jdata.nodes
              = s.jdata.nodes ++ [node.name])) := by
  have h0 : List.Forall₂ appended_with_proc node_list node_list :=
    forall₂_refl_of _ (fun a => ⟨fun h1 h2 => (by rw [h1] at h2; cases h2), le_rfl⟩) node_list
  have hp1 : (foreachNode (byslot_pass1_body opts app) (init_locals jdata mem)
        node_list).1.isRet = false →
      List.Forall₂ appended_with_proc node_list
        (foreachNode (byslot_pass1_body opts app) (init_locals jdata mem) node_list).2 := by
    intro hnr
    have := byslot_pass1_appended opts app node_list node_list [] (init_locals jdata mem) hnr h0
    simpa using this
  refine ⟨?_, hp1, ?_, ?_, ?_, ?_⟩
  · intro hN hrc
    exact byslot_call_appended opts jdata app node_list num_slots mem hN hrc
  · intro hg hnr hall
    have h1 := hp1 hnr
    unfold prrte_rmaps_rr_byslot
    simp only [hg, Bool.false_eq_true, if_false]
    rcases hr : foreachNode (byslot_pass1_body opts app) (init_locals jdata mem) node_list
      with ⟨c, nodes⟩
    rw [hr] at hnr hall h1
    cases c with
    | ret rc s => simp [Ctl.isRet] at hnr
    | next s =>
      dsimp only at hall ⊢
      simp only [Ctl.st] at hall
      simp only [Ctl.st, hall, if_true]
      exact ⟨trivial, h1⟩
    | brk s =>
      dsimp only at hall ⊢
      simp only [Ctl.st] at hall
      simp only [Ctl.st, hall, if_true]
      exact ⟨trivial, h1⟩
  · intro out hspan hP h hrc
    unfold prrte_rmaps_rr_byobj at h
    simp only [hspan, Bool.false_eq_true, if_false] at h
    split at h
    · cases h
      cases hrc
    · split at h
      · cases h
      · rename_i rc s nodes hr
        cases h
        exact absurd hrc (byobj_passes_ret opts app target cache_level fuel fuel false _ _ _ _ _ hr)
      · rename_i c nodes hnret hr
        have hc : c.isRet = false := by
          cases c with
          | ret rc s1 => exact absurd rfl (hnret rc s1)
          | next s1 => rfl
          | brk s1 => rfl
        have h1 := byobj_passes_appended opts app target cache_level fuel node_list fuel false
          (init_locals jdata mem) node_list _ hr hP hc h0
        split at h <;> (cases h; exact h1)
  · intro oversubscribed navg s node
    obtain ⟨hs, hm, -⟩ := bynode_round_body_step app.num_procs opts app rfl oversubscribed navg
      s node
    refine ⟨hm, fun h => ?_⟩
    rcases hs.map_once with ⟨-, -, e⟩ | ⟨-, -, e, -⟩
    · rw [hm, h] at e
      cases e
    · exact e
  · intro navg s node
    have hm := add_to_map_mapped s.jdata node
    have e : span_body opts app target cache_level navg s node
        = span_body opts app target cache_level navg
            { s with jdata := (add_to_map s.jdata node).1 } (add_to_map s.jdata node).2 := by
      unfold span_body
      dsimp only
      rw [add_to_map_of_mapped (add_to_map s.jdata node).1 (add_to_map s.jdata node).2 hm]
    have hs := span_body_step app.num_procs opts app rfl target cache_level navg
      { s with jdata := (add_to_map s.jdata node).1 } (add_to_map s.jdata node).2
    rw [← e] at hs
    have hj : (span_body opts app target cache_level navg s node).2.mapped = true
        ∧ (span_body opts app target cache_level navg s node).1.st.jdata.nodes
            = (add_to_map s.jdata node).1.nodes := by
      rcases hs.map_once with ⟨e1, -, e2⟩ | ⟨e1, -⟩
      · exact ⟨e2.trans hm, e1⟩
      · rw [hm] at e1
        cases e1
    refine ⟨hj.1, fun h => ?_⟩
    rw [hj.2]
    simp [add_to_map, h]

/-- Claim C40, amended, on by-slot mapping of three procs on a node of one slot
followed by a node without slots: the second pass adds the second node to the
map and gives it a proc.  By-object span mapping by core of two procs on a node
without cores followed by a node of two cores adds the first node to the map
without a proc. -/
theorem appended_nodes_hold_procs_witness :
    ((prrte_rmaps_rr_byslot no_knobs (ex_job false false false) { idx := 0, num_procs := 3 }
        [ex_node 0 1 true, ex_node 1 0 true] 1 100).rc,
      (prrte_rmaps_rr_byslot no_knobs (ex_job false false false) { idx := 0, num_procs := 3 }
        [ex_node 0 1 true, ex_node 1 0 true] 1 100).st.jdata.nodes,
      (prrte_rmaps_rr_byslot no_knobs (ex_job false false false) { idx := 0, num_procs := 3 }
        [ex_node 0 1 true, ex_node 1 0 true] 1 100).nodes.map
          (fun n => (n.name, n.mapped, n.procs.length)))
      = (.PRRTE_SUCCESS, [0, 1], [(0, true, 2), (1, true, 1)])
    ∧ List.Forall₂ appended_with_proc [ex_node 0 1 true, ex_node 1 0 true]
        (prrte_rmaps_rr_byslot no_knobs (ex_job false false false) { idx := 0, num_procs := 3 }
          [ex_node 0 1 true, ex_node 1 0 true] 1 100).nodes
    ∧ (prrte_rmaps_rr_byobj 10 no_knobs (ex_job false false true) { idx := 0, num_procs := 2 }
        [ex_node 0 8 true, { ex_node 1 8 true with topology := some ex_topo_cores }] 16
        .HWLOC_OBJ_CORE 0 100).map
      (fun o => (o.rc, o.st.jdata.nodes,
        o.nodes.map (fun n => (n.name, n.mapped, n.procs.length))))
      = some (.PRRTE_SUCCESS, [0, 1], [(0, true, 0), (1, true, 2)]) :=
  ⟨by decide,
   (appended_nodes_hold_procs 10 no_knobs (ex_job false false false)
      { idx := 0, num_procs := 3 } [ex_node 0 1 true, ex_node 1 0 true] 1
      .HWLOC_OBJ_PACKAGE 0 100).1 (by decide) (by decide),
   by decide⟩

end Prrte
